import Mathlib

/-!
# AMDGPU module splitting: a verification development

Shallow embedding of `llvm/lib/Target/AMDGPU/AMDGPUSplitModule.cpp`.

* A `const Function *` is a `Function` record; the field `Id` stands for the address, so
  two records are the same function exactly when they are equal.
* A `DenseSet<const Function *>` is a duplicate-free list; its iteration order is the list
  order (the source never depends on the order: it only sums, ors and inserts).
* `CostType` is `int64_t`: a cost is an integer and the sum of two costs wraps around at 64
  bits (`CostType.add`).  The counters of type `unsigned` count members of a set, whose size
  is itself an `unsigned`, and are natural numbers.
* A `float` is the rational number it denotes; every conversion and arithmetic operation
  rounds to the nearest binary32 value (`F32.round`).
* Logging (`SML << ...`) has no effect on the results and is left out.
-/

namespace AMDGPUSplitModule

/-! ## Single precision arithmetic -/

/-- Numerator and denominator of `n / d * 2 ^ s` as natural numbers. -/
def F32.scale (n d : Nat) (s : Int) : Nat × Nat :=
  if 0 ≤ s then (n * 2 ^ s.toNat, d) else (n, d * 2 ^ (-s).toNat)

/-- Halving `n` until it is below 2, at most `fuel` times: the number of halvings. -/
def F32.ilog2Aux : Nat → Nat → Nat
  | 0, _ => 0
  | fuel + 1, n => if n < 2 then 0 else F32.ilog2Aux fuel (n / 2) + 1

/-- The position of the leading bit of `n`: `2 ^ ilog2 n ≤ n < 2 ^ (ilog2 n + 1)` for `0 < n`. -/
def F32.ilog2 (n : Nat) : Nat := F32.ilog2Aux n n

/-- Nearest binary32 value of the positive rational `n / d`, ties to even: the quotient is
scaled by `2 ^ s` so that its integer part has exactly 24 bits, the integer part is rounded
on the remainder, and the result is scaled back.  Overflow to infinity and subnormal
results are outside the model. -/
def F32.roundPos (n d : Nat) : ℚ :=
  let s0 : Int := 24 + (F32.ilog2 d : Int) - (F32.ilog2 n : Int)
  let s : Int := if 2 ^ 24 ≤ (F32.scale n d s0).1 / (F32.scale n d s0).2 then s0 - 1 else s0
  let N := (F32.scale n d s).1
  let D := (F32.scale n d s).2
  let q := N / D
  let r := N % D
  let m := if 2 * r < D then q else if D < 2 * r then q + 1 else q + q % 2
  (m : ℚ) / (2 : ℚ) ^ s

/-- Nearest binary32 value of a rational number (round to nearest, ties to even). -/
def F32.round (q : ℚ) : ℚ :=
  if q.num = 0 then 0
  else if 0 < q.num then F32.roundPos q.num.natAbs q.den
  else - F32.roundPos q.num.natAbs q.den

/-- Conversion of an unsigned integer to `float`. -/
def F32.ofNat (n : Nat) : ℚ := F32.round (n : ℚ)

/-- Conversion of a signed integer to `float`. -/
def F32.ofInt (n : Int) : ℚ := F32.round (n : ℚ)

/-- Division of two `float` values. -/
def F32.div (a b : ℚ) : ℚ := F32.round (a / b)

/-- Product of two `float` values. -/
def F32.mul (a b : ℚ) : ℚ := F32.round (a * b)

/-- Conversion of a `float` to a signed integer: truncation toward zero. -/
def F32.toInt (q : ℚ) : Int := if 0 ≤ q then ⌊q⌋ else ⌈q⌉

/-! ## Functions, modules, call graph -/

/-- The linkage kinds of `GlobalValue::LinkageTypes`. -/
inductive LinkageTypes
  | ExternalLinkage
  | AvailableExternallyLinkage
  | LinkOnceAnyLinkage
  | LinkOnceODRLinkage
  | WeakAnyLinkage
  | WeakODRLinkage
  | AppendingLinkage
  | InternalLinkage
  | PrivateLinkage
  | ExternalWeakLinkage
  | CommonLinkage
  deriving DecidableEq

/-- The visibility kinds of `GlobalValue::VisibilityTypes`. -/
inductive VisibilityTypes
  | DefaultVisibility
  | HiddenVisibility
  | ProtectedVisibility
  deriving DecidableEq

/-- What the pass reads of an `llvm::Function`.  `Id` is the identity of the object;
`EntryFunctionCC` is `AMDGPU::isEntryFunctionCC(getCallingConv())`; `DefinitionExact` is
`isDefinitionExact()`; `AddressTaken` is `hasAddressTaken()` with its default arguments and
`AddressTakenIgnoringCalls` is the call with the arguments `canBeIndirectlyCalled` passes. -/
structure Function where
  Id : Nat
  Name : String
  IsDeclaration : Bool
  EntryFunctionCC : Bool
  Linkage : LinkageTypes
  Visibility : VisibilityTypes
  DefinitionExact : Bool
  AddressTaken : Bool
  AddressTakenIgnoringCalls : Bool
  deriving DecidableEq

def Function.isDeclaration (F : Function) : Bool := F.IsDeclaration

def Function.hasLocalLinkage (F : Function) : Bool :=
  decide (F.Linkage = LinkageTypes.InternalLinkage) || decide (F.Linkage = LinkageTypes.PrivateLinkage)

def Function.hasExternalLinkage (F : Function) : Bool :=
  decide (F.Linkage = LinkageTypes.ExternalLinkage)

def Function.isDefinitionExact (F : Function) : Bool := F.DefinitionExact

def isEntryPoint (F : Function) : Bool := F.EntryFunctionCC

def Function.hasAddressTaken (F : Function) : Bool := F.AddressTaken

/-- What refers to a global variable, an entry of its use list: an instruction of the body
of the function with the given `Id`, or the initializer of the global variable with the
given `Id`. -/
inductive GlobalUser
  | Body (FnId : Nat)
  | Initializer (VarId : Nat)
  deriving DecidableEq

/-- What the pass reads of an `llvm::GlobalVariable`.  `Id` is the identity of the object;
a variable without a name has the empty name; `Users` is its use list. -/
structure GlobalVariable where
  Id : Nat
  Name : String
  IsDeclaration : Bool
  Linkage : LinkageTypes
  Visibility : VisibilityTypes
  Users : List GlobalUser
  deriving DecidableEq

def GlobalVariable.isDeclaration (Var : GlobalVariable) : Bool := Var.IsDeclaration

def GlobalVariable.hasLocalLinkage (Var : GlobalVariable) : Bool :=
  decide (Var.Linkage = LinkageTypes.InternalLinkage)
    || decide (Var.Linkage = LinkageTypes.PrivateLinkage)

/-- A module: its functions and its global variables, in module order. -/
structure Module where
  Functions : List Function
  Globals : List GlobalVariable := []

/-- A `DenseSet<const Function *>`: a list without duplicates. -/
structure DenseSet where
  Elems : List Function
  Nodup : Elems.Nodup

instance : DecidableEq DenseSet := fun a b =>
  decidable_of_iff (a.Elems = b.Elems)
    ⟨fun h => by cases a; cases b; cases h; rfl, fun h => by rw [h]⟩

instance : Membership Function DenseSet := ⟨fun S F => F ∈ S.Elems⟩

instance (F : Function) (S : DenseSet) : Decidable (F ∈ S) :=
  inferInstanceAs (Decidable (F ∈ S.Elems))

def DenseSet.empty : DenseSet := ⟨[], List.nodup_nil⟩

def DenseSet.isEmpty (S : DenseSet) : Bool := S.Elems.isEmpty

def DenseSet.size (S : DenseSet) : Nat := S.Elems.length

def DenseSet.contains (S : DenseSet) (F : Function) : Bool := decide (F ∈ S.Elems)

/-- The call `S.insert(F)`: the new set and whether `F` was inserted. -/
def DenseSet.insert (S : DenseSet) (F : Function) : DenseSet × Bool :=
  if h : F ∈ S.Elems then (S, false)
  else (⟨F :: S.Elems, List.nodup_cons.2 ⟨h, S.Nodup⟩⟩, true)

/-- The call `S.insert(first, last)` over a range. -/
def DenseSet.insertRange (S : DenseSet) (l : List Function) : DenseSet :=
  l.foldl (fun Acc F => (Acc.insert F).1) S

/-- Where a call record of the call graph points: the node of a function, the node
`CallsExternalNode`, or another node without a function. -/
inductive CallGraphNode
  | ofFunction (F : Function)
  | CallsExternalNode
  | OtherNode
  deriving DecidableEq

/-- The node's function, null for a node without one. -/
def CallGraphNode.getFunction : CallGraphNode → Option Function
  | CallGraphNode.ofFunction F => some F
  | _ => none

/-- A call graph: for each function its call records, in the order of the calls. -/
structure CallGraph where
  FunctionMap : List (Function × List CallGraphNode)

/-- The call records of `CG[&F]`. -/
def CallGraph.get (CG : CallGraph) (F : Function) : List CallGraphNode :=
  match CG.FunctionMap.lookup F with
  | some Records => Records
  | none => []

/-- The number of call records of the whole graph. -/
def CallGraph.numRecords (CG : CallGraph) : Nat :=
  (CG.FunctionMap.map (fun P => P.2.length)).sum

abbrev CostType := Int

/-- The sum of two costs in `int64_t`: two's complement addition, which is the exact sum
when that lies between `-2 ^ 63` and `2 ^ 63 - 1`. -/
def CostType.add (a b : CostType) : CostType := (a + b + 2 ^ 63) % 2 ^ 64 - 2 ^ 63

abbrev PartitionID := Nat

/-- A `DenseMap<const Function *, CostType>`. -/
abbrev CostMap := Function → Option CostType

/-- The lookup `FnCosts.at(F)`; the source requires the key to be present. -/
def CostMap.at (FnCosts : CostMap) (F : Function) : CostType := (FnCosts F).getD 0

/-! ## Dependencies of a kernel -/

def canBeIndirectlyCalled (F : Function) : Bool :=
  if F.isDeclaration || isEntryPoint F then false
  else !F.hasLocalLinkage || F.AddressTakenIgnoringCalls

def addAllIndirectCallDependencies (M : Module) (Fns : DenseSet) : DenseSet :=
  M.Functions.foldl (fun Acc Fn => if canBeIndirectlyCalled Fn then (Acc.insert Fn).1 else Acc) Fns

/-- The variables of the loop of `addAllDependencies`; the head of `WorkList` is the back
of the vector. -/
structure DepState where
  WorkList : List Function
  Fns : DenseSet
  HadIndirectCall : Bool

/-- One call record of the current function (the body of the inner `for`). -/
def addAllDependencies.visit (M : Module) (S : DepState) (CGNode : CallGraphNode) : DepState :=
  match CGNode.getFunction with
  | none =>
    if CGNode ≠ CallGraphNode.CallsExternalNode then S
    else { S with Fns := addAllIndirectCallDependencies M S.Fns, HadIndirectCall := true }
  | some Callee =>
    if Callee.isDeclaration then S
    else if (S.Fns.insert Callee).2 then
      { S with Fns := (S.Fns.insert Callee).1, WorkList := Callee :: S.WorkList }
    else S

/-- The `while (!WorkList.empty())` loop, at most `fuel` iterations; `none` when the
work list is not empty after them. -/
def addAllDependencies.loop (CG : CallGraph) (M : Module) : Nat → DepState → Option DepState
  | _, ⟨[], Fns, Had⟩ => some ⟨[], Fns, Had⟩
  | 0, ⟨_ :: _, _, _⟩ => none
  | fuel + 1, ⟨CurFn :: Rest, Fns, Had⟩ =>
    addAllDependencies.loop CG M fuel ((CG.get CurFn).foldl (addAllDependencies.visit M) ⟨Rest, Fns, Had⟩)

/-- The function `addAllDependencies`: the final `Fns` and `HadIndirectCall`.  The loop gets
one iteration for the start function and one per call record of the graph. -/
def addAllDependencies (CG : CallGraph) (M : Module) (Fn : Function) (Fns : DenseSet)
    (HadIndirectCall : Bool) : Option (DenseSet × Bool) :=
  (addAllDependencies.loop CG M (CG.numRecords + 1) ⟨[Fn], Fns, HadIndirectCall⟩).map
    (fun S => (S.Fns, S.HadIndirectCall))

/-- Information about a kernel and its dependencies. -/
structure KernelWithDependencies where
  Fn : Function
  Dependencies : DenseSet
  HasIndirectCall : Bool
  HasNonDuplicatableDependecy : Bool
  TotalCost : CostType
  deriving DecidableEq

/-- The body of the constructor's loop over the dependencies: the running total cost and
the running non-duplicatable flag. -/
def KernelWithDependencies.addDependency (FnCosts : CostMap) (Acc : CostType × Bool)
    (Dep : Function) : CostType × Bool :=
  (CostType.add Acc.1 (FnCosts.at Dep),
    Acc.2 || (Dep.hasExternalLinkage || !Dep.isDefinitionExact))

/-- The constructor of `KernelWithDependencies`; `M` is `Fn->getParent()`. -/
def KernelWithDependencies.construct (CG : CallGraph) (M : Module) (FnCosts : CostMap)
    (Fn : Function) : Option KernelWithDependencies :=
  (addAllDependencies CG M Fn DenseSet.empty false).map (fun R =>
    { Fn := Fn
      Dependencies := R.1
      HasIndirectCall := R.2
      HasNonDuplicatableDependecy :=
        (R.1.Elems.foldl (KernelWithDependencies.addDependency FnCosts) (FnCosts.at Fn, false)).2
      TotalCost :=
        (R.1.Elems.foldl (KernelWithDependencies.addDependency FnCosts) (FnCosts.at Fn, false)).1 })

def KernelWithDependencies.isLarge (K : KernelWithDependencies) (Threshold : CostType) : Bool :=
  decide (K.TotalCost > Threshold) && !K.Dependencies.isEmpty

/-! ## Overlap of two sets -/

/-- The body of the loop of `calculateOverlap` over `B`: the set `Total` and the counter
`NumCommon`. -/
def calculateOverlap.countCommon (Acc : DenseSet × Nat) (F : Function) : DenseSet × Nat :=
  if isEntryPoint F then Acc
  else if (Acc.1.insert F).2 then ((Acc.1.insert F).1, Acc.2)
  else (Acc.1, Acc.2 + 1)

/-- The set `Total` of `calculateOverlap` after the loop over `A`. -/
def calculateOverlap.initialTotal (A : DenseSet) : DenseSet :=
  A.Elems.foldl (fun Total F => if !isEntryPoint F then (Total.insert F).1 else Total) DenseSet.empty

def calculateOverlap (A B : DenseSet) : ℚ :=
  if (calculateOverlap.initialTotal A).isEmpty then 0
  else
    F32.div
      (F32.ofNat (B.Elems.foldl calculateOverlap.countCommon (calculateOverlap.initialTotal A, 0)).2)
      (F32.ofNat (B.Elems.foldl calculateOverlap.countCommon (calculateOverlap.initialTotal A, 0)).1.size)

/-! ## Partitioning -/

/-- The command line options the pass reads; the two `float` options as rational numbers. -/
structure SplitOptions where
  LargeKernelFactor : ℚ
  LargeKernelOverlapForMerge : ℚ
  NoExternalizeGlobals : Bool := false

/-- The default options: `2.0f` and `0.8f`. -/
def SplitOptions.default : SplitOptions :=
  { LargeKernelFactor := 2
    LargeKernelOverlapForMerge := F32.round (4 / 5) }

/-- The value `std::numeric_limits<CostType>::max()`. -/
def CostTypeMax : CostType := 2 ^ 63 - 1

/-- The least `CostType` value. -/
def CostTypeMin : CostType := -2 ^ 63

/-- The conversion of a `float` to `CostType`: the value truncated toward zero.  The source's
conversion is undefined for a value whose truncation is not a `CostType`; the result here is
then the one of the x86-64 conversion instruction, the least `CostType`. -/
def F32.toCostType (q : ℚ) : CostType :=
  if CostTypeMin ≤ F32.toInt q ∧ F32.toInt q ≤ CostTypeMax then F32.toInt q else CostTypeMin

/-- The `float` value of the conditional expression that initialises `LargeKernelThreshold`.
The second operand is a product with the `float` option, so the expression has the type
`float` and its third operand, the greatest `CostType`, is converted to `float`. -/
def LargeKernelThreshold.value (Opts : SplitOptions) (ModuleCost : CostType) (NumParts : Nat) : ℚ :=
  if Opts.LargeKernelFactor ≠ 0 then
    F32.mul (F32.ofInt (Int.tdiv ModuleCost (NumParts : Int))) Opts.LargeKernelFactor
  else F32.ofInt CostTypeMax

/-- The constant `LargeKernelThreshold` of `doPartitioning`: the conversion of the `float`
value to `CostType`. -/
def LargeKernelThreshold (Opts : SplitOptions) (ModuleCost : CostType) (NumParts : Nat) : CostType :=
  F32.toCostType (LargeKernelThreshold.value Opts ModuleCost NumParts)

def ComparePartitions (a b : PartitionID × CostType) : Bool :=
  if a.2 = b.2 then decide (a.1 < b.1) else decide (a.2 > b.2)

/-- The variables `Partitions` and `BalancingQueue` of `doPartitioning`. -/
structure PartitioningState where
  Partitions : List DenseSet
  BalancingQueue : List (PartitionID × CostType)
  deriving DecidableEq

/-- The cost of a set of functions: the sum `NewCost` of `AssignToPartition`. -/
def partitionCost (FnCosts : CostMap) (Fns : DenseSet) : CostType :=
  Fns.Elems.foldl (fun NewCost Fn => CostType.add NewCost (FnCosts.at Fn)) 0

/-- The lambda `AssignToPartition`.  The entries of the queue are updated independently of
one another, so the backward scan is a map; the sort is the sort by insertion, whose result
is the one sorted arrangement when the partition ids are distinct.  An id that is not below
the number of partitions indexes no partition. -/
def AssignToPartition (FnCosts : CostMap) (PID : PartitionID) (KWD : KernelWithDependencies)
    (S : PartitioningState) : PartitioningState :=
  let FnsInPart :=
    (((S.Partitions.getD PID DenseSet.empty).insert KWD.Fn).1).insertRange KWD.Dependencies.Elems
  let Partitions := S.Partitions.set PID FnsInPart
  let Updated := S.BalancingQueue.map (fun E =>
    if E.1 = PID then (E.1, partitionCost FnCosts (Partitions.getD PID DenseSet.empty)) else E)
  { Partitions := Partitions
    BalancingQueue := Updated.insertionSort (fun a b => ComparePartitions a b = true) }

/-- The body of the loop over the partitions for a large kernel: the state and `Assigned`. -/
def doPartitioning.mergeLarge (Opts : SplitOptions) (FnCosts : CostMap)
    (CurKernel : KernelWithDependencies) (Acc : PartitioningState × Bool) (PID : PartitionID) :
    PartitioningState × Bool :=
  if calculateOverlap CurKernel.Dependencies (Acc.1.Partitions.getD PID DenseSet.empty)
      > Opts.LargeKernelOverlapForMerge then
    (AssignToPartition FnCosts PID CurKernel Acc.1, true)
  else Acc

/-- The large kernel branch of the loop body: the state and `Assigned` after the loop over
the partitions, or the unchanged state and `false` for a kernel that is not large. -/
def doPartitioning.tryMerge (Opts : SplitOptions) (FnCosts : CostMap) (Threshold : CostType)
    (S : PartitioningState) (CurKernel : KernelWithDependencies) : PartitioningState × Bool :=
  if CurKernel.isLarge Threshold then
    (List.range S.Partitions.length).foldl (doPartitioning.mergeLarge Opts FnCosts CurKernel) (S, false)
  else (S, false)

/-- The body of the loop over the work list.  Reading the back of an empty queue is
outside the model (it happens for no `NumParts ≥ 1`). -/
def doPartitioning.processKernel (Opts : SplitOptions) (FnCosts : CostMap)
    (Threshold : CostType) (S : PartitioningState) (CurKernel : KernelWithDependencies) :
    PartitioningState :=
  if CurKernel.HasIndirectCall then AssignToPartition FnCosts 0 CurKernel S
  else if CurKernel.HasNonDuplicatableDependecy then AssignToPartition FnCosts 0 CurKernel S
  else if (doPartitioning.tryMerge Opts FnCosts Threshold S CurKernel).2 then
    (doPartitioning.tryMerge Opts FnCosts Threshold S CurKernel).1
  else
    AssignToPartition FnCosts
      ((doPartitioning.tryMerge Opts FnCosts Threshold S CurKernel).1.BalancingQueue.getLastD (0, 0)).1
      CurKernel (doPartitioning.tryMerge Opts FnCosts Threshold S CurKernel).1

/-- The state before the first kernel: empty partitions, every partition in the queue with
cost 0. -/
def doPartitioning.initialState (NumParts : Nat) : PartitioningState :=
  { Partitions := List.replicate NumParts DenseSet.empty
    BalancingQueue := (List.range NumParts).map (fun I => (I, (0 : CostType))) }

/-- The state after the loop over the work list. -/
def doPartitioning.assignKernels (Opts : SplitOptions) (NumParts : Nat) (ModuleCost : CostType)
    (FnCosts : CostMap) (WorkList : List KernelWithDependencies) : PartitioningState :=
  WorkList.foldl
    (doPartitioning.processKernel Opts FnCosts (LargeKernelThreshold Opts ModuleCost NumParts))
    (doPartitioning.initialState NumParts)

/-- The assertion of the verification loop, over all partitions and their members. -/
def doPartitioning.verified (Partitions : List DenseSet) : Bool :=
  (List.range Partitions.length).all (fun Idx =>
    (Partitions.getD Idx DenseSet.empty).Elems.all (fun Fn =>
      decide (Idx = 0) || (!Fn.hasExternalLinkage || isEntryPoint Fn)))

/-- The set `AllFunctions` of the verification loop. -/
def doPartitioning.allFunctions (Partitions : List DenseSet) : DenseSet :=
  Partitions.foldl (fun All Part => All.insertRange Part.Elems) DenseSet.empty

/-- The function `doPartitioning`: the partitions it returns. -/
def doPartitioning (Opts : SplitOptions) (M : Module) (NumParts : Nat) (ModuleCost : CostType)
    (FnCosts : CostMap) (WorkList : List KernelWithDependencies) : List DenseSet :=
  let Partitions := (doPartitioning.assignKernels Opts NumParts ModuleCost FnCosts WorkList).Partitions
  let AllFunctions := doPartitioning.allFunctions Partitions
  Partitions.set 0
    (M.Functions.foldl
      (fun P0 Fn => if !Fn.isDeclaration && !AllFunctions.contains Fn then (P0.insert Fn).1 else P0)
      (Partitions.getD 0 DenseSet.empty))


/-! ## Splitting a module -/

/-- A `GlobalValue`: a function or a global variable. -/
inductive GlobalValue
  | ofFunction (Fn : Function)
  | ofVariable (Var : GlobalVariable)
  deriving DecidableEq

def GlobalValue.getLinkage : GlobalValue → LinkageTypes
  | GlobalValue.ofFunction Fn => Fn.Linkage
  | GlobalValue.ofVariable Var => Var.Linkage

def GlobalValue.getVisibility : GlobalValue → VisibilityTypes
  | GlobalValue.ofFunction Fn => Fn.Visibility
  | GlobalValue.ofVariable Var => Var.Visibility

def GlobalValue.getName : GlobalValue → String
  | GlobalValue.ofFunction Fn => Fn.Name
  | GlobalValue.ofVariable Var => Var.Name

def GlobalValue.hasLocalLinkage (GV : GlobalValue) : Bool :=
  decide (GV.getLinkage = LinkageTypes.InternalLinkage)
    || decide (GV.getLinkage = LinkageTypes.PrivateLinkage)

/-- A value has a name when its name is not empty. -/
def GlobalValue.hasName (GV : GlobalValue) : Bool := decide (GV.getName ≠ "")

/-- The call `setLinkage(LT)` for a linkage that is not local. -/
def GlobalValue.setLinkage (GV : GlobalValue) (LT : LinkageTypes) : GlobalValue :=
  match GV with
  | GlobalValue.ofFunction Fn => GlobalValue.ofFunction { Fn with Linkage := LT }
  | GlobalValue.ofVariable Var => GlobalValue.ofVariable { Var with Linkage := LT }

def GlobalValue.setVisibility (GV : GlobalValue) (V : VisibilityTypes) : GlobalValue :=
  match GV with
  | GlobalValue.ofFunction Fn => GlobalValue.ofFunction { Fn with Visibility := V }
  | GlobalValue.ofVariable Var => GlobalValue.ofVariable { Var with Visibility := V }

/-- Modelled from the spec: the call `setName(Name)`, which assigns a deterministic name.
The suffix that the symbol table of the module appends to a name that is already in use is
not represented. -/
def GlobalValue.setName (GV : GlobalValue) (Name : String) : GlobalValue :=
  match GV with
  | GlobalValue.ofFunction Fn => GlobalValue.ofFunction { Fn with Name := Name }
  | GlobalValue.ofVariable Var => GlobalValue.ofVariable { Var with Name := Name }

/-- The function `externalize`: the value after the call. -/
def externalize (GV : GlobalValue) : GlobalValue :=
  let GV1 :=
    if GV.hasLocalLinkage then
      (GV.setLinkage LinkageTypes.ExternalLinkage).setVisibility VisibilityTypes.HiddenVisibility
    else GV
  if !GV1.hasName then GV1.setName "__llvmsplit_unnamed" else GV1

/-- The function `Fn` after `externalize(Fn)`. -/
def Function.externalize (Fn : Function) : Function :=
  match AMDGPUSplitModule.externalize (GlobalValue.ofFunction Fn) with
  | GlobalValue.ofFunction Fn1 => Fn1
  | GlobalValue.ofVariable _ => Fn

/-- The variable `GV` after `externalize(GV)`. -/
def GlobalVariable.externalize (Var : GlobalVariable) : GlobalVariable :=
  match AMDGPUSplitModule.externalize (GlobalValue.ofVariable Var) with
  | GlobalValue.ofFunction _ => Var
  | GlobalValue.ofVariable Var1 => Var1

/-- The body of the first loop of `splitAMDGPUModule`: a function after the loop. -/
def splitAMDGPUModule.externalizeFunction (Fn : Function) : Function :=
  if Fn.hasAddressTaken then Fn.externalize else Fn

/-- The module after the two externalization loops of `splitAMDGPUModule`. -/
def splitAMDGPUModule.externalized (Opts : SplitOptions) (M : Module) : Module :=
  { Functions := M.Functions.map splitAMDGPUModule.externalizeFunction
    Globals :=
      if !Opts.NoExternalizeGlobals then M.Globals.map GlobalVariable.externalize
      else M.Globals }

def CallGraphNode.mapFunction (f : Function → Function) : CallGraphNode → CallGraphNode
  | CallGraphNode.ofFunction F => CallGraphNode.ofFunction (f F)
  | CallGraphNode.CallsExternalNode => CallGraphNode.CallsExternalNode
  | CallGraphNode.OtherNode => CallGraphNode.OtherNode

/-- The call graph after a change of the functions it points to.  The graph is built
before the externalization and holds pointers to the functions, so that it sees the linkage
the externalization gives them. -/
def CallGraph.mapFunctions (f : Function → Function) (CG : CallGraph) : CallGraph :=
  { FunctionMap := CG.FunctionMap.map
      (fun P => (f P.1, P.2.map (CallGraphNode.mapFunction f))) }

/-- Modelled from the spec: the enumerator `TargetTransformInfo::TCC_Expensive`, the cost
assumed for an instruction whose cost the oracle cannot tell. -/
def TCC_Expensive : CostType := 4

/-- The inner loops of `calculateFunctionCosts`: the cost `FnCost` of a function from what
`TTI.getInstructionCost(&I, TCK_CodeSize).getValue()` is for its instructions, in order. -/
def calculateFunctionCosts.fnCost (Costs : List (Option CostType)) : CostType :=
  Costs.foldl (fun FnCost Cost => CostType.add FnCost (Cost.getD TCC_Expensive)) 0

/-- The function `calculateFunctionCosts`: the map `CostMap` and the returned module cost.
`TTI` gives for a function the costs of its instructions. -/
def calculateFunctionCosts (TTI : Function → List (Option CostType)) (M : Module) :
    CostMap × CostType :=
  M.Functions.foldl
    (fun Acc Fn =>
      if Fn.isDeclaration then Acc
      else
        ((fun F => if F = Fn then some (calculateFunctionCosts.fnCost (TTI Fn)) else Acc.1 F),
          CostType.add Acc.2 (calculateFunctionCosts.fnCost (TTI Fn))))
    ((fun _ => none), 0)

/-- The condition of the assertions `(FnCost + CostVal) >= FnCost` and
`(ModuleCost + FnCost) >= ModuleCost` of `calculateFunctionCosts`.  The sum is the exact one,
which is the value of the sum of the source whenever that value is an `int64_t`; when it is
not, the sum of the source overflows and the source gives the condition no value. -/
def calculateFunctionCosts.overflowCheck (Sum Cost : CostType) : Bool :=
  decide (Sum + Cost ≥ Sum)

/-- The loop of `splitAMDGPUModule` that gathers the kernels, over the functions `Fns` of
the module; `none` when a constructor does not return. -/
def splitAMDGPUModule.gatherKernels (CG : CallGraph) (M : Module) (FnCosts : CostMap) :
    List Function → Option (List KernelWithDependencies)
  | [] => some []
  | Fn :: Rest =>
    if isEntryPoint Fn && !Fn.isDeclaration then
      match KernelWithDependencies.construct CG M FnCosts Fn,
        splitAMDGPUModule.gatherKernels CG M FnCosts Rest with
      | some K, some Ks => some (K :: Ks)
      | _, _ => none
    else splitAMDGPUModule.gatherKernels CG M FnCosts Rest

/-- The comparison of the sort of the work list. -/
def splitAMDGPUModule.compareKernels (A B : KernelWithDependencies) : Bool :=
  if A.TotalCost = B.TotalCost then decide (A.Fn.Name < B.Fn.Name)
  else decide (A.TotalCost > B.TotalCost)

/-- The sorted work list of `splitAMDGPUModule`.  The sort is the sort by insertion. -/
def splitAMDGPUModule.workList (CG : CallGraph) (M : Module) (FnCosts : CostMap) :
    Option (List KernelWithDependencies) :=
  (splitAMDGPUModule.gatherKernels CG M FnCosts M.Functions).map
    (fun WorkList =>
      WorkList.insertionSort (fun A B => splitAMDGPUModule.compareKernels A B = true))

/-- The variable `Partitions` of `splitAMDGPUModule`: the result of `doPartitioning` on
the externalized module `M`; `CG` is the call graph `CG(M)` built before the
externalization. -/
def splitAMDGPUModule.partitions (Opts : SplitOptions) (TTI : Function → List (Option CostType))
    (CG : CallGraph) (M : Module) (N : Nat) : Option (List DenseSet) :=
  (splitAMDGPUModule.workList (CG.mapFunctions splitAMDGPUModule.externalizeFunction)
      (splitAMDGPUModule.externalized Opts M)
      (calculateFunctionCosts TTI (splitAMDGPUModule.externalized Opts M)).1).map
    (fun WorkList =>
      doPartitioning Opts (splitAMDGPUModule.externalized Opts M) N
        (calculateFunctionCosts TTI (splitAMDGPUModule.externalized Opts M)).2
        (calculateFunctionCosts TTI (splitAMDGPUModule.externalized Opts M)).1 WorkList)

/-- The lambda `NeedsConservativeImport`. -/
def splitAMDGPUModule.NeedsConservativeImport : GlobalValue → Bool
  | GlobalValue.ofFunction _ => false
  | GlobalValue.ofVariable Var => Var.hasLocalLinkage

/-- The lambda passed to `CloneModule` for the partition `I` with the functions
`FnsInPart`. -/
def splitAMDGPUModule.shouldCloneDefinition (I : Nat) (FnsInPart : DenseSet) :
    GlobalValue → Bool
  | GlobalValue.ofFunction Fn => FnsInPart.contains Fn
  | GlobalValue.ofVariable Var =>
    if splitAMDGPUModule.NeedsConservativeImport (GlobalValue.ofVariable Var) then true
    else decide (I = 0)

/-- Modelled from the spec: the copy `CloneModule(M, VMap, ShouldCloneDefinition)` of a
module.  A function or variable that is defined in `M` and selected keeps its definition;
one that is not selected is copied as a declaration-only stub, with external linkage. -/
def CloneModule (M : Module) (ShouldCloneDefinition : GlobalValue → Bool) : Module :=
  { Functions := M.Functions.map (fun Fn =>
      if Fn.isDeclaration || ShouldCloneDefinition (GlobalValue.ofFunction Fn) then Fn
      else { Fn with IsDeclaration := true, Linkage := LinkageTypes.ExternalLinkage })
    Globals := M.Globals.map (fun Var =>
      if Var.isDeclaration || ShouldCloneDefinition (GlobalValue.ofVariable Var) then Var
      else { Var with IsDeclaration := true, Linkage := LinkageTypes.ExternalLinkage }) }

/-- Modelled from the spec: `GV.use_empty()` for a variable of the unit `MPart`, that is,
the variable has zero uses in the unit.  The uses in the unit are those of the use list that
are in the body of a function defined in the unit or in the initializer of a variable
defined in the unit. -/
def GlobalVariable.use_empty (MPart : Module) (Var : GlobalVariable) : Bool :=
  Var.Users.all (fun U =>
    match U with
    | GlobalUser.Body FnId =>
      !MPart.Functions.any (fun Fn => decide (Fn.Id = FnId) && !Fn.isDeclaration)
    | GlobalUser.Initializer VarId =>
      !MPart.Globals.any (fun V => decide (V.Id = VarId) && !V.isDeclaration))

/-- The clean-up loop over the global variables of a unit, in the order of the unit. -/
def splitAMDGPUModule.cleanup (MPart : Module) : Module :=
  MPart.Globals.foldl
    (fun MP GV =>
      if splitAMDGPUModule.NeedsConservativeImport (GlobalValue.ofVariable GV)
          && GV.use_empty MP then
        { MP with Globals := MP.Globals.erase GV }
      else MP)
    MPart

/-- The unit after the iterations of the clean-up loop for the variables `Pre`, the first
ones of the unit: the unit as it is when the loop comes to the next variable. -/
def splitAMDGPUModule.cleanupUpTo (MPart : Module) (Pre : List GlobalVariable) : Module :=
  Pre.foldl
    (fun MP GV =>
      if splitAMDGPUModule.NeedsConservativeImport (GlobalValue.ofVariable GV)
          && GV.use_empty MP then
        { MP with Globals := MP.Globals.erase GV }
      else MP)
    MPart

/-- The body of the loop over the partitions: the unit `MPart` passed to `ModuleCallback`
for the partition `I`, from the externalized module `M`. -/
def splitAMDGPUModule.createModule (M : Module) (I : Nat) (FnsInPart : DenseSet) : Module :=
  splitAMDGPUModule.cleanup
    (CloneModule M (splitAMDGPUModule.shouldCloneDefinition I FnsInPart))

/-- The function `splitAMDGPUModule`: the units passed to `ModuleCallback`, in the order
of the calls.  `CG` is the call graph `CG(M)`; `TTI` stands for the target machine. -/
def splitAMDGPUModule (Opts : SplitOptions) (TTI : Function → List (Option CostType))
    (CG : CallGraph) (M : Module) (N : Nat) : Option (List Module) :=
  (splitAMDGPUModule.partitions Opts TTI CG M N).map
    (fun Partitions =>
      (List.range N).map (fun I =>
        splitAMDGPUModule.createModule (splitAMDGPUModule.externalized Opts M) I
          (Partitions.getD I DenseSet.empty)))

/-! ## Notions used in the statements -/

/-- The functions that call records of the graph point to. -/
def CallGraph.targets (CG : CallGraph) : List Function :=
  CG.FunctionMap.foldr (fun P Acc => P.2.filterMap CallGraphNode.getFunction ++ Acc) []

/-- A direct call from `F` to `G` recorded in the call graph, both with a body. -/
def CallGraph.Calls (CG : CallGraph) (F G : Function) : Prop :=
  F.isDeclaration = false ∧ G.isDeclaration = false ∧ CallGraphNode.ofFunction G ∈ CG.get F

/-- The function `G` is reachable from `F` along one or more direct calls between functions
with bodies. -/
def CallGraph.Reaches (CG : CallGraph) (F G : Function) : Prop :=
  Relation.TransGen CG.Calls F G

/-- The facts every iteration of the loop keeps, for the traversal started at `K`: a
function that was seen is still on the work list or its call records have been scanned; the
flag is set only for a call record of a seen function; the work list holds seen functions;
and once the flag is set `Fns` holds every function that can be called indirectly. -/
def addAllDependencies.Inv (CG : CallGraph) (M : Module) (K : Function) (S : DepState) : Prop :=
  (∀ D, (D = K ∨ D ∈ S.Fns) →
      D ∈ S.WorkList ∨ (CallGraphNode.CallsExternalNode ∈ CG.get D → S.HadIndirectCall = true))
  ∧ (S.HadIndirectCall = true →
      CallGraphNode.CallsExternalNode ∈ CG.get K
        ∨ ∃ D, D ∈ S.Fns ∧ CallGraphNode.CallsExternalNode ∈ CG.get D)
  ∧ (∀ W, W ∈ S.WorkList → W = K ∨ W ∈ S.Fns)
  ∧ (S.HadIndirectCall = true →
      ∀ F, F ∈ M.Functions → canBeIndirectlyCalled F = true → F ∈ S.Fns)
  ∧ (∀ D, D ∈ S.Fns → D.isDeclaration = false ∨ canBeIndirectlyCalled D = true)

/-- The functions `CurFn` of the iterations of the loop of `addAllDependencies`, in the
order of the iterations, for at most `fuel` iterations. -/
def addAllDependencies.processed (CG : CallGraph) (M : Module) : Nat → DepState → List Function
  | _, ⟨[], _, _⟩ => []
  | 0, ⟨_ :: _, _, _⟩ => []
  | fuel + 1, ⟨CurFn :: Rest, Fns, Had⟩ =>
    CurFn :: addAllDependencies.processed CG M fuel
      ((CG.get CurFn).foldl (addAllDependencies.visit M) ⟨Rest, Fns, Had⟩)

/-- The functions with a body that call records of the graph point to, each once. -/
def CallGraph.definedTargets (CG : CallGraph) : List Function :=
  (CG.targets.filter (fun F => !F.isDeclaration)).dedup

/-- The set `P` after the kernel `K` is assigned to it: `K` itself and its dependencies are
inserted. -/
def KernelWithDependencies.addTo (K : KernelWithDependencies) (P : DenseSet) : DenseSet :=
  ((P.insert K.Fn).1).insertRange K.Dependencies.Elems

/-- The partition with index `I`. -/
def PartitioningState.part (S : PartitioningState) (I : PartitionID) : DenseSet :=
  S.Partitions.getD I DenseSet.empty

/-- What the loop over the work list keeps: there are `NumParts` partitions, the queue holds
each partition id once, with the current cost of its partition, and is sorted. -/
def PartitioningState.WellFormed (FnCosts : CostMap) (NumParts : Nat) (S : PartitioningState) : Prop :=
  S.Partitions.length = NumParts
  ∧ (S.BalancingQueue.map Prod.fst).Perm (List.range NumParts)
  ∧ (∀ E, E ∈ S.BalancingQueue → E.2 = partitionCost FnCosts (S.part E.1))
  ∧ S.BalancingQueue.Pairwise (fun a b => ComparePartitions b a = false)

/-- Rounding of a rational number to the nearest integer, ties to the even one. -/
def F32.rne (X : ℚ) : ℤ :=
  if 2 * (X - ⌊X⌋) < 1 then ⌊X⌋
  else if 1 < 2 * (X - ⌊X⌋) then ⌊X⌋ + 1
  else ⌊X⌋ + ⌊X⌋ % 2

/-- A use of the variable `A` in the unit `MP` that the iterations of the clean-up loop for
the variables `l` leave in place: a use in the body of a function that the unit defines, or
in the initializer of a variable that the unit defines and that is not among `l` or has no
local linkage. -/
def GlobalVariable.hasLastingUse (MP : Module) (l : List GlobalVariable) (A : GlobalVariable) :
    Prop :=
  (∃ Fn, Fn ∈ MP.Functions ∧ Fn.isDeclaration = false ∧ GlobalUser.Body Fn.Id ∈ A.Users)
  ∨ (∃ V, V ∈ MP.Globals ∧ V.isDeclaration = false ∧ GlobalUser.Initializer V.Id ∈ A.Users
      ∧ (¬ V ∈ l ∨ V.hasLocalLinkage = false))

/-- The largest total cost of a single kernel among the kernels `WorkList`; 0 when there is
no kernel. -/
def largestKernelCost (WorkList : List KernelWithDependencies) : CostType :=
  WorkList.foldl (fun Largest K => max Largest K.TotalCost) 0

/-! ## Concrete inputs -/

/-- A function with a body and an exact definition whose address is not taken. -/
def Example.defined (Id : Nat) (Name : String) (Entry : Bool) (L : LinkageTypes) : Function :=
  { Id := Id
    Name := Name
    IsDeclaration := false
    EntryFunctionCC := Entry
    Linkage := L
    Visibility := VisibilityTypes.DefaultVisibility
    DefinitionExact := true
    AddressTaken := false
    AddressTakenIgnoringCalls := false }

/-- A kernel. -/
def Example.K : Function := Example.defined 0 "K" true LinkageTypes.ExternalLinkage

/-- A second kernel. -/
def Example.K2 : Function := Example.defined 1 "K2" true LinkageTypes.ExternalLinkage

/-- A function with external linkage that is not a kernel. -/
def Example.F : Function := Example.defined 2 "F" false LinkageTypes.ExternalLinkage

/-- Two functions with internal linkage. -/
def Example.G : Function := Example.defined 3 "G" false LinkageTypes.InternalLinkage

def Example.H : Function := Example.defined 4 "H" false LinkageTypes.InternalLinkage

/-- Every function costs 10. -/
def Example.costs : CostMap := fun _ => some 10

/-- The kernel `K` makes an indirect call and then calls `F`, which calls `G`. -/
def Example.indirectModule : Module := { Functions := [Example.K, Example.F, Example.G] }

def Example.indirectGraph : CallGraph :=
  { FunctionMap :=
      [ (Example.K, [CallGraphNode.CallsExternalNode, CallGraphNode.ofFunction Example.F]),
        (Example.F, [CallGraphNode.ofFunction Example.G]),
        (Example.G, []) ] }

/-- What the constructor computes for `K` in `indirectGraph`. -/
def Example.indirectKernel : KernelWithDependencies :=
  { Fn := Example.K
    Dependencies := ⟨[Example.F], by decide⟩
    HasIndirectCall := true
    HasNonDuplicatableDependecy := true
    TotalCost := 20 }

/-- The kernels `K` and `K2` both call `G` and `H`, which call nothing. -/
def Example.sharedModule : Module :=
  { Functions := [Example.K, Example.K2, Example.G, Example.H] }

def Example.sharedGraph : CallGraph :=
  { FunctionMap :=
      [ (Example.K, [CallGraphNode.ofFunction Example.G, CallGraphNode.ofFunction Example.H]),
        (Example.K2, [CallGraphNode.ofFunction Example.G, CallGraphNode.ofFunction Example.H]),
        (Example.G, []),
        (Example.H, []) ] }

/-- What the constructor computes for `K` and `K2` in `sharedGraph`. -/
def Example.sharedKernel : KernelWithDependencies :=
  { Fn := Example.K
    Dependencies := ⟨[Example.H, Example.G], by decide⟩
    HasIndirectCall := false
    HasNonDuplicatableDependecy := false
    TotalCost := 30 }

def Example.sharedKernel2 : KernelWithDependencies :=
  { Fn := Example.K2
    Dependencies := ⟨[Example.H, Example.G], by decide⟩
    HasIndirectCall := false
    HasNonDuplicatableDependecy := false
    TotalCost := 30 }

/-- Two sets for the overlap: the first is contained in the second. -/
def Example.setG : DenseSet := ⟨[Example.G], by decide⟩

def Example.setGH : DenseSet := ⟨[Example.G, Example.H], by decide⟩

/-- A set whose only member is a kernel. -/
def Example.setK : DenseSet := ⟨[Example.K], by decide⟩

/-- Every function costs 1. -/
def Example.unitCosts : CostMap := fun _ => some 1

/-- What the constructor computes for `K` in `sharedGraph` when every function costs 1. -/
def Example.unitKernel : KernelWithDependencies :=
  { Fn := Example.K
    Dependencies := ⟨[Example.H, Example.G], by decide⟩
    HasIndirectCall := false
    HasNonDuplicatableDependecy := false
    TotalCost := 3 }

/-- The options with large kernel handling disabled. -/
def Example.noLargeKernels : SplitOptions :=
  { LargeKernelFactor := 0
    LargeKernelOverlapForMerge := F32.round (4 / 5) }

/-- A program whose only function is the kernel `K`, which calls nothing. -/
def Example.singleModule : Module := { Functions := [Example.K] }

def Example.singleGraph : CallGraph := { FunctionMap := [(Example.K, [])] }

/-- What the constructor computes for `K` in `singleGraph` when every function costs 10. -/
def Example.singleKernel : KernelWithDependencies :=
  { Fn := Example.K
    Dependencies := DenseSet.empty
    HasIndirectCall := false
    HasNonDuplicatableDependecy := false
    TotalCost := 10 }

/-- A program of the two kernels `K` and `K2`, which call nothing. -/
def Example.pairModule : Module := { Functions := [Example.K, Example.K2] }

def Example.pairGraph : CallGraph := { FunctionMap := [(Example.K, []), (Example.K2, [])] }

/-- Every function costs 100. -/
def Example.costs100 : CostMap := fun _ => some 100

/-- Functions with internal linkage, told apart by their `Id`; `dep 1` to `dep 10` are used. -/
def Example.dep (I : Nat) : Function :=
  Example.defined (10 + I) "f" false LinkageTypes.InternalLinkage

/-- The kernel `K` with the dependencies `dep 1` to `dep 10`, and the kernel `K2` with the
dependencies `dep 1` to `dep 9`, when every function costs 10. -/
def Example.largeKernel : KernelWithDependencies :=
  { Fn := Example.K
    Dependencies :=
      ⟨[Example.dep 1, Example.dep 2, Example.dep 3, Example.dep 4, Example.dep 5,
        Example.dep 6, Example.dep 7, Example.dep 8, Example.dep 9, Example.dep 10], by decide⟩
    HasIndirectCall := false
    HasNonDuplicatableDependecy := false
    TotalCost := 110 }

def Example.largeKernel2 : KernelWithDependencies :=
  { Fn := Example.K2
    Dependencies :=
      ⟨[Example.dep 1, Example.dep 2, Example.dep 3, Example.dep 4, Example.dep 5,
        Example.dep 6, Example.dep 7, Example.dep 8, Example.dep 9], by decide⟩
    HasIndirectCall := false
    HasNonDuplicatableDependecy := false
    TotalCost := 100 }

/-- The program of `largeKernel` and `largeKernel2`: twelve functions, module cost 120. -/
def Example.largeModule : Module :=
  { Functions :=
      [Example.K, Example.K2, Example.dep 1, Example.dep 2, Example.dep 3, Example.dep 4,
        Example.dep 5, Example.dep 6, Example.dep 7, Example.dep 8, Example.dep 9,
        Example.dep 10] }

/-- Every instruction costs 1, and every function has ten instructions. -/
def Example.tenInstructions : Function → List (Option CostType) :=
  fun _ => List.replicate 10 (some 1)

/-- A function with internal linkage and without a name whose address is taken. -/
def Example.anonymous : Function :=
  { Id := 5
    Name := ""
    IsDeclaration := false
    EntryFunctionCC := false
    Linkage := LinkageTypes.InternalLinkage
    Visibility := VisibilityTypes.DefaultVisibility
    DefinitionExact := true
    AddressTaken := true
    AddressTakenIgnoringCalls := true }

/-- Three global variables: `a` has internal linkage and is used in the body of `G`; `b`
has private linkage and no use; `c` has external linkage and is used in the body of `H`. -/
def Example.varA : GlobalVariable :=
  { Id := 100
    Name := "a"
    IsDeclaration := false
    Linkage := LinkageTypes.InternalLinkage
    Visibility := VisibilityTypes.DefaultVisibility
    Users := [GlobalUser.Body 3] }

def Example.varB : GlobalVariable :=
  { Id := 101
    Name := "b"
    IsDeclaration := false
    Linkage := LinkageTypes.PrivateLinkage
    Visibility := VisibilityTypes.DefaultVisibility
    Users := [] }

def Example.varC : GlobalVariable :=
  { Id := 102
    Name := "c"
    IsDeclaration := false
    Linkage := LinkageTypes.ExternalLinkage
    Visibility := VisibilityTypes.DefaultVisibility
    Users := [GlobalUser.Body 4] }

/-- The kernel `K` calls `G` and the kernel `K2` calls `H`; the module has the three
variables. -/
def Example.globalsModule : Module :=
  { Functions := [Example.K, Example.K2, Example.G, Example.H]
    Globals := [Example.varA, Example.varB, Example.varC] }

def Example.globalsGraph : CallGraph :=
  { FunctionMap :=
      [ (Example.K, [CallGraphNode.ofFunction Example.G]),
        (Example.K2, [CallGraphNode.ofFunction Example.H]),
        (Example.G, []),
        (Example.H, []) ] }

/-- The default options with the externalization of the global variables disabled. -/
def Example.keepGlobals : SplitOptions :=
  { LargeKernelFactor := 2
    LargeKernelOverlapForMerge := F32.round (4 / 5)
    NoExternalizeGlobals := true }

/-- Every function has two instructions, of cost `2 ^ 62` each. -/
def Example.overflowCosts : Function → List (Option CostType) :=
  fun _ => [some (2 ^ 62), some (2 ^ 62)]

/-- A call graph with cycles: `K` calls itself and `G`, and `G` calls itself and `K`. -/
def Example.cycleGraph : CallGraph :=
  { FunctionMap :=
      [ (Example.K, [CallGraphNode.ofFunction Example.K, CallGraphNode.ofFunction Example.G]),
        (Example.G, [CallGraphNode.ofFunction Example.G, CallGraphNode.ofFunction Example.K]) ] }

def Example.cycleModule : Module := { Functions := [Example.K, Example.G] }

/-- Two more kernels, `L1` and `L2`. -/
def Example.L1 : Function := Example.defined 30 "L1" true LinkageTypes.ExternalLinkage

def Example.L2 : Function := Example.defined 31 "L2" true LinkageTypes.ExternalLinkage

/-- The kernel `L1` calls `dep 1` to `dep 9`, the kernel `L2` calls `dep 2` to `dep 10`, and
the kernel `K` calls `dep 1` to `dep 10`. -/
def Example.multiModule : Module :=
  { Functions :=
      [Example.L1, Example.L2, Example.K, Example.dep 1, Example.dep 2, Example.dep 3,
        Example.dep 4, Example.dep 5, Example.dep 6, Example.dep 7, Example.dep 8,
        Example.dep 9, Example.dep 10] }

def Example.multiGraph : CallGraph :=
  { FunctionMap :=
      [ (Example.L1,
          [CallGraphNode.ofFunction (Example.dep 1), CallGraphNode.ofFunction (Example.dep 2),
            CallGraphNode.ofFunction (Example.dep 3), CallGraphNode.ofFunction (Example.dep 4),
            CallGraphNode.ofFunction (Example.dep 5), CallGraphNode.ofFunction (Example.dep 6),
            CallGraphNode.ofFunction (Example.dep 7), CallGraphNode.ofFunction (Example.dep 8),
            CallGraphNode.ofFunction (Example.dep 9)]),
        (Example.L2,
          [CallGraphNode.ofFunction (Example.dep 2), CallGraphNode.ofFunction (Example.dep 3),
            CallGraphNode.ofFunction (Example.dep 4), CallGraphNode.ofFunction (Example.dep 5),
            CallGraphNode.ofFunction (Example.dep 6), CallGraphNode.ofFunction (Example.dep 7),
            CallGraphNode.ofFunction (Example.dep 8), CallGraphNode.ofFunction (Example.dep 9),
            CallGraphNode.ofFunction (Example.dep 10)]),
        (Example.K,
          [CallGraphNode.ofFunction (Example.dep 1), CallGraphNode.ofFunction (Example.dep 2),
            CallGraphNode.ofFunction (Example.dep 3), CallGraphNode.ofFunction (Example.dep 4),
            CallGraphNode.ofFunction (Example.dep 5), CallGraphNode.ofFunction (Example.dep 6),
            CallGraphNode.ofFunction (Example.dep 7), CallGraphNode.ofFunction (Example.dep 8),
            CallGraphNode.ofFunction (Example.dep 9), CallGraphNode.ofFunction (Example.dep 10)]) ] }

/-- The kernel `L1` has one instruction of cost 13, `L2` one of cost 12, `K` one of cost 1,
and every other function one of cost 10, so that the module cost is 126. -/
def Example.multiCosts : Function → List (Option CostType) :=
  fun F =>
    if F.Id = 30 then [some 13]
    else if F.Id = 31 then [some 12]
    else if F.Id = 0 then [some 1]
    else [some 10]

/-- What the constructor computes for `L1`, `L2` and `K` in `multiGraph`. -/
def Example.multiL1 : KernelWithDependencies :=
  { Fn := Example.L1
    Dependencies :=
      ⟨[Example.dep 9, Example.dep 8, Example.dep 7, Example.dep 6, Example.dep 5,
        Example.dep 4, Example.dep 3, Example.dep 2, Example.dep 1], by decide⟩
    HasIndirectCall := false
    HasNonDuplicatableDependecy := false
    TotalCost := 103 }

def Example.multiL2 : KernelWithDependencies :=
  { Fn := Example.L2
    Dependencies :=
      ⟨[Example.dep 10, Example.dep 9, Example.dep 8, Example.dep 7, Example.dep 6,
        Example.dep 5, Example.dep 4, Example.dep 3, Example.dep 2], by decide⟩
    HasIndirectCall := false
    HasNonDuplicatableDependecy := false
    TotalCost := 102 }

def Example.multiK : KernelWithDependencies :=
  { Fn := Example.K
    Dependencies :=
      ⟨[Example.dep 10, Example.dep 9, Example.dep 8, Example.dep 7, Example.dep 6,
        Example.dep 5, Example.dep 4, Example.dep 3, Example.dep 2, Example.dep 1], by decide⟩
    HasIndirectCall := false
    HasNonDuplicatableDependecy := false
    TotalCost := 101 }

/-- Two global variables with internal linkage: `p` is used by the initializer of `q` only,
and `q` has no use. -/
def Example.varP : GlobalVariable :=
  { Id := 110
    Name := "p"
    IsDeclaration := false
    Linkage := LinkageTypes.InternalLinkage
    Visibility := VisibilityTypes.DefaultVisibility
    Users := [GlobalUser.Initializer 111] }

def Example.varQ : GlobalVariable :=
  { Id := 111
    Name := "q"
    IsDeclaration := false
    Linkage := LinkageTypes.InternalLinkage
    Visibility := VisibilityTypes.DefaultVisibility
    Users := [] }

/-- The kernel `K`, which calls nothing, and the variables `p` and `q`, in this order. -/
def Example.chainModule : Module :=
  { Functions := [Example.K]
    Globals := [Example.varP, Example.varQ] }

/-- The same module with the variables in the order `q`, `p`. -/
def Example.chainModuleUserFirst : Module :=
  { Functions := [Example.K]
    Globals := [Example.varQ, Example.varP] }

/-- A unit that defines `K` and `G` and holds the variable `a`, used in the body of `G`,
then `q` and `p`. -/
def Example.orderedUnit : Module :=
  { Functions := [Example.K, Example.G]
    Globals := [Example.varA, Example.varQ, Example.varP] }

/-- What the constructor computes for `K` in `cycleGraph` when every function costs 10: the
kernel is a member of its own dependency set, and its cost is counted twice. -/
def Example.cycleKernel : KernelWithDependencies :=
  { Fn := Example.K
    Dependencies := ⟨[Example.G, Example.K], by decide⟩
    HasIndirectCall := false
    HasNonDuplicatableDependecy := true
    TotalCost := 30 }

/-- What the constructor computes for `K` in `globalsGraph` when every function costs 10. -/
def Example.callerKernel : KernelWithDependencies :=
  { Fn := Example.K
    Dependencies := ⟨[Example.G], by decide⟩
    HasIndirectCall := false
    HasNonDuplicatableDependecy := false
    TotalCost := 20 }

/-- The kernel `K` costs 5, the kernel `K2` costs 3 and every other function costs 2. -/
def Example.unevenCosts : CostMap :=
  fun F => if F.Id = 0 then some 5 else if F.Id = 1 then some 3 else some 2

/-- The three kernels `K`, `K2` and `L1` call nothing. -/
def Example.tripleGraph : CallGraph :=
  { FunctionMap := [(Example.K, []), (Example.K2, []), (Example.L1, [])] }

def Example.tripleModule : Module := { Functions := [Example.K, Example.K2, Example.L1] }

/-- What the constructor computes for `K`, `K2` and `L1` in `tripleGraph` with the costs
`unevenCosts`. -/
def Example.tripleK : KernelWithDependencies :=
  { Fn := Example.K
    Dependencies := DenseSet.empty
    HasIndirectCall := false
    HasNonDuplicatableDependecy := false
    TotalCost := 5 }

def Example.tripleK2 : KernelWithDependencies :=
  { Fn := Example.K2
    Dependencies := DenseSet.empty
    HasIndirectCall := false
    HasNonDuplicatableDependecy := false
    TotalCost := 3 }

def Example.tripleL1 : KernelWithDependencies :=
  { Fn := Example.L1
    Dependencies := DenseSet.empty
    HasIndirectCall := false
    HasNonDuplicatableDependecy := false
    TotalCost := 2 }

/-! ## Single precision: integers below `2 ^ 24` are exact -/

theorem F32.ilog2Aux_spec (fuel n : Nat) (hn : 0 < n) (hf : n ≤ fuel) :
    2 ^ F32.ilog2Aux fuel n ≤ n ∧ n < 2 ^ (F32.ilog2Aux fuel n + 1) := by
  induction fuel generalizing n with
  | zero => omega
  | succ fuel ih =>
    unfold F32.ilog2Aux
    by_cases h2 : n < 2
    · rw [if_pos h2]
      have : n = 1 := by omega
      subst this
      simp
    · rw [if_neg h2]
      have h3 := ih (n / 2) (by omega) (by omega)
      rw [Nat.pow_succ, Nat.pow_succ]
      constructor <;> omega

theorem F32.ilog2_spec (n : Nat) (hn : 0 < n) :
    2 ^ F32.ilog2 n ≤ n ∧ n < 2 ^ (F32.ilog2 n + 1) :=
  F32.ilog2Aux_spec n n hn (le_refl n)

theorem F32.ilog2_one : F32.ilog2 1 = 0 := by decide

/-- A positive integer below `2 ^ 24` is its own nearest binary32 value. -/
theorem F32.roundPos_exact (n : Nat) (hn : 0 < n) (h24 : n < 2 ^ 24) :
    F32.roundPos n 1 = (n : ℚ) := by
  obtain ⟨lo, hi⟩ := F32.ilog2_spec n hn
  have he : F32.ilog2 n < 24 := by
    by_contra hge
    have : 2 ^ 24 ≤ 2 ^ F32.ilog2 n := Nat.pow_le_pow_right (by decide) (Nat.le_of_not_lt hge)
    omega
  obtain ⟨k, hk⟩ : ∃ k, F32.ilog2 n + k = 23 := ⟨23 - F32.ilog2 n, by omega⟩
  have hs0 : (24 : Int) + ((F32.ilog2 1 : Nat) : Int) - ((F32.ilog2 n : Nat) : Int)
      = ((k + 1 : Nat) : Int) := by
    rw [F32.ilog2_one]
    push_cast
    omega
  have hsc : ∀ j : Nat, F32.scale n 1 ((j : Nat) : Int) = (n * 2 ^ j, 1) := by
    intro j
    unfold F32.scale
    rw [if_pos (Int.natCast_nonneg j)]
    simp
  have hbig : 2 ^ 24 ≤ n * 2 ^ (k + 1) := by
    calc 2 ^ 24 = 2 ^ (F32.ilog2 n) * 2 ^ (k + 1) := by rw [← Nat.pow_add]; congr 1; omega
      _ ≤ n * 2 ^ (k + 1) := Nat.mul_le_mul_right _ lo
  unfold F32.roundPos
  simp only [hs0, hsc (k + 1), Nat.div_one]
  rw [if_pos hbig]
  have hs1 : ((k + 1 : Nat) : Int) - 1 = ((k : Nat) : Int) := by push_cast; omega
  simp only [hs1, hsc k, Nat.div_one, Nat.mod_one]
  simp only [Nat.mul_zero, Nat.lt_one_iff, if_true, zpow_natCast]
  push_cast
  field_simp

/-- The conversion of an unsigned integer below `2 ^ 24` to `float` is exact. -/
theorem F32.ofNat_exact (n : Nat) (h24 : n < 2 ^ 24) : F32.ofNat n = (n : ℚ) := by
  unfold F32.ofNat F32.round
  by_cases h0 : n = 0
  · subst h0; simp
  · have hpos : 0 < n := Nat.pos_of_ne_zero h0
    have hnum : ((n : ℚ)).num = (n : Int) := Rat.num_natCast n
    have hden : ((n : ℚ)).den = 1 := Rat.den_natCast n
    rw [hnum, hden]
    have h1 : ¬ ((n : Int) = 0) := by exact_mod_cast h0
    have h2 : (0 : Int) < (n : Int) := by exact_mod_cast hpos
    rw [if_neg h1, if_pos h2, Int.natAbs_ofNat]
    exact F32.roundPos_exact n hpos h24

/-- The default merge option: the `float` nearest to 0.8. -/
theorem SplitOptions.default_overlap :
    SplitOptions.default.LargeKernelOverlapForMerge = 13421773 / 16777216 := by
  decide!

/-! ## Single precision: rounding as a function of the value -/

theorem F32.scale_cast (n d : Nat) (hd : 0 < d) (s : Int) :
    0 < (F32.scale n d s).2
    ∧ ((F32.scale n d s).1 : ℚ) / ((F32.scale n d s).2 : ℚ) = (n : ℚ) / (d : ℚ) * (2 : ℚ) ^ s := by
  unfold F32.scale
  have hd' : (d : ℚ) ≠ 0 := by exact_mod_cast (Nat.pos_iff_ne_zero.1 hd)
  by_cases hs : 0 ≤ s
  · rw [if_pos hs]
    refine ⟨hd, ?_⟩
    have e : (2 : ℚ) ^ s = (2 : ℚ) ^ s.toNat := by
      rw [← zpow_natCast, Int.toNat_of_nonneg hs]
    rw [e]
    push_cast
    field_simp
  · rw [if_neg hs]
    have hpos : 0 < 2 ^ (-s).toNat := Nat.pow_pos (by decide)
    refine ⟨Nat.mul_pos hd hpos, ?_⟩
    have e : (2 : ℚ) ^ s = ((2 : ℚ) ^ (-s).toNat)⁻¹ := by
      rw [← zpow_natCast, Int.toNat_of_nonneg (by omega), zpow_neg, inv_inv]
    rw [e]
    push_cast
    field_simp

theorem F32.rne_natCast_div (N D : Nat) (hD : 0 < D) :
    F32.rne ((N : ℚ) / (D : ℚ))
      = (((if 2 * (N % D) < D then N / D
          else if D < 2 * (N % D) then N / D + 1 else N / D + N / D % 2) : Nat) : Int) := by
  have hfloor : ⌊(N : ℚ) / (D : ℚ)⌋ = ((N / D : Nat) : Int) := by
    rw [Rat.floor_natCast_div_natCast]
    norm_cast
  have hD' : (0 : ℚ) < (D : ℚ) := by exact_mod_cast hD
  have hfrac : (N : ℚ) / (D : ℚ) - ((N / D : Nat) : ℚ) = ((N % D : Nat) : ℚ) / (D : ℚ) := by
    have h := Nat.div_add_mod N D
    have h2 : (N : ℚ) = (D : ℚ) * ((N / D : Nat) : ℚ) + ((N % D : Nat) : ℚ) := by
      exact_mod_cast h.symm
    field_simp
    linarith
  have hlt : (2 * ((N : ℚ) / (D : ℚ) - ((N / D : Nat) : ℚ)) < 1) ↔ 2 * (N % D) < D := by
    rw [hfrac, ← mul_div_assoc, div_lt_one hD']
    exact_mod_cast Iff.rfl
  have hgt : (1 < 2 * ((N : ℚ) / (D : ℚ) - ((N / D : Nat) : ℚ))) ↔ D < 2 * (N % D) := by
    rw [hfrac, ← mul_div_assoc, one_lt_div hD']
    exact_mod_cast Iff.rfl
  unfold F32.rne
  rw [hfloor]
  simp only [Int.cast_natCast, hlt, hgt]
  split_ifs <;> push_cast <;> rfl

/-- The exponent `24 + ilog2 d - ilog2 n` scales `n / d` into the open interval from
`2 ^ 23` to `2 ^ 25`. -/
theorem F32.scaled_bounds (n d : Nat) (hn : 0 < n) (hd : 0 < d) :
    (2 : ℚ) ^ 23 < (n : ℚ) / (d : ℚ) * (2 : ℚ) ^ ((24 : Int) + (F32.ilog2 d : Int) - (F32.ilog2 n : Int))
    ∧ (n : ℚ) / (d : ℚ) * (2 : ℚ) ^ ((24 : Int) + (F32.ilog2 d : Int) - (F32.ilog2 n : Int))
        < (2 : ℚ) ^ 25 := by
  obtain ⟨na, nb⟩ := F32.ilog2_spec n hn
  obtain ⟨da, db⟩ := F32.ilog2_spec d hd
  have hA : (0 : ℚ) < (2 : ℚ) ^ F32.ilog2 n := by positivity
  have hB : (0 : ℚ) < (2 : ℚ) ^ F32.ilog2 d := by positivity
  have hd' : (0 : ℚ) < (d : ℚ) := by exact_mod_cast hd
  have na' : (2 : ℚ) ^ F32.ilog2 n ≤ (n : ℚ) := by exact_mod_cast na
  have nb' : (n : ℚ) < 2 * (2 : ℚ) ^ F32.ilog2 n := by
    have : (n : ℚ) < (2 : ℚ) ^ (F32.ilog2 n + 1) := by exact_mod_cast nb
    rw [pow_succ] at this
    linarith
  have da' : (2 : ℚ) ^ F32.ilog2 d ≤ (d : ℚ) := by exact_mod_cast da
  have db' : (d : ℚ) < 2 * (2 : ℚ) ^ F32.ilog2 d := by
    have : (d : ℚ) < (2 : ℚ) ^ (F32.ilog2 d + 1) := by exact_mod_cast db
    rw [pow_succ] at this
    linarith
  have e : (2 : ℚ) ^ ((24 : Int) + (F32.ilog2 d : Int) - (F32.ilog2 n : Int))
      = (2 : ℚ) ^ 24 * (2 : ℚ) ^ F32.ilog2 d / (2 : ℚ) ^ F32.ilog2 n := by
    rw [zpow_sub₀ (by norm_num), zpow_add₀ (by norm_num), zpow_natCast, zpow_natCast]
    norm_num
  rw [e]
  have hu1 : 1 ≤ (n : ℚ) / (2 : ℚ) ^ F32.ilog2 n := by rw [le_div_iff₀ hA]; linarith
  have hu2 : (n : ℚ) / (2 : ℚ) ^ F32.ilog2 n < 2 := by rw [div_lt_iff₀ hA]; linarith
  have hv1 : 1 / 2 < (2 : ℚ) ^ F32.ilog2 d / (d : ℚ) := by rw [lt_div_iff₀ hd']; linarith
  have hv2 : (2 : ℚ) ^ F32.ilog2 d / (d : ℚ) ≤ 1 := by rw [div_le_one hd']; exact da'
  have hX : (n : ℚ) / (d : ℚ) * ((2 : ℚ) ^ 24 * (2 : ℚ) ^ F32.ilog2 d / (2 : ℚ) ^ F32.ilog2 n)
      = (2 : ℚ) ^ 24 * ((n : ℚ) / (2 : ℚ) ^ F32.ilog2 n * ((2 : ℚ) ^ F32.ilog2 d / (d : ℚ))) := by
    field_simp
    ring
  rw [hX]
  have hv0 : (0 : ℚ) < (2 : ℚ) ^ F32.ilog2 d / (d : ℚ) := by positivity
  constructor
  · have : 1 / 2 < (n : ℚ) / (2 : ℚ) ^ F32.ilog2 n * ((2 : ℚ) ^ F32.ilog2 d / (d : ℚ)) := by
      nlinarith
    norm_num at this ⊢
    linarith
  · have : (n : ℚ) / (2 : ℚ) ^ F32.ilog2 n * ((2 : ℚ) ^ F32.ilog2 d / (d : ℚ)) < 2 := by
      nlinarith
    norm_num at this ⊢
    linarith

/-- The nearest binary32 value of a positive quotient: for the exponent `s` chosen by
`roundPos` the scaled quotient has a 24 bit integer part, and the result is the scaled
quotient rounded to an integer and scaled back. -/
theorem F32.roundPos_eq (n d : Nat) (hn : 0 < n) (hd : 0 < d) :
    ∃ s : Int, (2 : ℚ) ^ 23 ≤ (n : ℚ) / (d : ℚ) * (2 : ℚ) ^ s
      ∧ (n : ℚ) / (d : ℚ) * (2 : ℚ) ^ s < (2 : ℚ) ^ 24
      ∧ F32.roundPos n d = (F32.rne ((n : ℚ) / (d : ℚ) * (2 : ℚ) ^ s) : ℚ) / (2 : ℚ) ^ s := by
  obtain ⟨lo, hi⟩ := F32.scaled_bounds n d hn hd
  set s0 : Int := (24 : Int) + (F32.ilog2 d : Int) - (F32.ilog2 n : Int) with hs0
  have hval : ∀ s : Int, F32.rne ((n : ℚ) / (d : ℚ) * (2 : ℚ) ^ s)
      = (((if 2 * ((F32.scale n d s).1 % (F32.scale n d s).2) < (F32.scale n d s).2
            then (F32.scale n d s).1 / (F32.scale n d s).2
          else if (F32.scale n d s).2 < 2 * ((F32.scale n d s).1 % (F32.scale n d s).2)
            then (F32.scale n d s).1 / (F32.scale n d s).2 + 1
          else (F32.scale n d s).1 / (F32.scale n d s).2
            + (F32.scale n d s).1 / (F32.scale n d s).2 % 2) : Nat) : Int) := by
    intro s
    obtain ⟨hpos, hc⟩ := F32.scale_cast n d hd s
    rw [← hc]
    exact F32.rne_natCast_div _ _ hpos
  have hq0 : (2 ^ 24 ≤ (F32.scale n d s0).1 / (F32.scale n d s0).2)
      ↔ (2 : ℚ) ^ 24 ≤ (n : ℚ) / (d : ℚ) * (2 : ℚ) ^ s0 := by
    obtain ⟨hpos, hc⟩ := F32.scale_cast n d hd s0
    rw [← hc]
    have hD : (0 : ℚ) < ((F32.scale n d s0).2 : ℚ) := by exact_mod_cast hpos
    rw [le_div_iff₀ hD, Nat.le_div_iff_mul_le hpos]
    exact_mod_cast Iff.rfl
  by_cases hbig : 2 ^ 24 ≤ (F32.scale n d s0).1 / (F32.scale n d s0).2
  · have hb := hq0.1 hbig
    refine ⟨s0 - 1, ?_, ?_, ?_⟩
    · rw [zpow_sub_one₀ (by norm_num)]
      have : (n : ℚ) / (d : ℚ) * ((2 : ℚ) ^ s0 * 2⁻¹)
          = (n : ℚ) / (d : ℚ) * (2 : ℚ) ^ s0 / 2 := by ring
      rw [this]
      norm_num at hb ⊢
      linarith
    · rw [zpow_sub_one₀ (by norm_num)]
      have : (n : ℚ) / (d : ℚ) * ((2 : ℚ) ^ s0 * 2⁻¹)
          = (n : ℚ) / (d : ℚ) * (2 : ℚ) ^ s0 / 2 := by ring
      rw [this]
      norm_num at hi ⊢
      linarith
    · unfold F32.roundPos
      simp only [← hs0, if_pos hbig]
      rw [hval (s0 - 1)]
      norm_cast
  · have hb : (n : ℚ) / (d : ℚ) * (2 : ℚ) ^ s0 < (2 : ℚ) ^ 24 := by
      by_contra hc
      exact hbig (hq0.2 (not_lt.1 hc))
    refine ⟨s0, le_of_lt lo, hb, ?_⟩
    unfold F32.roundPos
    simp only [← hs0, if_neg hbig]
    rw [hval s0]
    norm_cast

/-- A positive number has at most one exponent that scales it to a 24 bit integer part. -/
theorem F32.exponent_unique (x : ℚ) (hx : 0 < x) (s t : Int)
    (hs1 : (2 : ℚ) ^ 23 ≤ x * (2 : ℚ) ^ s) (hs2 : x * (2 : ℚ) ^ s < (2 : ℚ) ^ 24)
    (ht1 : (2 : ℚ) ^ 23 ≤ x * (2 : ℚ) ^ t) (ht2 : x * (2 : ℚ) ^ t < (2 : ℚ) ^ 24) : s = t := by
  have key : ∀ a b : Int, (2 : ℚ) ^ 23 ≤ x * (2 : ℚ) ^ a → x * (2 : ℚ) ^ b < (2 : ℚ) ^ 24 →
      ¬ a < b := by
    intro a b ha hb hab
    have h1 : (2 : ℚ) ^ (a + 1) ≤ (2 : ℚ) ^ b := zpow_le_zpow_right₀ (by norm_num) (by omega)
    rw [zpow_add_one₀ (by norm_num)] at h1
    have h2 : x * ((2 : ℚ) ^ a * 2) ≤ x * (2 : ℚ) ^ b := mul_le_mul_of_nonneg_left h1 (le_of_lt hx)
    norm_num at ha hb
    linarith
  have h1 := key s t hs1 ht2
  have h2 := key t s ht1 hs2
  omega

/-- The nearest binary32 value of a positive number `x`, from any exponent `s` that scales
`x` to a 24 bit integer part. -/
theorem F32.round_eq (x : ℚ) (hx : 0 < x) (s : Int)
    (hs1 : (2 : ℚ) ^ 23 ≤ x * (2 : ℚ) ^ s) (hs2 : x * (2 : ℚ) ^ s < (2 : ℚ) ^ 24) :
    F32.round x = (F32.rne (x * (2 : ℚ) ^ s) : ℚ) / (2 : ℚ) ^ s := by
  have hnum : 0 < x.num := Rat.num_pos.2 hx
  have hxe : ((x.num.natAbs : Nat) : ℚ) / ((x.den : Nat) : ℚ) = x := by
    have h1 : ((x.num.natAbs : Nat) : Int) = x.num := Int.natAbs_of_nonneg (le_of_lt hnum)
    have h2 : ((x.num.natAbs : Nat) : ℚ) = ((x.num : Int) : ℚ) := by
      rw [← Int.cast_natCast, h1]
    rw [h2]
    exact Rat.num_div_den x
  obtain ⟨t, ht1, ht2, hr⟩ := F32.roundPos_eq x.num.natAbs x.den
    (Int.natAbs_pos.2 (ne_of_gt hnum)) x.den_pos
  rw [hxe] at ht1 ht2 hr
  have hst := F32.exponent_unique x hx s t hs1 hs2 ht1 ht2
  unfold F32.round
  rw [if_neg (ne_of_gt hnum), if_pos hnum, hr, hst]

theorem F32.round_zero : F32.round 0 = 0 := by
  unfold F32.round
  simp

theorem F32.round_one : F32.round 1 = 1 := by decide!

/-- Every positive number has an exponent that scales it to a 24 bit integer part. -/
theorem F32.exists_exponent (x : ℚ) (hx : 0 < x) :
    ∃ s : Int, (2 : ℚ) ^ 23 ≤ x * (2 : ℚ) ^ s ∧ x * (2 : ℚ) ^ s < (2 : ℚ) ^ 24 := by
  have hnum : 0 < x.num := Rat.num_pos.2 hx
  have hxe : ((x.num.natAbs : Nat) : ℚ) / ((x.den : Nat) : ℚ) = x := by
    have h1 : ((x.num.natAbs : Nat) : Int) = x.num := Int.natAbs_of_nonneg (le_of_lt hnum)
    have h2 : ((x.num.natAbs : Nat) : ℚ) = ((x.num : Int) : ℚ) := by
      rw [← Int.cast_natCast, h1]
    rw [h2]
    exact Rat.num_div_den x
  obtain ⟨t, ht1, ht2, _⟩ := F32.roundPos_eq x.num.natAbs x.den
    (Int.natAbs_pos.2 (ne_of_gt hnum)) x.den_pos
  rw [hxe] at ht1 ht2
  exact ⟨t, ht1, ht2⟩

/-! ### Rounding to an integer -/

theorem F32.rne_bounds (X : ℚ) : ⌊X⌋ ≤ F32.rne X ∧ F32.rne X ≤ ⌊X⌋ + 1 := by
  unfold F32.rne
  split_ifs <;> constructor <;> omega

theorem F32.rne_intCast (z : Int) : F32.rne (z : ℚ) = z := by
  unfold F32.rne
  simp

theorem F32.rne_mono (X Y : ℚ) (h : X ≤ Y) : F32.rne X ≤ F32.rne Y := by
  have hfl : ⌊X⌋ ≤ ⌊Y⌋ := Int.floor_mono h
  rcases lt_or_eq_of_le hfl with hlt | heq
  · have := (F32.rne_bounds X).2
    have := (F32.rne_bounds Y).1
    omega
  · unfold F32.rne
    rw [← heq]
    have hXY : 2 * (X - ⌊X⌋) ≤ 2 * (Y - ⌊X⌋) := by linarith
    split_ifs <;> first | omega | (exfalso; linarith)

/-- A number with a 24 bit integer part rounds to an integer from `2 ^ 23` to `2 ^ 24`. -/
theorem F32.rne_range (X : ℚ) (h1 : (2 : ℚ) ^ 23 ≤ X) (h2 : X < (2 : ℚ) ^ 24) :
    (2 : Int) ^ 23 ≤ F32.rne X ∧ F32.rne X ≤ (2 : Int) ^ 24 := by
  have hlo : (2 : Int) ^ 23 ≤ ⌊X⌋ := by
    rw [Int.le_floor]
    push_cast
    exact h1
  have hhi : ⌊X⌋ < (2 : Int) ^ 24 := by
    rw [Int.floor_lt]
    push_cast
    exact h2
  obtain ⟨b1, b2⟩ := F32.rne_bounds X
  constructor <;> omega

/-! ### Order and exactness -/

theorem F32.round_pos (x : ℚ) (hx : 0 < x) : 0 < F32.round x := by
  obtain ⟨s, hs1, hs2⟩ := F32.exists_exponent x hx
  rw [F32.round_eq x hx s hs1 hs2]
  have h := (F32.rne_range _ hs1 hs2).1
  have h2 : (0 : ℚ) < (F32.rne (x * (2 : ℚ) ^ s) : ℚ) := by
    have : (0 : Int) < F32.rne (x * (2 : ℚ) ^ s) := by omega
    exact_mod_cast this
  positivity

theorem F32.round_nonneg (x : ℚ) (hx : 0 ≤ x) : 0 ≤ F32.round x := by
  rcases lt_or_eq_of_le hx with h | h
  · exact le_of_lt (F32.round_pos x h)
  · rw [← h, F32.round_zero]

theorem F32.round_mono_pos (x y : ℚ) (hx : 0 < x) (hxy : x ≤ y) :
    F32.round x ≤ F32.round y := by
  have hy : 0 < y := lt_of_lt_of_le hx hxy
  obtain ⟨s, hs1, hs2⟩ := F32.exists_exponent x hx
  obtain ⟨t, ht1, ht2⟩ := F32.exists_exponent y hy
  rw [F32.round_eq x hx s hs1 hs2, F32.round_eq y hy t ht1 ht2]
  have hps : (0 : ℚ) < (2 : ℚ) ^ s := by positivity
  have hpt : (0 : ℚ) < (2 : ℚ) ^ t := by positivity
  obtain ⟨_, mx2⟩ := F32.rne_range _ hs1 hs2
  obtain ⟨my1, _⟩ := F32.rne_range _ ht1 ht2
  have mx2' : (F32.rne (x * (2 : ℚ) ^ s) : ℚ) ≤ (2 : ℚ) ^ 24 := by exact_mod_cast mx2
  have my1' : (2 : ℚ) ^ 23 ≤ (F32.rne (y * (2 : ℚ) ^ t) : ℚ) := by exact_mod_cast my1
  rcases lt_trichotomy s t with hlt | heq | hgt
  · exfalso
    have h1 : (2 : ℚ) ^ (s + 1) ≤ (2 : ℚ) ^ t := zpow_le_zpow_right₀ (by norm_num) (by omega)
    rw [zpow_add_one₀ (by norm_num)] at h1
    have h2 : y * ((2 : ℚ) ^ s * 2) ≤ y * (2 : ℚ) ^ t := mul_le_mul_of_nonneg_left h1 (le_of_lt hy)
    have h3 : x * (2 : ℚ) ^ s ≤ y * (2 : ℚ) ^ s := mul_le_mul_of_nonneg_right hxy (le_of_lt hps)
    norm_num at hs1 ht2
    linarith
  · subst heq
    have hm : F32.rne (x * (2 : ℚ) ^ s) ≤ F32.rne (y * (2 : ℚ) ^ s) :=
      F32.rne_mono _ _ (mul_le_mul_of_nonneg_right hxy (le_of_lt hps))
    have hm' : (F32.rne (x * (2 : ℚ) ^ s) : ℚ) ≤ (F32.rne (y * (2 : ℚ) ^ s) : ℚ) := by
      exact_mod_cast hm
    exact div_le_div_of_nonneg_right hm' (le_of_lt hps)
  · have h1 : (2 : ℚ) ^ (t + 1) ≤ (2 : ℚ) ^ s := zpow_le_zpow_right₀ (by norm_num) (by omega)
    rw [zpow_add_one₀ (by norm_num)] at h1
    rw [div_le_div_iff₀ hps hpt]
    have e1 : (F32.rne (x * (2 : ℚ) ^ s) : ℚ) * (2 : ℚ) ^ t ≤ (2 : ℚ) ^ 24 * (2 : ℚ) ^ t :=
      mul_le_mul_of_nonneg_right mx2' (le_of_lt hpt)
    have e2 : (2 : ℚ) ^ 23 * (2 : ℚ) ^ s ≤ (F32.rne (y * (2 : ℚ) ^ t) : ℚ) * (2 : ℚ) ^ s :=
      mul_le_mul_of_nonneg_right my1' (le_of_lt hps)
    have e3 : (2 : ℚ) ^ 23 * ((2 : ℚ) ^ t * 2) ≤ (2 : ℚ) ^ 23 * (2 : ℚ) ^ s :=
      mul_le_mul_of_nonneg_left h1 (by norm_num)
    norm_num at e1 e2 e3 ⊢
    linarith

/-- Rounding to the nearest binary32 value is monotone on the numbers that are not
negative. -/
theorem F32.round_mono (x y : ℚ) (hx : 0 ≤ x) (hxy : x ≤ y) : F32.round x ≤ F32.round y := by
  rcases lt_or_eq_of_le hx with h | h
  · exact F32.round_mono_pos x y h hxy
  · rw [← h, F32.round_zero]
    exact F32.round_nonneg y (le_trans hx hxy)

/-- A number with a 24 bit significand is its own nearest binary32 value. -/
theorem F32.round_exact (u : Nat) (k : Int) (hu1 : 2 ^ 23 ≤ u) (hu2 : u < 2 ^ 24) :
    F32.round ((u : ℚ) * (2 : ℚ) ^ k) = (u : ℚ) * (2 : ℚ) ^ k := by
  have hu0 : (0 : ℚ) < (u : ℚ) := by
    have : 0 < u := by omega
    exact_mod_cast this
  have hx : (0 : ℚ) < (u : ℚ) * (2 : ℚ) ^ k := by positivity
  have e : (u : ℚ) * (2 : ℚ) ^ k * (2 : ℚ) ^ (-k) = (u : ℚ) := by
    rw [mul_assoc, ← zpow_add₀ (by norm_num)]
    simp
  have h1 : (2 : ℚ) ^ 23 ≤ (u : ℚ) * (2 : ℚ) ^ k * (2 : ℚ) ^ (-k) := by
    rw [e]; exact_mod_cast hu1
  have h2 : (u : ℚ) * (2 : ℚ) ^ k * (2 : ℚ) ^ (-k) < (2 : ℚ) ^ 24 := by
    rw [e]; exact_mod_cast hu2
  rw [F32.round_eq _ hx (-k) h1 h2, e]
  have : F32.rne ((u : Nat) : ℚ) = ((u : Nat) : Int) := by
    have := F32.rne_intCast (u : Int)
    simpa using this
  rw [this, zpow_neg]
  simp

/-- The result of rounding is itself a binary32 value: rounding it again changes nothing. -/
theorem F32.round_round (x : ℚ) (hx : 0 ≤ x) : F32.round (F32.round x) = F32.round x := by
  rcases lt_or_eq_of_le hx with hpos | h0
  · obtain ⟨s, hs1, hs2⟩ := F32.exists_exponent x hpos
    rw [F32.round_eq x hpos s hs1 hs2]
    obtain ⟨m1, m2⟩ := F32.rne_range _ hs1 hs2
    obtain ⟨m, hm⟩ : ∃ m : Nat, F32.rne (x * (2 : ℚ) ^ s) = (m : Int) :=
      ⟨(F32.rne (x * (2 : ℚ) ^ s)).toNat, (Int.toNat_of_nonneg (by omega)).symm⟩
    rw [hm] at m1 m2 ⊢
    have m1' : 2 ^ 23 ≤ m := by exact_mod_cast m1
    have m2' : m ≤ 2 ^ 24 := by exact_mod_cast m2
    rcases lt_or_eq_of_le m2' with hlt | heq
    · have e : ((m : Int) : ℚ) / (2 : ℚ) ^ s = (m : ℚ) * (2 : ℚ) ^ (-s) := by
        rw [zpow_neg, div_eq_mul_inv]; simp
      rw [e]
      exact F32.round_exact m (-s) m1' hlt
    · have e : ((m : Int) : ℚ) / (2 : ℚ) ^ s = ((2 ^ 23 : Nat) : ℚ) * (2 : ℚ) ^ (1 - s) := by
        rw [heq, zpow_sub₀ (by norm_num), div_eq_mul_inv]
        push_cast
        ring
      rw [e]
      exact F32.round_exact (2 ^ 23) (1 - s) (le_refl _) (by norm_num)
  · rw [← h0, F32.round_zero, F32.round_zero]

/-- Doubling commutes with rounding. -/
theorem F32.round_two_mul (x : ℚ) (hx : 0 ≤ x) : F32.round (2 * x) = 2 * F32.round x := by
  rcases lt_or_eq_of_le hx with hpos | h0
  · obtain ⟨s, hs1, hs2⟩ := F32.exists_exponent x hpos
    have e : 2 * x * (2 : ℚ) ^ (s - 1) = x * (2 : ℚ) ^ s := by
      rw [zpow_sub_one₀ (by norm_num)]
      ring
    have h2x : (0 : ℚ) < 2 * x := by positivity
    rw [F32.round_eq (2 * x) h2x (s - 1) (by rw [e]; exact hs1) (by rw [e]; exact hs2), e,
      F32.round_eq x hpos s hs1 hs2, zpow_sub_one₀ (by norm_num)]
    field_simp
    ring
  · rw [← h0]
    simp [F32.round_zero]

/-- The nearest binary32 value of a natural number is a natural number. -/
theorem F32.round_natCast (n : Nat) : ∃ k : Nat, F32.round (n : ℚ) = (k : ℚ) := by
  rcases Nat.eq_zero_or_pos n with h0 | hpos
  · exact ⟨0, by rw [h0]; simp [F32.round_zero]⟩
  · have hx : (0 : ℚ) < (n : ℚ) := by exact_mod_cast hpos
    obtain ⟨s, hs1, hs2⟩ := F32.exists_exponent (n : ℚ) hx
    rw [F32.round_eq _ hx s hs1 hs2]
    obtain ⟨m1, _⟩ := F32.rne_range _ hs1 hs2
    by_cases hs : 0 ≤ s
    · have e : (n : ℚ) * (2 : ℚ) ^ s = ((n * 2 ^ s.toNat : Nat) : Int) := by
        push_cast
        rw [← zpow_natCast, Int.toNat_of_nonneg hs]
      rw [e, F32.rne_intCast, ← e]
      exact ⟨n, by field_simp⟩
    · refine ⟨(F32.rne ((n : ℚ) * (2 : ℚ) ^ s)).toNat * 2 ^ (-s).toNat, ?_⟩
      have hm : ((F32.rne ((n : ℚ) * (2 : ℚ) ^ s)).toNat : Int) = F32.rne ((n : ℚ) * (2 : ℚ) ^ s) :=
        Int.toNat_of_nonneg (by omega)
      have e : (2 : ℚ) ^ s = ((2 : ℚ) ^ (-s).toNat)⁻¹ := by
        rw [← zpow_natCast, Int.toNat_of_nonneg (by omega), zpow_neg, inv_inv]
      push_cast
      rw [← Int.cast_natCast (F32.rne ((n : ℚ) * (2 : ℚ) ^ s)).toNat, hm]
      rw [e, div_inv_eq_mul]
/-! ## Sets: membership after insertion -/

theorem DenseSet.mem_def (S : DenseSet) (F : Function) : F ∈ S ↔ F ∈ S.Elems := Iff.rfl

theorem DenseSet.not_mem_empty (F : Function) : ¬ F ∈ DenseSet.empty := by
  simp [DenseSet.mem_def, DenseSet.empty]

theorem DenseSet.mem_insert (S : DenseSet) (F G : Function) :
    G ∈ (S.insert F).1 ↔ G = F ∨ G ∈ S := by
  unfold DenseSet.insert
  by_cases h : F ∈ S.Elems
  · simp only [h, dite_true, DenseSet.mem_def]
    constructor
    · exact fun hG => Or.inr hG
    · rintro (rfl | hG)
      · exact h
      · exact hG
  · simp [h, DenseSet.mem_def]

theorem DenseSet.insert_snd (S : DenseSet) (F : Function) :
    (S.insert F).2 = true ↔ ¬ F ∈ S := by
  unfold DenseSet.insert
  by_cases h : F ∈ S.Elems <;> simp [h, DenseSet.mem_def]

theorem DenseSet.insert_of_mem (S : DenseSet) (F : Function) (h : F ∈ S) :
    (S.insert F).1 = S := by
  unfold DenseSet.insert
  rw [DenseSet.mem_def] at h
  simp [h]

theorem DenseSet.mem_insertRange (l : List Function) (S : DenseSet) (G : Function) :
    G ∈ S.insertRange l ↔ G ∈ S ∨ G ∈ l := by
  induction l generalizing S with
  | nil => simp [DenseSet.insertRange]
  | cons F l ih =>
    have h := ih (S.insert F).1
    unfold DenseSet.insertRange at h ⊢
    rw [List.foldl_cons, h, DenseSet.mem_insert, List.mem_cons]
    tauto

theorem DenseSet.size_insert (S : DenseSet) (F : Function) :
    (S.insert F).1.size = if F ∈ S then S.size else S.size + 1 := by
  unfold DenseSet.insert DenseSet.size
  by_cases h : F ∈ S.Elems <;> simp [h, DenseSet.mem_def]

theorem DenseSet.contains_iff (S : DenseSet) (F : Function) : S.contains F = true ↔ F ∈ S := by
  simp [DenseSet.contains, DenseSet.mem_def]


/-! ## Overlap: what the two loops compute -/

theorem calculateOverlap.mem_initialTotal_aux (l : List Function) (T : DenseSet) (G : Function) :
    G ∈ l.foldl (fun Total F => if !isEntryPoint F then (Total.insert F).1 else Total) T
      ↔ G ∈ T ∨ (G ∈ l ∧ isEntryPoint G = false) := by
  induction l generalizing T with
  | nil => simp
  | cons F l ih =>
    rw [List.foldl_cons, ih]
    by_cases hF : isEntryPoint F = true
    · simp only [hF, Bool.not_true, Bool.false_eq_true, if_false, List.mem_cons]
      constructor
      · rintro (h | ⟨h1, h2⟩)
        · exact Or.inl h
        · exact Or.inr ⟨Or.inr h1, h2⟩
      · rintro (h | ⟨h1 | h1, h2⟩)
        · exact Or.inl h
        · subst h1; rw [hF] at h2; exact absurd h2 (by simp)
        · exact Or.inr ⟨h1, h2⟩
    · have hF2 : isEntryPoint F = false := by simpa using hF
      simp only [hF2, Bool.not_false, if_true, DenseSet.mem_insert, List.mem_cons]
      constructor
      · rintro ((h | h) | ⟨h1, h2⟩)
        · subst h; exact Or.inr ⟨Or.inl rfl, hF2⟩
        · exact Or.inl h
        · exact Or.inr ⟨Or.inr h1, h2⟩
      · rintro (h | ⟨h1 | h1, h2⟩)
        · exact Or.inl (Or.inr h)
        · exact Or.inl (Or.inl h1)
        · exact Or.inr ⟨h1, h2⟩

theorem calculateOverlap.mem_initialTotal (A : DenseSet) (G : Function) :
    G ∈ calculateOverlap.initialTotal A ↔ G ∈ A ∧ isEntryPoint G = false := by
  unfold calculateOverlap.initialTotal
  rw [calculateOverlap.mem_initialTotal_aux]
  have h0 := DenseSet.not_mem_empty G
  simp only [DenseSet.mem_def] at h0 ⊢
  simp [h0]

/-- The elements of a set as a finite set. -/
theorem DenseSet.card_toFinset (S : DenseSet) : S.Elems.toFinset.card = S.size :=
  List.toFinset_card_of_nodup S.Nodup

theorem calculateOverlap.initialTotal_toFinset (A : DenseSet) :
    (calculateOverlap.initialTotal A).Elems.toFinset
      = A.Elems.toFinset.filter (fun F => isEntryPoint F = false) := by
  ext G
  have h := calculateOverlap.mem_initialTotal A G
  simp only [DenseSet.mem_def] at h
  simp [h]

/-- The loop over `B`: the counter grows by the number of non-entry elements found in
`Total`, and `Total` grows by the other non-entry elements. -/
theorem calculateOverlap.countCommon_foldl (l : List Function) (hl : l.Nodup) (T : DenseSet) (n : Nat) :
    (l.foldl calculateOverlap.countCommon (T, n)).2
        = n + (l.filter (fun F => isEntryPoint F = false ∧ F ∈ T)).length
    ∧ (l.foldl calculateOverlap.countCommon (T, n)).1.size
        = T.size + (l.filter (fun F => isEntryPoint F = false ∧ ¬ F ∈ T)).length := by
  induction l generalizing T n with
  | nil => simp
  | cons F l ih =>
    have hFl : F ∉ l := (List.nodup_cons.1 hl).1
    have hl2 : l.Nodup := (List.nodup_cons.1 hl).2
    rw [List.foldl_cons]
    by_cases hF : isEntryPoint F = true
    · have h1 : calculateOverlap.countCommon (T, n) F = (T, n) := by
        simp [calculateOverlap.countCommon, hF]
      rw [h1]
      have := ih hl2 T n
      simp [List.filter_cons, hF, this]
    · have hF2 : isEntryPoint F = false := by simpa using hF
      by_cases hT : F ∈ T
      · have h1 : calculateOverlap.countCommon (T, n) F = (T, n + 1) := by
          have h2 : (T.insert F).2 = false := by
            have := DenseSet.insert_snd T F
            cases h3 : (T.insert F).2
            · rfl
            · exact absurd hT (this.1 h3)
          simp [calculateOverlap.countCommon, hF2, h2]
        rw [h1]
        have := ih hl2 T (n + 1)
        simp [List.filter_cons, hF2, hT, this]
        omega
      · have h1 : calculateOverlap.countCommon (T, n) F = ((T.insert F).1, n) := by
          have h2 : (T.insert F).2 = true := (DenseSet.insert_snd T F).2 hT
          simp [calculateOverlap.countCommon, hF2, h2]
        rw [h1]
        have := ih hl2 (T.insert F).1 n
        rw [this.1, this.2, DenseSet.size_insert]
        have e1 : l.filter (fun G => isEntryPoint G = false ∧ G ∈ (T.insert F).1)
            = l.filter (fun G => isEntryPoint G = false ∧ G ∈ T) := by
          apply List.filter_congr
          intro G hG
          have : G ≠ F := fun h => hFl (h ▸ hG)
          simp [DenseSet.mem_insert, this]
        have e2 : l.filter (fun G => isEntryPoint G = false ∧ ¬ G ∈ (T.insert F).1)
            = l.filter (fun G => isEntryPoint G = false ∧ ¬ G ∈ T) := by
          apply List.filter_congr
          intro G hG
          have : G ≠ F := fun h => hFl (h ▸ hG)
          simp [DenseSet.mem_insert, this]
        rw [e1, e2]
        simp [List.filter_cons, hF2, hT]
        omega

/-- The value of `calculateOverlap` from the sizes of the intersection and the union of the
two sets restricted to the functions that are not entry points. -/
theorem calculateOverlap_eq (A B : DenseSet) :
    calculateOverlap A B =
      if A.Elems.toFinset.filter (fun F => isEntryPoint F = false) = ∅ then 0
      else F32.div
        (F32.ofNat ((A.Elems.toFinset.filter (fun F => isEntryPoint F = false)) ∩
          (B.Elems.toFinset.filter (fun F => isEntryPoint F = false))).card)
        (F32.ofNat ((A.Elems.toFinset.filter (fun F => isEntryPoint F = false)) ∪
          (B.Elems.toFinset.filter (fun F => isEntryPoint F = false))).card) := by
  have hT := calculateOverlap.initialTotal_toFinset A
  have hfold := calculateOverlap.countCommon_foldl B.Elems B.Nodup (calculateOverlap.initialTotal A) 0
  set T := calculateOverlap.initialTotal A with hTdef
  set A1 := A.Elems.toFinset.filter (fun F => isEntryPoint F = false) with hA1
  set B1 := B.Elems.toFinset.filter (fun F => isEntryPoint F = false) with hB1
  have hmemT : ∀ F, F ∈ T ↔ F ∈ A1 := by
    intro F
    rw [← hT]
    simp [DenseSet.mem_def]
  have hcommon : (B.Elems.filter (fun F => isEntryPoint F = false ∧ F ∈ T)).length = (A1 ∩ B1).card := by
    rw [← List.toFinset_card_of_nodup (B.Nodup.filter _)]
    congr 1
    ext F
    simp only [List.mem_toFinset, List.mem_filter, Finset.mem_inter, hmemT, decide_eq_true_eq, hB1,
      Finset.mem_filter]
    tauto
  have hrest : (B.Elems.filter (fun F => isEntryPoint F = false ∧ ¬ F ∈ T)).length = (B1 \ A1).card := by
    rw [← List.toFinset_card_of_nodup (B.Nodup.filter _)]
    congr 1
    ext F
    simp only [List.mem_toFinset, List.mem_filter, Finset.mem_sdiff, hmemT, decide_eq_true_eq, hB1,
      Finset.mem_filter]
    tauto
  have hunion : (A1 ∪ B1).card = T.size + (B1 \ A1).card := by
    rw [← DenseSet.card_toFinset, hT, ← Finset.union_sdiff_self_eq_union,
      Finset.card_union_of_disjoint Finset.disjoint_sdiff]
  have hempty : T.isEmpty = true ↔ A1 = ∅ := by
    rw [← hT]
    cases hE : T.Elems with
    | nil => simp [DenseSet.isEmpty, hE]
    | cons x xs => simp [DenseSet.isEmpty, hE]
  unfold calculateOverlap
  by_cases hE : A1 = ∅
  · rw [if_pos (hempty.2 hE), if_pos hE]
  · have hE2 : ¬ T.isEmpty = true := fun h => hE (hempty.1 h)
    rw [if_neg hE2, if_neg hE, hfold.1, hfold.2, hcommon, hrest, ← hunion, Nat.zero_add]

/-! ## The traversal of the call graph -/

theorem addAllDependencies.visit_ofFunction (M : Module) (S : DepState) (C : Function) :
    addAllDependencies.visit M S (CallGraphNode.ofFunction C) =
      if C.isDeclaration = true then S
      else if C ∈ S.Fns then S
      else { S with Fns := (S.Fns.insert C).1, WorkList := C :: S.WorkList } := by
  unfold addAllDependencies.visit
  simp only [CallGraphNode.getFunction]
  by_cases hd : C.isDeclaration = true
  · simp [hd]
  · by_cases hm : C ∈ S.Fns
    · have : (S.Fns.insert C).2 = false := by
        cases h : (S.Fns.insert C).2
        · rfl
        · exact absurd hm ((DenseSet.insert_snd _ _).1 h)
      simp [hd, hm, this]
    · have : (S.Fns.insert C).2 = true := (DenseSet.insert_snd _ _).2 hm
      simp [hd, hm, this]

theorem addAllDependencies.visit_external (M : Module) (S : DepState) :
    addAllDependencies.visit M S CallGraphNode.CallsExternalNode =
      { S with Fns := addAllIndirectCallDependencies M S.Fns, HadIndirectCall := true } := by
  simp [addAllDependencies.visit, CallGraphNode.getFunction]

theorem addAllDependencies.visit_other (M : Module) (S : DepState) :
    addAllDependencies.visit M S CallGraphNode.OtherNode = S := by
  simp [addAllDependencies.visit, CallGraphNode.getFunction]

theorem mem_addAllIndirectCallDependencies_aux (l : List Function) (Fns : DenseSet) (G : Function) :
    G ∈ l.foldl (fun Acc Fn => if canBeIndirectlyCalled Fn then (Acc.insert Fn).1 else Acc) Fns
      ↔ G ∈ Fns ∨ (G ∈ l ∧ canBeIndirectlyCalled G = true) := by
  induction l generalizing Fns with
  | nil => simp
  | cons F l ih =>
    rw [List.foldl_cons, ih]
    by_cases hF : canBeIndirectlyCalled F = true
    · simp only [hF, if_true, DenseSet.mem_insert, List.mem_cons]
      constructor
      · rintro ((h | h) | ⟨h1, h2⟩)
        · subst h; exact Or.inr ⟨Or.inl rfl, hF⟩
        · exact Or.inl h
        · exact Or.inr ⟨Or.inr h1, h2⟩
      · rintro (h | ⟨h1 | h1, h2⟩)
        · exact Or.inl (Or.inr h)
        · exact Or.inl (Or.inl h1)
        · exact Or.inr ⟨h1, h2⟩
    · simp only [hF, if_false, List.mem_cons, Bool.false_eq_true]
      constructor
      · rintro (h | ⟨h1, h2⟩)
        · exact Or.inl h
        · exact Or.inr ⟨Or.inr h1, h2⟩
      · rintro (h | ⟨h1 | h1, h2⟩)
        · exact Or.inl h
        · subst h1; exact absurd h2 hF
        · exact Or.inr ⟨h1, h2⟩

theorem mem_addAllIndirectCallDependencies (M : Module) (Fns : DenseSet) (G : Function) :
    G ∈ addAllIndirectCallDependencies M Fns
      ↔ G ∈ Fns ∨ (G ∈ M.Functions ∧ canBeIndirectlyCalled G = true) :=
  mem_addAllIndirectCallDependencies_aux M.Functions Fns G

/-! ### One call record -/

theorem addAllDependencies.visit_had_mono (M : Module) (S : DepState) (n : CallGraphNode)
    (h : S.HadIndirectCall = true) : (addAllDependencies.visit M S n).HadIndirectCall = true := by
  cases n with
  | ofFunction C =>
    rw [addAllDependencies.visit_ofFunction]
    split_ifs <;> simp [h]
  | CallsExternalNode => simp [addAllDependencies.visit_external]
  | OtherNode => simp [addAllDependencies.visit_other, h]

theorem addAllDependencies.visit_had_inv (M : Module) (S : DepState) (n : CallGraphNode)
    (h : (addAllDependencies.visit M S n).HadIndirectCall = true) :
    S.HadIndirectCall = true ∨ n = CallGraphNode.CallsExternalNode := by
  cases n with
  | ofFunction C =>
    rw [addAllDependencies.visit_ofFunction] at h
    split_ifs at h <;> exact Or.inl h
  | CallsExternalNode => exact Or.inr rfl
  | OtherNode => rw [addAllDependencies.visit_other] at h; exact Or.inl h

theorem addAllDependencies.visit_fns_mono (M : Module) (S : DepState) (n : CallGraphNode)
    (G : Function) (h : G ∈ S.Fns) : G ∈ (addAllDependencies.visit M S n).Fns := by
  cases n with
  | ofFunction C =>
    rw [addAllDependencies.visit_ofFunction]
    split_ifs
    · exact h
    · exact h
    · exact (DenseSet.mem_insert _ _ _).2 (Or.inr h)
  | CallsExternalNode =>
    rw [addAllDependencies.visit_external]
    exact (mem_addAllIndirectCallDependencies _ _ _).2 (Or.inl h)
  | OtherNode => rw [addAllDependencies.visit_other]; exact h

theorem addAllDependencies.visit_worklist_mono (M : Module) (S : DepState) (n : CallGraphNode)
    (W : Function) (h : W ∈ S.WorkList) : W ∈ (addAllDependencies.visit M S n).WorkList := by
  cases n with
  | ofFunction C =>
    rw [addAllDependencies.visit_ofFunction]
    split_ifs
    · exact h
    · exact h
    · exact List.mem_cons_of_mem _ h
  | CallsExternalNode => rw [addAllDependencies.visit_external]; exact h
  | OtherNode => rw [addAllDependencies.visit_other]; exact h

/-- Where a member of `Fns` after one call record comes from. -/
theorem addAllDependencies.visit_fns_inv (M : Module) (S : DepState) (n : CallGraphNode)
    (G : Function) (h : G ∈ (addAllDependencies.visit M S n).Fns) :
    G ∈ S.Fns
    ∨ (n = CallGraphNode.ofFunction G ∧ G.isDeclaration = false
        ∧ G ∈ (addAllDependencies.visit M S n).WorkList)
    ∨ (n = CallGraphNode.CallsExternalNode ∧ G ∈ M.Functions ∧ canBeIndirectlyCalled G = true) := by
  cases n with
  | ofFunction C =>
    rw [addAllDependencies.visit_ofFunction] at h ⊢
    split_ifs at h ⊢ with h1 h2
    · exact Or.inl h
    · exact Or.inl h
    · rcases (DenseSet.mem_insert _ _ _).1 h with h3 | h3
      · subst h3
        exact Or.inr (Or.inl ⟨rfl, by simpa using h1, List.mem_cons_self _ _⟩)
      · exact Or.inl h3
  | CallsExternalNode =>
    rw [addAllDependencies.visit_external] at h
    rcases (mem_addAllIndirectCallDependencies _ _ _).1 h with h3 | h3
    · exact Or.inl h3
    · exact Or.inr (Or.inr ⟨rfl, h3⟩)
  | OtherNode => rw [addAllDependencies.visit_other] at h; exact Or.inl h

/-- Where a member of `WorkList` after one call record comes from. -/
theorem addAllDependencies.visit_worklist_inv (M : Module) (S : DepState) (n : CallGraphNode)
    (W : Function) (h : W ∈ (addAllDependencies.visit M S n).WorkList) :
    W ∈ S.WorkList
    ∨ (n = CallGraphNode.ofFunction W ∧ ¬ W ∈ S.Fns ∧ W ∈ (addAllDependencies.visit M S n).Fns) := by
  cases n with
  | ofFunction C =>
    rw [addAllDependencies.visit_ofFunction] at h ⊢
    split_ifs at h ⊢ with h1 h2
    · exact Or.inl h
    · exact Or.inl h
    · rcases List.mem_cons.1 h with h3 | h3
      · subst h3
        exact Or.inr ⟨rfl, h2, (DenseSet.mem_insert _ _ _).2 (Or.inl rfl)⟩
      · exact Or.inl h3
  | CallsExternalNode => rw [addAllDependencies.visit_external] at h; exact Or.inl h
  | OtherNode => rw [addAllDependencies.visit_other] at h; exact Or.inl h

theorem addAllDependencies.visit_external_fns (M : Module) (S : DepState) (F : Function)
    (hF : F ∈ M.Functions) (hc : canBeIndirectlyCalled F = true) :
    F ∈ (addAllDependencies.visit M S CallGraphNode.CallsExternalNode).Fns := by
  rw [addAllDependencies.visit_external]
  exact (mem_addAllIndirectCallDependencies _ _ _).2 (Or.inr ⟨hF, hc⟩)

/-! ### All call records of one function -/

theorem addAllDependencies.scan_had_mono (M : Module) (l : List CallGraphNode) (S : DepState)
    (h : S.HadIndirectCall = true) :
    (l.foldl (addAllDependencies.visit M) S).HadIndirectCall = true := by
  induction l generalizing S with
  | nil => exact h
  | cons n l ih => exact ih _ (addAllDependencies.visit_had_mono M S n h)

theorem addAllDependencies.scan_fns_mono (M : Module) (l : List CallGraphNode) (S : DepState)
    (G : Function) (h : G ∈ S.Fns) : G ∈ (l.foldl (addAllDependencies.visit M) S).Fns := by
  induction l generalizing S with
  | nil => exact h
  | cons n l ih => exact ih _ (addAllDependencies.visit_fns_mono M S n G h)

theorem addAllDependencies.scan_worklist_mono (M : Module) (l : List CallGraphNode) (S : DepState)
    (W : Function) (h : W ∈ S.WorkList) :
    W ∈ (l.foldl (addAllDependencies.visit M) S).WorkList := by
  induction l generalizing S with
  | nil => exact h
  | cons n l ih => exact ih _ (addAllDependencies.visit_worklist_mono M S n W h)

theorem addAllDependencies.scan_had_of_mem (M : Module) (l : List CallGraphNode) (S : DepState)
    (h : CallGraphNode.CallsExternalNode ∈ l) :
    (l.foldl (addAllDependencies.visit M) S).HadIndirectCall = true := by
  induction l generalizing S with
  | nil => simp at h
  | cons n l ih =>
    rcases List.mem_cons.1 h with h1 | h1
    · subst h1
      rw [List.foldl_cons]
      apply addAllDependencies.scan_had_mono
      simp [addAllDependencies.visit_external]
    · exact ih _ h1

theorem addAllDependencies.scan_had_inv (M : Module) (l : List CallGraphNode) (S : DepState)
    (h : (l.foldl (addAllDependencies.visit M) S).HadIndirectCall = true) :
    S.HadIndirectCall = true ∨ CallGraphNode.CallsExternalNode ∈ l := by
  induction l generalizing S with
  | nil => exact Or.inl h
  | cons n l ih =>
    rcases ih _ h with h1 | h1
    · rcases addAllDependencies.visit_had_inv M S n h1 with h2 | h2
      · exact Or.inl h2
      · exact Or.inr (h2 ▸ List.mem_cons_self _ _)
    · exact Or.inr (List.mem_cons_of_mem _ h1)

theorem addAllDependencies.scan_external_fns (M : Module) (l : List CallGraphNode) (S : DepState)
    (h : CallGraphNode.CallsExternalNode ∈ l) (F : Function) (hF : F ∈ M.Functions)
    (hc : canBeIndirectlyCalled F = true) :
    F ∈ (l.foldl (addAllDependencies.visit M) S).Fns := by
  induction l generalizing S with
  | nil => simp at h
  | cons n l ih =>
    rcases List.mem_cons.1 h with h1 | h1
    · subst h1
      rw [List.foldl_cons]
      apply addAllDependencies.scan_fns_mono
      exact addAllDependencies.visit_external_fns M S F hF hc
    · exact ih _ h1

theorem addAllDependencies.scan_fns_inv (M : Module) (l : List CallGraphNode) (S : DepState)
    (G : Function) (h : G ∈ (l.foldl (addAllDependencies.visit M) S).Fns) :
    G ∈ S.Fns
    ∨ (CallGraphNode.ofFunction G ∈ l ∧ G.isDeclaration = false
        ∧ G ∈ (l.foldl (addAllDependencies.visit M) S).WorkList)
    ∨ (CallGraphNode.CallsExternalNode ∈ l ∧ G ∈ M.Functions ∧ canBeIndirectlyCalled G = true) := by
  induction l generalizing S with
  | nil => exact Or.inl h
  | cons n l ih =>
    rw [List.foldl_cons] at h ⊢
    rcases ih _ h with h1 | ⟨h1, h2, h3⟩ | ⟨h1, h2, h3⟩
    · rcases addAllDependencies.visit_fns_inv M S n G h1 with h4 | ⟨h4, h5, h6⟩ | ⟨h4, h5, h6⟩
      · exact Or.inl h4
      · exact Or.inr (Or.inl ⟨h4 ▸ List.mem_cons_self _ _, h5,
          addAllDependencies.scan_worklist_mono M l _ G h6⟩)
      · exact Or.inr (Or.inr ⟨h4 ▸ List.mem_cons_self _ _, h5, h6⟩)
    · exact Or.inr (Or.inl ⟨List.mem_cons_of_mem _ h1, h2, h3⟩)
    · exact Or.inr (Or.inr ⟨List.mem_cons_of_mem _ h1, h2, h3⟩)

theorem addAllDependencies.scan_worklist_inv (M : Module) (l : List CallGraphNode) (S : DepState)
    (W : Function) (h : W ∈ (l.foldl (addAllDependencies.visit M) S).WorkList) :
    W ∈ S.WorkList
    ∨ (CallGraphNode.ofFunction W ∈ l ∧ ¬ W ∈ S.Fns
        ∧ W ∈ (l.foldl (addAllDependencies.visit M) S).Fns) := by
  induction l generalizing S with
  | nil => exact Or.inl h
  | cons n l ih =>
    rw [List.foldl_cons] at h ⊢
    rcases ih _ h with h1 | ⟨h1, h2, h3⟩
    · rcases addAllDependencies.visit_worklist_inv M S n W h1 with h4 | ⟨h4, h5, h6⟩
      · exact Or.inl h4
      · exact Or.inr ⟨h4 ▸ List.mem_cons_self _ _, h5,
          addAllDependencies.scan_fns_mono M l _ W h6⟩
    · exact Or.inr ⟨List.mem_cons_of_mem _ h1,
        fun hW => h2 (addAllDependencies.visit_fns_mono M S n W hW), h3⟩

/-! ### The loop -/

/-- A property of the loop variables that every iteration keeps holds of the result, and
the work list of the result is empty. -/
theorem addAllDependencies.loop_invariant (CG : CallGraph) (M : Module) (P : DepState → Prop)
    (hstep : ∀ Cur Rest Fns Had, P ⟨Cur :: Rest, Fns, Had⟩ →
      P ((CG.get Cur).foldl (addAllDependencies.visit M) ⟨Rest, Fns, Had⟩)) :
    ∀ (fuel : Nat) (S R : DepState), P S → addAllDependencies.loop CG M fuel S = some R →
      P R ∧ R.WorkList = [] := by
  intro fuel
  induction fuel with
  | zero =>
    intro S R hP hR
    obtain ⟨WL, Fns, Had⟩ := S
    cases WL with
    | nil =>
      simp only [addAllDependencies.loop, Option.some.injEq] at hR
      subst hR
      exact ⟨hP, rfl⟩
    | cons C Rest => simp [addAllDependencies.loop] at hR
  | succ fuel ih =>
    intro S R hP hR
    obtain ⟨WL, Fns, Had⟩ := S
    cases WL with
    | nil =>
      simp only [addAllDependencies.loop, Option.some.injEq] at hR
      subst hR
      exact ⟨hP, rfl⟩
    | cons C Rest =>
      simp only [addAllDependencies.loop] at hR
      exact ih _ R (hstep C Rest Fns Had hP) hR

/-! ### Termination of the loop -/

theorem CallGraph.get_mem_targets_aux (F C : Function) (l : List (Function × List CallGraphNode))
    (Records : List CallGraphNode) (h : l.lookup F = some Records)
    (hC : CallGraphNode.ofFunction C ∈ Records) :
    C ∈ l.foldr (fun P Acc => P.2.filterMap CallGraphNode.getFunction ++ Acc) [] := by
  induction l with
  | nil => simp at h
  | cons P l ih =>
    obtain ⟨K, Rs⟩ := P
    rw [List.foldr_cons, List.mem_append]
    rw [List.lookup_cons] at h
    cases hk : (F == K) with
    | true =>
      rw [hk] at h
      simp only [Option.some.injEq] at h
      subst h
      left
      exact List.mem_filterMap.2 ⟨_, hC, rfl⟩
    | false =>
      rw [hk] at h
      exact Or.inr (ih h)

theorem CallGraph.get_mem_targets (CG : CallGraph) (F C : Function)
    (hC : CallGraphNode.ofFunction C ∈ CG.get F) : C ∈ CG.targets := by
  unfold CallGraph.get at hC
  cases h : CG.FunctionMap.lookup F with
  | none => rw [h] at hC; simp at hC
  | some Records =>
    rw [h] at hC
    exact CallGraph.get_mem_targets_aux F C _ Records h hC

theorem CallGraph.length_targets_le (CG : CallGraph) : CG.targets.length ≤ CG.numRecords := by
  unfold CallGraph.targets CallGraph.numRecords
  induction CG.FunctionMap with
  | nil => simp
  | cons P l ih =>
    rw [List.foldr_cons, List.length_append, List.map_cons, List.sum_cons]
    have := List.length_filterMap_le CallGraphNode.getFunction P.2
    omega

/-- One call record whose target is among the targets of the graph does not increase the
length of the work list plus the number of targets outside `Fns`. -/
theorem addAllDependencies.visit_measure (CG : CallGraph) (M : Module) (S : DepState)
    (n : CallGraphNode) (hn : ∀ C, n = CallGraphNode.ofFunction C → C ∈ CG.targets) :
    (addAllDependencies.visit M S n).WorkList.length
        + (CG.targets.toFinset.filter (fun F => ¬ F ∈ (addAllDependencies.visit M S n).Fns)).card
      ≤ S.WorkList.length + (CG.targets.toFinset.filter (fun F => ¬ F ∈ S.Fns)).card := by
  cases n with
  | ofFunction C =>
    rw [addAllDependencies.visit_ofFunction]
    split_ifs with h1 h2
    · exact le_refl _
    · exact le_refl _
    · have hlt : (CG.targets.toFinset.filter (fun F => ¬ F ∈ (S.Fns.insert C).1)).card
          < (CG.targets.toFinset.filter (fun F => ¬ F ∈ S.Fns)).card := by
        apply Finset.card_lt_card
        rw [Finset.ssubset_iff_of_subset]
        · refine ⟨C, ?_, ?_⟩
          · simp only [Finset.mem_filter, List.mem_toFinset]
            exact ⟨hn C rfl, h2⟩
          · simp [DenseSet.mem_insert]
        · intro F hF
          simp only [Finset.mem_filter, List.mem_toFinset, DenseSet.mem_insert, not_or] at hF ⊢
          exact ⟨hF.1, hF.2.2⟩
      simp only [List.length_cons]
      omega
  | CallsExternalNode =>
    rw [addAllDependencies.visit_external]
    have hle : (CG.targets.toFinset.filter
        (fun F => ¬ F ∈ addAllIndirectCallDependencies M S.Fns)).card
          ≤ (CG.targets.toFinset.filter (fun F => ¬ F ∈ S.Fns)).card := by
      apply Finset.card_le_card
      intro F hF
      simp only [Finset.mem_filter, List.mem_toFinset, mem_addAllIndirectCallDependencies,
        not_or] at hF ⊢
      exact ⟨hF.1, hF.2.1⟩
    simp only
    omega
  | OtherNode => rw [addAllDependencies.visit_other]

theorem addAllDependencies.scan_measure (CG : CallGraph) (M : Module) (l : List CallGraphNode)
    (S : DepState) (hl : ∀ C, CallGraphNode.ofFunction C ∈ l → C ∈ CG.targets) :
    (l.foldl (addAllDependencies.visit M) S).WorkList.length
        + (CG.targets.toFinset.filter
            (fun F => ¬ F ∈ (l.foldl (addAllDependencies.visit M) S).Fns)).card
      ≤ S.WorkList.length + (CG.targets.toFinset.filter (fun F => ¬ F ∈ S.Fns)).card := by
  induction l generalizing S with
  | nil => exact le_refl _
  | cons n l ih =>
    rw [List.foldl_cons]
    refine le_trans (ih _ (fun C hC => hl C (List.mem_cons_of_mem _ hC))) ?_
    exact addAllDependencies.visit_measure CG M S n
      (fun C hC => hl C (hC ▸ List.mem_cons_self _ _))

/-- The loop ends within as many iterations as the length of the work list plus the number
of targets of the graph that are not yet in `Fns`. -/
theorem addAllDependencies.loop_isSome (CG : CallGraph) (M : Module) :
    ∀ (fuel : Nat) (S : DepState),
      S.WorkList.length + (CG.targets.toFinset.filter (fun F => ¬ F ∈ S.Fns)).card ≤ fuel →
      (addAllDependencies.loop CG M fuel S).isSome = true := by
  intro fuel
  induction fuel with
  | zero =>
    intro S hS
    obtain ⟨WL, Fns, Had⟩ := S
    cases WL with
    | nil => simp [addAllDependencies.loop]
    | cons C Rest => simp at hS
  | succ fuel ih =>
    intro S hS
    obtain ⟨WL, Fns, Had⟩ := S
    cases WL with
    | nil => simp [addAllDependencies.loop]
    | cons C Rest =>
      simp only [addAllDependencies.loop]
      apply ih
      have h := addAllDependencies.scan_measure CG M (CG.get C) ⟨Rest, Fns, Had⟩
        (fun D hD => CallGraph.get_mem_targets CG C D hD)
      simp only [List.length_cons] at hS h ⊢
      omega

/-- The function `addAllDependencies` returns: the loop ends within the iterations it is
given. -/
theorem addAllDependencies_isSome (CG : CallGraph) (M : Module) (Fn : Function) (Fns : DenseSet)
    (Had : Bool) : (addAllDependencies CG M Fn Fns Had).isSome = true := by
  unfold addAllDependencies
  rw [Option.isSome_map']
  apply addAllDependencies.loop_isSome
  have h1 : (CG.targets.toFinset.filter (fun F => ¬ F ∈ Fns)).card ≤ CG.targets.toFinset.card :=
    Finset.card_le_card (Finset.filter_subset _ _)
  have h2 := List.toFinset_card_le CG.targets
  have h3 := CallGraph.length_targets_le CG
  simp only [List.length_cons, List.length_nil]
  omega

theorem KernelWithDependencies.construct_isSome (CG : CallGraph) (M : Module) (FnCosts : CostMap)
    (Fn : Function) : (KernelWithDependencies.construct CG M FnCosts Fn).isSome = true := by
  unfold KernelWithDependencies.construct
  rw [Option.isSome_map']
  exact addAllDependencies_isSome CG M Fn DenseSet.empty false

/-! ### What the traversal establishes -/

theorem addAllDependencies.Inv_step (CG : CallGraph) (M : Module) (K : Function)
    (Cur : Function) (Rest : List Function) (Fns : DenseSet) (Had : Bool)
    (h : addAllDependencies.Inv CG M K ⟨Cur :: Rest, Fns, Had⟩) :
    addAllDependencies.Inv CG M K
      ((CG.get Cur).foldl (addAllDependencies.visit M) ⟨Rest, Fns, Had⟩) := by
  obtain ⟨h1, h2, h3, h4, h5⟩ := h
  simp only at h1 h2 h3 h4 h5
  have old : ∀ D, (D = K ∨ D ∈ Fns) →
      D ∈ ((CG.get Cur).foldl (addAllDependencies.visit M) ⟨Rest, Fns, Had⟩).WorkList
      ∨ (CallGraphNode.CallsExternalNode ∈ CG.get D →
        ((CG.get Cur).foldl (addAllDependencies.visit M) ⟨Rest, Fns, Had⟩).HadIndirectCall = true) := by
    intro D hD
    rcases h1 D hD with hw | hi
    · rcases List.mem_cons.1 hw with hc | hr
      · subst hc
        exact Or.inr (fun hx => addAllDependencies.scan_had_of_mem M _ _ hx)
      · exact Or.inl (addAllDependencies.scan_worklist_mono M _ _ D hr)
    · exact Or.inr (fun hx => addAllDependencies.scan_had_mono M _ _ (hi hx))
  refine ⟨?_, ?_, ?_, ?_, ?_⟩
  · intro D hD
    rcases hD with hK | hF
    · exact old D (Or.inl hK)
    · rcases addAllDependencies.scan_fns_inv M _ _ D hF with ha | ⟨_, _, hb⟩ | ⟨hc, _, _⟩
      · exact old D (Or.inr ha)
      · exact Or.inl hb
      · exact Or.inr (fun _ => addAllDependencies.scan_had_of_mem M _ _ hc)
  · intro hH
    rcases addAllDependencies.scan_had_inv M _ _ hH with ha | hb
    · rcases h2 ha with hk | ⟨D, hD, hx⟩
      · exact Or.inl hk
      · exact Or.inr ⟨D, addAllDependencies.scan_fns_mono M _ _ D hD, hx⟩
    · rcases h3 Cur (List.mem_cons_self _ _) with hk | hf
      · subst hk; exact Or.inl hb
      · exact Or.inr ⟨Cur, addAllDependencies.scan_fns_mono M _ _ Cur hf, hb⟩
  · intro W hW
    rcases addAllDependencies.scan_worklist_inv M _ _ W hW with ha | ⟨_, _, hb⟩
    · rcases h3 W (List.mem_cons_of_mem _ ha) with hk | hf
      · exact Or.inl hk
      · exact Or.inr (addAllDependencies.scan_fns_mono M _ _ W hf)
    · exact Or.inr hb
  · intro hH F hF hc
    rcases addAllDependencies.scan_had_inv M _ _ hH with ha | hb
    · exact addAllDependencies.scan_fns_mono M _ _ F (h4 ha F hF hc)
    · exact addAllDependencies.scan_external_fns M _ _ hb F hF hc
  · intro D hD
    rcases addAllDependencies.scan_fns_inv M _ _ D hD with ha | ⟨_, hb, _⟩ | ⟨_, _, hc⟩
    · exact h5 D ha
    · exact Or.inl hb
    · exact Or.inr hc

theorem addAllDependencies.Inv_initial (CG : CallGraph) (M : Module) (K : Function) :
    addAllDependencies.Inv CG M K ⟨[K], DenseSet.empty, false⟩ := by
  refine ⟨?_, ?_, ?_, ?_, ?_⟩
  · intro D hD
    rcases hD with hK | hF
    · exact Or.inl (by simp [hK])
    · exact absurd hF (DenseSet.not_mem_empty D)
  · intro h; simp at h
  · intro W hW; left; simpa using hW
  · intro h; simp at h
  · intro D hD; exact absurd hD (DenseSet.not_mem_empty D)

/-- The result of `addAllDependencies` started with an empty set and a cleared flag. -/
theorem addAllDependencies_spec (CG : CallGraph) (M : Module) (K : Function)
    (R : DenseSet × Bool) (h : addAllDependencies CG M K DenseSet.empty false = some R) :
    (R.2 = true ↔ (CallGraphNode.CallsExternalNode ∈ CG.get K
        ∨ ∃ D, D ∈ R.1 ∧ CallGraphNode.CallsExternalNode ∈ CG.get D))
    ∧ (R.2 = true → ∀ F, F ∈ M.Functions → canBeIndirectlyCalled F = true → F ∈ R.1)
    ∧ (∀ D, D ∈ R.1 → D.isDeclaration = false) := by
  unfold addAllDependencies at h
  rw [Option.map_eq_some'] at h
  obtain ⟨S, hS, hR⟩ := h
  subst hR
  obtain ⟨⟨h1, h2, _, h4, h5⟩, hW⟩ := addAllDependencies.loop_invariant CG M
    (addAllDependencies.Inv CG M K) (addAllDependencies.Inv_step CG M K) _ _ S
    (addAllDependencies.Inv_initial CG M K) hS
  refine ⟨⟨h2, ?_⟩, h4, ?_⟩
  · rintro (hk | ⟨D, hD, hx⟩)
    · rcases h1 K (Or.inl rfl) with hw | hi
      · rw [hW] at hw; simp at hw
      · exact hi hk
    · rcases h1 D (Or.inr hD) with hw | hi
      · rw [hW] at hw; simp at hw
      · exact hi hx
  · intro D hD
    rcases h5 D hD with hd | hc
    · exact hd
    · unfold canBeIndirectlyCalled at hc
      by_cases hdecl : D.isDeclaration = true
      · simp [hdecl] at hc
      · simpa using hdecl

/-! ## Lists: indexing, sorting, the last element -/

theorem List.getD_set_eq {α : Type} (l : List α) (i j : Nat) (v d : α) :
    (l.set i v).getD j d = if i = j ∧ i < l.length then v else l.getD j d := by
  induction l generalizing i j with
  | nil => simp
  | cons a l ih =>
    cases i with
    | zero =>
      cases j with
      | zero => simp
      | succ j => simp
    | succ i =>
      cases j with
      | zero => simp
      | succ j =>
        have := ih i j
        simp only [List.set_cons_succ, List.getD_cons_succ, List.length_cons] at this ⊢
        rw [this]
        simp

theorem List.getD_mem_or_default {α : Type} (l : List α) (i : Nat) (d : α) (h : i < l.length) :
    l.getD i d ∈ l := by
  induction l generalizing i with
  | nil => simp at h
  | cons a l ih =>
    cases i with
    | zero => simp
    | succ i =>
      simp only [List.length_cons, Nat.add_lt_add_iff_right] at h
      have := ih i h
      simp only [List.getD_cons_succ]
      exact List.mem_cons_of_mem _ this

theorem List.exists_getD_of_mem {α : Type} (l : List α) (a d : α) (h : a ∈ l) :
    ∃ i, i < l.length ∧ l.getD i d = a := by
  induction l with
  | nil => simp at h
  | cons b l ih =>
    rcases List.mem_cons.1 h with h1 | h1
    · exact ⟨0, by simp, by simp [h1]⟩
    · obtain ⟨i, hi, he⟩ := ih h1
      exact ⟨i + 1, by simpa using hi, by simpa using he⟩

theorem List.getLastD_mem_of_ne_nil {α : Type} (l : List α) (d : α) (h : l ≠ []) :
    l.getLastD d ∈ l := by
  cases l with
  | nil => exact absurd rfl h
  | cons a l =>
    rw [List.getLastD_cons]
    exact List.getLastD_mem_cons l a

/-- In a list whose elements are pairwise related, every element is the last one or is
related to it. -/
theorem List.Pairwise.rel_getLastD {α : Type} {R : α → α → Prop} (l : List α) (d : α)
    (h : l.Pairwise R) (x : α) (hx : x ∈ l) : x = l.getLastD d ∨ R x (l.getLastD d) := by
  induction l generalizing d with
  | nil => simp at hx
  | cons a l ih =>
    rw [List.getLastD_cons]
    rw [List.pairwise_cons] at h
    cases l with
    | nil =>
      simp only [List.mem_singleton] at hx
      exact Or.inl (by simp [hx])
    | cons b l2 =>
      rcases List.mem_cons.1 hx with h1 | h1
      · subst h1
        exact Or.inr (h.1 _ (List.getLastD_mem_of_ne_nil _ _ (by simp)))
      · exact ih x h.2 h1

/-- Sorting by insertion with an asymmetric and transitive comparison leaves no element
before one it should follow. -/
theorem List.pairwise_insertionSort {α : Type} (r : α → α → Prop) [DecidableRel r]
    (hasymm : ∀ a b, r a b → ¬ r b a) (htrans : ∀ a b c, r a b → r b c → r a c) (l : List α) :
    (l.insertionSort r).Pairwise (fun a b => ¬ r b a) := by
  have hins : ∀ (a : α) (l : List α), l.Pairwise (fun a b => ¬ r b a) →
      (l.orderedInsert r a).Pairwise (fun a b => ¬ r b a) := by
    intro a l
    induction l with
    | nil => intro _; simp
    | cons b l ih =>
      intro hl
      rw [List.pairwise_cons] at hl
      simp only [List.orderedInsert]
      split_ifs with hab
      · rw [List.pairwise_cons]
        refine ⟨?_, List.pairwise_cons.2 hl⟩
        intro x hx
        rcases List.mem_cons.1 hx with h1 | h1
        · subst h1; exact hasymm _ _ hab
        · exact fun hxa => hl.1 x h1 (htrans _ _ _ hxa hab)
      · rw [List.pairwise_cons]
        refine ⟨?_, ih hl.2⟩
        intro x hx
        rcases (List.mem_orderedInsert r).1 hx with h1 | h1
        · subst h1; exact hab
        · exact hl.1 x h1
  induction l with
  | nil => simp
  | cons a l ih =>
    simp only [List.insertionSort]
    exact hins a _ ih

theorem ComparePartitions_asymm (a b : Nat × Int)
    (h : ComparePartitions a b = true) : ¬ ComparePartitions b a = true := by
  obtain ⟨a1, a2⟩ := a
  obtain ⟨b1, b2⟩ := b
  unfold ComparePartitions at h ⊢
  simp only at h ⊢
  split_ifs at h ⊢ <;> simp only [decide_eq_true_eq, gt_iff_lt, CostType, PartitionID] at * <;> omega

theorem ComparePartitions_trans (a b c : Nat × Int)
    (hab : ComparePartitions a b = true) (hbc : ComparePartitions b c = true) :
    ComparePartitions a c = true := by
  obtain ⟨a1, a2⟩ := a
  obtain ⟨b1, b2⟩ := b
  obtain ⟨c1, c2⟩ := c
  unfold ComparePartitions at hab hbc ⊢
  simp only at hab hbc ⊢
  split_ifs at hab hbc ⊢ <;> simp only [decide_eq_true_eq, gt_iff_lt, CostType, PartitionID] at * <;> omega

/-- What `ComparePartitions b a = false` says of two queue entries. -/
theorem ComparePartitions_eq_false (a b : Nat × Int)
    (h : ComparePartitions b a = false) : b.2 ≤ a.2 ∧ (b.2 = a.2 → a.1 ≤ b.1) := by
  obtain ⟨a1, a2⟩ := a
  obtain ⟨b1, b2⟩ := b
  unfold ComparePartitions at h
  simp only at h ⊢
  split_ifs at h <;> simp only [decide_eq_false_iff_not, gt_iff_lt, not_lt, CostType, PartitionID] at * <;>
    constructor <;> intros <;> omega

/-! ## Assigning a kernel to a partition -/

theorem KernelWithDependencies.mem_addTo (K : KernelWithDependencies) (P : DenseSet)
    (G : Function) : G ∈ K.addTo P ↔ G = K.Fn ∨ G ∈ P ∨ G ∈ K.Dependencies := by
  unfold KernelWithDependencies.addTo
  rw [DenseSet.mem_insertRange, DenseSet.mem_insert]
  simp only [DenseSet.mem_def]
  tauto

theorem PartitioningState.part_set (S : PartitioningState) (PID J : PartitionID) (P : DenseSet)
    (Q : List (PartitionID × CostType)) :
    PartitioningState.part ⟨S.Partitions.set PID P, Q⟩ J
      = if PID = J ∧ PID < S.Partitions.length then P else S.part J := by
  unfold PartitioningState.part
  exact List.getD_set_eq _ _ _ _ _

theorem AssignToPartition_part (FnCosts : CostMap) (PID : PartitionID)
    (K : KernelWithDependencies) (S : PartitioningState) (J : PartitionID) :
    (AssignToPartition FnCosts PID K S).part J
      = if PID = J ∧ PID < S.Partitions.length then K.addTo (S.part PID) else S.part J := by
  unfold AssignToPartition
  exact PartitioningState.part_set S PID J _ _

theorem AssignToPartition_length (FnCosts : CostMap) (PID : PartitionID)
    (K : KernelWithDependencies) (S : PartitioningState) :
    (AssignToPartition FnCosts PID K S).Partitions.length = S.Partitions.length := by
  unfold AssignToPartition
  simp

theorem AssignToPartition_queue (FnCosts : CostMap) (PID : PartitionID)
    (K : KernelWithDependencies) (S : PartitioningState) :
    (AssignToPartition FnCosts PID K S).BalancingQueue
      = (S.BalancingQueue.map (fun E =>
          if E.1 = PID then
            (E.1, partitionCost FnCosts ((AssignToPartition FnCosts PID K S).part PID))
          else E)).insertionSort (fun a b => ComparePartitions a b = true) := by
  unfold AssignToPartition PartitioningState.part
  rfl

theorem AssignToPartition_wellFormed (FnCosts : CostMap) (NumParts : Nat) (PID : PartitionID)
    (K : KernelWithDependencies) (S : PartitioningState)
    (h : S.WellFormed FnCosts NumParts) :
    (AssignToPartition FnCosts PID K S).WellFormed FnCosts NumParts := by
  obtain ⟨h1, h2, h3, _⟩ := h
  refine ⟨?_, ?_, ?_, ?_⟩
  · rw [AssignToPartition_length, h1]
  · rw [AssignToPartition_queue]
    refine ((List.perm_insertionSort _ _).map Prod.fst).trans ?_
    rw [List.map_map]
    have : (Prod.fst ∘ fun E : PartitionID × CostType =>
        if E.1 = PID then
          (E.1, partitionCost FnCosts ((AssignToPartition FnCosts PID K S).part PID))
        else E) = Prod.fst := by
      funext E
      simp only [Function.comp]
      split_ifs <;> rfl
    rw [this]
    exact h2
  · intro E hE
    rw [AssignToPartition_queue, List.mem_insertionSort, List.mem_map] at hE
    obtain ⟨E0, hE0, hEq⟩ := hE
    by_cases hp : E0.1 = PID
    · rw [if_pos hp] at hEq
      subst hEq
      simp only
      rw [hp]
    · rw [if_neg hp] at hEq
      subst hEq
      rw [h3 E0 hE0, AssignToPartition_part]
      have : ¬ (PID = E0.1 ∧ PID < S.Partitions.length) := fun hc => hp hc.1.symm
      rw [if_neg this]
  · rw [AssignToPartition_queue]
    have := List.pairwise_insertionSort (fun a b : PartitionID × CostType => ComparePartitions a b = true)
      ComparePartitions_asymm ComparePartitions_trans
      (S.BalancingQueue.map (fun E =>
          if E.1 = PID then
            (E.1, partitionCost FnCosts ((AssignToPartition FnCosts PID K S).part PID))
          else E))
    refine this.imp ?_
    intro a b hab
    simpa using hab

theorem doPartitioning.initialState_wellFormed (FnCosts : CostMap) (NumParts : Nat) :
    (doPartitioning.initialState NumParts).WellFormed FnCosts NumParts := by
  unfold doPartitioning.initialState
  refine ⟨by simp, ?_, ?_, ?_⟩
  · simp only [List.map_map]
    have : (Prod.fst ∘ fun I : Nat => (I, (0 : CostType))) = id := by
      funext I; rfl
    rw [this, List.map_id]
  · intro E hE
    simp only [List.mem_map, List.mem_range] at hE
    obtain ⟨I, hI, rfl⟩ := hE
    simp only [PartitioningState.part]
    have : (List.replicate NumParts DenseSet.empty).getD I DenseSet.empty = DenseSet.empty := by
      have hm := List.getD_mem_or_default (List.replicate NumParts DenseSet.empty) I DenseSet.empty
        (by simpa using hI)
      exact List.eq_of_mem_replicate hm
    rw [this]
    simp [partitionCost, DenseSet.empty]
  · rw [List.pairwise_map]
    have := List.pairwise_lt_range NumParts
    refine this.imp ?_
    intro a b hab
    simp only [ComparePartitions, if_true, decide_eq_false_iff_not, not_lt]
    exact Nat.le_of_lt hab

theorem doPartitioning.initialState_part (NumParts : Nat) (J : PartitionID) :
    (doPartitioning.initialState NumParts).part J = DenseSet.empty := by
  unfold doPartitioning.initialState PartitioningState.part
  by_cases hJ : J < NumParts
  · exact List.eq_of_mem_replicate
      (List.getD_mem_or_default (List.replicate NumParts DenseSet.empty) J DenseSet.empty
        (by simpa using hJ))
  · simp only
    rw [List.getD_eq_default]
    simpa using hJ

/-! ## The large kernel rule -/

theorem doPartitioning.mergeLarge_eq (Opts : SplitOptions) (FnCosts : CostMap)
    (K : KernelWithDependencies) (S : PartitioningState) (b : Bool) (PID : PartitionID) :
    doPartitioning.mergeLarge Opts FnCosts K (S, b) PID
      = if calculateOverlap K.Dependencies (S.part PID) > Opts.LargeKernelOverlapForMerge then
          (AssignToPartition FnCosts PID K S, true)
        else (S, b) := rfl

/-- The loop over the partitions `l` (distinct indices): each partition whose overlap with
the dependencies of `K`, taken before the loop, exceeds the option receives `K`; the others
are unchanged; `Assigned` is set when some partition received `K`; when none did the state
is unchanged. -/
theorem doPartitioning.mergeLarge_foldl (Opts : SplitOptions) (FnCosts : CostMap)
    (K : KernelWithDependencies) (l : List PartitionID) (hl : l.Nodup) (S : PartitioningState)
    (hlt : ∀ J, J ∈ l → J < S.Partitions.length) (b : Bool) :
    (∀ J, ((l.foldl (doPartitioning.mergeLarge Opts FnCosts K) (S, b)).1).part J
        = if J ∈ l ∧ calculateOverlap K.Dependencies (S.part J) > Opts.LargeKernelOverlapForMerge
          then K.addTo (S.part J) else S.part J)
    ∧ ((l.foldl (doPartitioning.mergeLarge Opts FnCosts K) (S, b)).2 = true
        ↔ b = true ∨ ∃ J, J ∈ l ∧
            calculateOverlap K.Dependencies (S.part J) > Opts.LargeKernelOverlapForMerge)
    ∧ ((l.foldl (doPartitioning.mergeLarge Opts FnCosts K) (S, b)).1.Partitions.length
        = S.Partitions.length)
    ∧ ((¬ ∃ J, J ∈ l ∧
            calculateOverlap K.Dependencies (S.part J) > Opts.LargeKernelOverlapForMerge) →
        (l.foldl (doPartitioning.mergeLarge Opts FnCosts K) (S, b)).1 = S) := by
  induction l generalizing S b with
  | nil => simp
  | cons PID l ih =>
    have hPl : PID ∉ l := (List.nodup_cons.1 hl).1
    have hl2 : l.Nodup := (List.nodup_cons.1 hl).2
    have hPlt : PID < S.Partitions.length := hlt PID (List.mem_cons_self _ _)
    rw [List.foldl_cons, doPartitioning.mergeLarge_eq]
    by_cases hov : calculateOverlap K.Dependencies (S.part PID) > Opts.LargeKernelOverlapForMerge
    · rw [if_pos hov]
      have hlen := AssignToPartition_length FnCosts PID K S
      obtain ⟨i1, i2, i3, _⟩ := ih hl2 (AssignToPartition FnCosts PID K S)
        (fun J hJ => by rw [hlen]; exact hlt J (List.mem_cons_of_mem _ hJ)) true
      have hother : ∀ J, J ≠ PID → (AssignToPartition FnCosts PID K S).part J = S.part J := by
        intro J hJ
        rw [AssignToPartition_part, if_neg]
        exact fun hc => hJ hc.1.symm
      refine ⟨?_, ?_, ?_, ?_⟩
      · intro J
        rw [i1 J]
        by_cases hJ : J = PID
        · subst hJ
          have h1 : ¬ (J ∈ l ∧ calculateOverlap K.Dependencies
              ((AssignToPartition FnCosts J K S).part J) > Opts.LargeKernelOverlapForMerge) :=
            fun hc => hPl hc.1
          rw [if_neg h1, if_pos ⟨List.mem_cons_self _ _, hov⟩, AssignToPartition_part,
            if_pos ⟨rfl, hPlt⟩]
        · rw [hother J hJ]
          simp only [List.mem_cons, hJ, false_or]
      · rw [i2]
        simp only [true_or, true_iff]
        exact Or.inr ⟨PID, List.mem_cons_self _ _, hov⟩
      · rw [i3, hlen]
      · intro hno
        exact absurd ⟨PID, List.mem_cons_self _ _, hov⟩ hno
    · rw [if_neg hov]
      obtain ⟨i1, i2, i3, i4⟩ := ih hl2 S (fun J hJ => hlt J (List.mem_cons_of_mem _ hJ)) b
      refine ⟨?_, ?_, i3, ?_⟩
      · intro J
        rw [i1 J]
        by_cases hJ : J = PID
        · subst hJ
          rw [if_neg (fun hc => hPl hc.1), if_neg (fun hc => hov hc.2)]
        · simp only [List.mem_cons, hJ, false_or]
      · rw [i2]
        constructor
        · rintro (h | ⟨J, hJ, hJo⟩)
          · exact Or.inl h
          · exact Or.inr ⟨J, List.mem_cons_of_mem _ hJ, hJo⟩
        · rintro (h | ⟨J, hJ, hJo⟩)
          · exact Or.inl h
          · rcases List.mem_cons.1 hJ with h1 | h1
            · subst h1; exact absurd hJo hov
            · exact Or.inr ⟨J, h1, hJo⟩
      · intro hno
        exact i4 (fun ⟨J, hJ, hJo⟩ => hno ⟨J, List.mem_cons_of_mem _ hJ, hJo⟩)

theorem doPartitioning.mergeLarge_foldl_wellFormed (Opts : SplitOptions) (FnCosts : CostMap)
    (NumParts : Nat) (K : KernelWithDependencies) (l : List PartitionID) (S : PartitioningState)
    (b : Bool) (h : S.WellFormed FnCosts NumParts) :
    ((l.foldl (doPartitioning.mergeLarge Opts FnCosts K) (S, b)).1).WellFormed FnCosts NumParts := by
  induction l generalizing S b with
  | nil => exact h
  | cons PID l ih =>
    rw [List.foldl_cons, doPartitioning.mergeLarge_eq]
    split_ifs
    · exact ih _ _ (AssignToPartition_wellFormed FnCosts NumParts PID K S h)
    · exact ih _ _ h

/-- The large kernel branch, for a large kernel. -/
theorem doPartitioning.tryMerge_large (Opts : SplitOptions) (FnCosts : CostMap)
    (Threshold : CostType) (S : PartitioningState) (K : KernelWithDependencies)
    (hL : K.isLarge Threshold = true) :
    (∀ J, ((doPartitioning.tryMerge Opts FnCosts Threshold S K).1).part J
        = if J < S.Partitions.length
            ∧ calculateOverlap K.Dependencies (S.part J) > Opts.LargeKernelOverlapForMerge
          then K.addTo (S.part J) else S.part J)
    ∧ ((doPartitioning.tryMerge Opts FnCosts Threshold S K).2 = true
        ↔ ∃ J, J < S.Partitions.length ∧
            calculateOverlap K.Dependencies (S.part J) > Opts.LargeKernelOverlapForMerge)
    ∧ ((doPartitioning.tryMerge Opts FnCosts Threshold S K).2 = false →
        (doPartitioning.tryMerge Opts FnCosts Threshold S K).1 = S) := by
  unfold doPartitioning.tryMerge
  rw [if_pos hL]
  obtain ⟨i1, i2, _, i4⟩ := doPartitioning.mergeLarge_foldl Opts FnCosts K
    (List.range S.Partitions.length) (List.nodup_range _) S
    (fun J hJ => List.mem_range.1 hJ) false
  refine ⟨?_, ?_, ?_⟩
  · intro J
    rw [i1 J]
    simp only [List.mem_range]
  · rw [i2]
    simp only [List.mem_range, Bool.false_eq_true, false_or]
  · intro hf
    apply i4
    intro hex
    have := i2.2 (Or.inr hex)
    rw [hf] at this
    exact absurd this (by simp)

theorem doPartitioning.tryMerge_not_large (Opts : SplitOptions) (FnCosts : CostMap)
    (Threshold : CostType) (S : PartitioningState) (K : KernelWithDependencies)
    (hL : K.isLarge Threshold = false) :
    doPartitioning.tryMerge Opts FnCosts Threshold S K = (S, false) := by
  unfold doPartitioning.tryMerge
  rw [hL]
  simp

theorem doPartitioning.tryMerge_unassigned (Opts : SplitOptions) (FnCosts : CostMap)
    (Threshold : CostType) (S : PartitioningState) (K : KernelWithDependencies)
    (h : (doPartitioning.tryMerge Opts FnCosts Threshold S K).2 = false) :
    (doPartitioning.tryMerge Opts FnCosts Threshold S K).1 = S := by
  cases hL : K.isLarge Threshold with
  | true => exact (doPartitioning.tryMerge_large Opts FnCosts Threshold S K hL).2.2 h
  | false => rw [doPartitioning.tryMerge_not_large Opts FnCosts Threshold S K hL]

theorem doPartitioning.tryMerge_wellFormed (Opts : SplitOptions) (FnCosts : CostMap)
    (NumParts : Nat) (Threshold : CostType) (S : PartitioningState) (K : KernelWithDependencies)
    (h : S.WellFormed FnCosts NumParts) :
    ((doPartitioning.tryMerge Opts FnCosts Threshold S K).1).WellFormed FnCosts NumParts := by
  unfold doPartitioning.tryMerge
  split_ifs
  · exact doPartitioning.mergeLarge_foldl_wellFormed Opts FnCosts NumParts K _ S false h
  · exact h

/-- The parts after the large kernel branch, for any kernel: each part is unchanged or has
received `K`, and when `Assigned` is set some part has received `K`. -/
theorem doPartitioning.tryMerge_part (Opts : SplitOptions) (FnCosts : CostMap)
    (Threshold : CostType) (S : PartitioningState) (K : KernelWithDependencies) :
    (∀ J, ((doPartitioning.tryMerge Opts FnCosts Threshold S K).1).part J = S.part J
        ∨ ((doPartitioning.tryMerge Opts FnCosts Threshold S K).1).part J = K.addTo (S.part J))
    ∧ ((doPartitioning.tryMerge Opts FnCosts Threshold S K).2 = true →
        ∃ J, J < S.Partitions.length ∧
          ((doPartitioning.tryMerge Opts FnCosts Threshold S K).1).part J = K.addTo (S.part J))
    ∧ (doPartitioning.tryMerge Opts FnCosts Threshold S K).1.Partitions.length
        = S.Partitions.length := by
  cases hL : K.isLarge Threshold with
  | false =>
    rw [doPartitioning.tryMerge_not_large Opts FnCosts Threshold S K hL]
    exact ⟨fun J => Or.inl rfl, fun h => absurd h (by simp), rfl⟩
  | true =>
    obtain ⟨i1, i2, _⟩ := doPartitioning.tryMerge_large Opts FnCosts Threshold S K hL
    refine ⟨?_, ?_, ?_⟩
    · intro J
      rw [i1 J]
      split_ifs
      · exact Or.inr rfl
      · exact Or.inl rfl
    · intro h
      obtain ⟨J, hJ, hov⟩ := i2.1 h
      exact ⟨J, hJ, by rw [i1 J, if_pos ⟨hJ, hov⟩]⟩
    · unfold doPartitioning.tryMerge
      rw [if_pos hL]
      exact (doPartitioning.mergeLarge_foldl Opts FnCosts K
        (List.range S.Partitions.length) (List.nodup_range _) S
        (fun J hJ => List.mem_range.1 hJ) false).2.2.1

/-! ## One kernel of the work list -/

theorem doPartitioning.processKernel_flagged (Opts : SplitOptions) (FnCosts : CostMap)
    (Threshold : CostType) (S : PartitioningState) (K : KernelWithDependencies)
    (h : K.HasIndirectCall = true ∨ K.HasNonDuplicatableDependecy = true) :
    doPartitioning.processKernel Opts FnCosts Threshold S K = AssignToPartition FnCosts 0 K S := by
  unfold doPartitioning.processKernel
  rcases h with h | h
  · rw [if_pos h]
  · by_cases h1 : K.HasIndirectCall = true
    · rw [if_pos h1]
    · rw [if_neg h1, if_pos h]

theorem doPartitioning.processKernel_unflagged (Opts : SplitOptions) (FnCosts : CostMap)
    (Threshold : CostType) (S : PartitioningState) (K : KernelWithDependencies)
    (h1 : K.HasIndirectCall = false) (h2 : K.HasNonDuplicatableDependecy = false) :
    doPartitioning.processKernel Opts FnCosts Threshold S K
      = if (doPartitioning.tryMerge Opts FnCosts Threshold S K).2 = true then
          (doPartitioning.tryMerge Opts FnCosts Threshold S K).1
        else AssignToPartition FnCosts (S.BalancingQueue.getLastD (0, 0)).1 K S := by
  unfold doPartitioning.processKernel
  rw [h1, h2]
  simp only [Bool.false_eq_true, if_false]
  by_cases h : (doPartitioning.tryMerge Opts FnCosts Threshold S K).2 = true
  · rw [if_pos h, if_pos h]
  · rw [if_neg h, if_neg h]
    have hf : (doPartitioning.tryMerge Opts FnCosts Threshold S K).2 = false := by
      simpa using h
    rw [doPartitioning.tryMerge_unassigned Opts FnCosts Threshold S K hf]

/-- The three ways a kernel is handled. -/
theorem doPartitioning.processKernel_cases (Opts : SplitOptions) (FnCosts : CostMap)
    (Threshold : CostType) (S : PartitioningState) (K : KernelWithDependencies) :
    doPartitioning.processKernel Opts FnCosts Threshold S K = AssignToPartition FnCosts 0 K S
    ∨ ((doPartitioning.tryMerge Opts FnCosts Threshold S K).2 = true ∧
        doPartitioning.processKernel Opts FnCosts Threshold S K
          = (doPartitioning.tryMerge Opts FnCosts Threshold S K).1)
    ∨ doPartitioning.processKernel Opts FnCosts Threshold S K
        = AssignToPartition FnCosts (S.BalancingQueue.getLastD (0, 0)).1 K S := by
  by_cases h1 : K.HasIndirectCall = true
  · exact Or.inl (doPartitioning.processKernel_flagged Opts FnCosts Threshold S K (Or.inl h1))
  · by_cases h2 : K.HasNonDuplicatableDependecy = true
    · exact Or.inl (doPartitioning.processKernel_flagged Opts FnCosts Threshold S K (Or.inr h2))
    · have e := doPartitioning.processKernel_unflagged Opts FnCosts Threshold S K
        (by simpa using h1) (by simpa using h2)
      by_cases h : (doPartitioning.tryMerge Opts FnCosts Threshold S K).2 = true
      · rw [if_pos h] at e
        exact Or.inr (Or.inl ⟨h, e⟩)
      · rw [if_neg h] at e
        exact Or.inr (Or.inr e)

theorem doPartitioning.processKernel_wellFormed (Opts : SplitOptions) (FnCosts : CostMap)
    (NumParts : Nat) (Threshold : CostType) (S : PartitioningState) (K : KernelWithDependencies)
    (h : S.WellFormed FnCosts NumParts) :
    (doPartitioning.processKernel Opts FnCosts Threshold S K).WellFormed FnCosts NumParts := by
  rcases doPartitioning.processKernel_cases Opts FnCosts Threshold S K with e | ⟨_, e⟩ | e
  · rw [e]; exact AssignToPartition_wellFormed FnCosts NumParts 0 K S h
  · rw [e]; exact doPartitioning.tryMerge_wellFormed Opts FnCosts NumParts Threshold S K h
  · rw [e]; exact AssignToPartition_wellFormed FnCosts NumParts _ K S h

/-- Each part after a kernel is the part before it, or the part before it with the kernel
added. -/
theorem doPartitioning.processKernel_part (Opts : SplitOptions) (FnCosts : CostMap)
    (Threshold : CostType) (S : PartitioningState) (K : KernelWithDependencies) (J : PartitionID) :
    (doPartitioning.processKernel Opts FnCosts Threshold S K).part J = S.part J
    ∨ (doPartitioning.processKernel Opts FnCosts Threshold S K).part J = K.addTo (S.part J) := by
  have hA : ∀ PID, (AssignToPartition FnCosts PID K S).part J = S.part J
      ∨ (AssignToPartition FnCosts PID K S).part J = K.addTo (S.part J) := by
    intro PID
    rw [AssignToPartition_part]
    split_ifs with hc
    · rw [hc.1]; exact Or.inr rfl
    · exact Or.inl rfl
  rcases doPartitioning.processKernel_cases Opts FnCosts Threshold S K with e | ⟨_, e⟩ | e
  · rw [e]; exact hA 0
  · rw [e]; exact (doPartitioning.tryMerge_part Opts FnCosts Threshold S K).1 J
  · rw [e]; exact hA _

theorem doPartitioning.processKernel_part_mono (Opts : SplitOptions) (FnCosts : CostMap)
    (Threshold : CostType) (S : PartitioningState) (K : KernelWithDependencies) (J : PartitionID)
    (G : Function) (h : G ∈ S.part J) :
    G ∈ (doPartitioning.processKernel Opts FnCosts Threshold S K).part J := by
  rcases doPartitioning.processKernel_part Opts FnCosts Threshold S K J with e | e
  · rw [e]; exact h
  · rw [e]; exact (KernelWithDependencies.mem_addTo K _ G).2 (Or.inr (Or.inl h))

/-- The id at the back of the queue of a well-formed state is the id of a partition. -/
theorem PartitioningState.WellFormed.back_lt (FnCosts : CostMap) (NumParts : Nat)
    (S : PartitioningState) (h : S.WellFormed FnCosts NumParts) (hN : 1 ≤ NumParts) :
    S.BalancingQueue.getLastD (0, 0) ∈ S.BalancingQueue
    ∧ (S.BalancingQueue.getLastD (0, 0)).1 < NumParts := by
  obtain ⟨_, h2, _, _⟩ := h
  have hne : S.BalancingQueue ≠ [] := by
    intro he
    have := h2.length_eq
    rw [he] at this
    simp at this
    omega
  have hmem := List.getLastD_mem_of_ne_nil S.BalancingQueue (0, 0) hne
  refine ⟨hmem, ?_⟩
  have : (S.BalancingQueue.getLastD (0, 0)).1 ∈ S.BalancingQueue.map Prod.fst :=
    List.mem_map_of_mem _ hmem
  exact List.mem_range.1 (h2.mem_iff.1 this)

/-- Every kernel is added to some partition. -/
theorem doPartitioning.processKernel_assigned (Opts : SplitOptions) (FnCosts : CostMap)
    (NumParts : Nat) (Threshold : CostType) (S : PartitioningState) (K : KernelWithDependencies)
    (h : S.WellFormed FnCosts NumParts) (hN : 1 ≤ NumParts) :
    ∃ J, J < NumParts ∧
      (doPartitioning.processKernel Opts FnCosts Threshold S K).part J = K.addTo (S.part J) := by
  have hlen : S.Partitions.length = NumParts := h.1
  have hA : ∀ PID, PID < NumParts →
      (AssignToPartition FnCosts PID K S).part PID = K.addTo (S.part PID) := by
    intro PID hP
    rw [AssignToPartition_part, if_pos ⟨rfl, by rw [hlen]; exact hP⟩]
  rcases doPartitioning.processKernel_cases Opts FnCosts Threshold S K with e | ⟨ha, e⟩ | e
  · exact ⟨0, hN, by rw [e]; exact hA 0 hN⟩
  · obtain ⟨J, hJ, hp⟩ := (doPartitioning.tryMerge_part Opts FnCosts Threshold S K).2.1 ha
    exact ⟨J, by rw [← hlen]; exact hJ, by rw [e]; exact hp⟩
  · have hb := (PartitioningState.WellFormed.back_lt FnCosts NumParts S h hN).2
    exact ⟨_, hb, by rw [e]; exact hA _ hb⟩

/-! ## The loop over the work list -/

theorem doPartitioning.foldl_wellFormed (Opts : SplitOptions) (FnCosts : CostMap)
    (NumParts : Nat) (Threshold : CostType) (WorkList : List KernelWithDependencies)
    (S : PartitioningState) (h : S.WellFormed FnCosts NumParts) :
    (WorkList.foldl (doPartitioning.processKernel Opts FnCosts Threshold) S).WellFormed
      FnCosts NumParts := by
  induction WorkList generalizing S with
  | nil => exact h
  | cons K l ih =>
    exact ih _ (doPartitioning.processKernel_wellFormed Opts FnCosts NumParts Threshold S K h)

theorem doPartitioning.foldl_part_mono (Opts : SplitOptions) (FnCosts : CostMap)
    (Threshold : CostType) (WorkList : List KernelWithDependencies)
    (S : PartitioningState) (J : PartitionID) (G : Function) (h : G ∈ S.part J) :
    G ∈ (WorkList.foldl (doPartitioning.processKernel Opts FnCosts Threshold) S).part J := by
  induction WorkList generalizing S with
  | nil => exact h
  | cons K l ih =>
    exact ih _ (doPartitioning.processKernel_part_mono Opts FnCosts Threshold S K J G h)

theorem doPartitioning.assignKernels_wellFormed (Opts : SplitOptions) (NumParts : Nat)
    (ModuleCost : CostType) (FnCosts : CostMap) (WorkList : List KernelWithDependencies) :
    (doPartitioning.assignKernels Opts NumParts ModuleCost FnCosts WorkList).WellFormed
      FnCosts NumParts :=
  doPartitioning.foldl_wellFormed Opts FnCosts NumParts _ WorkList _
    (doPartitioning.initialState_wellFormed FnCosts NumParts)

theorem doPartitioning.assignKernels_append (Opts : SplitOptions) (NumParts : Nat)
    (ModuleCost : CostType) (FnCosts : CostMap) (Pre Post : List KernelWithDependencies) :
    doPartitioning.assignKernels Opts NumParts ModuleCost FnCosts (Pre ++ Post)
      = Post.foldl
          (doPartitioning.processKernel Opts FnCosts (LargeKernelThreshold Opts ModuleCost NumParts))
          (doPartitioning.assignKernels Opts NumParts ModuleCost FnCosts Pre) := by
  unfold doPartitioning.assignKernels
  rw [List.foldl_append]

/-- After the loop, every kernel of the work list is in some partition together with its
dependencies. -/
theorem doPartitioning.assignKernels_holds (Opts : SplitOptions) (NumParts : Nat)
    (hN : 1 ≤ NumParts) (ModuleCost : CostType) (FnCosts : CostMap)
    (WorkList : List KernelWithDependencies) (K : KernelWithDependencies) (hK : K ∈ WorkList) :
    ∃ J, J < NumParts ∧ ∀ G, (G = K.Fn ∨ G ∈ K.Dependencies) →
      G ∈ (doPartitioning.assignKernels Opts NumParts ModuleCost FnCosts WorkList).part J := by
  obtain ⟨Pre, Post, rfl⟩ := List.append_of_mem hK
  rw [doPartitioning.assignKernels_append, List.foldl_cons]
  obtain ⟨J, hJ, hp⟩ := doPartitioning.processKernel_assigned Opts FnCosts NumParts
    (LargeKernelThreshold Opts ModuleCost NumParts)
    (doPartitioning.assignKernels Opts NumParts ModuleCost FnCosts Pre) K
    (doPartitioning.assignKernels_wellFormed Opts NumParts ModuleCost FnCosts Pre) hN
  refine ⟨J, hJ, ?_⟩
  intro G hG
  apply doPartitioning.foldl_part_mono
  rw [hp, KernelWithDependencies.mem_addTo]
  tauto

/-! ## The functions no kernel reaches -/

theorem doPartitioning.mem_allFunctions_aux (Ps : List DenseSet) (All : DenseSet) (G : Function) :
    G ∈ Ps.foldl (fun All Part => All.insertRange Part.Elems) All
      ↔ G ∈ All ∨ ∃ P, P ∈ Ps ∧ G ∈ P := by
  induction Ps generalizing All with
  | nil => simp
  | cons P Ps ih =>
    rw [List.foldl_cons, ih, DenseSet.mem_insertRange]
    simp only [List.mem_cons, DenseSet.mem_def]
    constructor
    · rintro ((h | h) | ⟨Q, hQ, hG⟩)
      · exact Or.inl h
      · exact Or.inr ⟨P, Or.inl rfl, h⟩
      · exact Or.inr ⟨Q, Or.inr hQ, hG⟩
    · rintro (h | ⟨Q, hQ | hQ, hG⟩)
      · exact Or.inl (Or.inl h)
      · subst hQ; exact Or.inl (Or.inr hG)
      · exact Or.inr ⟨Q, hQ, hG⟩

theorem doPartitioning.mem_allFunctions (Ps : List DenseSet) (G : Function) :
    G ∈ doPartitioning.allFunctions Ps ↔ ∃ P, P ∈ Ps ∧ G ∈ P := by
  unfold doPartitioning.allFunctions
  rw [doPartitioning.mem_allFunctions_aux]
  constructor
  · rintro (h | h)
    · exact absurd h (DenseSet.not_mem_empty G)
    · exact h
  · exact fun h => Or.inr h

theorem doPartitioning.mem_sweep (l : List Function) (All P0 : DenseSet) (G : Function) :
    G ∈ l.foldl
        (fun P0 Fn => if !Fn.isDeclaration && !All.contains Fn then (P0.insert Fn).1 else P0) P0
      ↔ G ∈ P0 ∨ (G ∈ l ∧ G.isDeclaration = false ∧ ¬ G ∈ All) := by
  induction l generalizing P0 with
  | nil => simp
  | cons F l ih =>
    rw [List.foldl_cons, ih]
    by_cases hc : (!F.isDeclaration && !All.contains F) = true
    · rw [if_pos hc, DenseSet.mem_insert]
      simp only [Bool.and_eq_true, Bool.not_eq_true', ← Bool.not_eq_true,
        DenseSet.contains_iff] at hc
      simp only [List.mem_cons]
      constructor
      · rintro ((h | h) | ⟨h1, h2⟩)
        · subst h; exact Or.inr ⟨Or.inl rfl, by simpa using hc.1, hc.2⟩
        · exact Or.inl h
        · exact Or.inr ⟨Or.inr h1, h2⟩
      · rintro (h | ⟨h1 | h1, h2⟩)
        · exact Or.inl (Or.inr h)
        · exact Or.inl (Or.inl h1)
        · exact Or.inr ⟨h1, h2⟩
    · rw [if_neg hc]
      simp only [List.mem_cons]
      constructor
      · rintro (h | ⟨h1, h2⟩)
        · exact Or.inl h
        · exact Or.inr ⟨Or.inr h1, h2⟩
      · rintro (h | ⟨h1 | h1, h2, h3⟩)
        · exact Or.inl h
        · subst h1
          exfalso
          apply hc
          simp only [Bool.and_eq_true, Bool.not_eq_true', h2, true_and]
          cases hx : All.contains G
          · rfl
          · exact absurd ((DenseSet.contains_iff _ _).1 hx) h3
        · exact Or.inr ⟨h1, h2, h3⟩

theorem doPartitioning_length (Opts : SplitOptions) (M : Module) (NumParts : Nat)
    (ModuleCost : CostType) (FnCosts : CostMap) (WorkList : List KernelWithDependencies) :
    (doPartitioning Opts M NumParts ModuleCost FnCosts WorkList).length = NumParts := by
  unfold doPartitioning
  simp only [List.length_set]
  exact (doPartitioning.assignKernels_wellFormed Opts NumParts ModuleCost FnCosts WorkList).1

/-- The partitions `doPartitioning` returns: partition 0 also receives the functions with a
body that are in no partition after the loop; the other partitions are as after the loop. -/
theorem doPartitioning_mem (Opts : SplitOptions) (M : Module) (NumParts : Nat) (hN : 1 ≤ NumParts)
    (ModuleCost : CostType) (FnCosts : CostMap) (WorkList : List KernelWithDependencies)
    (J : PartitionID) (G : Function) :
    G ∈ (doPartitioning Opts M NumParts ModuleCost FnCosts WorkList).getD J DenseSet.empty
      ↔ G ∈ (doPartitioning.assignKernels Opts NumParts ModuleCost FnCosts WorkList).part J
        ∨ (J = 0 ∧ G ∈ M.Functions ∧ G.isDeclaration = false ∧
            ∀ I, ¬ G ∈ (doPartitioning.assignKernels Opts NumParts ModuleCost FnCosts WorkList).part I) := by
  have hlen := (doPartitioning.assignKernels_wellFormed Opts NumParts ModuleCost FnCosts WorkList).1
  have hall : G ∈ doPartitioning.allFunctions
      (doPartitioning.assignKernels Opts NumParts ModuleCost FnCosts WorkList).Partitions
      ↔ ∃ I, G ∈ (doPartitioning.assignKernels Opts NumParts ModuleCost FnCosts WorkList).part I := by
    rw [doPartitioning.mem_allFunctions]
    constructor
    · rintro ⟨P, hP, hG⟩
      obtain ⟨I, _, hI⟩ := List.exists_getD_of_mem _ P DenseSet.empty hP
      exact ⟨I, by unfold PartitioningState.part; rw [hI]; exact hG⟩
    · rintro ⟨I, hI⟩
      unfold PartitioningState.part at hI
      by_cases hlt : I < (doPartitioning.assignKernels Opts NumParts ModuleCost FnCosts
          WorkList).Partitions.length
      · exact ⟨_, List.getD_mem_or_default _ I DenseSet.empty hlt, hI⟩
      · rw [List.getD_eq_default _ _ (Nat.le_of_not_lt hlt)] at hI
        exact absurd hI (DenseSet.not_mem_empty G)
  unfold doPartitioning
  simp only
  rw [List.getD_set_eq]
  by_cases hJ : J = 0
  · subst hJ
    rw [if_pos ⟨rfl, by rw [hlen]; exact hN⟩, doPartitioning.mem_sweep, hall]
    unfold PartitioningState.part
    simp only [not_exists, true_and]
  · rw [if_neg (fun hc => hJ hc.1.symm)]
    unfold PartitioningState.part
    simp [hJ]

/-! ## The constructor of `KernelWithDependencies` -/

theorem KernelWithDependencies.addDependency_foldl_snd (FnCosts : CostMap) (l : List Function)
    (c : CostType) (b : Bool) :
    (l.foldl (KernelWithDependencies.addDependency FnCosts) (c, b)).2 = true
      ↔ b = true ∨ ∃ D, D ∈ l ∧ (D.hasExternalLinkage = true ∨ D.isDefinitionExact = false) := by
  induction l generalizing c b with
  | nil => simp
  | cons F l ih =>
    rw [List.foldl_cons]
    have e : KernelWithDependencies.addDependency FnCosts (c, b) F
        = (CostType.add c (FnCosts.at F),
            b || (F.hasExternalLinkage || !F.isDefinitionExact)) := rfl
    rw [e, ih]
    simp only [Bool.or_eq_true, Bool.not_eq_true', List.mem_cons]
    constructor
    · rintro ((h | h) | ⟨D, hD, hx⟩)
      · exact Or.inl h
      · exact Or.inr ⟨F, Or.inl rfl, h⟩
      · exact Or.inr ⟨D, Or.inr hD, hx⟩
    · rintro (h | ⟨D, hD | hD, hx⟩)
      · exact Or.inl (Or.inl h)
      · subst hD; exact Or.inl (Or.inr hx)
      · exact Or.inr ⟨D, hD, hx⟩

/-- The fields of a constructed `KernelWithDependencies`. -/
theorem KernelWithDependencies.construct_eq_some (CG : CallGraph) (M : Module)
    (FnCosts : CostMap) (Fn : Function) (K : KernelWithDependencies)
    (h : KernelWithDependencies.construct CG M FnCosts Fn = some K) :
    K.Fn = Fn
    ∧ addAllDependencies CG M Fn DenseSet.empty false = some (K.Dependencies, K.HasIndirectCall)
    ∧ (K.HasNonDuplicatableDependecy = true ↔
        ∃ D, D ∈ K.Dependencies ∧ (D.hasExternalLinkage = true ∨ D.isDefinitionExact = false)) := by
  unfold KernelWithDependencies.construct at h
  rw [Option.map_eq_some'] at h
  obtain ⟨R, hR, hK⟩ := h
  subst hK
  refine ⟨rfl, hR, ?_⟩
  simp only
  rw [KernelWithDependencies.addDependency_foldl_snd]
  simp [DenseSet.mem_def]

/-! ## Functions with external linkage stay in partition 0 -/

theorem doPartitioning.processKernel_noExternal (Opts : SplitOptions) (FnCosts : CostMap)
    (Threshold : CostType) (S : PartitioningState) (K : KernelWithDependencies)
    (hS : ∀ J, J ≠ 0 → ∀ G, G ∈ S.part J → G.hasExternalLinkage = true → isEntryPoint G = true)
    (hFn : isEntryPoint K.Fn = true)
    (hDeps : K.HasNonDuplicatableDependecy = false →
      ∀ D, D ∈ K.Dependencies → D.hasExternalLinkage = false) :
    ∀ J, J ≠ 0 → ∀ G, G ∈ (doPartitioning.processKernel Opts FnCosts Threshold S K).part J →
      G.hasExternalLinkage = true → isEntryPoint G = true := by
  intro J hJ G hG hExt
  by_cases hflag : K.HasIndirectCall = true ∨ K.HasNonDuplicatableDependecy = true
  · rw [doPartitioning.processKernel_flagged Opts FnCosts Threshold S K hflag,
      AssignToPartition_part, if_neg (fun hc => hJ hc.1.symm)] at hG
    exact hS J hJ G hG hExt
  · have h2 : K.HasNonDuplicatableDependecy = false := by
      cases hx : K.HasNonDuplicatableDependecy
      · rfl
      · exact absurd (Or.inr hx) hflag
    rcases doPartitioning.processKernel_part Opts FnCosts Threshold S K J with e | e
    · rw [e] at hG; exact hS J hJ G hG hExt
    · rw [e, KernelWithDependencies.mem_addTo] at hG
      rcases hG with h | h | h
      · rw [h]; exact hFn
      · exact hS J hJ G h hExt
      · have := hDeps h2 G h
        rw [this] at hExt
        exact absurd hExt (by simp)

theorem doPartitioning.foldl_noExternal (Opts : SplitOptions) (FnCosts : CostMap)
    (Threshold : CostType) (WorkList : List KernelWithDependencies) (S : PartitioningState)
    (hS : ∀ J, J ≠ 0 → ∀ G, G ∈ S.part J → G.hasExternalLinkage = true → isEntryPoint G = true)
    (hWL : ∀ K, K ∈ WorkList → isEntryPoint K.Fn = true ∧
      (K.HasNonDuplicatableDependecy = false →
        ∀ D, D ∈ K.Dependencies → D.hasExternalLinkage = false)) :
    ∀ J, J ≠ 0 → ∀ G,
      G ∈ (WorkList.foldl (doPartitioning.processKernel Opts FnCosts Threshold) S).part J →
      G.hasExternalLinkage = true → isEntryPoint G = true := by
  induction WorkList generalizing S with
  | nil => exact hS
  | cons K l ih =>
    rw [List.foldl_cons]
    apply ih
    · exact doPartitioning.processKernel_noExternal Opts FnCosts Threshold S K hS
        (hWL K (List.mem_cons_self _ _)).1 (hWL K (List.mem_cons_self _ _)).2
    · exact fun K2 hK2 => hWL K2 (List.mem_cons_of_mem _ hK2)

theorem doPartitioning.verified_iff (Ps : List DenseSet) :
    doPartitioning.verified Ps = true ↔
      ∀ Idx, Idx < Ps.length → ∀ Fn, Fn ∈ Ps.getD Idx DenseSet.empty →
        Idx = 0 ∨ Fn.hasExternalLinkage = false ∨ isEntryPoint Fn = true := by
  unfold doPartitioning.verified
  simp only [List.all_eq_true, List.mem_range, Bool.or_eq_true, decide_eq_true_eq,
    Bool.not_eq_true', DenseSet.mem_def]

/-! ## The cost of a partition -/

theorem CostType.add_exact (a b : Int) (hlo : -2 ^ 63 ≤ a + b) (hhi : a + b < 2 ^ 63) :
    CostType.add a b = a + b := by
  unfold CostType.add
  simp only [CostType]
  omega

theorem partitionCost_foldl (FnCosts : CostMap) (l : List Function) (c : Int) (hc : 0 ≤ c)
    (hpos : ∀ F, F ∈ l → 0 ≤ FnCosts.at F) (hhi : c + (l.map FnCosts.at).sum < 2 ^ 63) :
    l.foldl (fun NewCost Fn => CostType.add NewCost (FnCosts.at Fn)) c
      = c + (l.map FnCosts.at).sum := by
  induction l generalizing c with
  | nil => simp
  | cons F l ih =>
    rw [List.map_cons, List.sum_cons] at hhi
    have hF : (0 : Int) ≤ FnCosts.at F := hpos F (List.mem_cons_self _ _)
    have hrest : (0 : Int) ≤ (l.map FnCosts.at).sum := by
      apply List.sum_nonneg
      intro x hx
      obtain ⟨G, hG, rfl⟩ := List.mem_map.1 hx
      exact hpos G (List.mem_cons_of_mem _ hG)
    simp only [CostType] at hhi
    have e : CostType.add c (FnCosts.at F) = c + FnCosts.at F :=
      CostType.add_exact _ _ (by omega) (by omega)
    rw [List.foldl_cons, e, ih (c + FnCosts.at F) (by omega)
      (fun G hG => hpos G (List.mem_cons_of_mem _ hG)) (by omega), List.map_cons, List.sum_cons]
    ring

/-- The cost of a partition is the sum of the costs of its members, each counted once, when
no member has a negative cost and the sum fits `int64_t`. -/
theorem partitionCost_eq_sum (FnCosts : CostMap) (P : DenseSet)
    (hpos : ∀ F, F ∈ P → 0 ≤ FnCosts.at F) (hhi : P.Elems.toFinset.sum FnCosts.at < 2 ^ 63) :
    partitionCost FnCosts P = P.Elems.toFinset.sum FnCosts.at := by
  unfold partitionCost
  rw [List.sum_toFinset _ P.Nodup] at hhi ⊢
  simp only [CostType] at hhi
  rw [partitionCost_foldl FnCosts P.Elems 0 (le_refl 0) hpos (by omega)]
  simp

/-- In a well-formed state the partition at the back of the queue has the least cost, and
among the partitions of that cost the greatest index. -/
theorem PartitioningState.WellFormed.back_least (FnCosts : CostMap) (NumParts : Nat)
    (S : PartitioningState) (h : S.WellFormed FnCosts NumParts) (hN : 1 ≤ NumParts)
    (J : PartitionID) (hJ : J < NumParts) :
    partitionCost FnCosts (S.part (S.BalancingQueue.getLastD (0, 0)).1)
        ≤ partitionCost FnCosts (S.part J)
    ∧ (partitionCost FnCosts (S.part (S.BalancingQueue.getLastD (0, 0)).1)
        = partitionCost FnCosts (S.part J) → J ≤ (S.BalancingQueue.getLastD (0, 0)).1) := by
  obtain ⟨hb, _⟩ := PartitioningState.WellFormed.back_lt FnCosts NumParts S h hN
  obtain ⟨_, h2, h3, h4⟩ := h
  have hJm : J ∈ S.BalancingQueue.map Prod.fst := h2.mem_iff.2 (List.mem_range.2 hJ)
  obtain ⟨E, hE, hEJ⟩ := List.mem_map.1 hJm
  rw [← h3 _ hb, ← hEJ, ← h3 E hE]
  rcases List.Pairwise.rel_getLastD S.BalancingQueue (0, 0) h4 E hE with he | hr
  · rw [← he]
    exact ⟨le_refl _, fun _ => le_refl _⟩
  · exact ComparePartitions_eq_false E _ hr

/-- What `canBeIndirectlyCalled` says: a body, not an entry point, and a linkage that is not
local or an address that is taken. -/
theorem canBeIndirectlyCalled_iff (F : Function) :
    canBeIndirectlyCalled F = true ↔
      F.isDeclaration = false ∧ isEntryPoint F = false
        ∧ (F.hasLocalLinkage = false ∨ F.AddressTakenIgnoringCalls = true) := by
  unfold canBeIndirectlyCalled
  cases F.isDeclaration <;> cases isEntryPoint F <;> cases F.hasLocalLinkage <;>
    cases F.AddressTakenIgnoringCalls <;> simp

/-! ## Overlap: range, symmetry, equal sets -/

theorem F32.ofNat_zero : F32.ofNat 0 = 0 := by
  unfold F32.ofNat
  simp [F32.round_zero]

theorem F32.ofNat_pos (n : Nat) (hn : 0 < n) : 0 < F32.ofNat n := by
  unfold F32.ofNat
  exact F32.round_pos _ (by exact_mod_cast hn)

theorem F32.ofNat_nonneg (n : Nat) : 0 ≤ F32.ofNat n := by
  unfold F32.ofNat
  exact F32.round_nonneg _ (by positivity)

theorem F32.ofNat_mono (a b : Nat) (h : a ≤ b) : F32.ofNat a ≤ F32.ofNat b := by
  unfold F32.ofNat
  exact F32.round_mono _ _ (by positivity) (by exact_mod_cast h)

theorem F32.div_same (x : ℚ) (hx : x ≠ 0) : F32.div x x = 1 := by
  unfold F32.div
  rw [div_self hx, F32.round_one]

theorem F32.div_zero_num (y : ℚ) : F32.div 0 y = 0 := by
  unfold F32.div
  rw [zero_div, F32.round_zero]

/-- The quotient of two `float` values `0 ≤ x ≤ y`, `0 < y`, lies between 0 and 1. -/
theorem F32.div_mem_unit (x y : ℚ) (hx : 0 ≤ x) (hy : 0 < y) (hxy : x ≤ y) :
    0 ≤ F32.div x y ∧ F32.div x y ≤ 1 := by
  unfold F32.div
  have h0 : 0 ≤ x / y := div_nonneg hx (le_of_lt hy)
  have h1 : x / y ≤ 1 := (div_le_one hy).2 hxy
  refine ⟨F32.round_nonneg _ h0, ?_⟩
  have := F32.round_mono _ _ h0 h1
  rwa [F32.round_one] at this

/-- The set `Total` is not empty exactly when `A` has a member that is not an entry point. -/
theorem calculateOverlap.initialTotal_isEmpty (A : DenseSet) :
    (calculateOverlap.initialTotal A).isEmpty = true
      ↔ A.Elems.toFinset.filter (fun F => isEntryPoint F = false) = ∅ := by
  rw [← calculateOverlap.initialTotal_toFinset]
  cases hE : (calculateOverlap.initialTotal A).Elems with
  | nil => simp [DenseSet.isEmpty, hE]
  | cons x xs => simp [DenseSet.isEmpty, hE]

/-- The size of `Total` at the division: the size of the union. -/
theorem calculateOverlap.total_size (A B : DenseSet) :
    (B.Elems.foldl calculateOverlap.countCommon (calculateOverlap.initialTotal A, 0)).1.size
      = ((A.Elems.toFinset.filter (fun F => isEntryPoint F = false)) ∪
          (B.Elems.toFinset.filter (fun F => isEntryPoint F = false))).card := by
  have hT := calculateOverlap.initialTotal_toFinset A
  have hfold := calculateOverlap.countCommon_foldl B.Elems B.Nodup (calculateOverlap.initialTotal A) 0
  rw [hfold.2]
  have hmemT : ∀ F, F ∈ calculateOverlap.initialTotal A
      ↔ F ∈ A.Elems.toFinset.filter (fun F => isEntryPoint F = false) := by
    intro F
    rw [← hT]
    simp [DenseSet.mem_def]
  have hrest : (B.Elems.filter (fun F => isEntryPoint F = false
        ∧ ¬ F ∈ calculateOverlap.initialTotal A)).length
      = ((B.Elems.toFinset.filter (fun F => isEntryPoint F = false))
          \ (A.Elems.toFinset.filter (fun F => isEntryPoint F = false))).card := by
    rw [← List.toFinset_card_of_nodup (B.Nodup.filter _)]
    congr 1
    ext F
    simp only [List.mem_toFinset, List.mem_filter, Finset.mem_sdiff, hmemT, decide_eq_true_eq,
      Finset.mem_filter]
    tauto
  rw [hrest, ← DenseSet.card_toFinset, hT, ← Finset.union_sdiff_self_eq_union,
    Finset.card_union_of_disjoint Finset.disjoint_sdiff]

/-! ## The large kernel threshold -/

theorem F32.ofInt_natCast (n : Nat) : F32.ofInt (n : Int) = F32.ofNat n := by
  unfold F32.ofInt F32.ofNat
  simp

theorem F32.toInt_natCast (k : Nat) : F32.toInt (k : ℚ) = (k : Int) := by
  unfold F32.toInt
  rw [if_pos (by positivity)]
  exact Int.floor_natCast k

theorem F32.toCostType_natCast (k : Nat) (h : k < 2 ^ 63) : F32.toCostType (k : ℚ) = (k : Int) := by
  unfold F32.toCostType
  rw [F32.toInt_natCast]
  have h1 : CostTypeMin ≤ (k : Int) ∧ (k : Int) ≤ CostTypeMax := by
    unfold CostTypeMin CostTypeMax
    simp only [CostType]
    omega
  rw [if_pos h1]

/-- With the default factor the `float` value of the threshold is twice the `float` nearest
to the integer quotient of the module cost by the number of partitions, and is a natural
number. -/
theorem LargeKernelThreshold.value_default (ModuleCost : Int) (NumParts : Nat)
    (hM : 0 ≤ ModuleCost) :
    LargeKernelThreshold.value SplitOptions.default ModuleCost NumParts
        = 2 * F32.ofInt (ModuleCost / (NumParts : Int))
    ∧ ∃ k : Nat, LargeKernelThreshold.value SplitOptions.default ModuleCost NumParts = (k : ℚ) := by
  obtain ⟨m, rfl⟩ := Int.eq_ofNat_of_zero_le hM
  have hq : Int.tdiv (m : Int) (NumParts : Int) = ((m / NumParts : Nat) : Int) :=
    (Int.ofNat_tdiv m NumParts).symm
  have hq2 : (m : Int) / (NumParts : Int) = ((m / NumParts : Nat) : Int) :=
    (Int.ofNat_ediv m NumParts).symm
  unfold LargeKernelThreshold.value
  have h2 : SplitOptions.default.LargeKernelFactor = 2 := rfl
  rw [h2, if_pos (by norm_num), hq, hq2, F32.ofInt_natCast]
  obtain ⟨k, hk⟩ := F32.round_natCast (m / NumParts)
  have hy : F32.ofNat (m / NumParts) = (k : ℚ) := hk
  have hmul : F32.mul (F32.ofNat (m / NumParts)) 2 = ((2 * k : Nat) : ℚ) := by
    unfold F32.mul
    rw [mul_comm, F32.round_two_mul _ (F32.ofNat_nonneg _)]
    unfold F32.ofNat
    rw [F32.round_round _ (by positivity)]
    rw [hk]
    push_cast
    ring
  refine ⟨?_, 2 * k, hmul⟩
  rw [hmul, hy]
  push_cast
  ring

/-- With the default factor, when the `float` value is below `2 ^ 63` the threshold is that
value. -/
theorem LargeKernelThreshold_default (ModuleCost : Int) (NumParts : Nat)
    (hM : 0 ≤ ModuleCost) (hR : 2 * F32.ofInt (ModuleCost / (NumParts : Int)) < 2 ^ 63) :
    ((LargeKernelThreshold SplitOptions.default ModuleCost NumParts : Int) : ℚ)
      = 2 * F32.ofInt (ModuleCost / (NumParts : Int)) := by
  obtain ⟨hv, k, hk⟩ := LargeKernelThreshold.value_default ModuleCost NumParts hM
  unfold LargeKernelThreshold
  rw [← hv] at hR ⊢
  rw [hk] at hR ⊢
  have hk63 : k < 2 ^ 63 := by exact_mod_cast hR
  rw [F32.toCostType_natCast k hk63]
  simp

/-- The greatest `CostType` value as a `float` is `2 ^ 63`. -/
theorem F32.ofInt_costTypeMax : F32.ofInt CostTypeMax = 2 ^ 63 := by decide!

/-- With the factor 0 the `float` value of the threshold is `2 ^ 63`, which is not a
`CostType` value, and the threshold is the least `CostType` value. -/
theorem LargeKernelThreshold_disabled (Opts : SplitOptions) (ModuleCost : CostType)
    (NumParts : Nat) (h : Opts.LargeKernelFactor = 0) :
    LargeKernelThreshold.value Opts ModuleCost NumParts = 2 ^ 63
    ∧ LargeKernelThreshold Opts ModuleCost NumParts = CostTypeMin := by
  have hv : LargeKernelThreshold.value Opts ModuleCost NumParts = 2 ^ 63 := by
    unfold LargeKernelThreshold.value
    rw [h]
    simp only [ne_eq, not_true_eq_false, if_false]
    exact F32.ofInt_costTypeMax
  refine ⟨hv, ?_⟩
  unfold LargeKernelThreshold
  rw [hv]
  have h63 : F32.toInt ((2 : ℚ) ^ 63) = 2 ^ 63 := by
    have := F32.toInt_natCast (2 ^ 63)
    push_cast at this
    exact this
  unfold F32.toCostType
  rw [h63]
  have hno : ¬ (CostTypeMin ≤ (2 : Int) ^ 63 ∧ (2 : Int) ^ 63 ≤ CostTypeMax) := by
    unfold CostTypeMax
    simp only [CostType]
    omega
  rw [if_neg hno]

theorem CostType.min_le_add (a b : Int) : CostTypeMin ≤ CostType.add a b := by
  unfold CostType.add CostTypeMin
  simp only [CostType]
  omega

theorem CostType.add_le_max (a b : Int) : CostType.add a b ≤ CostTypeMax := by
  unfold CostType.add CostTypeMax
  simp only [CostType]
  omega

/-- A constructed kernel with dependencies has a total cost that is an `int64_t` value. -/
theorem KernelWithDependencies.construct_totalCost_le (CG : CallGraph) (M : Module)
    (FnCosts : CostMap) (Fn : Function) (K : KernelWithDependencies)
    (h : KernelWithDependencies.construct CG M FnCosts Fn = some K)
    (hne : K.Dependencies.isEmpty = false) : K.TotalCost ≤ CostTypeMax := by
  unfold KernelWithDependencies.construct at h
  rw [Option.map_eq_some'] at h
  obtain ⟨R, _, hK⟩ := h
  subst hK
  simp only at hne ⊢
  have hgen : ∀ (l : List Function) (c : CostType) (b : Bool), l ≠ [] →
      (l.foldl (KernelWithDependencies.addDependency FnCosts) (c, b)).1 ≤ CostTypeMax := by
    intro l
    induction l using List.reverseRecOn with
    | nil => intro c b hl; exact absurd rfl hl
    | append_singleton l a _ =>
      intro c b _
      rw [List.foldl_append, List.foldl_cons, List.foldl_nil]
      exact CostType.add_le_max _ _
  apply hgen
  intro hnil
  rw [DenseSet.isEmpty, hnil] at hne
  simp at hne

/-! ## Assigning the same kernel twice -/

theorem DenseSet.insertRange_of_subset (l : List Function) (S : DenseSet)
    (h : ∀ F ∈ l, F ∈ S) : S.insertRange l = S := by
  unfold DenseSet.insertRange
  induction l with
  | nil => rfl
  | cons a l ih =>
    rw [List.foldl_cons, DenseSet.insert_of_mem S a (h a (List.mem_cons_self a l))]
    exact ih (fun F hF => h F (List.mem_cons_of_mem a hF))

theorem KernelWithDependencies.addTo_addTo (K : KernelWithDependencies) (P : DenseSet) :
    K.addTo (K.addTo P) = K.addTo P := by
  have h1 : K.Fn ∈ K.addTo P := (K.mem_addTo P K.Fn).2 (Or.inl rfl)
  have h2 : ∀ F ∈ K.Dependencies.Elems, F ∈ K.addTo P :=
    fun F hF => (K.mem_addTo P F).2 (Or.inr (Or.inr hF))
  have h3 : K.addTo (K.addTo P)
      = (((K.addTo P).insert K.Fn).1).insertRange K.Dependencies.Elems := rfl
  rw [h3, DenseSet.insert_of_mem _ _ h1, DenseSet.insertRange_of_subset _ _ h2]

/-- Two queue entries neither of which comes before the other are the same entry. -/
theorem ComparePartitions_antisymm (a b : Nat × Int)
    (hab : ¬ ComparePartitions a b = true) (hba : ¬ ComparePartitions b a = true) : a = b := by
  obtain ⟨a1, a2⟩ := a
  obtain ⟨b1, b2⟩ := b
  unfold ComparePartitions at hab hba
  simp only at hab hba
  have : a1 = b1 ∧ a2 = b2 := by
    split_ifs at hab hba <;> simp only [decide_eq_true_eq, gt_iff_lt, not_lt, CostType, PartitionID] at * <;>
      constructor <;> omega
  rw [this.1, this.2]

/-- Sorting by insertion returns a list in which no element comes before an earlier one
unchanged, when two elements neither of which comes before the other are equal. -/
theorem List.insertionSort_of_pairwise {α : Type} (r : α → α → Prop) [DecidableRel r]
    (hanti : ∀ a b, ¬ r a b → ¬ r b a → a = b) (l : List α)
    (h : l.Pairwise (fun a b => ¬ r b a)) : l.insertionSort r = l := by
  have hins : ∀ (a : α) (l : List α), (∀ b ∈ l, ¬ r b a) → l.orderedInsert r a = a :: l := by
    intro a l
    induction l with
    | nil => intro _; rfl
    | cons b l ih =>
      intro hl
      simp only [List.orderedInsert]
      split_ifs with hab
      · rfl
      · have hb : a = b := hanti a b hab (hl b (List.mem_cons_self b l))
        rw [ih (fun c hc => hl c (List.mem_cons_of_mem b hc)), hb]
  induction l with
  | nil => rfl
  | cons a l ih =>
    rw [List.pairwise_cons] at h
    simp only [List.insertionSort]
    rw [ih h.2]
    exact hins a l h.1

theorem AssignToPartition_idempotent (FnCosts : CostMap) (PID : PartitionID)
    (K : KernelWithDependencies) (S : PartitioningState) :
    AssignToPartition FnCosts PID K (AssignToPartition FnCosts PID K S)
      = AssignToPartition FnCosts PID K S := by
  have hP : (AssignToPartition FnCosts PID K (AssignToPartition FnCosts PID K S)).Partitions
      = (AssignToPartition FnCosts PID K S).Partitions := by
    apply List.ext_getElem
    · rw [AssignToPartition_length]
    · intro J h1 h2
      have e1 := AssignToPartition_part FnCosts PID K (AssignToPartition FnCosts PID K S) J
      have e2 := AssignToPartition_part FnCosts PID K S J
      have e3 := AssignToPartition_part FnCosts PID K S PID
      unfold PartitioningState.part at e1 e2 e3
      rw [← List.getD_eq_getElem _ DenseSet.empty h1, ← List.getD_eq_getElem _ DenseSet.empty h2,
        e1, AssignToPartition_length]
      by_cases hc : PID = J ∧ PID < S.Partitions.length
      · rw [if_pos hc, e2, if_pos hc, e3, if_pos ⟨rfl, hc.2⟩]
        exact K.addTo_addTo _
      · rw [if_neg hc]
  have hpart : (AssignToPartition FnCosts PID K (AssignToPartition FnCosts PID K S)).part PID
      = (AssignToPartition FnCosts PID K S).part PID := by
    unfold PartitioningState.part
    rw [hP]
  have hQ : (AssignToPartition FnCosts PID K (AssignToPartition FnCosts PID K S)).BalancingQueue
      = (AssignToPartition FnCosts PID K S).BalancingQueue := by
    rw [AssignToPartition_queue FnCosts PID K (AssignToPartition FnCosts PID K S), hpart]
    have hfix : (AssignToPartition FnCosts PID K S).BalancingQueue.map (fun E =>
          if E.1 = PID then
            (E.1, partitionCost FnCosts ((AssignToPartition FnCosts PID K S).part PID))
          else E) = (AssignToPartition FnCosts PID K S).BalancingQueue := by
      conv_rhs => rw [← List.map_id (AssignToPartition FnCosts PID K S).BalancingQueue]
      apply List.map_congr_left
      intro E hE
      rw [AssignToPartition_queue] at hE
      have hE2 := (List.perm_insertionSort _ _).subset hE
      obtain ⟨E0, _, hE0⟩ := List.mem_map.1 hE2
      simp only [id]
      split_ifs with hc
      · rw [← hE0] at hc ⊢
        split_ifs at hc ⊢ with hc0
        · rfl
        · exact absurd hc hc0
      · rfl
    rw [hfix]
    apply List.insertionSort_of_pairwise
    · intro a b hab hba
      exact ComparePartitions_antisymm a b hab hba
    · rw [AssignToPartition_queue]
      exact List.pairwise_insertionSort _ (fun a b => ComparePartitions_asymm a b)
        (fun a b c => ComparePartitions_trans a b c) _
  have hS : ∀ A B : PartitioningState, A.Partitions = B.Partitions →
      A.BalancingQueue = B.BalancingQueue → A = B := by
    intro A B h1 h2
    cases A; cases B
    simp only at h1 h2
    rw [h1, h2]
  exact hS _ _ hP hQ

/-! ## Kernels without calls -/

/-- A kernel whose node has no call records gets an empty dependency set, no flag and its
own cost as total cost. -/
theorem KernelWithDependencies.construct_noCalls (CG : CallGraph) (M : Module)
    (FnCosts : CostMap) (Fn : Function) (h : CG.get Fn = []) :
    KernelWithDependencies.construct CG M FnCosts Fn
      = some ⟨Fn, DenseSet.empty, false, false, FnCosts.at Fn⟩ := by
  unfold KernelWithDependencies.construct addAllDependencies
  simp only [addAllDependencies.loop, h, List.foldl_nil, Option.map_some']
  rfl

/-- A kernel without dependencies and without flags goes to the partition at the back of the
balancing queue. -/
theorem doPartitioning.processKernel_noDeps (Opts : SplitOptions) (FnCosts : CostMap)
    (Threshold : CostType) (S : PartitioningState) (K : KernelWithDependencies)
    (h1 : K.HasIndirectCall = false) (h2 : K.HasNonDuplicatableDependecy = false)
    (h3 : K.Dependencies.isEmpty = true) :
    doPartitioning.processKernel Opts FnCosts Threshold S K
      = AssignToPartition FnCosts (S.BalancingQueue.getLastD (0, 0)).1 K S := by
  have hL : K.isLarge Threshold = false := by
    unfold KernelWithDependencies.isLarge
    rw [h3]
    simp
  rw [doPartitioning.processKernel_unflagged Opts FnCosts Threshold S K h1 h2,
    doPartitioning.tryMerge_not_large Opts FnCosts Threshold S K hL]
  simp

/-- The sweep of `doPartitioning` over the functions of the module changes nothing when
every defined function of the module is in some partition. -/
theorem doPartitioning_eq_assignKernels (Opts : SplitOptions) (M : Module) (NumParts : Nat)
    (ModuleCost : CostType) (FnCosts : CostMap) (WorkList : List KernelWithDependencies)
    (h : ∀ F ∈ M.Functions, F.isDeclaration = true ∨
      ∃ P, P ∈ (doPartitioning.assignKernels Opts NumParts ModuleCost FnCosts WorkList).Partitions
        ∧ F ∈ P) :
    doPartitioning Opts M NumParts ModuleCost FnCosts WorkList
      = (doPartitioning.assignKernels Opts NumParts ModuleCost FnCosts WorkList).Partitions := by
  unfold doPartitioning
  simp only
  have hsweep : ∀ (l : List Function) (All P0 : DenseSet),
      (∀ F ∈ l, F.isDeclaration = true ∨ F ∈ All) →
      l.foldl (fun P0 Fn => if !Fn.isDeclaration && !All.contains Fn then (P0.insert Fn).1 else P0) P0
        = P0 := by
    intro l All P0
    induction l with
    | nil => intro _; rfl
    | cons a l ih =>
      intro hl
      rw [List.foldl_cons]
      have hc : (!a.isDeclaration && !All.contains a) = false := by
        rcases hl a (List.mem_cons_self a l) with h1 | h1
        · rw [h1]; rfl
        · rw [(DenseSet.contains_iff All a).2 h1]; simp
      rw [hc]
      simp only [Bool.false_eq_true, if_false]
      exact ih (fun F hF => hl F (List.mem_cons_of_mem a hF))
  rw [hsweep]
  · apply List.ext_getElem
    · simp
    · intro J h1 h2
      rw [List.getElem_set]
      split_ifs with hJ
      · subst hJ
        exact List.getD_eq_getElem _ _ h2
      · rfl
  · intro F hF
    rcases h F hF with h1 | h1
    · exact Or.inl h1
    · exact Or.inr ((doPartitioning.mem_allFunctions _ F).2 h1)

theorem AssignToPartition_partitions (FnCosts : CostMap) (PID : PartitionID)
    (K : KernelWithDependencies) (S : PartitioningState) :
    (AssignToPartition FnCosts PID K S).Partitions
      = S.Partitions.set PID (K.addTo (S.part PID)) := rfl

/-- What `addTo` gives for a kernel without dependencies and an empty partition. -/
theorem KernelWithDependencies.addTo_empty (Fn : Function) (a b : Bool) (c : CostType) :
    KernelWithDependencies.addTo ⟨Fn, DenseSet.empty, a, b, c⟩ DenseSet.empty
      = ⟨[Fn], List.nodup_singleton Fn⟩ := by
  unfold KernelWithDependencies.addTo DenseSet.insertRange DenseSet.insert DenseSet.empty
  simp

theorem partitionCost_singleton (FnCosts : CostMap) (Fn : Function) (c : Int)
    (hc : FnCosts.at Fn = c) (hlo : -2 ^ 63 ≤ c) (hhi : c < 2 ^ 63) :
    partitionCost FnCosts ⟨[Fn], List.nodup_singleton Fn⟩ = c := by
  unfold partitionCost
  simp only [List.foldl_cons, List.foldl_nil, hc]
  rw [CostType.add_exact 0 c (by omega) (by omega)]
  exact zero_add c

/-- Scenario A in general: one kernel without calls, four partitions. -/
theorem doPartitioning_single_kernel (Opts : SplitOptions) (M : Module) (ModuleCost : CostType)
    (FnCosts : CostMap) (K : Function) (hM : M.Functions = [K]) :
    doPartitioning Opts M 4 ModuleCost FnCosts [⟨K, DenseSet.empty, false, false, FnCosts.at K⟩]
      = [DenseSet.empty, DenseSet.empty, DenseSet.empty, ⟨[K], List.nodup_singleton K⟩] := by
  have hA : (doPartitioning.assignKernels Opts 4 ModuleCost FnCosts
      [⟨K, DenseSet.empty, false, false, FnCosts.at K⟩]).Partitions
      = [DenseSet.empty, DenseSet.empty, DenseSet.empty, ⟨[K], List.nodup_singleton K⟩] := by
    unfold doPartitioning.assignKernels
    rw [List.foldl_cons, List.foldl_nil,
      doPartitioning.processKernel_noDeps Opts FnCosts _ _
        ⟨K, DenseSet.empty, false, false, FnCosts.at K⟩ rfl rfl rfl,
      AssignToPartition_partitions]
    have hq : ((doPartitioning.initialState 4).BalancingQueue.getLastD (0, 0)).1 = 3 := rfl
    have hp : (doPartitioning.initialState 4).part 3 = DenseSet.empty := rfl
    have hP : (doPartitioning.initialState 4).Partitions
        = [DenseSet.empty, DenseSet.empty, DenseSet.empty, DenseSet.empty] := rfl
    rw [hq, hp, hP, KernelWithDependencies.addTo_empty]
    rfl
  rw [doPartitioning_eq_assignKernels, hA]
  intro F hF
  rw [hM, List.mem_singleton] at hF
  right
  rw [hA]
  exact ⟨⟨[K], List.nodup_singleton K⟩, by simp, by rw [hF]; exact List.mem_singleton_self K⟩

theorem PartitioningState.ext_fields (A B : PartitioningState)
    (h1 : A.Partitions = B.Partitions) (h2 : A.BalancingQueue = B.BalancingQueue) : A = B := by
  cases A; cases B
  simp only at h1 h2
  rw [h1, h2]

/-- Scenario B in general: the state after two kernels without calls, of cost 100 each, and
two partitions. -/
theorem doPartitioning.assignKernels_two_kernels (Opts : SplitOptions) (ModuleCost : CostType)
    (FnCosts : CostMap) (K1 K2 : Function)
    (hc1 : FnCosts.at K1 = 100) (hc2 : FnCosts.at K2 = 100) :
    doPartitioning.assignKernels Opts 2 ModuleCost FnCosts
        [⟨K1, DenseSet.empty, false, false, FnCosts.at K1⟩,
          ⟨K2, DenseSet.empty, false, false, FnCosts.at K2⟩]
      = ⟨[⟨[K2], List.nodup_singleton K2⟩, ⟨[K1], List.nodup_singleton K1⟩],
          [(0, 100), (1, 100)]⟩ := by
  have hp1 := partitionCost_singleton FnCosts K1 100 hc1 (by norm_num) (by norm_num)
  have hp2 := partitionCost_singleton FnCosts K2 100 hc2 (by norm_num) (by norm_num)
  have hS1 : AssignToPartition FnCosts 1 ⟨K1, DenseSet.empty, false, false, FnCosts.at K1⟩
      (doPartitioning.initialState 2)
      = ⟨[DenseSet.empty, ⟨[K1], List.nodup_singleton K1⟩], [(1, 100), (0, 0)]⟩ := by
    apply PartitioningState.ext_fields
    · rw [AssignToPartition_partitions]
      have hp : (doPartitioning.initialState 2).part 1 = DenseSet.empty := rfl
      rw [hp, KernelWithDependencies.addTo_empty]
      rfl
    · rw [AssignToPartition_queue, AssignToPartition_part]
      have hp : (doPartitioning.initialState 2).part 1 = DenseSet.empty := rfl
      have hl : (1 = 1 ∧ 1 < (doPartitioning.initialState 2).Partitions.length) := ⟨rfl, by decide⟩
      rw [if_pos hl, hp, KernelWithDependencies.addTo_empty, hp1]
      show List.insertionSort (fun a b => ComparePartitions a b = true)
        (List.map (fun E : PartitionID × CostType => if E.1 = 1 then (E.1, 100) else E)
          [(0, 0), (1, 0)]) = [(1, 100), (0, 0)]
      decide
  have hS2 : AssignToPartition FnCosts 0 ⟨K2, DenseSet.empty, false, false, FnCosts.at K2⟩
      ⟨[DenseSet.empty, ⟨[K1], List.nodup_singleton K1⟩], [(1, 100), (0, 0)]⟩
      = ⟨[⟨[K2], List.nodup_singleton K2⟩, ⟨[K1], List.nodup_singleton K1⟩],
          [(0, 100), (1, 100)]⟩ := by
    have hp : PartitioningState.part
        ⟨[DenseSet.empty, ⟨[K1], List.nodup_singleton K1⟩], [(1, 100), (0, 0)]⟩ 0
        = DenseSet.empty := rfl
    apply PartitioningState.ext_fields
    · rw [AssignToPartition_partitions, hp, KernelWithDependencies.addTo_empty]
      rfl
    · rw [AssignToPartition_queue, AssignToPartition_part]
      have hl : (0 = 0 ∧ 0 < (PartitioningState.mk
        [DenseSet.empty, ⟨[K1], List.nodup_singleton K1⟩] [(1, 100), (0, 0)]).Partitions.length) :=
        ⟨rfl, Nat.zero_lt_succ 1⟩
      rw [if_pos hl, hp, KernelWithDependencies.addTo_empty, hp2]
      show List.insertionSort (fun a b => ComparePartitions a b = true)
        (List.map (fun E : PartitionID × CostType => if E.1 = 0 then (E.1, 100) else E)
          [(1, 100), (0, 0)]) = [(0, 100), (1, 100)]
      decide
  unfold doPartitioning.assignKernels
  rw [List.foldl_cons, List.foldl_cons, List.foldl_nil,
    doPartitioning.processKernel_noDeps Opts FnCosts _ _
      ⟨K1, DenseSet.empty, false, false, FnCosts.at K1⟩ rfl rfl rfl]
  have hq : ((doPartitioning.initialState 2).BalancingQueue.getLastD (0, 0)).1 = 1 := rfl
  rw [hq, hS1,
    doPartitioning.processKernel_noDeps Opts FnCosts _ _
      ⟨K2, DenseSet.empty, false, false, FnCosts.at K2⟩ rfl rfl rfl]
  exact hS2

/-! ## Overlap with a partition that holds one kernel -/

theorem calculateOverlap_comm (A B : DenseSet) :
    calculateOverlap A B = calculateOverlap B A := by
  rw [calculateOverlap_eq A B, calculateOverlap_eq B A]
  by_cases hA : A.Elems.toFinset.filter (fun F => isEntryPoint F = false) = ∅
  · rw [if_pos hA]
    by_cases hB : B.Elems.toFinset.filter (fun F => isEntryPoint F = false) = ∅
    · rw [if_pos hB]
    · rw [if_neg hB, hA, Finset.inter_empty, Finset.card_empty, F32.ofNat_zero,
        F32.div_zero_num]
  · rw [if_neg hA]
    by_cases hB : B.Elems.toFinset.filter (fun F => isEntryPoint F = false) = ∅
    · rw [if_pos hB, hB, Finset.inter_empty, Finset.card_empty, F32.ofNat_zero,
        F32.div_zero_num]
    · rw [if_neg hB, Finset.inter_comm, Finset.union_comm]

/-- The overlap depends on the second set only through its members that are not entry
points. -/
theorem calculateOverlap_congr_right (A B C : DenseSet)
    (h : ∀ G, isEntryPoint G = false → (G ∈ B ↔ G ∈ C)) :
    calculateOverlap A B = calculateOverlap A C := by
  have hf : B.Elems.toFinset.filter (fun F => isEntryPoint F = false)
      = C.Elems.toFinset.filter (fun F => isEntryPoint F = false) := by
    ext G
    simp only [Finset.mem_filter, List.mem_toFinset]
    constructor
    · intro hG; exact ⟨(h G hG.2).1 hG.1, hG.2⟩
    · intro hG; exact ⟨(h G hG.2).2 hG.1, hG.2⟩
  rw [calculateOverlap_eq A B, calculateOverlap_eq A C, hf]

theorem calculateOverlap_empty_right (A : DenseSet) : calculateOverlap A DenseSet.empty = 0 := by
  rw [calculateOverlap_eq]
  split_ifs with hA
  · rfl
  · have : DenseSet.empty.Elems.toFinset.filter (fun F => isEntryPoint F = false) = ∅ := rfl
    rw [this, Finset.inter_empty, Finset.card_empty, F32.ofNat_zero, F32.div_zero_num]

/-- The overlap with a partition that holds one kernel and its dependencies is the overlap
with the dependencies: the kernel is an entry point and is not counted. -/
theorem calculateOverlap_addTo_empty (A : DenseSet) (K : KernelWithDependencies)
    (hE : isEntryPoint K.Fn = true) :
    calculateOverlap A (K.addTo DenseSet.empty) = calculateOverlap A K.Dependencies := by
  apply calculateOverlap_congr_right
  intro G hG
  rw [K.mem_addTo]
  constructor
  · intro h
    rcases h with h | h | h
    · rw [h, hE] at hG
      exact absurd hG (by decide)
    · exact absurd h (DenseSet.not_mem_empty G)
    · exact h
  · intro h
    exact Or.inr (Or.inr h)

theorem F32.ninety_gt_merge_default : F32.round (9 / 10) > F32.round (4 / 5) := by decide!

/-- Scenario D on the state of the loop: two large kernels without flags whose dependency
sets overlap by more than the merge option end in a common partition. -/
theorem doPartitioning.assignKernels_merges (Opts : SplitOptions) (NumParts : Nat)
    (hN : 1 ≤ NumParts) (ModuleCost : CostType) (FnCosts : CostMap)
    (K1 K2 : KernelWithDependencies)
    (hL2 : K2.isLarge (LargeKernelThreshold Opts ModuleCost NumParts) = true)
    (hI2 : K2.HasIndirectCall = false) (hD2 : K2.HasNonDuplicatableDependecy = false)
    (hE1 : isEntryPoint K1.Fn = true)
    (hO : calculateOverlap K1.Dependencies K2.Dependencies > Opts.LargeKernelOverlapForMerge) :
    ∃ J, J < NumParts
      ∧ K1.Fn ∈ (doPartitioning.assignKernels Opts NumParts ModuleCost FnCosts [K1, K2]).part J
      ∧ K2.Fn ∈ (doPartitioning.assignKernels Opts NumParts ModuleCost FnCosts [K1, K2]).part J := by
  have hW0 := doPartitioning.initialState_wellFormed FnCosts NumParts
  obtain ⟨J, hJ, hp1⟩ := doPartitioning.processKernel_assigned Opts FnCosts NumParts
    (LargeKernelThreshold Opts ModuleCost NumParts) (doPartitioning.initialState NumParts) K1 hW0 hN
  rw [doPartitioning.initialState_part] at hp1
  have hW1 := doPartitioning.processKernel_wellFormed Opts FnCosts NumParts
    (LargeKernelThreshold Opts ModuleCost NumParts) (doPartitioning.initialState NumParts) K1 hW0
  set S1 := doPartitioning.processKernel Opts FnCosts
    (LargeKernelThreshold Opts ModuleCost NumParts) (doPartitioning.initialState NumParts) K1
    with hS1
  have hlen : S1.Partitions.length = NumParts := hW1.1
  have hov : calculateOverlap K2.Dependencies (S1.part J) > Opts.LargeKernelOverlapForMerge := by
    rw [hp1, calculateOverlap_addTo_empty _ K1 hE1, calculateOverlap_comm]
    exact hO
  obtain ⟨hpart, hassigned, _⟩ := doPartitioning.tryMerge_large Opts FnCosts
    (LargeKernelThreshold Opts ModuleCost NumParts) S1 K2 hL2
  have hA : (doPartitioning.tryMerge Opts FnCosts
      (LargeKernelThreshold Opts ModuleCost NumParts) S1 K2).2 = true :=
    hassigned.2 ⟨J, by rw [hlen]; exact hJ, hov⟩
  have hS2 : doPartitioning.assignKernels Opts NumParts ModuleCost FnCosts [K1, K2]
      = (doPartitioning.tryMerge Opts FnCosts
          (LargeKernelThreshold Opts ModuleCost NumParts) S1 K2).1 := by
    unfold doPartitioning.assignKernels
    rw [List.foldl_cons, List.foldl_cons, List.foldl_nil, ← hS1,
      doPartitioning.processKernel_unflagged Opts FnCosts _ S1 K2 hI2 hD2, if_pos hA]
  refine ⟨J, hJ, ?_, ?_⟩
  · rw [hS2, hpart J, if_pos ⟨by rw [hlen]; exact hJ, hov⟩, K2.mem_addTo, hp1, K1.mem_addTo]
    exact Or.inr (Or.inl (Or.inl rfl))
  · rw [hS2, hpart J, if_pos ⟨by rw [hlen]; exact hJ, hov⟩, K2.mem_addTo]
    exact Or.inl rfl

/-! ## Splitting a module: the units -/

/-- The loop that gathers the kernels returns: every constructor does. -/
theorem splitAMDGPUModule.gatherKernels_isSome (CG : CallGraph) (M : Module) (FnCosts : CostMap)
    (Fns : List Function) :
    (splitAMDGPUModule.gatherKernels CG M FnCosts Fns).isSome = true := by
  induction Fns with
  | nil => rfl
  | cons Fn Rest ih =>
    unfold splitAMDGPUModule.gatherKernels
    split_ifs
    · obtain ⟨K, hK⟩ := Option.isSome_iff_exists.1
        (KernelWithDependencies.construct_isSome CG M FnCosts Fn)
      obtain ⟨Ks, hKs⟩ := Option.isSome_iff_exists.1 ih
      rw [hK, hKs]
      rfl
    · exact ih

theorem splitAMDGPUModule.workList_isSome (CG : CallGraph) (M : Module) (FnCosts : CostMap) :
    (splitAMDGPUModule.workList CG M FnCosts).isSome = true := by
  unfold splitAMDGPUModule.workList
  rw [Option.isSome_map']
  exact splitAMDGPUModule.gatherKernels_isSome CG M FnCosts M.Functions

/-- The partitioning of `splitAMDGPUModule` returns, with `N` partitions. -/
theorem splitAMDGPUModule.partitions_eq_some (Opts : SplitOptions)
    (TTI : Function → List (Option CostType)) (CG : CallGraph) (M : Module) (N : Nat) :
    ∃ WorkList,
      splitAMDGPUModule.workList (CG.mapFunctions splitAMDGPUModule.externalizeFunction)
        (splitAMDGPUModule.externalized Opts M)
        (calculateFunctionCosts TTI (splitAMDGPUModule.externalized Opts M)).1 = some WorkList
      ∧ splitAMDGPUModule.partitions Opts TTI CG M N
        = some (doPartitioning Opts (splitAMDGPUModule.externalized Opts M) N
            (calculateFunctionCosts TTI (splitAMDGPUModule.externalized Opts M)).2
            (calculateFunctionCosts TTI (splitAMDGPUModule.externalized Opts M)).1 WorkList) := by
  obtain ⟨WorkList, hW⟩ := Option.isSome_iff_exists.1
    (splitAMDGPUModule.workList_isSome (CG.mapFunctions splitAMDGPUModule.externalizeFunction)
      (splitAMDGPUModule.externalized Opts M)
      (calculateFunctionCosts TTI (splitAMDGPUModule.externalized Opts M)).1)
  refine ⟨WorkList, hW, ?_⟩
  unfold splitAMDGPUModule.partitions
  rw [hW]
  rfl

/-! ## The order of the work list -/

theorem splitAMDGPUModule.compareKernels_irrefl (A : KernelWithDependencies) :
    splitAMDGPUModule.compareKernels A A = false := by
  unfold splitAMDGPUModule.compareKernels
  simp

theorem splitAMDGPUModule.compareKernels_asymm (A B : KernelWithDependencies)
    (h : splitAMDGPUModule.compareKernels A B = true) :
    splitAMDGPUModule.compareKernels B A = false := by
  unfold splitAMDGPUModule.compareKernels at h ⊢
  by_cases hc : A.TotalCost = B.TotalCost
  · rw [if_pos hc] at h
    rw [if_pos hc.symm]
    simp only [decide_eq_true_eq] at h
    simp only [decide_eq_false_iff_not]
    exact lt_asymm h
  · rw [if_neg hc] at h
    rw [if_neg (fun hh => hc hh.symm)]
    simp only [decide_eq_true_eq, gt_iff_lt] at h
    simp only [decide_eq_false_iff_not, gt_iff_lt, not_lt]
    exact le_of_lt h

theorem splitAMDGPUModule.compareKernels_trans (A B C : KernelWithDependencies)
    (hab : splitAMDGPUModule.compareKernels A B = true)
    (hbc : splitAMDGPUModule.compareKernels B C = true) :
    splitAMDGPUModule.compareKernels A C = true := by
  unfold splitAMDGPUModule.compareKernels at hab hbc ⊢
  by_cases h1 : A.TotalCost = B.TotalCost
  · rw [if_pos h1] at hab
    by_cases h2 : B.TotalCost = C.TotalCost
    · rw [if_pos h2] at hbc
      rw [if_pos (h1.trans h2)]
      simp only [decide_eq_true_eq] at hab hbc ⊢
      exact lt_trans hab hbc
    · rw [if_neg h2] at hbc
      rw [if_neg (by rw [h1]; exact h2)]
      simp only [decide_eq_true_eq, gt_iff_lt] at hbc ⊢
      rw [h1]
      exact hbc
  · rw [if_neg h1] at hab
    simp only [decide_eq_true_eq, gt_iff_lt] at hab
    by_cases h2 : B.TotalCost = C.TotalCost
    · rw [if_pos h2] at hbc
      rw [if_neg (by rw [← h2]; exact h1)]
      simp only [decide_eq_true_eq, gt_iff_lt]
      rw [← h2]
      exact hab
    · rw [if_neg h2] at hbc
      simp only [decide_eq_true_eq, gt_iff_lt] at hbc
      have hlt : C.TotalCost < A.TotalCost := lt_trans hbc hab
      rw [if_neg (ne_of_gt hlt)]
      simp only [decide_eq_true_eq, gt_iff_lt]
      exact hlt

/-- Two kernels with different names are ordered one way or the other. -/
theorem splitAMDGPUModule.compareKernels_total (A B : KernelWithDependencies)
    (hne : A.Fn.Name ≠ B.Fn.Name) :
    splitAMDGPUModule.compareKernels A B = true ∨ splitAMDGPUModule.compareKernels B A = true := by
  unfold splitAMDGPUModule.compareKernels
  by_cases hc : A.TotalCost = B.TotalCost
  · rw [if_pos hc, if_pos hc.symm]
    simp only [decide_eq_true_eq]
    rcases lt_trichotomy A.Fn.Name B.Fn.Name with h | h | h
    · exact Or.inl h
    · exact absurd h hne
    · exact Or.inr h
  · rw [if_neg hc, if_neg (fun hh => hc hh.symm)]
    simp only [decide_eq_true_eq, gt_iff_lt]
    rcases lt_trichotomy A.TotalCost B.TotalCost with h | h | h
    · exact Or.inr h
    · exact absurd h hc
    · exact Or.inl h

/-- A list has one sorted arrangement for a comparison that orders any two distinct members
of the list. -/
theorem List.Perm.eq_of_pairwise_not {α : Type} (r : α → α → Prop) :
    ∀ (l1 l2 : List α), l1.Perm l2 →
      (∀ a b, a ∈ l1 → b ∈ l1 → ¬ r a b → ¬ r b a → a = b) →
      l1.Pairwise (fun a b => ¬ r b a) → l2.Pairwise (fun a b => ¬ r b a) → l1 = l2 := by
  intro l1
  induction l1 with
  | nil =>
    intro l2 hp _ _ _
    exact (List.Perm.nil_eq hp)
  | cons a l1 ih =>
    intro l2 hp hanti h1 h2
    cases l2 with
    | nil => exact absurd hp.length_eq (by simp)
    | cons b l2 =>
      rw [List.pairwise_cons] at h1 h2
      have hab : a = b := by
        have ha : a ∈ b :: l2 := hp.subset (List.mem_cons_self a l1)
        have hb : b ∈ a :: l1 := hp.symm.subset (List.mem_cons_self b l2)
        rcases List.mem_cons.1 ha with e | ha2
        · exact e
        · rcases List.mem_cons.1 hb with e | hb2
          · exact e.symm
          · exact hanti a b (List.mem_cons_self a l1) hb (h2.1 a ha2) (h1.1 b hb2)
      subst hab
      have hp2 : l1.Perm l2 := List.Perm.cons_inv hp
      rw [ih l2 hp2 (fun x y hx hy => hanti x y (List.mem_cons_of_mem a hx)
        (List.mem_cons_of_mem a hy)) h1.2 h2.2]

/-- Kernels with pairwise distinct names that are not ordered either way are equal. -/
theorem splitAMDGPUModule.compareKernels_antisymm_of_nodup (l : List KernelWithDependencies)
    (hn : (l.map (fun K => K.Fn.Name)).Nodup) (A B : KernelWithDependencies)
    (hA : A ∈ l) (hB : B ∈ l)
    (h1 : ¬ splitAMDGPUModule.compareKernels A B = true)
    (h2 : ¬ splitAMDGPUModule.compareKernels B A = true) : A = B := by
  have hname : A.Fn.Name = B.Fn.Name := by
    by_contra hne
    rcases splitAMDGPUModule.compareKernels_total A B hne with h | h
    · exact h1 h
    · exact h2 h
  exact List.inj_on_of_nodup_map hn hA hB hname

/-- The sorted work list does not depend on the order in which the kernels were gathered:
any two sorted arrangements of the same kernels, with pairwise distinct names, are equal. -/
theorem splitAMDGPUModule.sorted_unique (G1 G2 S1 S2 : List KernelWithDependencies)
    (hG : G1.Perm G2) (hn : (G1.map (fun K => K.Fn.Name)).Nodup)
    (hp1 : S1.Perm G1) (hs1 : S1.Pairwise (fun A B => ¬ splitAMDGPUModule.compareKernels B A = true))
    (hp2 : S2.Perm G2) (hs2 : S2.Pairwise (fun A B => ¬ splitAMDGPUModule.compareKernels B A = true)) :
    S1 = S2 := by
  have hp : S1.Perm S2 := hp1.trans (hG.trans hp2.symm)
  have hn1 : (S1.map (fun K => K.Fn.Name)).Nodup := (hp1.map _).nodup_iff.2 hn
  exact List.Perm.eq_of_pairwise_not (fun A B => splitAMDGPUModule.compareKernels A B = true)
    S1 S2 hp (fun A B hA hB => splitAMDGPUModule.compareKernels_antisymm_of_nodup S1 hn1 A B hA hB)
    hs1 hs2

/-- The sort of the model returns a sorted arrangement. -/
theorem splitAMDGPUModule.insertionSort_sorted (G : List KernelWithDependencies) :
    (G.insertionSort (fun A B => splitAMDGPUModule.compareKernels A B = true)).Perm G
    ∧ (G.insertionSort (fun A B => splitAMDGPUModule.compareKernels A B = true)).Pairwise
        (fun A B => ¬ splitAMDGPUModule.compareKernels B A = true) :=
  ⟨List.perm_insertionSort _ G,
    List.pairwise_insertionSort _
      (fun A B h => by
        rw [splitAMDGPUModule.compareKernels_asymm A B h]
        exact Bool.false_ne_true)
      (fun A B C => splitAMDGPUModule.compareKernels_trans A B C) G⟩

/-! ## Functions that no kernel claims -/

/-- A member of a partition after the loop over the work list is a kernel of the work list
or a dependency of one. -/
theorem doPartitioning.foldl_mem_source (Opts : SplitOptions) (FnCosts : CostMap)
    (Threshold : CostType) (WorkList : List KernelWithDependencies) (S : PartitioningState)
    (J : PartitionID) (G : Function)
    (h : G ∈ (WorkList.foldl (doPartitioning.processKernel Opts FnCosts Threshold) S).part J) :
    G ∈ S.part J ∨ ∃ K, K ∈ WorkList ∧ (G = K.Fn ∨ G ∈ K.Dependencies) := by
  induction WorkList generalizing S with
  | nil => exact Or.inl h
  | cons K Rest ih =>
    rw [List.foldl_cons] at h
    rcases ih _ h with h1 | ⟨K2, hK2, hG⟩
    · rcases doPartitioning.processKernel_part Opts FnCosts Threshold S K J with e | e
      · rw [e] at h1
        exact Or.inl h1
      · rw [e, K.mem_addTo] at h1
        rcases h1 with h2 | h2 | h2
        · exact Or.inr ⟨K, List.mem_cons_self K Rest, Or.inl h2⟩
        · exact Or.inl h2
        · exact Or.inr ⟨K, List.mem_cons_self K Rest, Or.inr h2⟩
    · exact Or.inr ⟨K2, List.mem_cons_of_mem K hK2, hG⟩

theorem doPartitioning.assignKernels_mem_source (Opts : SplitOptions) (NumParts : Nat)
    (ModuleCost : CostType) (FnCosts : CostMap) (WorkList : List KernelWithDependencies)
    (J : PartitionID) (G : Function)
    (h : G ∈ (doPartitioning.assignKernels Opts NumParts ModuleCost FnCosts WorkList).part J) :
    ∃ K, K ∈ WorkList ∧ (G = K.Fn ∨ G ∈ K.Dependencies) := by
  unfold doPartitioning.assignKernels at h
  rcases doPartitioning.foldl_mem_source Opts FnCosts _ WorkList _ J G h with h1 | h1
  · rw [doPartitioning.initialState_part] at h1
    exact absurd h1 (DenseSet.not_mem_empty G)
  · exact h1

/-! ## Externalization -/

theorem externalize_ofFunction (Fn : Function) :
    externalize (GlobalValue.ofFunction Fn)
      = GlobalValue.ofFunction
          { Fn with
            Linkage := if Fn.hasLocalLinkage then LinkageTypes.ExternalLinkage else Fn.Linkage
            Visibility :=
              if Fn.hasLocalLinkage then VisibilityTypes.HiddenVisibility else Fn.Visibility
            Name := if Fn.Name = "" then "__llvmsplit_unnamed" else Fn.Name } := by
  unfold externalize
  by_cases hL : Fn.hasLocalLinkage = true
  · have hGL : (GlobalValue.ofFunction Fn).hasLocalLinkage = true := hL
    by_cases hN : Fn.Name = ""
    · simp [hGL, hL, hN, GlobalValue.setLinkage, GlobalValue.setVisibility, GlobalValue.setName,
        GlobalValue.hasName, GlobalValue.getName]
    · simp [hGL, hL, hN, GlobalValue.setLinkage, GlobalValue.setVisibility, GlobalValue.setName,
        GlobalValue.hasName, GlobalValue.getName]
  · have hGL : (GlobalValue.ofFunction Fn).hasLocalLinkage = false := by
      simpa using hL
    have hL2 : Fn.hasLocalLinkage = false := by simpa using hL
    by_cases hN : Fn.Name = ""
    · simp [hGL, hL2, hN, GlobalValue.setName, GlobalValue.hasName, GlobalValue.getName]
    · simp [hGL, hL2, hN, GlobalValue.setName, GlobalValue.hasName, GlobalValue.getName]

theorem externalize_ofVariable (Var : GlobalVariable) :
    externalize (GlobalValue.ofVariable Var)
      = GlobalValue.ofVariable
          { Var with
            Linkage := if Var.hasLocalLinkage then LinkageTypes.ExternalLinkage else Var.Linkage
            Visibility :=
              if Var.hasLocalLinkage then VisibilityTypes.HiddenVisibility else Var.Visibility
            Name := if Var.Name = "" then "__llvmsplit_unnamed" else Var.Name } := by
  unfold externalize
  by_cases hL : Var.hasLocalLinkage = true
  · have hGL : (GlobalValue.ofVariable Var).hasLocalLinkage = true := hL
    by_cases hN : Var.Name = ""
    · simp [hGL, hL, hN, GlobalValue.setLinkage, GlobalValue.setVisibility, GlobalValue.setName,
        GlobalValue.hasName, GlobalValue.getName]
    · simp [hGL, hL, hN, GlobalValue.setLinkage, GlobalValue.setVisibility, GlobalValue.setName,
        GlobalValue.hasName, GlobalValue.getName]
  · have hGL : (GlobalValue.ofVariable Var).hasLocalLinkage = false := by
      simpa using hL
    have hL2 : Var.hasLocalLinkage = false := by simpa using hL
    by_cases hN : Var.Name = ""
    · simp [hGL, hL2, hN, GlobalValue.setName, GlobalValue.hasName, GlobalValue.getName]
    · simp [hGL, hL2, hN, GlobalValue.setName, GlobalValue.hasName, GlobalValue.getName]

theorem Function.externalize_eq (Fn : Function) :
    Fn.externalize
      = { Fn with
          Linkage := if Fn.hasLocalLinkage then LinkageTypes.ExternalLinkage else Fn.Linkage
          Visibility :=
            if Fn.hasLocalLinkage then VisibilityTypes.HiddenVisibility else Fn.Visibility
          Name := if Fn.Name = "" then "__llvmsplit_unnamed" else Fn.Name } := by
  unfold Function.externalize
  rw [externalize_ofFunction]

theorem GlobalVariable.externalize_variable_eq (Var : GlobalVariable) :
    Var.externalize
      = { Var with
          Linkage := if Var.hasLocalLinkage then LinkageTypes.ExternalLinkage else Var.Linkage
          Visibility :=
            if Var.hasLocalLinkage then VisibilityTypes.HiddenVisibility else Var.Visibility
          Name := if Var.Name = "" then "__llvmsplit_unnamed" else Var.Name } := by
  unfold GlobalVariable.externalize
  rw [externalize_ofVariable]

/-- After `externalize` a function has no local linkage. -/
theorem Function.externalize_hasLocalLinkage (Fn : Function) :
    Fn.externalize.hasLocalLinkage = false := by
  rw [Function.externalize_eq]
  unfold Function.hasLocalLinkage
  cases hL : Fn.Linkage <;> simp [hL]

theorem GlobalVariable.externalize_variable_hasLocalLinkage (Var : GlobalVariable) :
    Var.externalize.hasLocalLinkage = false := by
  rw [GlobalVariable.externalize_variable_eq]
  unfold GlobalVariable.hasLocalLinkage
  cases hL : Var.Linkage <;> simp [hL]

theorem Function.externalize_name_ne (Fn : Function) : Fn.externalize.Name ≠ "" := by
  rw [Function.externalize_eq]
  by_cases hN : Fn.Name = ""
  · simp only [hN, if_true]
    decide
  · simp only [hN, if_false]
    exact hN

/-- A second `externalize` changes nothing. -/
theorem externalize_idempotent (GV : GlobalValue) : externalize (externalize GV) = externalize GV := by
  cases GV with
  | ofFunction Fn =>
    have h1 : externalize (GlobalValue.ofFunction Fn) = GlobalValue.ofFunction Fn.externalize := by
      rw [externalize_ofFunction, Function.externalize_eq]
    rw [h1, externalize_ofFunction]
    have hL := Function.externalize_hasLocalLinkage Fn
    have hN := Function.externalize_name_ne Fn
    rw [hL]
    simp [hN]
  | ofVariable Var =>
    have h1 : externalize (GlobalValue.ofVariable Var)
        = GlobalValue.ofVariable Var.externalize := by
      rw [externalize_ofVariable, GlobalVariable.externalize_variable_eq]
    rw [h1, externalize_ofVariable]
    have hL := GlobalVariable.externalize_variable_hasLocalLinkage Var
    have hN : Var.externalize.Name ≠ "" := by
      rw [GlobalVariable.externalize_variable_eq]
      by_cases hN : Var.Name = ""
      · simp only [hN, if_true]
        decide
      · simp only [hN, if_false]
        exact hN
    rw [hL]
    simp [hN]

theorem Function.externalize_externalize (Fn : Function) :
    Fn.externalize.externalize = Fn.externalize := by
  have h1 : AMDGPUSplitModule.externalize (GlobalValue.ofFunction Fn)
      = GlobalValue.ofFunction Fn.externalize := by
    rw [externalize_ofFunction, Function.externalize_eq]
  have h2 := externalize_idempotent (GlobalValue.ofFunction Fn)
  rw [h1] at h2
  have h3 : Fn.externalize.externalize
      = match AMDGPUSplitModule.externalize (GlobalValue.ofFunction Fn.externalize) with
        | GlobalValue.ofFunction Fn1 => Fn1
        | GlobalValue.ofVariable _ => Fn.externalize := rfl
  rw [h3, h2]

theorem Function.externalize_hasAddressTaken (Fn : Function) :
    Fn.externalize.hasAddressTaken = Fn.hasAddressTaken := by
  rw [Function.externalize_eq]
  rfl

/-! ## Global variables in the units -/

theorem splitAMDGPUModule.externalized_globals_on (Opts : SplitOptions) (M : Module)
    (h : Opts.NoExternalizeGlobals = false) :
    (splitAMDGPUModule.externalized Opts M).Globals = M.Globals.map GlobalVariable.externalize := by
  unfold splitAMDGPUModule.externalized
  simp [h]

theorem splitAMDGPUModule.externalized_globals_off (Opts : SplitOptions) (M : Module)
    (h : Opts.NoExternalizeGlobals = true) :
    (splitAMDGPUModule.externalized Opts M).Globals = M.Globals := by
  unfold splitAMDGPUModule.externalized
  simp [h]

/-- The clean-up loop changes nothing but the list of the global variables, which it only
shortens. -/
theorem splitAMDGPUModule.cleanup_foldl_spec (l : List GlobalVariable) (MP : Module) :
    (l.foldl
        (fun MP GV =>
          if splitAMDGPUModule.NeedsConservativeImport (GlobalValue.ofVariable GV)
              && GV.use_empty MP then
            { MP with Globals := MP.Globals.erase GV }
          else MP) MP).Functions = MP.Functions
    ∧ (l.foldl
        (fun MP GV =>
          if splitAMDGPUModule.NeedsConservativeImport (GlobalValue.ofVariable GV)
              && GV.use_empty MP then
            { MP with Globals := MP.Globals.erase GV }
          else MP) MP).Globals.Sublist MP.Globals := by
  induction l generalizing MP with
  | nil => exact ⟨rfl, List.Sublist.refl _⟩
  | cons GV Rest ih =>
    rw [List.foldl_cons]
    split_ifs with hc
    · obtain ⟨h1, h2⟩ := ih { MP with Globals := MP.Globals.erase GV }
      exact ⟨h1, h2.trans (List.erase_sublist GV MP.Globals)⟩
    · exact ih MP

/-- The clean-up loop leaves a unit without variables of local linkage unchanged. -/
theorem splitAMDGPUModule.cleanup_of_no_local (MPart : Module)
    (h : ∀ Var, Var ∈ MPart.Globals → Var.hasLocalLinkage = false) :
    splitAMDGPUModule.cleanup MPart = MPart := by
  unfold splitAMDGPUModule.cleanup
  have hgen : ∀ (l : List GlobalVariable) (MP : Module),
      (∀ Var, Var ∈ l → Var.hasLocalLinkage = false) →
      l.foldl
        (fun MP GV =>
          if splitAMDGPUModule.NeedsConservativeImport (GlobalValue.ofVariable GV)
              && GV.use_empty MP then
            { MP with Globals := MP.Globals.erase GV }
          else MP) MP = MP := by
    intro l
    induction l with
    | nil => intro MP _; rfl
    | cons GV Rest ih =>
      intro MP hl
      rw [List.foldl_cons]
      have hN : splitAMDGPUModule.NeedsConservativeImport (GlobalValue.ofVariable GV) = false :=
        hl GV (List.mem_cons_self GV Rest)
      rw [hN]
      simp only [Bool.false_and, Bool.false_eq_true, if_false]
      exact ih MP (fun Var hV => hl Var (List.mem_cons_of_mem GV hV))
  exact hgen MPart.Globals MPart h

/-! ## The clean-up of a unit -/

/-- A variable without uses in a unit has none in a unit with the same functions and fewer
global variables. -/
theorem GlobalVariable.use_empty_mono (MP MP1 : Module) (GV : GlobalVariable)
    (hF : MP1.Functions = MP.Functions) (hG : ∀ V, V ∈ MP1.Globals → V ∈ MP.Globals)
    (h : GV.use_empty MP = true) : GV.use_empty MP1 = true := by
  unfold GlobalVariable.use_empty at h ⊢
  rw [List.all_eq_true] at h ⊢
  intro U hU
  have hU0 := h U hU
  cases U with
  | Body FnId =>
    simp only at hU0 ⊢
    rw [hF]
    exact hU0
  | Initializer VarId =>
    simp only [Bool.not_eq_true', List.any_eq_false] at hU0 ⊢
    intro V hV
    exact hU0 V (hG V hV)

/-- A variable with a use in the body of a function that the unit defines has uses. -/
theorem GlobalVariable.use_empty_body (MP : Module) (GV : GlobalVariable) (Fn : Function)
    (hU : GlobalUser.Body Fn.Id ∈ GV.Users) (hFn : Fn ∈ MP.Functions)
    (hb : Fn.isDeclaration = false) : GV.use_empty MP = false := by
  cases h : GV.use_empty MP with
  | false => rfl
  | true =>
    unfold GlobalVariable.use_empty at h
    rw [List.all_eq_true] at h
    have h1 := h _ hU
    simp only [Bool.not_eq_true', List.any_eq_false] at h1
    have h2 := h1 Fn hFn
    simp [hb] at h2

/-- The loop of the clean-up over the variables `l`: a variable of `l` with local linkage
and without uses in the unit is not in the unit after the loop. -/
theorem splitAMDGPUModule.cleanup_foldl_removes (l : List GlobalVariable) (MP : Module)
    (hn : MP.Globals.Nodup) (GV : GlobalVariable) (hGV : GV ∈ l)
    (hL : GV.hasLocalLinkage = true) (hU : GV.use_empty MP = true) :
    ¬ GV ∈ (l.foldl
        (fun MP GV =>
          if splitAMDGPUModule.NeedsConservativeImport (GlobalValue.ofVariable GV)
              && GV.use_empty MP then
            { MP with Globals := MP.Globals.erase GV }
          else MP) MP).Globals := by
  induction l generalizing MP with
  | nil => exact absurd hGV (List.not_mem_nil GV)
  | cons a Rest ih =>
    rw [List.foldl_cons]
    by_cases ha : a = GV
    · subst ha
      have hN : splitAMDGPUModule.NeedsConservativeImport (GlobalValue.ofVariable a) = true := hL
      rw [hN, hU]
      simp only [Bool.and_self, if_true]
      intro hmem
      have hsub := (splitAMDGPUModule.cleanup_foldl_spec Rest
        { MP with Globals := MP.Globals.erase a }).2
      exact (List.Nodup.mem_erase_iff hn).1 (hsub.subset hmem) |>.1 rfl
    · have hGR : GV ∈ Rest := by
        rcases List.mem_cons.1 hGV with e | e
        · exact absurd e.symm ha
        · exact e
      split_ifs with hc
      · apply ih _ (hn.erase a) hGR
        exact GlobalVariable.use_empty_mono MP _ GV rfl
          (fun V hV => List.mem_of_mem_erase hV) hU
      · exact ih MP hn hGR hU

/-- The loop of the clean-up over the variables `l`: a variable that the loop removes from
the unit is a member of `l` with local linkage that had no uses in the unit as it was when
the loop came to it. -/
theorem splitAMDGPUModule.cleanup_foldl_removed (l : List GlobalVariable) (MP : Module)
    (GV : GlobalVariable) (hGV : GV ∈ MP.Globals)
    (hR : ¬ GV ∈ (l.foldl
        (fun MP GV =>
          if splitAMDGPUModule.NeedsConservativeImport (GlobalValue.ofVariable GV)
              && GV.use_empty MP then
            { MP with Globals := MP.Globals.erase GV }
          else MP) MP).Globals) :
    GV.hasLocalLinkage = true
    ∧ ∃ Pre Post, l = Pre ++ GV :: Post
      ∧ GV.use_empty (Pre.foldl
          (fun MP GV =>
            if splitAMDGPUModule.NeedsConservativeImport (GlobalValue.ofVariable GV)
                && GV.use_empty MP then
              { MP with Globals := MP.Globals.erase GV }
            else MP) MP) = true := by
  induction l generalizing MP with
  | nil => exact absurd hGV hR
  | cons a Rest ih =>
    rw [List.foldl_cons] at hR
    by_cases hc : (splitAMDGPUModule.NeedsConservativeImport (GlobalValue.ofVariable a)
        && a.use_empty MP) = true
    · rw [if_pos hc] at hR
      by_cases ha : GV = a
      · subst ha
        rw [Bool.and_eq_true] at hc
        exact ⟨hc.1, [], Rest, rfl, hc.2⟩
      · have hmem : GV ∈ (MP.Globals.erase a) := (List.mem_erase_of_ne ha).2 hGV
        obtain ⟨h1, Pre, Post, h2, h3⟩ := ih { MP with Globals := MP.Globals.erase a } hmem hR
        refine ⟨h1, a :: Pre, Post, by rw [h2]; rfl, ?_⟩
        rw [List.foldl_cons, if_pos hc]
        exact h3
    · rw [if_neg hc] at hR
      obtain ⟨h1, Pre, Post, h2, h3⟩ := ih MP hGV hR
      refine ⟨h1, a :: Pre, Post, by rw [h2]; rfl, ?_⟩
      rw [List.foldl_cons, if_neg hc]
      exact h3

/-- The copy of a module whose global variables have pairwise distinct identities has
pairwise distinct global variables. -/
theorem CloneModule_globals_nodup (M : Module) (ShouldCloneDefinition : GlobalValue → Bool)
    (hIds : (M.Globals.map (fun V => V.Id)).Nodup) :
    (CloneModule M ShouldCloneDefinition).Globals.Nodup := by
  unfold CloneModule
  simp only
  apply List.Nodup.of_map (fun V => V.Id)
  rw [List.map_map]
  have : ((fun V : GlobalVariable => V.Id) ∘ fun Var : GlobalVariable =>
      if Var.isDeclaration || ShouldCloneDefinition (GlobalValue.ofVariable Var) then Var
      else { Var with IsDeclaration := true, Linkage := LinkageTypes.ExternalLinkage })
      = fun V => V.Id := by
    funext Var
    simp only [Function.comp]
    split_ifs <;> rfl
  rw [this]
  exact hIds

/-! ## The costs of the functions -/

/-- Sums in `int64_t` of terms that are not negative are exact when the exact sum fits. -/
theorem CostType.foldl_add_exact (l : List Int) (c : Int) (hc : 0 ≤ c)
    (hpos : ∀ x, x ∈ l → 0 ≤ x) (hhi : c + l.sum < 2 ^ 63) :
    l.foldl (fun Acc x => CostType.add Acc x) c = c + l.sum := by
  induction l generalizing c with
  | nil => simp
  | cons x l ih =>
    rw [List.sum_cons] at hhi
    have hx : 0 ≤ x := hpos x (List.mem_cons_self _ _)
    have hrest : 0 ≤ l.sum := List.sum_nonneg (fun y hy => hpos y (List.mem_cons_of_mem _ hy))
    have e : CostType.add c x = c + x := CostType.add_exact _ _ (by omega) (by omega)
    rw [List.foldl_cons, e, ih (c + x) (by omega)
      (fun y hy => hpos y (List.mem_cons_of_mem _ hy)) (by omega), List.sum_cons]
    ring

theorem calculateFunctionCosts.fnCost_eq_foldl (Costs : List (Option CostType)) :
    calculateFunctionCosts.fnCost Costs
      = (Costs.map (fun Cost => Cost.getD TCC_Expensive)).foldl
          (fun Acc x => CostType.add Acc x) 0 := by
  unfold calculateFunctionCosts.fnCost
  rw [List.foldl_map]

/-- The cost of a function is the exact sum of the costs of its instructions when none is
negative and the sum fits `int64_t`. -/
theorem calculateFunctionCosts.fnCost_exact (Costs : List (Option CostType))
    (hpos : ∀ Cost, Cost ∈ Costs → (0 : Int) ≤ Cost.getD TCC_Expensive)
    (hhi : (Costs.map (fun Cost => Cost.getD TCC_Expensive)).sum < (2 : Int) ^ 63) :
    calculateFunctionCosts.fnCost Costs
      = (Costs.map (fun Cost => Cost.getD TCC_Expensive)).sum := by
  rw [calculateFunctionCosts.fnCost_eq_foldl,
    CostType.foldl_add_exact _ 0 (le_refl 0) ?_ (by simpa using hhi)]
  · simp
  · intro x hx
    obtain ⟨Cost, hC, rfl⟩ := List.mem_map.1 hx
    exact hpos Cost hC

theorem calculateFunctionCosts.foldl_spec (TTI : Function → List (Option CostType))
    (l : List Function) (Acc : CostMap × CostType) :
    (∀ F, (l.foldl
        (fun Acc Fn =>
          if Fn.isDeclaration then Acc
          else
            ((fun F => if F = Fn then some (calculateFunctionCosts.fnCost (TTI Fn)) else Acc.1 F),
              CostType.add Acc.2 (calculateFunctionCosts.fnCost (TTI Fn)))) Acc).1 F
      = if F ∈ l ∧ F.isDeclaration = false then some (calculateFunctionCosts.fnCost (TTI F))
        else Acc.1 F)
    ∧ (l.foldl
        (fun Acc Fn =>
          if Fn.isDeclaration then Acc
          else
            ((fun F => if F = Fn then some (calculateFunctionCosts.fnCost (TTI Fn)) else Acc.1 F),
              CostType.add Acc.2 (calculateFunctionCosts.fnCost (TTI Fn)))) Acc).2
      = ((l.filter (fun Fn => !Fn.isDeclaration)).map
          (fun Fn => calculateFunctionCosts.fnCost (TTI Fn))).foldl
          (fun Acc x => CostType.add Acc x) Acc.2 := by
  induction l generalizing Acc with
  | nil => simp
  | cons Fn Rest ih =>
    rw [List.foldl_cons]
    by_cases hd : Fn.isDeclaration = true
    · rw [if_pos hd]
      obtain ⟨h1, h2⟩ := ih Acc
      constructor
      · intro F
        rw [h1 F]
        by_cases hF : F ∈ Rest ∧ F.isDeclaration = false
        · rw [if_pos hF, if_pos ⟨List.mem_cons_of_mem _ hF.1, hF.2⟩]
        · rw [if_neg hF, if_neg]
          rintro ⟨hm, hb⟩
          rcases List.mem_cons.1 hm with e | e
          · rw [e, hd] at hb
            exact absurd hb (by decide)
          · exact hF ⟨e, hb⟩
      · rw [h2, List.filter_cons]
        simp [hd]
    · rw [if_neg hd]
      have hd2 : Fn.isDeclaration = false := by simpa using hd
      obtain ⟨h1, h2⟩ := ih
        ((fun F => if F = Fn then some (calculateFunctionCosts.fnCost (TTI Fn)) else Acc.1 F),
          CostType.add Acc.2 (calculateFunctionCosts.fnCost (TTI Fn)))
      constructor
      · intro F
        rw [h1 F]
        by_cases hF : F ∈ Rest ∧ F.isDeclaration = false
        · rw [if_pos hF, if_pos ⟨List.mem_cons_of_mem _ hF.1, hF.2⟩]
        · rw [if_neg hF]
          simp only
          by_cases he : F = Fn
          · rw [if_pos he, if_pos ⟨by rw [he]; exact List.mem_cons_self _ _, by rw [he]; exact hd2⟩,
              he]
          · rw [if_neg he, if_neg]
            rintro ⟨hm, hb⟩
            rcases List.mem_cons.1 hm with e | e
            · exact he e
            · exact hF ⟨e, hb⟩
      · rw [h2, List.filter_cons]
        simp [hd2]

/-- The map that `calculateFunctionCosts` fills: exactly the functions of the module with a
body are keys, each with the cost of its instructions. -/
theorem calculateFunctionCosts_map (TTI : Function → List (Option CostType)) (M : Module)
    (F : Function) :
    (calculateFunctionCosts TTI M).1 F
      = if F ∈ M.Functions ∧ F.isDeclaration = false then
          some (calculateFunctionCosts.fnCost (TTI F))
        else none := by
  unfold calculateFunctionCosts
  exact (calculateFunctionCosts.foldl_spec TTI M.Functions ((fun _ => none), 0)).1 F

/-- The module cost that `calculateFunctionCosts` returns: the sum in `int64_t` of the costs
of the functions with a body, in module order. -/
theorem calculateFunctionCosts_moduleCost (TTI : Function → List (Option CostType)) (M : Module) :
    (calculateFunctionCosts TTI M).2
      = ((M.Functions.filter (fun Fn => !Fn.isDeclaration)).map
          (fun Fn => calculateFunctionCosts.fnCost (TTI Fn))).foldl
          (fun Acc x => CostType.add Acc x) 0 := by
  unfold calculateFunctionCosts
  exact (calculateFunctionCosts.foldl_spec TTI M.Functions ((fun _ => none), 0)).2

theorem calculateFunctionCosts_at (TTI : Function → List (Option CostType)) (M : Module)
    (F : Function) (hF : F ∈ M.Functions) (hb : F.isDeclaration = false) :
    (calculateFunctionCosts TTI M).1.at F = calculateFunctionCosts.fnCost (TTI F) := by
  unfold CostMap.at
  rw [calculateFunctionCosts_map, if_pos ⟨hF, hb⟩]
  rfl

/-- Without overflow the returned module cost is the exact sum of the mapped costs. -/
theorem calculateFunctionCosts_moduleCost_exact (TTI : Function → List (Option CostType))
    (M : Module)
    (hpos : ∀ F, F ∈ M.Functions → F.isDeclaration = false →
      (0 : Int) ≤ calculateFunctionCosts.fnCost (TTI F))
    (hhi : ((M.Functions.filter (fun Fn => !Fn.isDeclaration)).map
      (fun Fn => calculateFunctionCosts.fnCost (TTI Fn))).sum < (2 : Int) ^ 63) :
    (calculateFunctionCosts TTI M).2
      = ((M.Functions.filter (fun Fn => !Fn.isDeclaration)).map
          (fun Fn => (calculateFunctionCosts TTI M).1.at Fn)).sum := by
  rw [calculateFunctionCosts_moduleCost,
    CostType.foldl_add_exact _ 0 (le_refl 0) ?_ (by simpa using hhi)]
  · rw [zero_add]
    congr 1
    apply List.map_congr_left
    intro F hF
    rw [List.mem_filter] at hF
    rw [calculateFunctionCosts_at TTI M F hF.1 (by simpa using hF.2)]
  · intro x hx
    obtain ⟨F, hF, rfl⟩ := List.mem_map.1 hx
    rw [List.mem_filter] at hF
    exact hpos F hF.1 (by simpa using hF.2)

/-! ## The iterations of the traversal -/

/-- What every call record keeps: the work list has no duplicates and holds members of
`Fns` only. -/
theorem addAllDependencies.visit_worklist_nodup (M : Module) (S : DepState) (n : CallGraphNode)
    (h : S.WorkList.Nodup ∧ ∀ W, W ∈ S.WorkList → W ∈ S.Fns) :
    (addAllDependencies.visit M S n).WorkList.Nodup
    ∧ ∀ W, W ∈ (addAllDependencies.visit M S n).WorkList →
        W ∈ (addAllDependencies.visit M S n).Fns := by
  cases n with
  | ofFunction C =>
    rw [addAllDependencies.visit_ofFunction]
    split_ifs with h1 h2
    · exact h
    · exact h
    · constructor
      · exact List.nodup_cons.2 ⟨fun hC => h2 (h.2 C hC), h.1⟩
      · intro W hW
        simp only at hW ⊢
        rw [DenseSet.mem_insert]
        rcases List.mem_cons.1 hW with e | e
        · exact Or.inl e
        · exact Or.inr (h.2 W e)
  | CallsExternalNode =>
    rw [addAllDependencies.visit_external]
    refine ⟨h.1, ?_⟩
    intro W hW
    simp only at hW ⊢
    rw [mem_addAllIndirectCallDependencies]
    exact Or.inl (h.2 W hW)
  | OtherNode =>
    rw [addAllDependencies.visit_other]
    exact h

theorem addAllDependencies.scan_worklist_nodup (M : Module) (l : List CallGraphNode)
    (S : DepState) (h : S.WorkList.Nodup ∧ ∀ W, W ∈ S.WorkList → W ∈ S.Fns) :
    (l.foldl (addAllDependencies.visit M) S).WorkList.Nodup
    ∧ ∀ W, W ∈ (l.foldl (addAllDependencies.visit M) S).WorkList →
        W ∈ (l.foldl (addAllDependencies.visit M) S).Fns := by
  induction l generalizing S with
  | nil => exact h
  | cons n l ih =>
    rw [List.foldl_cons]
    exact ih _ (addAllDependencies.visit_worklist_nodup M S n h)

/-- A function pushed during a scan has a body. -/
theorem addAllDependencies.scan_pushed_body (M : Module) (l : List CallGraphNode) (S : DepState)
    (W : Function) (h : W ∈ (l.foldl (addAllDependencies.visit M) S).WorkList)
    (hW : ¬ W ∈ S.WorkList) :
    CallGraphNode.ofFunction W ∈ l ∧ ¬ W ∈ S.Fns ∧ W.isDeclaration = false := by
  rcases addAllDependencies.scan_worklist_inv M l S W h with h1 | ⟨h1, h2, h3⟩
  · exact absurd h1 hW
  · refine ⟨h1, h2, ?_⟩
    rcases addAllDependencies.scan_fns_inv M l S W h3 with h4 | ⟨_, h4, _⟩ | ⟨_, _, h4⟩
    · exact absurd h4 h2
    · exact h4
    · unfold canBeIndirectlyCalled at h4
      by_cases hdecl : W.isDeclaration = true
      · simp [hdecl] at h4
      · simpa using hdecl

/-- From a state whose work list has no duplicates and holds members of `Fns` only, the
functions of the iterations are pairwise distinct, and each is on the work list or is a
function with a body, outside `Fns`, that a call record points to. -/
theorem addAllDependencies.processed_nodup (CG : CallGraph) (M : Module) :
    ∀ (fuel : Nat) (S : DepState),
      (S.WorkList.Nodup ∧ ∀ W, W ∈ S.WorkList → W ∈ S.Fns) →
      (addAllDependencies.processed CG M fuel S).Nodup
      ∧ ∀ x, x ∈ addAllDependencies.processed CG M fuel S →
          x ∈ S.WorkList ∨ (¬ x ∈ S.Fns ∧ x.isDeclaration = false ∧ x ∈ CG.targets) := by
  intro fuel
  induction fuel with
  | zero =>
    intro S _
    obtain ⟨WL, Fns, Had⟩ := S
    cases WL with
    | nil => simp [addAllDependencies.processed]
    | cons C Rest => simp [addAllDependencies.processed]
  | succ fuel ih =>
    intro S hS
    obtain ⟨WL, Fns, Had⟩ := S
    cases WL with
    | nil => simp [addAllDependencies.processed]
    | cons C Rest =>
      simp only [addAllDependencies.processed]
      have hS0 : (DepState.mk Rest Fns Had).WorkList.Nodup
          ∧ ∀ W, W ∈ (DepState.mk Rest Fns Had).WorkList → W ∈ (DepState.mk Rest Fns Had).Fns :=
        ⟨(List.nodup_cons.1 hS.1).2, fun W hW => hS.2 W (List.mem_cons_of_mem C hW)⟩
      have hCF : C ∈ Fns := hS.2 C (List.mem_cons_self C Rest)
      have hCR : ¬ C ∈ Rest := (List.nodup_cons.1 hS.1).1
      have hS1 := addAllDependencies.scan_worklist_nodup M (CG.get C) _ hS0
      obtain ⟨hn, hel⟩ := ih _ hS1
      have hstep : ∀ x, x ∈ addAllDependencies.processed CG M fuel
            ((CG.get C).foldl (addAllDependencies.visit M) ⟨Rest, Fns, Had⟩) →
          x ∈ Rest ∨ (¬ x ∈ Fns ∧ x.isDeclaration = false ∧ x ∈ CG.targets) := by
        intro x hx
        rcases hel x hx with h1 | ⟨h1, h2, h3⟩
        · by_cases hxR : x ∈ Rest
          · exact Or.inl hxR
          · obtain ⟨ha, hb, hc⟩ := addAllDependencies.scan_pushed_body M (CG.get C)
              ⟨Rest, Fns, Had⟩ x h1 hxR
            exact Or.inr ⟨hb, hc, CallGraph.get_mem_targets CG C x ha⟩
        · exact Or.inr ⟨fun hxF => h1 (addAllDependencies.scan_fns_mono M (CG.get C)
            ⟨Rest, Fns, Had⟩ x hxF), h2, h3⟩
      constructor
      · rw [List.nodup_cons]
        refine ⟨?_, hn⟩
        intro hC
        rcases hstep C hC with h1 | ⟨h1, _, _⟩
        · exact hCR h1
        · exact h1 hCF
      · intro x hx
        rcases List.mem_cons.1 hx with e | e
        · exact Or.inl (by rw [e]; exact List.mem_cons_self C Rest)
        · rcases hstep x e with h1 | h1
          · exact Or.inl (List.mem_cons_of_mem C h1)
          · exact Or.inr h1

/-- The iterations of the traversal started at `Fn`: after the first one, for `Fn`, every
function is met at most once, has a body, is a target of a call record and was not in the
set `Fns` of the start. -/
theorem addAllDependencies.processed_initial (CG : CallGraph) (M : Module) (Fn : Function)
    (Fns : DenseSet) (Had : Bool) (fuel : Nat) :
    ∃ T, addAllDependencies.processed CG M (fuel + 1) ⟨[Fn], Fns, Had⟩ = Fn :: T
      ∧ T.Nodup
      ∧ ∀ G, G ∈ T → G.isDeclaration = false ∧ G ∈ CG.targets ∧ ¬ G ∈ Fns := by
  refine ⟨_, rfl, ?_⟩
  have hS0 : (DepState.mk [] Fns Had).WorkList.Nodup
      ∧ ∀ W, W ∈ (DepState.mk [] Fns Had).WorkList → W ∈ (DepState.mk [] Fns Had).Fns :=
    ⟨List.nodup_nil, fun W hW => absurd hW (List.not_mem_nil W)⟩
  have hS1 := addAllDependencies.scan_worklist_nodup M (CG.get Fn) _ hS0
  obtain ⟨hn, hel⟩ := addAllDependencies.processed_nodup CG M fuel _ hS1
  refine ⟨hn, ?_⟩
  intro G hG
  rcases hel G hG with h1 | ⟨h1, h2, h3⟩
  · obtain ⟨ha, hb, hc⟩ := addAllDependencies.scan_pushed_body M (CG.get Fn)
      ⟨[], Fns, Had⟩ G h1 (List.not_mem_nil G)
    exact ⟨hc, CallGraph.get_mem_targets CG Fn G ha, hb⟩
  · exact ⟨h2, h3, fun hGF => h1 (addAllDependencies.scan_fns_mono M (CG.get Fn)
      ⟨[], Fns, Had⟩ G hGF)⟩

/-- A list without duplicates whose members are targets with a body is no longer than the
list of those targets. -/
theorem CallGraph.length_le_definedTargets (CG : CallGraph) (T : List Function)
    (hn : T.Nodup) (hT : ∀ G, G ∈ T → G.isDeclaration = false ∧ G ∈ CG.targets) :
    T.length ≤ CG.definedTargets.length := by
  unfold CallGraph.definedTargets
  have hsub : T ⊆ (CG.targets.filter (fun F => !F.isDeclaration)).dedup := by
    intro G hG
    rw [List.mem_dedup, List.mem_filter]
    exact ⟨(hT G hG).2, by simp [(hT G hG).1]⟩
  exact (List.subperm_of_subset hn hsub).length_le

/-- When the targets of the graph are functions of the module, the targets with a body are
no more than the functions of the module with a body. -/
theorem CallGraph.definedTargets_le_module (CG : CallGraph) (M : Module)
    (hCG : ∀ G, G ∈ CG.targets → G ∈ M.Functions) :
    CG.definedTargets.length ≤ (M.Functions.filter (fun F => !F.isDeclaration)).length := by
  unfold CallGraph.definedTargets
  have hsub : (CG.targets.filter (fun F => !F.isDeclaration)).dedup
      ⊆ M.Functions.filter (fun F => !F.isDeclaration) := by
    intro G hG
    rw [List.mem_dedup, List.mem_filter] at hG
    rw [List.mem_filter]
    exact ⟨hCG G hG.1, hG.2⟩
  exact (List.subperm_of_subset (List.nodup_dedup _) hsub).length_le

/-- The loop ends within as many iterations as the length of the work list plus the number
of targets with a body that are not yet in `Fns`. -/
theorem addAllDependencies.loop_isSome_of_processed (CG : CallGraph) (M : Module) :
    ∀ (fuel : Nat) (S : DepState),
      (addAllDependencies.processed CG M (fuel + 1) S).length ≤ fuel →
      (addAllDependencies.loop CG M fuel S).isSome = true := by
  intro fuel
  induction fuel with
  | zero =>
    intro S hS
    obtain ⟨WL, Fns, Had⟩ := S
    cases WL with
    | nil => simp [addAllDependencies.loop]
    | cons C Rest => simp [addAllDependencies.processed] at hS
  | succ fuel ih =>
    intro S hS
    obtain ⟨WL, Fns, Had⟩ := S
    cases WL with
    | nil => simp [addAllDependencies.loop]
    | cons C Rest =>
      simp only [addAllDependencies.loop]
      apply ih
      simp only [addAllDependencies.processed, List.length_cons] at hS
      omega

/-! ## The dependency set without indirect calls -/

theorem CallGraph.Reaches.body (CG : CallGraph) (F G : Function) (h : CG.Reaches F G) :
    G.isDeclaration = false := by
  unfold CallGraph.Reaches at h
  cases h with
  | single h1 => exact h1.2.1
  | tail _ h2 => exact h2.2.1

/-- After the scan of the call records `l`, every function with a body that a record of `l`
points to is in `Fns`. -/
theorem addAllDependencies.scan_callee_mem (M : Module) (l : List CallGraphNode) (S : DepState)
    (G : Function) (hG : CallGraphNode.ofFunction G ∈ l) (hb : G.isDeclaration = false) :
    G ∈ (l.foldl (addAllDependencies.visit M) S).Fns := by
  induction l generalizing S with
  | nil => exact absurd hG (List.not_mem_nil _)
  | cons n l ih =>
    rw [List.foldl_cons]
    rcases List.mem_cons.1 hG with e | e
    · apply addAllDependencies.scan_fns_mono
      rw [← e, addAllDependencies.visit_ofFunction]
      split_ifs with h1 h2
      · rw [hb] at h1
        exact absurd h1 (by decide)
      · exact h2
      · simp only
        rw [DenseSet.mem_insert]
        exact Or.inl rfl
    · exact ih _ e

/-- What the loop keeps while no indirect call was met, for the traversal started at the
function `K` with a body: the members of `Fns` are reachable from `K`; the work list holds
`K` or members of `Fns`; and a function that was seen is on the work list or all the
functions with a body that it calls are in `Fns`. -/
theorem addAllDependencies.reach_step (CG : CallGraph) (M : Module) (K : Function)
    (hK : K.isDeclaration = false) (Cur : Function) (Rest : List Function) (Fns : DenseSet)
    (Had : Bool)
    (hP : (DepState.mk (Cur :: Rest) Fns Had).HadIndirectCall = false →
      (∀ D, D ∈ (DepState.mk (Cur :: Rest) Fns Had).Fns → CG.Reaches K D)
      ∧ (∀ W, W ∈ (DepState.mk (Cur :: Rest) Fns Had).WorkList →
          W = K ∨ W ∈ (DepState.mk (Cur :: Rest) Fns Had).Fns)
      ∧ (∀ D, (D = K ∨ D ∈ (DepState.mk (Cur :: Rest) Fns Had).Fns) →
          D ∈ (DepState.mk (Cur :: Rest) Fns Had).WorkList
          ∨ ∀ G, CallGraphNode.ofFunction G ∈ CG.get D → G.isDeclaration = false →
              G ∈ (DepState.mk (Cur :: Rest) Fns Had).Fns)) :
    ((CG.get Cur).foldl (addAllDependencies.visit M) ⟨Rest, Fns, Had⟩).HadIndirectCall = false →
      (∀ D, D ∈ ((CG.get Cur).foldl (addAllDependencies.visit M) ⟨Rest, Fns, Had⟩).Fns →
          CG.Reaches K D)
      ∧ (∀ W, W ∈ ((CG.get Cur).foldl (addAllDependencies.visit M) ⟨Rest, Fns, Had⟩).WorkList →
          W = K ∨ W ∈ ((CG.get Cur).foldl (addAllDependencies.visit M) ⟨Rest, Fns, Had⟩).Fns)
      ∧ (∀ D, (D = K
            ∨ D ∈ ((CG.get Cur).foldl (addAllDependencies.visit M) ⟨Rest, Fns, Had⟩).Fns) →
          D ∈ ((CG.get Cur).foldl (addAllDependencies.visit M) ⟨Rest, Fns, Had⟩).WorkList
          ∨ ∀ G, CallGraphNode.ofFunction G ∈ CG.get D → G.isDeclaration = false →
              G ∈ ((CG.get Cur).foldl (addAllDependencies.visit M) ⟨Rest, Fns, Had⟩).Fns) := by
  intro hHad
  have hHad0 : Had = false := by
    cases hH : Had with
    | false => rfl
    | true =>
      have := addAllDependencies.scan_had_mono M (CG.get Cur) ⟨Rest, Fns, Had⟩ hH
      rw [this] at hHad
      exact absurd hHad (by decide)
  have hNoExt : ¬ CallGraphNode.CallsExternalNode ∈ CG.get Cur := by
    intro hE
    have := addAllDependencies.scan_had_of_mem M (CG.get Cur) ⟨Rest, Fns, Had⟩ hE
    rw [this] at hHad
    exact absurd hHad (by decide)
  obtain ⟨ha, hb, hc⟩ := hP hHad0
  simp only at ha hb hc
  have hCur : Cur = K ∨ CG.Reaches K Cur := by
    rcases hb Cur (List.mem_cons_self Cur Rest) with e | e
    · exact Or.inl e
    · exact Or.inr (ha Cur e)
  have hCurBody : Cur.isDeclaration = false := by
    rcases hCur with e | e
    · rw [e]; exact hK
    · exact CallGraph.Reaches.body CG K Cur e
  refine ⟨?_, ?_, ?_⟩
  · intro D hD
    rcases addAllDependencies.scan_fns_inv M (CG.get Cur) ⟨Rest, Fns, Had⟩ D hD with
      h1 | ⟨h1, h2, _⟩ | ⟨h1, _, _⟩
    · exact ha D h1
    · have hcall : CG.Calls Cur D := ⟨hCurBody, h2, h1⟩
      rcases hCur with e | e
      · rw [e] at hcall
        exact Relation.TransGen.single hcall
      · exact Relation.TransGen.tail e hcall
    · exact absurd h1 hNoExt
  · intro W hW
    rcases addAllDependencies.scan_worklist_inv M (CG.get Cur) ⟨Rest, Fns, Had⟩ W hW with
      h1 | ⟨_, _, h3⟩
    · rcases hb W (List.mem_cons_of_mem Cur h1) with e | e
      · exact Or.inl e
      · exact Or.inr (addAllDependencies.scan_fns_mono M (CG.get Cur) ⟨Rest, Fns, Had⟩ W e)
    · exact Or.inr h3
  · intro D hD
    have hold : (D = K ∨ D ∈ Fns) →
        D ∈ ((CG.get Cur).foldl (addAllDependencies.visit M) ⟨Rest, Fns, Had⟩).WorkList
        ∨ ∀ G, CallGraphNode.ofFunction G ∈ CG.get D → G.isDeclaration = false →
            G ∈ ((CG.get Cur).foldl (addAllDependencies.visit M) ⟨Rest, Fns, Had⟩).Fns := by
      intro hD0
      rcases hc D hD0 with h1 | h1
      · rcases List.mem_cons.1 h1 with e | e
        · right
          intro G hG hGb
          rw [e] at hG
          exact addAllDependencies.scan_callee_mem M (CG.get Cur) ⟨Rest, Fns, Had⟩ G hG hGb
        · exact Or.inl
            (addAllDependencies.scan_worklist_mono M (CG.get Cur) ⟨Rest, Fns, Had⟩ D e)
      · right
        intro G hG hGb
        exact addAllDependencies.scan_fns_mono M (CG.get Cur) ⟨Rest, Fns, Had⟩ G (h1 G hG hGb)
    rcases hD with e | e
    · exact hold (Or.inl e)
    · rcases addAllDependencies.scan_fns_inv M (CG.get Cur) ⟨Rest, Fns, Had⟩ D e with
        h1 | ⟨_, _, h3⟩ | ⟨h1, _, _⟩
      · exact hold (Or.inr h1)
      · exact Or.inl h3
      · exact absurd h1 hNoExt

/-- Without an indirect call the set that `addAllDependencies` returns, started at a
function `K` with a body, with an empty set and a cleared flag, is the set of the functions
reachable from `K`. -/
theorem addAllDependencies_eq_reaches (CG : CallGraph) (M : Module) (K : Function)
    (hK : K.isDeclaration = false) (R : DenseSet × Bool)
    (h : addAllDependencies CG M K DenseSet.empty false = some R) (hNo : R.2 = false)
    (G : Function) : G ∈ R.1 ↔ CG.Reaches K G := by
  unfold addAllDependencies at h
  rw [Option.map_eq_some'] at h
  obtain ⟨S, hS, hR⟩ := h
  subst hR
  simp only at hNo ⊢
  have hinit : (DepState.mk [K] DenseSet.empty false).HadIndirectCall = false →
      (∀ D, D ∈ (DepState.mk [K] DenseSet.empty false).Fns → CG.Reaches K D)
      ∧ (∀ W, W ∈ (DepState.mk [K] DenseSet.empty false).WorkList →
          W = K ∨ W ∈ (DepState.mk [K] DenseSet.empty false).Fns)
      ∧ (∀ D, (D = K ∨ D ∈ (DepState.mk [K] DenseSet.empty false).Fns) →
          D ∈ (DepState.mk [K] DenseSet.empty false).WorkList
          ∨ ∀ G, CallGraphNode.ofFunction G ∈ CG.get D → G.isDeclaration = false →
              G ∈ (DepState.mk [K] DenseSet.empty false).Fns) := by
    intro _
    refine ⟨?_, ?_, ?_⟩
    · intro D hD
      exact absurd hD (DenseSet.not_mem_empty D)
    · intro W hW
      exact Or.inl (List.mem_singleton.1 hW)
    · intro D hD
      rcases hD with e | e
      · exact Or.inl (by rw [e]; exact List.mem_singleton_self K)
      · exact absurd e (DenseSet.not_mem_empty D)
  obtain ⟨hP, hW⟩ := addAllDependencies.loop_invariant CG M
    (fun S => S.HadIndirectCall = false →
      (∀ D, D ∈ S.Fns → CG.Reaches K D)
      ∧ (∀ W, W ∈ S.WorkList → W = K ∨ W ∈ S.Fns)
      ∧ (∀ D, (D = K ∨ D ∈ S.Fns) →
          D ∈ S.WorkList
          ∨ ∀ G, CallGraphNode.ofFunction G ∈ CG.get D → G.isDeclaration = false → G ∈ S.Fns))
    (fun Cur Rest Fns Had hP => addAllDependencies.reach_step CG M K hK Cur Rest Fns Had hP)
    _ _ S hinit hS
  obtain ⟨ha, _, hc⟩ := hP hNo
  constructor
  · exact ha G
  · intro hReach
    have hclosed : ∀ D, (D = K ∨ D ∈ S.Fns) →
        ∀ G, CallGraphNode.ofFunction G ∈ CG.get D → G.isDeclaration = false → G ∈ S.Fns := by
      intro D hD
      rcases hc D hD with h1 | h1
      · rw [hW] at h1
        exact absurd h1 (List.not_mem_nil D)
      · exact h1
    unfold CallGraph.Reaches at hReach
    induction hReach with
    | single h1 => exact hclosed K (Or.inl rfl) _ h1.2.2 h1.2.1
    | tail _ h2 ih => exact hclosed _ (Or.inr ih) _ h2.2.2 h2.2.1

/-! ## Lookups and indices -/

theorem CallGraph.mapFunctions_targets (f : Function → Function) (CG : CallGraph) :
    (CG.mapFunctions f).targets = CG.targets.map f := by
  unfold CallGraph.mapFunctions CallGraph.targets
  simp only
  induction CG.FunctionMap with
  | nil => rfl
  | cons P l ih =>
    rw [List.map_cons, List.foldr_cons, List.foldr_cons, ih, List.map_append]
    congr 1
    simp only
    induction P.2 with
    | nil => rfl
    | cons n ns ih2 =>
      cases n with
      | ofFunction F =>
        simp only [List.map_cons, CallGraphNode.mapFunction, List.filterMap_cons,
          CallGraphNode.getFunction]
        rw [ih2]
      | CallsExternalNode =>
        simp only [List.map_cons, CallGraphNode.mapFunction, List.filterMap_cons,
          CallGraphNode.getFunction]
        exact ih2
      | OtherNode =>
        simp only [List.map_cons, CallGraphNode.mapFunction, List.filterMap_cons,
          CallGraphNode.getFunction]
        exact ih2

/-- The members of the set that `addAllDependencies` returns are targets of call records or
functions of the module. -/
theorem addAllDependencies_mem_source (CG : CallGraph) (M : Module) (K : Function)
    (R : DenseSet × Bool) (h : addAllDependencies CG M K DenseSet.empty false = some R)
    (D : Function) (hD : D ∈ R.1) : D ∈ CG.targets ∨ D ∈ M.Functions := by
  unfold addAllDependencies at h
  rw [Option.map_eq_some'] at h
  obtain ⟨S, hS, hR⟩ := h
  subst hR
  obtain ⟨hP, _⟩ := addAllDependencies.loop_invariant CG M
    (fun S => ∀ D, D ∈ S.Fns → D ∈ CG.targets ∨ D ∈ M.Functions)
    (fun Cur Rest Fns Had hP D hD => by
      rcases addAllDependencies.scan_fns_inv M (CG.get Cur) ⟨Rest, Fns, Had⟩ D hD with
        h1 | ⟨h1, _, _⟩ | ⟨_, h1, _⟩
      · exact hP D h1
      · exact Or.inl (CallGraph.get_mem_targets CG Cur D h1)
      · exact Or.inr h1)
    _ _ S (fun D hD => absurd hD (DenseSet.not_mem_empty D)) hS
  exact hP D hD

/-- The kernels that the loop gathers: each is constructed from an entry point of the list
that has a body. -/
theorem splitAMDGPUModule.gatherKernels_mem (CG : CallGraph) (M : Module) (FnCosts : CostMap)
    (Fns : List Function) (Ks : List KernelWithDependencies)
    (h : splitAMDGPUModule.gatherKernels CG M FnCosts Fns = some Ks)
    (K : KernelWithDependencies) (hK : K ∈ Ks) :
    ∃ Fn, Fn ∈ Fns ∧ isEntryPoint Fn = true ∧ Fn.isDeclaration = false
      ∧ KernelWithDependencies.construct CG M FnCosts Fn = some K := by
  induction Fns generalizing Ks with
  | nil =>
    simp only [splitAMDGPUModule.gatherKernels, Option.some.injEq] at h
    rw [← h] at hK
    exact absurd hK (List.not_mem_nil K)
  | cons Fn Rest ih =>
    unfold splitAMDGPUModule.gatherKernels at h
    by_cases hc : (isEntryPoint Fn && !Fn.isDeclaration) = true
    · rw [if_pos hc] at h
      cases hC : KernelWithDependencies.construct CG M FnCosts Fn with
      | none => rw [hC] at h; simp at h
      | some K0 =>
        cases hG : splitAMDGPUModule.gatherKernels CG M FnCosts Rest with
        | none => rw [hC, hG] at h; simp at h
        | some Ks0 =>
          rw [hC, hG] at h
          simp only [Option.some.injEq] at h
          rw [← h] at hK
          rcases List.mem_cons.1 hK with e | e
          · simp only [Bool.and_eq_true, Bool.not_eq_true'] at hc
            exact ⟨Fn, List.mem_cons_self Fn Rest, hc.1, hc.2, by rw [e]; exact hC⟩
          · obtain ⟨Fn1, h1, h2, h3, h4⟩ := ih Ks0 hG e
            exact ⟨Fn1, List.mem_cons_of_mem Fn h1, h2, h3, h4⟩
    · rw [if_neg hc] at h
      obtain ⟨Fn1, h1, h2, h3, h4⟩ := ih Ks h hK
      exact ⟨Fn1, List.mem_cons_of_mem Fn h1, h2, h3, h4⟩

theorem splitAMDGPUModule.workList_mem (CG : CallGraph) (M : Module) (FnCosts : CostMap)
    (WorkList : List KernelWithDependencies)
    (h : splitAMDGPUModule.workList CG M FnCosts = some WorkList)
    (K : KernelWithDependencies) (hK : K ∈ WorkList) :
    ∃ Fn, Fn ∈ M.Functions ∧ isEntryPoint Fn = true ∧ Fn.isDeclaration = false
      ∧ KernelWithDependencies.construct CG M FnCosts Fn = some K := by
  unfold splitAMDGPUModule.workList at h
  rw [Option.map_eq_some'] at h
  obtain ⟨Ks, hKs, hS⟩ := h
  rw [← hS] at hK
  exact splitAMDGPUModule.gatherKernels_mem CG M FnCosts M.Functions Ks hKs K
    ((List.perm_insertionSort _ Ks).subset hK)

/-- A kernel of the work list and its dependencies are functions of the module with a
body, when the targets of the call graph are functions of the module. -/
theorem splitAMDGPUModule.workList_defined (CG : CallGraph) (M : Module) (FnCosts : CostMap)
    (hCG : ∀ G, G ∈ CG.targets → G ∈ M.Functions)
    (WorkList : List KernelWithDependencies)
    (h : splitAMDGPUModule.workList CG M FnCosts = some WorkList)
    (K : KernelWithDependencies) (hK : K ∈ WorkList) (G : Function)
    (hG : G = K.Fn ∨ G ∈ K.Dependencies) : G ∈ M.Functions ∧ G.isDeclaration = false := by
  obtain ⟨Fn, h1, _, h3, h4⟩ := splitAMDGPUModule.workList_mem CG M FnCosts WorkList h K hK
  obtain ⟨hFn, hA, _⟩ := KernelWithDependencies.construct_eq_some CG M FnCosts Fn K h4
  rcases hG with e | e
  · rw [e, hFn]
    exact ⟨h1, h3⟩
  · constructor
    · rcases addAllDependencies_mem_source CG M Fn _ hA G e with h5 | h5
      · exact hCG G h5
      · exact h5
    · exact (addAllDependencies_spec CG M Fn _ hA).2.2 G e

/-- The queue of a well-formed state with at least one partition is not empty, and its
entries carry ids of partitions. -/
theorem PartitioningState.WellFormed.queue (FnCosts : CostMap) (NumParts : Nat)
    (S : PartitioningState) (h : S.WellFormed FnCosts NumParts) (hN : 1 ≤ NumParts) :
    S.BalancingQueue ≠ [] ∧ ∀ E, E ∈ S.BalancingQueue → E.1 < NumParts := by
  obtain ⟨_, h2, _, _⟩ := h
  constructor
  · intro he
    have := h2.length_eq
    rw [he] at this
    simp at this
    omega
  · intro E hE
    have : E.1 ∈ S.BalancingQueue.map Prod.fst := List.mem_map_of_mem _ hE
    exact List.mem_range.1 (h2.mem_iff.1 this)

/-! ## The clean-up as a fixpoint -/

/-- A variable has uses in a unit exactly when one of its uses is in the body of a function
that the unit defines or in the initializer of a variable that the unit defines. -/
theorem GlobalVariable.use_empty_eq_false_iff (MP : Module) (A : GlobalVariable) :
    A.use_empty MP = false ↔
      (∃ Fn, Fn ∈ MP.Functions ∧ Fn.isDeclaration = false ∧ GlobalUser.Body Fn.Id ∈ A.Users)
      ∨ (∃ V, V ∈ MP.Globals ∧ V.isDeclaration = false
          ∧ GlobalUser.Initializer V.Id ∈ A.Users) := by
  unfold GlobalVariable.use_empty
  rw [← Bool.not_eq_true, List.all_eq_true]
  constructor
  · intro h
    push_neg at h
    obtain ⟨U, hU, hx⟩ := h
    cases U with
    | Body FnId =>
      have hx1 : (MP.Functions.any fun Fn => decide (Fn.Id = FnId) && !Fn.isDeclaration)
          = true := by simpa using hx
      rw [List.any_eq_true] at hx1
      obtain ⟨Fn, hFn, hx2⟩ := hx1
      rw [Bool.and_eq_true, decide_eq_true_eq] at hx2
      obtain ⟨hId, hb⟩ := hx2
      subst hId
      exact Or.inl ⟨Fn, hFn, by simpa using hb, hU⟩
    | Initializer VarId =>
      have hx1 : (MP.Globals.any fun V => decide (V.Id = VarId) && !V.isDeclaration)
          = true := by simpa using hx
      rw [List.any_eq_true] at hx1
      obtain ⟨V, hV, hx2⟩ := hx1
      rw [Bool.and_eq_true, decide_eq_true_eq] at hx2
      obtain ⟨hId, hb⟩ := hx2
      subst hId
      exact Or.inr ⟨V, hV, by simpa using hb, hU⟩
  · rintro (⟨Fn, hFn, hb, hU⟩ | ⟨V, hV, hb, hU⟩) hall
    · have := hall _ hU
      simp only [Bool.not_eq_true', List.any_eq_false, Bool.and_eq_true, decide_eq_true_eq,
        Bool.not_eq_true', not_and, Bool.not_eq_false] at this
      have h2 := this Fn hFn rfl
      rw [hb] at h2
      exact absurd h2 (by decide)
    · have := hall _ hU
      simp only [Bool.not_eq_true', List.any_eq_false, Bool.and_eq_true, decide_eq_true_eq,
        Bool.not_eq_true', not_and, Bool.not_eq_false] at this
      have h2 := this V hV rfl
      rw [hb] at h2
      exact absurd h2 (by decide)

/-- A use that the rest of the loop leaves in place is a use. -/
theorem GlobalVariable.hasLastingUse.use_empty_eq_false (MP : Module) (l : List GlobalVariable)
    (A : GlobalVariable) (h : A.hasLastingUse MP l) : A.use_empty MP = false := by
  rw [GlobalVariable.use_empty_eq_false_iff]
  rcases h with ⟨Fn, h1, h2, h3⟩ | ⟨V, h1, h2, h3, _⟩
  · exact Or.inl ⟨Fn, h1, h2, h3⟩
  · exact Or.inr ⟨V, h1, h2, h3⟩

/-- The loop of the clean-up over the variables `l`, none of which is used by the initializer
of a variable with local linkage that comes later in `l`: when every variable with local
linkage that the loop has left behind has a use that the loop leaves in place, every
variable with local linkage of the unit after the loop has a use in that unit. -/
theorem splitAMDGPUModule.cleanup_foldl_fixpoint (l : List GlobalVariable) (MP : Module)
    (hn : MP.Globals.Nodup) (hl : l.Nodup) (hsub : ∀ V, V ∈ l → V ∈ MP.Globals)
    (hord : l.Pairwise (fun A B =>
      ¬ (B.hasLocalLinkage = true ∧ GlobalUser.Initializer B.Id ∈ A.Users)))
    (hdone : ∀ A, A ∈ MP.Globals → ¬ A ∈ l → A.hasLocalLinkage = true →
      A.hasLastingUse MP l)
    (GV : GlobalVariable)
    (hGV : GV ∈ (l.foldl
        (fun MP GV =>
          if splitAMDGPUModule.NeedsConservativeImport (GlobalValue.ofVariable GV)
              && GV.use_empty MP then
            { MP with Globals := MP.Globals.erase GV }
          else MP) MP).Globals)
    (hL : GV.hasLocalLinkage = true) :
    GV.use_empty (l.foldl
        (fun MP GV =>
          if splitAMDGPUModule.NeedsConservativeImport (GlobalValue.ofVariable GV)
              && GV.use_empty MP then
            { MP with Globals := MP.Globals.erase GV }
          else MP) MP) = false := by
  induction l generalizing MP with
  | nil =>
    exact GlobalVariable.hasLastingUse.use_empty_eq_false MP [] GV
      (hdone GV hGV (List.not_mem_nil GV) hL)
  | cons a Rest ih =>
    rw [List.foldl_cons] at hGV ⊢
    have haRest : ¬ a ∈ Rest := (List.nodup_cons.1 hl).1
    have hRest : Rest.Nodup := (List.nodup_cons.1 hl).2
    have hordRest := (List.pairwise_cons.1 hord).2
    have horda := (List.pairwise_cons.1 hord).1
    by_cases hc : (splitAMDGPUModule.NeedsConservativeImport (GlobalValue.ofVariable a)
        && a.use_empty MP) = true
    · rw [if_pos hc] at hGV ⊢
      have haL : a.hasLocalLinkage = true := (Bool.and_eq_true _ _ ▸ hc).1
      apply ih { MP with Globals := MP.Globals.erase a } (hn.erase a) hRest _ hordRest _ hGV
      · intro V hV
        exact (List.mem_erase_of_ne (fun e => haRest (by rw [← e]; exact hV))).2
          (hsub V (List.mem_cons_of_mem a hV))
      · intro A hA hAR hAL
        have hA0 : A ∈ MP.Globals := List.mem_of_mem_erase hA
        have hAa : A ≠ a := fun e => ((List.Nodup.mem_erase_iff hn).1 hA).1 e
        have hAl : ¬ A ∈ a :: Rest := by
          intro hm
          rcases List.mem_cons.1 hm with e | e
          · exact hAa e
          · exact hAR e
        rcases hdone A hA0 hAl hAL with ⟨Fn, h1, h2, h3⟩ | ⟨V, h1, h2, h3, h4⟩
        · exact Or.inl ⟨Fn, h1, h2, h3⟩
        · have hVa : V ≠ a := by
            intro e
            rcases h4 with h4 | h4
            · exact h4 (e ▸ List.mem_cons_self a Rest)
            · rw [e, haL] at h4
              exact absurd h4 (by decide)
          refine Or.inr ⟨V, (List.mem_erase_of_ne hVa).2 h1, h2, h3, ?_⟩
          rcases h4 with h4 | h4
          · exact Or.inl (fun hm => h4 (List.mem_cons_of_mem a hm))
          · exact Or.inr h4
    · rw [if_neg hc] at hGV ⊢
      apply ih MP hn hRest (fun V hV => hsub V (List.mem_cons_of_mem a hV)) hordRest _ hGV
      intro A hA hAR hAL
      by_cases hAa : A = a
      · subst hAa
        have hU : A.use_empty MP = false := by
          cases hu : A.use_empty MP with
          | false => rfl
          | true =>
            exfalso
            apply hc
            rw [Bool.and_eq_true]
            exact ⟨hAL, hu⟩
        rcases (GlobalVariable.use_empty_eq_false_iff MP A).1 hU with
          ⟨Fn, h1, h2, h3⟩ | ⟨V, h1, h2, h3⟩
        · exact Or.inl ⟨Fn, h1, h2, h3⟩
        · refine Or.inr ⟨V, h1, h2, h3, ?_⟩
          by_cases hVR : V ∈ Rest
          · right
            have := horda V hVR
            cases hv : V.hasLocalLinkage with
            | false => rfl
            | true => exact absurd ⟨hv, h3⟩ this
          · exact Or.inl hVR
      · have hAl : ¬ A ∈ a :: Rest := by
          intro hm
          rcases List.mem_cons.1 hm with e | e
          · exact hAa e
          · exact hAR e
        rcases hdone A hA hAl hAL with ⟨Fn, h1, h2, h3⟩ | ⟨V, h1, h2, h3, h4⟩
        · exact Or.inl ⟨Fn, h1, h2, h3⟩
        · refine Or.inr ⟨V, h1, h2, h3, ?_⟩
          rcases h4 with h4 | h4
          · exact Or.inl (fun hm => h4 (List.mem_cons_of_mem a hm))
          · exact Or.inr h4

/-- The loop of the clean-up over the variables `l`: a variable of `l` with local linkage
that is in the unit after the loop had a use in the unit as it was when the loop came to
it. -/
theorem splitAMDGPUModule.cleanup_foldl_kept (l : List GlobalVariable) (MP : Module)
    (hn : MP.Globals.Nodup) (GV : GlobalVariable) (hl : GV ∈ l)
    (hGV : GV ∈ (l.foldl
        (fun MP GV =>
          if splitAMDGPUModule.NeedsConservativeImport (GlobalValue.ofVariable GV)
              && GV.use_empty MP then
            { MP with Globals := MP.Globals.erase GV }
          else MP) MP).Globals)
    (hL : GV.hasLocalLinkage = true) :
    ∃ Pre Post, l = Pre ++ GV :: Post
      ∧ GV.use_empty (Pre.foldl
          (fun MP GV =>
            if splitAMDGPUModule.NeedsConservativeImport (GlobalValue.ofVariable GV)
                && GV.use_empty MP then
              { MP with Globals := MP.Globals.erase GV }
            else MP) MP) = false := by
  induction l generalizing MP with
  | nil => exact absurd hl (List.not_mem_nil GV)
  | cons a Rest ih =>
    rw [List.foldl_cons] at hGV
    by_cases hc : (splitAMDGPUModule.NeedsConservativeImport (GlobalValue.ofVariable a)
        && a.use_empty MP) = true
    · rw [if_pos hc] at hGV
      have hsub := (splitAMDGPUModule.cleanup_foldl_spec Rest
        { MP with Globals := MP.Globals.erase a }).2
      have hGVe : GV ∈ MP.Globals.erase a := hsub.subset hGV
      have hne : GV ≠ a := ((List.Nodup.mem_erase_iff hn).1 hGVe).1
      have hR : GV ∈ Rest := by
        rcases List.mem_cons.1 hl with e | e
        · exact absurd e hne
        · exact e
      obtain ⟨Pre, Post, h2, h3⟩ := ih { MP with Globals := MP.Globals.erase a } (hn.erase a) hR hGV
      refine ⟨a :: Pre, Post, by rw [h2]; rfl, ?_⟩
      rw [List.foldl_cons, if_pos hc]
      exact h3
    · rw [if_neg hc] at hGV
      by_cases ha : GV = a
      · subst ha
        refine ⟨[], Rest, rfl, ?_⟩
        cases hu : GV.use_empty MP with
        | false => simpa using hu
        | true =>
          exfalso
          apply hc
          rw [Bool.and_eq_true]
          exact ⟨hL, hu⟩
      · have hR : GV ∈ Rest := by
          rcases List.mem_cons.1 hl with e | e
          · exact absurd e ha
          · exact e
        obtain ⟨Pre, Post, h2, h3⟩ := ih MP hn hR hGV
        refine ⟨a :: Pre, Post, by rw [h2]; rfl, ?_⟩
        rw [List.foldl_cons, if_neg hc]
        exact h3

/-! ## The total cost of a kernel -/

theorem CostType.add_right_comm (z x y : Int) :
    CostType.add (CostType.add z x) y = CostType.add (CostType.add z y) x := by
  unfold CostType.add
  simp only [CostType]
  omega

theorem CostType.add_add_zero (c x y : Int) :
    CostType.add (CostType.add c x) y = CostType.add c (CostType.add (CostType.add 0 x) y) := by
  unfold CostType.add
  simp only [CostType]
  omega

theorem CostType.add_zero_right (c : Int) (h : CostTypeMin ≤ c ∧ c ≤ CostTypeMax) :
    CostType.add c 0 = c := by
  unfold CostTypeMin CostTypeMax at h
  simp only [CostType] at h
  rw [CostType.add_exact c 0 (by omega) (by omega)]
  exact add_zero c

theorem CostType.add_zero_left (c : Int) (h : CostTypeMin ≤ c ∧ c ≤ CostTypeMax) :
    CostType.add 0 c = c := by
  unfold CostTypeMin CostTypeMax at h
  simp only [CostType] at h
  rw [CostType.add_exact 0 c (by omega) (by omega)]
  exact zero_add c

/-- The 64-bit sum of the costs of a list of functions, from the start value `c`, is the
64-bit sum of `c` and of the 64-bit sum from 0. -/
theorem CostType.foldl_add_start (FnCosts : CostMap) (l : List Function) (c : Int)
    (h : CostTypeMin ≤ c ∧ c ≤ CostTypeMax) :
    l.foldl (fun Acc F => CostType.add Acc (FnCosts.at F)) c
      = CostType.add c (l.foldl (fun Acc F => CostType.add Acc (FnCosts.at F)) 0) := by
  induction l generalizing c with
  | nil => exact (CostType.add_zero_right c h).symm
  | cons x t ih =>
    rw [List.foldl_cons, List.foldl_cons,
      ih (CostType.add c (FnCosts.at x)) ⟨CostType.min_le_add _ _, CostType.add_le_max _ _⟩,
      ih (CostType.add 0 (FnCosts.at x)) ⟨CostType.min_le_add _ _, CostType.add_le_max _ _⟩]
    exact CostType.add_add_zero _ _ _

/-- The 64-bit sum of the costs of a list of functions does not depend on the order. -/
theorem CostType.foldl_add_perm (FnCosts : CostMap) (l1 l2 : List Function) (c : Int)
    (h : l1.Perm l2) :
    l1.foldl (fun Acc F => CostType.add Acc (FnCosts.at F)) c
      = l2.foldl (fun Acc F => CostType.add Acc (FnCosts.at F)) c :=
  List.Perm.foldl_eq' h (fun _ _ _ _ z => CostType.add_right_comm z _ _) c

theorem KernelWithDependencies.addDependency_foldl_fst (FnCosts : CostMap) (l : List Function)
    (c : CostType) (b : Bool) :
    (l.foldl (KernelWithDependencies.addDependency FnCosts) (c, b)).1
      = l.foldl (fun Acc F => CostType.add Acc (FnCosts.at F)) c := by
  induction l generalizing c b with
  | nil => rfl
  | cons F l ih =>
    rw [List.foldl_cons, List.foldl_cons]
    exact ih _ _

/-- The total cost of a constructed kernel: the 64-bit sum of the cost of the kernel and of
the costs of the members of its dependency set. -/
theorem KernelWithDependencies.construct_totalCost (CG : CallGraph) (M : Module)
    (FnCosts : CostMap) (Fn : Function) (K : KernelWithDependencies)
    (h : KernelWithDependencies.construct CG M FnCosts Fn = some K) :
    K.TotalCost
      = K.Dependencies.Elems.foldl (fun Acc F => CostType.add Acc (FnCosts.at F))
          (FnCosts.at Fn) := by
  unfold KernelWithDependencies.construct at h
  rw [Option.map_eq_some'] at h
  obtain ⟨R, _, hK⟩ := h
  subst hK
  exact KernelWithDependencies.addDependency_foldl_fst FnCosts R.1.Elems (FnCosts.at Fn) false

/-- The members of a partition that holds one kernel alone: the kernel and its dependencies,
each once. -/
theorem KernelWithDependencies.addTo_empty_perm (K : KernelWithDependencies) :
    (¬ K.Fn ∈ K.Dependencies →
      (K.addTo DenseSet.empty).Elems.Perm (K.Fn :: K.Dependencies.Elems))
    ∧ (K.Fn ∈ K.Dependencies → (K.addTo DenseSet.empty).Elems.Perm K.Dependencies.Elems) := by
  have hmem : ∀ G, G ∈ (K.addTo DenseSet.empty).Elems ↔ G = K.Fn ∨ G ∈ K.Dependencies.Elems := by
    intro G
    have := K.mem_addTo DenseSet.empty G
    rw [DenseSet.mem_def] at this
    rw [this]
    constructor
    · rintro (h | h | h)
      · exact Or.inl h
      · exact absurd h (DenseSet.not_mem_empty G)
      · exact Or.inr h
    · rintro (h | h)
      · exact Or.inl h
      · exact Or.inr (Or.inr h)
  constructor
  · intro hFn
    apply (List.perm_ext_iff_of_nodup (K.addTo DenseSet.empty).Nodup
      (List.nodup_cons.2 ⟨hFn, K.Dependencies.Nodup⟩)).2
    intro G
    rw [hmem, List.mem_cons]
  · intro hFn
    apply (List.perm_ext_iff_of_nodup (K.addTo DenseSet.empty).Nodup K.Dependencies.Nodup).2
    intro G
    rw [hmem]
    constructor
    · rintro (h | h)
      · rw [h]; exact hFn
      · exact h
    · exact fun h => Or.inr h

/-- The sum of the values of a function without negative values over a list without
duplicates is at most the sum over a list that holds the members of the first. -/
theorem List.sum_map_le_of_nodup_subset {α : Type} (f : α → Int) (l1 l2 : List α)
    (hn : l1.Nodup) (hsub : ∀ a, a ∈ l1 → a ∈ l2) (hpos : ∀ a, a ∈ l2 → 0 ≤ f a) :
    (l1.map f).sum ≤ (l2.map f).sum := by
  induction l1 generalizing l2 with
  | nil =>
    rw [List.map_nil, List.sum_nil]
    apply List.sum_nonneg
    intro x hx
    obtain ⟨a, ha, rfl⟩ := List.mem_map.1 hx
    exact hpos a ha
  | cons a t ih =>
    have ha : a ∈ l2 := hsub a (List.mem_cons_self a t)
    obtain ⟨s1, s2, rfl⟩ := List.append_of_mem ha
    have hat : ¬ a ∈ t := (List.nodup_cons.1 hn).1
    have := ih (s1 ++ s2) (List.nodup_cons.1 hn).2
      (fun b hb => by
        have hb2 := hsub b (List.mem_cons_of_mem a hb)
        have hne : b ≠ a := fun e => hat (e ▸ hb)
        rw [List.mem_append, List.mem_cons] at hb2
        rw [List.mem_append]
        rcases hb2 with h | h | h
        · exact Or.inl h
        · exact absurd h hne
        · exact Or.inr h)
      (fun b hb => hpos b (by
        rw [List.mem_append] at hb
        rw [List.mem_append, List.mem_cons]
        rcases hb with h | h
        · exact Or.inl h
        · exact Or.inr (Or.inr h)))
    simp only [List.map_append, List.sum_append, List.map_cons, List.sum_cons] at this ⊢
    omega

/-! ## Load balance for kernels without dependencies -/

/-- The cost of a partition is the exact sum of the costs of its members when no cost is
negative and the sum fits `int64_t`. -/
theorem partitionCost_eq_list_sum (FnCosts : CostMap) (P : DenseSet)
    (hpos : ∀ F, 0 ≤ FnCosts.at F) (hhi : (P.Elems.map FnCosts.at).sum < 2 ^ 63) :
    partitionCost FnCosts P = (P.Elems.map FnCosts.at).sum := by
  unfold partitionCost
  simp only [CostType] at hhi
  rw [partitionCost_foldl FnCosts P.Elems 0 (le_refl 0) (fun F _ => hpos F) (by omega)]
  exact zero_add _

/-- A kernel without dependencies adds its own function and nothing else. -/
theorem KernelWithDependencies.addTo_noDeps (K : KernelWithDependencies) (P : DenseSet)
    (h : K.Dependencies.isEmpty = true) : K.addTo P = (P.insert K.Fn).1 := by
  unfold KernelWithDependencies.addTo DenseSet.insertRange
  have : K.Dependencies.Elems = [] := by
    unfold DenseSet.isEmpty at h
    exact List.isEmpty_iff.1 h
  rw [this]
  rfl

theorem DenseSet.sum_insert (FnCosts : CostMap) (P : DenseSet) (F : Function) :
    (((P.insert F).1).Elems.map FnCosts.at).sum
      = if F ∈ P then (P.Elems.map FnCosts.at).sum
        else FnCosts.at F + (P.Elems.map FnCosts.at).sum := by
  unfold DenseSet.insert
  by_cases h : F ∈ P.Elems
  · rw [dif_pos h, if_pos ((DenseSet.mem_def P F).2 h)]
  · rw [dif_neg h, if_neg (fun hm => h ((DenseSet.mem_def P F).1 hm))]
    simp only [List.map_cons, List.sum_cons]

theorem largestKernelCost.foldl_ge (l : List KernelWithDependencies) (m : Int) :
    m ≤ l.foldl (fun Largest K => max Largest K.TotalCost) m := by
  induction l generalizing m with
  | nil => exact le_refl m
  | cons K t ih =>
    rw [List.foldl_cons]
    exact le_trans (le_max_left m K.TotalCost) (ih _)

theorem largestKernelCost_append (Pre Rest : List KernelWithDependencies) :
    largestKernelCost Pre ≤ largestKernelCost (Pre ++ Rest) := by
  unfold largestKernelCost
  rw [List.foldl_append]
  exact largestKernelCost.foldl_ge Rest _

/-- One step of the loop for a kernel without dependencies and without flags, in a state
whose partition costs are exact sums below `c`: the partition costs stay exact sums, below
`c` plus the cost of the kernel, and the spread of the costs stays below the larger of the
former bound and the cost of the kernel. -/
theorem doPartitioning.processKernel_balanced (Opts : SplitOptions) (FnCosts : CostMap)
    (NumParts : Nat) (hN : 1 ≤ NumParts) (Threshold : CostType) (S : PartitioningState)
    (K : KernelWithDependencies)
    (h1 : K.HasIndirectCall = false) (h2 : K.HasNonDuplicatableDependecy = false)
    (h3 : K.Dependencies.isEmpty = true)
    (hpos : ∀ F, 0 ≤ FnCosts.at F)
    (hW : S.WellFormed FnCosts NumParts)
    (c m : Int)
    (hc : ∀ I, ((S.part I).Elems.map FnCosts.at).sum ≤ c)
    (hhi : c + FnCosts.at K.Fn < 2 ^ 63)
    (hm : ∀ I J, I < NumParts → J < NumParts →
      ((S.part I).Elems.map FnCosts.at).sum - ((S.part J).Elems.map FnCosts.at).sum ≤ m) :
    (∀ I, (((doPartitioning.processKernel Opts FnCosts Threshold S K).part I).Elems.map
        FnCosts.at).sum ≤ c + FnCosts.at K.Fn)
    ∧ (∀ I J, I < NumParts → J < NumParts →
        (((doPartitioning.processKernel Opts FnCosts Threshold S K).part I).Elems.map
            FnCosts.at).sum
          - (((doPartitioning.processKernel Opts FnCosts Threshold S K).part J).Elems.map
            FnCosts.at).sum ≤ max m (FnCosts.at K.Fn)) := by
  rw [doPartitioning.processKernel_noDeps Opts FnCosts Threshold S K h1 h2 h3]
  obtain ⟨_, hlt⟩ := PartitioningState.WellFormed.back_lt FnCosts NumParts S hW hN
  have hlen : S.Partitions.length = NumParts := hW.1
  have hK0 : (0 : Int) ≤ FnCosts.at K.Fn := hpos K.Fn
  have hexact : ∀ I, partitionCost FnCosts (S.part I) = ((S.part I).Elems.map FnCosts.at).sum := by
    intro I
    apply partitionCost_eq_list_sum FnCosts _ hpos
    have := hc I
    simp only [CostType] at this hhi hK0 ⊢
    omega
  have hleast : ∀ J, J < NumParts →
      ((S.part (S.BalancingQueue.getLastD (0, 0)).1).Elems.map FnCosts.at).sum
        ≤ ((S.part J).Elems.map FnCosts.at).sum := by
    intro J hJ
    have := (PartitioningState.WellFormed.back_least FnCosts NumParts S hW hN J hJ).1
    rw [hexact, hexact] at this
    exact this
  have hpart : ∀ I, ((AssignToPartition FnCosts (S.BalancingQueue.getLastD (0, 0)).1 K S).part I)
      = if (S.BalancingQueue.getLastD (0, 0)).1 = I
        then ((S.part I).insert K.Fn).1 else S.part I := by
    intro I
    rw [AssignToPartition_part]
    by_cases e : (S.BalancingQueue.getLastD (0, 0)).1 = I
    · rw [if_pos ⟨e, by rw [hlen]; exact hlt⟩, if_pos e, KernelWithDependencies.addTo_noDeps K _ h3,
        e]
    · rw [if_neg (fun h => e h.1), if_neg e]
  have hnew : ∀ I,
      ((S.part I).Elems.map FnCosts.at).sum
        ≤ (((AssignToPartition FnCosts (S.BalancingQueue.getLastD (0, 0)).1 K S).part I).Elems.map
          FnCosts.at).sum
      ∧ (((AssignToPartition FnCosts (S.BalancingQueue.getLastD (0, 0)).1 K S).part I).Elems.map
          FnCosts.at).sum
        ≤ ((S.part I).Elems.map FnCosts.at).sum
          + (if (S.BalancingQueue.getLastD (0, 0)).1 = I then FnCosts.at K.Fn else 0) := by
    intro I
    rw [hpart I]
    by_cases e : (S.BalancingQueue.getLastD (0, 0)).1 = I
    · rw [if_pos e, if_pos e, DenseSet.sum_insert]
      split_ifs
      · simp only [CostType] at hK0 ⊢
        constructor <;> omega
      · simp only [CostType] at hK0 ⊢
        constructor <;> omega
    · rw [if_neg e, if_neg e]
      simp
  constructor
  · intro I
    have h5 := (hnew I).2
    have h6 := hc I
    split_ifs at h5
    · simp only [CostType] at h5 h6 hK0 ⊢
      omega
    · simp only [CostType] at h5 h6 hK0 ⊢
      omega
  · intro I J hI hJ
    have hI1 := (hnew I).2
    have hJ1 := (hnew J).1
    have hIJ := hm I J hI hJ
    have hmax1 := le_max_left m (FnCosts.at K.Fn)
    have hmax2 := le_max_right m (FnCosts.at K.Fn)
    by_cases e : (S.BalancingQueue.getLastD (0, 0)).1 = I
    · rw [if_pos e] at hI1
      have hl := hleast J hJ
      rw [e] at hl
      simp only [CostType] at hI1 hJ1 hl hmax2 ⊢
      omega
    · rw [if_neg e] at hI1
      simp only [CostType] at hI1 hJ1 hIJ hmax1 ⊢
      omega

/-- The loop over kernels without dependencies and without flags keeps the partition costs
exact and the spread of the costs below the largest cost of a kernel. -/
theorem doPartitioning.foldl_balanced (Opts : SplitOptions) (FnCosts : CostMap)
    (NumParts : Nat) (hN : 1 ≤ NumParts) (Threshold : CostType)
    (hpos : ∀ F, 0 ≤ FnCosts.at F)
    (l : List KernelWithDependencies)
    (hl : ∀ K, K ∈ l → K.HasIndirectCall = false ∧ K.HasNonDuplicatableDependecy = false
      ∧ K.Dependencies.isEmpty = true ∧ K.TotalCost = FnCosts.at K.Fn)
    (S : PartitioningState) (hW : S.WellFormed FnCosts NumParts)
    (c m : Int)
    (hc : ∀ I, ((S.part I).Elems.map FnCosts.at).sum ≤ c)
    (hhi : c + (l.map (fun K => K.TotalCost)).sum < 2 ^ 63)
    (hm : ∀ I J, I < NumParts → J < NumParts →
      ((S.part I).Elems.map FnCosts.at).sum - ((S.part J).Elems.map FnCosts.at).sum ≤ m) :
    (∀ I, (((l.foldl (doPartitioning.processKernel Opts FnCosts Threshold) S).part I).Elems.map
        FnCosts.at).sum ≤ c + (l.map (fun K => K.TotalCost)).sum)
    ∧ (∀ I J, I < NumParts → J < NumParts →
        (((l.foldl (doPartitioning.processKernel Opts FnCosts Threshold) S).part I).Elems.map
            FnCosts.at).sum
          - (((l.foldl (doPartitioning.processKernel Opts FnCosts Threshold) S).part J).Elems.map
            FnCosts.at).sum ≤ l.foldl (fun Largest K => max Largest K.TotalCost) m) := by
  induction l generalizing S c m with
  | nil =>
    simp only [List.foldl_nil, List.map_nil, List.sum_nil, add_zero]
    exact ⟨hc, hm⟩
  | cons K t ih =>
    obtain ⟨k1, k2, k3, k4⟩ := hl K (List.mem_cons_self K t)
    have hK0 : (0 : Int) ≤ FnCosts.at K.Fn := hpos K.Fn
    have ht0 : (0 : Int) ≤ (t.map (fun K => K.TotalCost)).sum := by
      apply List.sum_nonneg
      intro x hx
      obtain ⟨K1, hK1, rfl⟩ := List.mem_map.1 hx
      rw [(hl K1 (List.mem_cons_of_mem K hK1)).2.2.2]
      exact hpos K1.Fn
    rw [List.map_cons, List.sum_cons, k4] at hhi
    obtain ⟨s1, s2⟩ := doPartitioning.processKernel_balanced Opts FnCosts NumParts hN Threshold
      S K k1 k2 k3 hpos hW c m hc (by simp only [CostType] at hhi ht0 ⊢; omega) hm
    have := ih (fun K1 hK1 => hl K1 (List.mem_cons_of_mem K hK1))
      (doPartitioning.processKernel Opts FnCosts Threshold S K)
      (doPartitioning.processKernel_wellFormed Opts FnCosts NumParts Threshold S K hW)
      (c + FnCosts.at K.Fn) (max m (FnCosts.at K.Fn)) s1
      (by simp only [CostType] at hhi ⊢; omega) s2
    rw [List.foldl_cons, List.foldl_cons, List.map_cons, List.sum_cons, k4]
    refine ⟨fun I => ?_, this.2⟩
    have := this.1 I
    simp only [CostType] at this ⊢
    omega

/-! ## The claims -/

/-- C1: for every number of partitions `NumParts ≥ 1` and every work list, each kernel of
the work list has a partition among those `doPartitioning` returns that holds the kernel
itself and every function of its dependency set. -/
theorem C1_kernel_with_dependencies_in_one_partition (Opts : SplitOptions) (M : Module)
    (NumParts : Nat) (hN : 1 ≤ NumParts) (ModuleCost : CostType) (FnCosts : CostMap)
    (WorkList : List KernelWithDependencies) (K : KernelWithDependencies) (hK : K ∈ WorkList) :
    ∃ P, P ∈ doPartitioning Opts M NumParts ModuleCost FnCosts WorkList ∧
      K.Fn ∈ P ∧ ∀ D, D ∈ K.Dependencies → D ∈ P := by
  obtain ⟨J, hJ, hG⟩ := doPartitioning.assignKernels_holds Opts NumParts hN ModuleCost FnCosts
    WorkList K hK
  have hlen := doPartitioning_length Opts M NumParts ModuleCost FnCosts WorkList
  refine ⟨(doPartitioning Opts M NumParts ModuleCost FnCosts WorkList).getD J DenseSet.empty,
    List.getD_mem_or_default _ J _ (by rw [hlen]; exact hJ), ?_, ?_⟩
  · exact (doPartitioning_mem Opts M NumParts hN ModuleCost FnCosts WorkList J _).2
      (Or.inl (hG _ (Or.inl rfl)))
  · intro D hD
    exact (doPartitioning_mem Opts M NumParts hN ModuleCost FnCosts WorkList J _).2
      (Or.inl (hG _ (Or.inr hD)))

/-- Witness of C1: the kernel `K` of the example with an indirect call, two partitions. -/
theorem C1_witness :
    1 ≤ 2 ∧ Example.indirectKernel ∈ [Example.indirectKernel] ∧
    ∃ P, P ∈ doPartitioning SplitOptions.default Example.indirectModule 2 30 Example.costs
        [Example.indirectKernel] ∧
      Example.indirectKernel.Fn ∈ P ∧ ∀ D, D ∈ Example.indirectKernel.Dependencies → D ∈ P :=
  ⟨by decide, List.mem_singleton.2 rfl,
    C1_kernel_with_dependencies_in_one_partition SplitOptions.default Example.indirectModule 2
      (by decide) 30 Example.costs [Example.indirectKernel] Example.indirectKernel
      (List.mem_singleton.2 rfl)⟩

/-- C2 (coverage): for every `NumParts ≥ 1` and every module, `doPartitioning` returns
`NumParts` partitions and each function of the module with a body is a member of at least
one of them. -/
theorem C2_coverage (Opts : SplitOptions) (M : Module) (NumParts : Nat) (hN : 1 ≤ NumParts)
    (ModuleCost : CostType) (FnCosts : CostMap) (WorkList : List KernelWithDependencies) :
    (doPartitioning Opts M NumParts ModuleCost FnCosts WorkList).length = NumParts
    ∧ ∀ F, F ∈ M.Functions → F.isDeclaration = false →
        ∃ P, P ∈ doPartitioning Opts M NumParts ModuleCost FnCosts WorkList ∧ F ∈ P := by
  have hlen := doPartitioning_length Opts M NumParts ModuleCost FnCosts WorkList
  refine ⟨hlen, ?_⟩
  intro F hF hd
  by_cases hex : ∃ I, F ∈ (doPartitioning.assignKernels Opts NumParts ModuleCost FnCosts
      WorkList).part I
  · obtain ⟨I, hI⟩ := hex
    have hIlt : I < NumParts := by
      by_contra hge
      have hl := (doPartitioning.assignKernels_wellFormed Opts NumParts ModuleCost FnCosts
        WorkList).1
      unfold PartitioningState.part at hI
      rw [List.getD_eq_default _ _ (by rw [hl]; exact Nat.le_of_not_lt hge)] at hI
      exact DenseSet.not_mem_empty F hI
    exact ⟨_, List.getD_mem_or_default _ I DenseSet.empty (by rw [hlen]; exact hIlt),
      (doPartitioning_mem Opts M NumParts hN ModuleCost FnCosts WorkList I F).2 (Or.inl hI)⟩
  · exact ⟨_, List.getD_mem_or_default _ 0 DenseSet.empty (by rw [hlen]; exact hN),
      (doPartitioning_mem Opts M NumParts hN ModuleCost FnCosts WorkList 0 F).2
        (Or.inr ⟨rfl, hF, hd, fun I hI => hex ⟨I, hI⟩⟩)⟩

/-- Witness of C2: the module of the example and an empty work list, so that every function
is placed by the final loop. -/
theorem C2_witness :
    1 ≤ 2 ∧
    ((doPartitioning SplitOptions.default Example.indirectModule 2 30 Example.costs []).length = 2
    ∧ ∀ F, F ∈ Example.indirectModule.Functions → F.isDeclaration = false →
        ∃ P, P ∈ doPartitioning SplitOptions.default Example.indirectModule 2 30 Example.costs [] ∧
          F ∈ P) :=
  ⟨by decide, C2_coverage SplitOptions.default Example.indirectModule 2 (by decide) 30
    Example.costs []⟩

/-- C3: for every `NumParts ≥ 1` and every work list whose kernels were constructed by
`KernelWithDependencies` from entry points with a body, a function of the module with a
body that has external linkage and is not an entry point is a member of the returned
partition `I` if and only if `I = 0`; the assertion of the verification loop holds of the
partitions after the loop over the work list, and the assertion of the cloning predicate
`(I == 0) == FnsInPart.contains(Fn)` holds for every partition. -/
theorem C3_external_functions_only_in_partition_zero (Opts : SplitOptions) (CG : CallGraph)
    (M : Module) (NumParts : Nat) (hN : 1 ≤ NumParts) (ModuleCost : CostType) (FnCosts : CostMap)
    (WorkList : List KernelWithDependencies)
    (hWL : ∀ K, K ∈ WorkList → ∃ Fn, isEntryPoint Fn = true ∧ Fn.isDeclaration = false ∧
      KernelWithDependencies.construct CG M FnCosts Fn = some K)
    (F : Function) (hF : F ∈ M.Functions) (hBody : F.isDeclaration = false)
    (hExt : F.hasExternalLinkage = true) (hNotEntry : isEntryPoint F = false) :
    (∀ I, I < NumParts →
      (F ∈ (doPartitioning Opts M NumParts ModuleCost FnCosts WorkList).getD I DenseSet.empty
        ↔ I = 0))
    ∧ doPartitioning.verified
        (doPartitioning.assignKernels Opts NumParts ModuleCost FnCosts WorkList).Partitions = true
    ∧ (∀ I, I < NumParts →
        decide (I = 0) = ((doPartitioning Opts M NumParts ModuleCost FnCosts WorkList).getD I
          DenseSet.empty).contains F) := by
  have hgood : ∀ K, K ∈ WorkList → isEntryPoint K.Fn = true ∧
      (K.HasNonDuplicatableDependecy = false →
        ∀ D, D ∈ K.Dependencies → D.hasExternalLinkage = false) := by
    intro K hK
    obtain ⟨Fn, hE, _, hC⟩ := hWL K hK
    obtain ⟨c1, _, c3⟩ := KernelWithDependencies.construct_eq_some CG M FnCosts Fn K hC
    refine ⟨by rw [c1]; exact hE, ?_⟩
    intro hnd D hD
    cases hx : D.hasExternalLinkage
    · rfl
    · have := c3.2 ⟨D, hD, Or.inl hx⟩
      rw [hnd] at this
      exact absurd this (by simp)
  have hinv : ∀ J, J ≠ 0 → ∀ G,
      G ∈ (doPartitioning.assignKernels Opts NumParts ModuleCost FnCosts WorkList).part J →
      G.hasExternalLinkage = true → isEntryPoint G = true := by
    unfold doPartitioning.assignKernels
    apply doPartitioning.foldl_noExternal
    · intro J _ G hG
      rw [doPartitioning.initialState_part] at hG
      exact absurd hG (DenseSet.not_mem_empty G)
    · exact hgood
  have hmain : ∀ I, I < NumParts →
      (F ∈ (doPartitioning Opts M NumParts ModuleCost FnCosts WorkList).getD I DenseSet.empty
        ↔ I = 0) := by
    intro I _
    rw [doPartitioning_mem Opts M NumParts hN ModuleCost FnCosts WorkList I F]
    constructor
    · rintro (h | ⟨h, _⟩)
      · by_contra hI
        have := hinv I hI F h hExt
        rw [hNotEntry] at this
        exact absurd this (by simp)
      · exact h
    · intro hI
      subst hI
      by_cases hex : ∃ J, F ∈ (doPartitioning.assignKernels Opts NumParts ModuleCost FnCosts
          WorkList).part J
      · obtain ⟨J, hJ⟩ := hex
        by_cases hJ0 : J = 0
        · subst hJ0; exact Or.inl hJ
        · have := hinv J hJ0 F hJ hExt
          rw [hNotEntry] at this
          exact absurd this (by simp)
      · exact Or.inr ⟨rfl, hF, hBody, fun J hJ => hex ⟨J, hJ⟩⟩
  refine ⟨hmain, ?_, ?_⟩
  · rw [doPartitioning.verified_iff]
    intro Idx _ Fn hFn
    by_cases h0 : Idx = 0
    · exact Or.inl h0
    · right
      cases hx : Fn.hasExternalLinkage
      · exact Or.inl rfl
      · exact Or.inr (hinv Idx h0 Fn hFn hx)
  · intro I hI
    have := hmain I hI
    by_cases h0 : I = 0
    · rw [decide_eq_true h0]
      exact ((DenseSet.contains_iff _ _).2 (this.2 h0)).symm
    · rw [decide_eq_false h0]
      cases hc : ((doPartitioning Opts M NumParts ModuleCost FnCosts WorkList).getD I
          DenseSet.empty).contains F
      · rfl
      · exact absurd (this.1 ((DenseSet.contains_iff _ _).1 hc)) h0

/-- Witness of C3: the function `F` of the example, pulled in by the indirect call of `K`. -/
theorem C3_witness :
    (∀ I, I < 2 →
      (Example.F ∈ (doPartitioning SplitOptions.default Example.indirectModule 2 30 Example.costs
          [Example.indirectKernel]).getD I DenseSet.empty ↔ I = 0))
    ∧ doPartitioning.verified
        (doPartitioning.assignKernels SplitOptions.default 2 30 Example.costs
          [Example.indirectKernel]).Partitions = true
    ∧ (∀ I, I < 2 →
        decide (I = 0) = ((doPartitioning SplitOptions.default Example.indirectModule 2 30
          Example.costs [Example.indirectKernel]).getD I DenseSet.empty).contains Example.F) :=
  C3_external_functions_only_in_partition_zero SplitOptions.default Example.indirectGraph
    Example.indirectModule 2 (by decide) 30 Example.costs [Example.indirectKernel]
    (fun K hK => ⟨Example.K, by decide, by decide, by rw [List.mem_singleton.1 hK]; decide⟩)
    Example.F (by decide) (by decide) (by decide) (by decide)

/-- C4: a kernel of the work list whose `HasIndirectCall` or `HasNonDuplicatableDependecy`
flag is set is, with every function of its dependency set, a member of partition 0 of the
result, for every `NumParts ≥ 1`; and in every state its own step is the assignment to
partition 0, which leaves every other partition as it was. -/
theorem C4_flagged_kernel_in_partition_zero (Opts : SplitOptions) (M : Module) (NumParts : Nat)
    (hN : 1 ≤ NumParts) (ModuleCost : CostType) (FnCosts : CostMap)
    (WorkList : List KernelWithDependencies) (K : KernelWithDependencies) (hK : K ∈ WorkList)
    (hFlag : K.HasIndirectCall = true ∨ K.HasNonDuplicatableDependecy = true) :
    (K.Fn ∈ (doPartitioning Opts M NumParts ModuleCost FnCosts WorkList).getD 0 DenseSet.empty)
    ∧ (∀ D, D ∈ K.Dependencies →
        D ∈ (doPartitioning Opts M NumParts ModuleCost FnCosts WorkList).getD 0 DenseSet.empty)
    ∧ (∀ (Threshold : CostType) (S : PartitioningState),
        doPartitioning.processKernel Opts FnCosts Threshold S K = AssignToPartition FnCosts 0 K S
        ∧ ∀ J, J ≠ 0 →
            (doPartitioning.processKernel Opts FnCosts Threshold S K).part J = S.part J) := by
  have hin : ∀ G, (G = K.Fn ∨ G ∈ K.Dependencies) →
      G ∈ (doPartitioning Opts M NumParts ModuleCost FnCosts WorkList).getD 0 DenseSet.empty := by
    intro G hG
    rw [doPartitioning_mem Opts M NumParts hN ModuleCost FnCosts WorkList 0 G]
    left
    obtain ⟨Pre, Post, rfl⟩ := List.append_of_mem hK
    rw [doPartitioning.assignKernels_append, List.foldl_cons]
    apply doPartitioning.foldl_part_mono
    rw [doPartitioning.processKernel_flagged Opts FnCosts _ _ K hFlag, AssignToPartition_part,
      if_pos ⟨rfl, by
        rw [(doPartitioning.assignKernels_wellFormed Opts NumParts ModuleCost FnCosts Pre).1]
        exact hN⟩,
      KernelWithDependencies.mem_addTo]
    tauto
  refine ⟨hin _ (Or.inl rfl), fun D hD => hin D (Or.inr hD), ?_⟩
  intro Threshold S
  have e := doPartitioning.processKernel_flagged Opts FnCosts Threshold S K hFlag
  refine ⟨e, ?_⟩
  intro J hJ
  rw [e, AssignToPartition_part, if_neg (fun hc => hJ hc.1.symm)]

/-- Witness of C4: the kernel `K` of the example, whose indirect call sets the flag. -/
theorem C4_witness :
    (Example.indirectKernel.HasIndirectCall = true
      ∨ Example.indirectKernel.HasNonDuplicatableDependecy = true)
    ∧ (Example.indirectKernel.Fn ∈ (doPartitioning SplitOptions.default Example.indirectModule 2 30
        Example.costs [Example.indirectKernel]).getD 0 DenseSet.empty) :=
  ⟨Or.inl rfl,
    (C4_flagged_kernel_in_partition_zero SplitOptions.default Example.indirectModule 2 (by decide)
      30 Example.costs [Example.indirectKernel] Example.indirectKernel (List.mem_singleton.2 rfl)
      (Or.inl rfl)).1⟩

/-- C5 (the code at the failing input): in the example `K` makes an indirect call and then
calls `F`, and `F` calls `G`; all three have bodies, so `G` is reachable from `K` along
direct calls.  The indirect call puts `F` into the set before the call of `F` is scanned,
so `F` is never pushed on the work list and its callee `G` is missing from the dependency
set the constructor computes. -/
theorem C5_reachable_function_missing :
    Example.indirectGraph.Reaches Example.K Example.G
    ∧ KernelWithDependencies.construct Example.indirectGraph Example.indirectModule
        Example.costs Example.K = some Example.indirectKernel
    ∧ ¬ Example.G ∈ Example.indirectKernel.Dependencies := by
  have h1 : Example.indirectGraph.Calls Example.K Example.F := by
    unfold CallGraph.Calls; decide
  have h2 : Example.indirectGraph.Calls Example.F Example.G := by
    unfold CallGraph.Calls; decide
  exact ⟨Relation.TransGen.tail (Relation.TransGen.single h1) h2, by decide, by decide⟩

/-- C6: the constructor returns for every function `K`, and the `HasIndirectCall` flag of
the result is set if and only if `K` itself or some member of the computed dependency set
has a call record that points to `CallsExternalNode`. -/
theorem C6_hasIndirectCall_iff (CG : CallGraph) (M : Module) (FnCosts : CostMap) (K : Function) :
    ∃ KWD, KernelWithDependencies.construct CG M FnCosts K = some KWD ∧
      (KWD.HasIndirectCall = true ↔
        (CallGraphNode.CallsExternalNode ∈ CG.get K
          ∨ ∃ D, D ∈ KWD.Dependencies ∧ CallGraphNode.CallsExternalNode ∈ CG.get D)) := by
  obtain ⟨KWD, hK⟩ := Option.isSome_iff_exists.1
    (KernelWithDependencies.construct_isSome CG M FnCosts K)
  refine ⟨KWD, hK, ?_⟩
  obtain ⟨_, c2, _⟩ := KernelWithDependencies.construct_eq_some CG M FnCosts K KWD hK
  exact (addAllDependencies_spec CG M K _ c2).1

/-- Witness of C6: in the example `K` has a call record that points to `CallsExternalNode`
and the flag of the constructed kernel is set. -/
theorem C6_witness :
    CallGraphNode.CallsExternalNode ∈ Example.indirectGraph.get Example.K
    ∧ Example.indirectKernel.HasIndirectCall = true := by
  obtain ⟨KWD, hK, hiff⟩ := C6_hasIndirectCall_iff Example.indirectGraph
    Example.indirectModule Example.costs Example.K
  have hE : KernelWithDependencies.construct Example.indirectGraph Example.indirectModule
      Example.costs Example.K = some Example.indirectKernel := by decide
  rw [hE] at hK
  have hKWD : Example.indirectKernel = KWD := Option.some.inj hK
  have hX : CallGraphNode.CallsExternalNode ∈ Example.indirectGraph.get Example.K := by decide
  refine ⟨hX, ?_⟩
  rw [hKWD]
  exact hiff.2 (Or.inl hX)

/-- C7: the constructor returns for every function `K`, and when the traversal has met a
call record that points to `CallsExternalNode` (the flag is set; equivalently `K` or a
member of the dependency set has such a record) the dependency set contains every function
of the module that has a body, is not an entry point, and has a linkage that is not local or
has its address taken, that is, every function for which `canBeIndirectlyCalled` holds. -/
theorem C7_indirect_call_adds_all_callable (CG : CallGraph) (M : Module) (FnCosts : CostMap)
    (K : Function) :
    ∃ KWD, KernelWithDependencies.construct CG M FnCosts K = some KWD ∧
      ((KWD.HasIndirectCall = true
          ∨ CallGraphNode.CallsExternalNode ∈ CG.get K
          ∨ ∃ D, D ∈ KWD.Dependencies ∧ CallGraphNode.CallsExternalNode ∈ CG.get D) →
        (∀ F, F ∈ M.Functions → canBeIndirectlyCalled F = true → F ∈ KWD.Dependencies)
        ∧ (∀ F, F ∈ M.Functions → F.isDeclaration = false → isEntryPoint F = false →
            (F.hasLocalLinkage = false ∨ F.AddressTakenIgnoringCalls = true) →
            F ∈ KWD.Dependencies)) := by
  obtain ⟨KWD, hK⟩ := Option.isSome_iff_exists.1
    (KernelWithDependencies.construct_isSome CG M FnCosts K)
  refine ⟨KWD, hK, ?_⟩
  obtain ⟨_, c2, _⟩ := KernelWithDependencies.construct_eq_some CG M FnCosts K KWD hK
  obtain ⟨s1, s2, _⟩ := addAllDependencies_spec CG M K _ c2
  intro h
  have hflag : KWD.HasIndirectCall = true := by
    rcases h with h | h
    · exact h
    · exact s1.2 h
  exact ⟨s2 hflag, fun F hF h1 h2 h3 => s2 hflag F hF ((canBeIndirectlyCalled_iff F).2 ⟨h1, h2, h3⟩)⟩

/-- Witness of C7: in the example `K` has a call record that points to `CallsExternalNode`,
and `F`, which can be called indirectly, is in the dependency set. -/
theorem C7_witness :
    CallGraphNode.CallsExternalNode ∈ Example.indirectGraph.get Example.K
    ∧ canBeIndirectlyCalled Example.F = true
    ∧ Example.F ∈ Example.indirectKernel.Dependencies := by
  obtain ⟨KWD, hK, himp⟩ := C7_indirect_call_adds_all_callable Example.indirectGraph
    Example.indirectModule Example.costs Example.K
  have hE : KernelWithDependencies.construct Example.indirectGraph Example.indirectModule
      Example.costs Example.K = some Example.indirectKernel := by decide
  rw [hE] at hK
  have hKWD : Example.indirectKernel = KWD := Option.some.inj hK
  have hX : CallGraphNode.CallsExternalNode ∈ Example.indirectGraph.get Example.K := by decide
  refine ⟨hX, by decide, ?_⟩
  rw [hKWD]
  exact (himp (Or.inr (Or.inl hX))).1 Example.F (by decide) (by decide)

/-- C8: a kernel without flags that the large kernel rule does not merge is assigned to the
partition `P` at the back of the queue.  At that moment the cost of `P` is at most the cost
of every partition, and every other partition of the same cost has a smaller index than
`P`; the cost of a partition is the sum of the costs of its members, each counted once
(costs are not negative and the sum fits `int64_t`); when all partitions are empty `P` is
`NumParts - 1`. -/
theorem C8_default_rule_least_cost (Opts : SplitOptions) (NumParts : Nat) (hN : 1 ≤ NumParts)
    (ModuleCost : CostType) (FnCosts : CostMap) (Pre : List KernelWithDependencies)
    (K : KernelWithDependencies) (S : PartitioningState)
    (hS : S = doPartitioning.assignKernels Opts NumParts ModuleCost FnCosts Pre)
    (h1 : K.HasIndirectCall = false) (h2 : K.HasNonDuplicatableDependecy = false)
    (h3 : (doPartitioning.tryMerge Opts FnCosts (LargeKernelThreshold Opts ModuleCost NumParts)
      S K).2 = false) :
    doPartitioning.assignKernels Opts NumParts ModuleCost FnCosts (Pre ++ [K])
      = AssignToPartition FnCosts (S.BalancingQueue.getLastD (0, 0)).1 K S
    ∧ (S.BalancingQueue.getLastD (0, 0)).1 < NumParts
    ∧ (∀ J, J < NumParts →
        partitionCost FnCosts (S.part (S.BalancingQueue.getLastD (0, 0)).1)
          ≤ partitionCost FnCosts (S.part J)
        ∧ (J ≠ (S.BalancingQueue.getLastD (0, 0)).1 →
            partitionCost FnCosts (S.part (S.BalancingQueue.getLastD (0, 0)).1)
              = partitionCost FnCosts (S.part J) →
            J < (S.BalancingQueue.getLastD (0, 0)).1))
    ∧ (∀ J, (∀ F, F ∈ S.part J → 0 ≤ FnCosts.at F) →
        (S.part J).Elems.toFinset.sum FnCosts.at < 2 ^ 63 →
        partitionCost FnCosts (S.part J) = (S.part J).Elems.toFinset.sum FnCosts.at)
    ∧ ((∀ J, J < NumParts → S.part J = DenseSet.empty) →
        (S.BalancingQueue.getLastD (0, 0)).1 = NumParts - 1) := by
  have hWF : S.WellFormed FnCosts NumParts := by
    rw [hS]
    exact doPartitioning.assignKernels_wellFormed Opts NumParts ModuleCost FnCosts Pre
  have hlt := (PartitioningState.WellFormed.back_lt FnCosts NumParts S hWF hN).2
  have hleast : ∀ J, J < NumParts →
      partitionCost FnCosts (S.part (S.BalancingQueue.getLastD (0, 0)).1)
        ≤ partitionCost FnCosts (S.part J)
      ∧ (J ≠ (S.BalancingQueue.getLastD (0, 0)).1 →
          partitionCost FnCosts (S.part (S.BalancingQueue.getLastD (0, 0)).1)
            = partitionCost FnCosts (S.part J) →
          J < (S.BalancingQueue.getLastD (0, 0)).1) := by
    intro J hJ
    obtain ⟨l1, l2⟩ := PartitioningState.WellFormed.back_least FnCosts NumParts S hWF hN J hJ
    exact ⟨l1, fun hne heq => lt_of_le_of_ne (l2 heq) hne⟩
  refine ⟨?_, hlt, hleast, fun J => partitionCost_eq_sum FnCosts (S.part J), ?_⟩
  · rw [doPartitioning.assignKernels_append, ← hS, List.foldl_cons, List.foldl_nil,
      doPartitioning.processKernel_unflagged Opts FnCosts _ S K h1 h2, h3]
    simp
  · intro hempty
    by_contra hne
    have hJ : NumParts - 1 < NumParts := by omega
    have := (hleast (NumParts - 1) hJ).2 (fun e => hne e.symm)
      (by rw [hempty _ hJ, hempty _ hlt])
    exact Nat.lt_irrefl _ (Nat.lt_of_lt_of_le hlt (Nat.le_of_pred_lt this))

/-- Witness of C8: the first kernel of the shared example with four partitions goes to
partition 3. -/
theorem C8_witness :
    (doPartitioning.tryMerge SplitOptions.default Example.costs
      (LargeKernelThreshold SplitOptions.default 40 4)
      (doPartitioning.assignKernels SplitOptions.default 4 40 Example.costs [])
      Example.sharedKernel).2 = false
    ∧ ((doPartitioning.assignKernels SplitOptions.default 4 40 Example.costs
        []).BalancingQueue.getLastD (0, 0)).1 = 4 - 1 := by
  have h3 : (doPartitioning.tryMerge SplitOptions.default Example.costs
      (LargeKernelThreshold SplitOptions.default 40 4)
      (doPartitioning.assignKernels SplitOptions.default 4 40 Example.costs [])
      Example.sharedKernel).2 = false := by decide!
  exact ⟨h3, (C8_default_rule_least_cost SplitOptions.default 4 (by decide) 40 Example.costs []
    Example.sharedKernel _ rfl rfl rfl h3).2.2.2.2 (fun J _ => doPartitioning.initialState_part 4 J)⟩

/-- C9: for a large kernel `K` without flags, in every state: when some partition has an
overlap with the dependencies of `K` above the merge option, the step of `K` adds `K` and
its dependencies to every partition whose overlap, computed on its contents before the
step, exceeds the option, and leaves every other partition as it was; when no partition
does, the step is the assignment of the default rule, to the partition at the back of the
queue. -/
theorem C9_large_kernel_merge (Opts : SplitOptions) (FnCosts : CostMap) (Threshold : CostType)
    (S : PartitioningState) (K : KernelWithDependencies)
    (h1 : K.HasIndirectCall = false) (h2 : K.HasNonDuplicatableDependecy = false)
    (hL : K.isLarge Threshold = true) :
    ((∃ J, J < S.Partitions.length ∧
        calculateOverlap K.Dependencies (S.part J) > Opts.LargeKernelOverlapForMerge) →
      ∀ J, (doPartitioning.processKernel Opts FnCosts Threshold S K).part J
        = if J < S.Partitions.length
            ∧ calculateOverlap K.Dependencies (S.part J) > Opts.LargeKernelOverlapForMerge
          then K.addTo (S.part J) else S.part J)
    ∧ ((¬ ∃ J, J < S.Partitions.length ∧
        calculateOverlap K.Dependencies (S.part J) > Opts.LargeKernelOverlapForMerge) →
      doPartitioning.processKernel Opts FnCosts Threshold S K
        = AssignToPartition FnCosts (S.BalancingQueue.getLastD (0, 0)).1 K S) := by
  obtain ⟨i1, i2, _⟩ := doPartitioning.tryMerge_large Opts FnCosts Threshold S K hL
  have e := doPartitioning.processKernel_unflagged Opts FnCosts Threshold S K h1 h2
  constructor
  · intro hex J
    rw [e, if_pos (i2.2 hex)]
    exact i1 J
  · intro hno
    rw [e, if_neg (fun h => hno (i2.1 h))]

/-- Witness of C9: after the first kernel of the shared example went to partition 3, the
second one, with the same dependencies, is merged into partition 3 and into no other. -/
theorem C9_witness :
    Example.sharedKernel2.isLarge 20 = true
    ∧ calculateOverlap Example.sharedKernel2.Dependencies
        ((doPartitioning.assignKernels SplitOptions.default 4 40 Example.costs
          [Example.sharedKernel]).part 3) > SplitOptions.default.LargeKernelOverlapForMerge
    ∧ ∀ J, (doPartitioning.processKernel SplitOptions.default Example.costs 20
          (doPartitioning.assignKernels SplitOptions.default 4 40 Example.costs
            [Example.sharedKernel]) Example.sharedKernel2).part J
        = if J < (doPartitioning.assignKernels SplitOptions.default 4 40 Example.costs
              [Example.sharedKernel]).Partitions.length
            ∧ calculateOverlap Example.sharedKernel2.Dependencies
                ((doPartitioning.assignKernels SplitOptions.default 4 40 Example.costs
                  [Example.sharedKernel]).part J)
              > SplitOptions.default.LargeKernelOverlapForMerge
          then Example.sharedKernel2.addTo
            ((doPartitioning.assignKernels SplitOptions.default 4 40 Example.costs
              [Example.sharedKernel]).part J)
          else (doPartitioning.assignKernels SplitOptions.default 4 40 Example.costs
            [Example.sharedKernel]).part J := by
  have hov : calculateOverlap Example.sharedKernel2.Dependencies
      ((doPartitioning.assignKernels SplitOptions.default 4 40 Example.costs
        [Example.sharedKernel]).part 3) > SplitOptions.default.LargeKernelOverlapForMerge := by
    decide!
  exact ⟨by decide, hov,
    (C9_large_kernel_merge SplitOptions.default Example.costs 20
      (doPartitioning.assignKernels SplitOptions.default 4 40 Example.costs [Example.sharedKernel])
      Example.sharedKernel2 rfl rfl (by decide)).1 ⟨3, by decide!, hov⟩⟩

/-- C10 as stated fails: for the sets `{G}` and `{G, H}` of functions that are not entry
points the code returns 1/2, the size of the intersection over the size of the union, while
the size of the intersection over the size of the first set is 1. -/
theorem C10_counterexample :
    calculateOverlap Example.setG Example.setGH = 1 / 2
    ∧ ((((Example.setG.Elems.toFinset.filter (fun F => isEntryPoint F = false)) ∩
          (Example.setGH.Elems.toFinset.filter (fun F => isEntryPoint F = false))).card : ℚ)
        / ((Example.setG.Elems.toFinset.filter (fun F => isEntryPoint F = false)).card : ℚ)) = 1 := by
  constructor
  · decide!
  · decide!

/-- C10, amended: with `A'` and `B'` the members of `A` and `B` that are not entry points,
`calculateOverlap A B` is 0 when `A'` is empty and otherwise the single precision quotient
of the size of the intersection of `A'` and `B'` by the size of their union (both sizes
converted to single precision first); when the union has fewer than `2 ^ 24` members the
conversions are exact and the result is the exact quotient rounded once. -/
theorem C10_calculateOverlap_intersection_over_union (A B : DenseSet) :
    (calculateOverlap A B =
      if A.Elems.toFinset.filter (fun F => isEntryPoint F = false) = ∅ then 0
      else F32.div
        (F32.ofNat ((A.Elems.toFinset.filter (fun F => isEntryPoint F = false)) ∩
          (B.Elems.toFinset.filter (fun F => isEntryPoint F = false))).card)
        (F32.ofNat ((A.Elems.toFinset.filter (fun F => isEntryPoint F = false)) ∪
          (B.Elems.toFinset.filter (fun F => isEntryPoint F = false))).card))
    ∧ (A.Elems.toFinset.filter (fun F => isEntryPoint F = false) ≠ ∅ →
        ((A.Elems.toFinset.filter (fun F => isEntryPoint F = false)) ∪
          (B.Elems.toFinset.filter (fun F => isEntryPoint F = false))).card < 2 ^ 24 →
        calculateOverlap A B = F32.round
          ((((A.Elems.toFinset.filter (fun F => isEntryPoint F = false)) ∩
              (B.Elems.toFinset.filter (fun F => isEntryPoint F = false))).card : ℚ)
            / (((A.Elems.toFinset.filter (fun F => isEntryPoint F = false)) ∪
              (B.Elems.toFinset.filter (fun F => isEntryPoint F = false))).card : ℚ))) := by
  refine ⟨calculateOverlap_eq A B, ?_⟩
  intro hne hlt
  have hle : ((A.Elems.toFinset.filter (fun F => isEntryPoint F = false)) ∩
      (B.Elems.toFinset.filter (fun F => isEntryPoint F = false))).card
      ≤ ((A.Elems.toFinset.filter (fun F => isEntryPoint F = false)) ∪
        (B.Elems.toFinset.filter (fun F => isEntryPoint F = false))).card :=
    Finset.card_le_card (fun x hx => Finset.mem_union_left _ (Finset.mem_inter.1 hx).1)
  rw [calculateOverlap_eq A B, if_neg hne, F32.ofNat_exact _ hlt,
    F32.ofNat_exact _ (lt_of_le_of_lt hle hlt)]
  rfl

/-- The amended C10 at the sets of the counterexample: one common member, two members in
the union. -/
theorem C10_witness :
    Example.setG.Elems.toFinset.filter (fun F => isEntryPoint F = false) ≠ ∅
    ∧ calculateOverlap Example.setG Example.setGH = F32.round
        ((((Example.setG.Elems.toFinset.filter (fun F => isEntryPoint F = false)) ∩
            (Example.setGH.Elems.toFinset.filter (fun F => isEntryPoint F = false))).card : ℚ)
          / (((Example.setG.Elems.toFinset.filter (fun F => isEntryPoint F = false)) ∪
            (Example.setGH.Elems.toFinset.filter (fun F => isEntryPoint F = false))).card : ℚ)) :=
  ⟨by decide,
    (C10_calculateOverlap_intersection_over_union Example.setG Example.setGH).2 (by decide)
      (by decide)⟩

/-- C11 as stated fails: for the set whose only member is the kernel `K` the code returns 0,
because no member is left after the entry points are put aside. -/
theorem C11_counterexample :
    calculateOverlap Example.setK Example.setK = 0
    ∧ calculateOverlap Example.setK Example.setK ≠ 1 := by
  constructor <;> decide!

/-- C11, amended: `calculateOverlap A A` is 1 for every set `A` with a member that is not an
entry point, and 0 for every set without one. -/
theorem C11_overlap_with_itself (A : DenseSet) :
    ((∃ F, F ∈ A ∧ isEntryPoint F = false) → calculateOverlap A A = 1)
    ∧ ((∀ F, F ∈ A → isEntryPoint F = true) → calculateOverlap A A = 0) := by
  have hne : (∃ F, F ∈ A ∧ isEntryPoint F = false)
      ↔ A.Elems.toFinset.filter (fun F => isEntryPoint F = false) ≠ ∅ := by
    rw [← Finset.nonempty_iff_ne_empty]
    constructor
    · rintro ⟨F, hF, hE⟩
      exact ⟨F, by simp [hE, (DenseSet.mem_def A F).1 hF]⟩
    · rintro ⟨F, hF⟩
      simp only [Finset.mem_filter, List.mem_toFinset] at hF
      exact ⟨F, hF.1, hF.2⟩
  constructor
  · intro h
    have hA := hne.1 h
    rw [calculateOverlap_eq, if_neg hA, Finset.inter_self, Finset.union_self]
    apply F32.div_same
    exact ne_of_gt (F32.ofNat_pos _ (Finset.card_pos.2 (Finset.nonempty_iff_ne_empty.2 hA)))
  · intro h
    have hA : A.Elems.toFinset.filter (fun F => isEntryPoint F = false) = ∅ := by
      by_contra hc
      obtain ⟨F, hF, hE⟩ := hne.2 hc
      rw [h F hF] at hE
      exact absurd hE (by simp)
    rw [calculateOverlap_eq, if_pos hA]

/-- Witness of the amended C11: the set `{G, H}` has members that are not entry points and
its overlap with itself is 1. -/
theorem C11_witness :
    (∃ F, F ∈ Example.setGH ∧ isEntryPoint F = false)
    ∧ calculateOverlap Example.setGH Example.setGH = 1 :=
  ⟨⟨Example.G, by decide, by decide⟩,
    (C11_overlap_with_itself Example.setGH).1 ⟨Example.G, by decide, by decide⟩⟩

/-- C12: `calculateOverlap` is symmetric, `calculateOverlap A B = calculateOverlap B A` for
all sets `A` and `B`. -/
theorem C12_overlap_symmetric (A B : DenseSet) :
    calculateOverlap A B = calculateOverlap B A :=
  calculateOverlap_comm A B

/-- C13: for all sets `A` and `B` the overlap lies between 0 and 1; when the division is
reached its divisor, the size of `Total` as a `float`, is positive; and the overlap is 0
when `A` and `B` share no function that is not an entry point. -/
theorem C13_overlap_range (A B : DenseSet) :
    0 ≤ calculateOverlap A B
    ∧ calculateOverlap A B ≤ 1
    ∧ ((calculateOverlap.initialTotal A).isEmpty = false →
        0 < F32.ofNat
          (B.Elems.foldl calculateOverlap.countCommon (calculateOverlap.initialTotal A, 0)).1.size)
    ∧ ((∀ F, F ∈ A → F ∈ B → isEntryPoint F = true) → calculateOverlap A B = 0) := by
  have hle : ((A.Elems.toFinset.filter (fun F => isEntryPoint F = false)) ∩
      (B.Elems.toFinset.filter (fun F => isEntryPoint F = false))).card
      ≤ ((A.Elems.toFinset.filter (fun F => isEntryPoint F = false)) ∪
        (B.Elems.toFinset.filter (fun F => isEntryPoint F = false))).card :=
    Finset.card_le_card (fun x hx => Finset.mem_union_left _ (Finset.mem_inter.1 hx).1)
  have hpos : A.Elems.toFinset.filter (fun F => isEntryPoint F = false) ≠ ∅ →
      0 < ((A.Elems.toFinset.filter (fun F => isEntryPoint F = false)) ∪
        (B.Elems.toFinset.filter (fun F => isEntryPoint F = false))).card := by
    intro hA
    apply Finset.card_pos.2
    obtain ⟨F, hF⟩ := Finset.nonempty_iff_ne_empty.2 hA
    exact ⟨F, Finset.mem_union_left _ hF⟩
  have hrange : 0 ≤ calculateOverlap A B ∧ calculateOverlap A B ≤ 1 := by
    rw [calculateOverlap_eq]
    by_cases hA : A.Elems.toFinset.filter (fun F => isEntryPoint F = false) = ∅
    · rw [if_pos hA]
      exact ⟨le_refl 0, by norm_num⟩
    · rw [if_neg hA]
      exact F32.div_mem_unit _ _ (F32.ofNat_nonneg _) (F32.ofNat_pos _ (hpos hA))
        (F32.ofNat_mono _ _ hle)
  refine ⟨hrange.1, hrange.2, ?_, ?_⟩
  · intro hE
    rw [calculateOverlap.total_size]
    apply F32.ofNat_pos
    apply hpos
    intro hA
    rw [(calculateOverlap.initialTotal_isEmpty A).2 hA] at hE
    exact absurd hE (by simp)
  · intro hdisj
    rw [calculateOverlap_eq]
    split_ifs with hA
    · rfl
    · have hI : (A.Elems.toFinset.filter (fun F => isEntryPoint F = false)) ∩
          (B.Elems.toFinset.filter (fun F => isEntryPoint F = false)) = ∅ := by
        ext F
        simp only [Finset.mem_inter, Finset.mem_filter, List.mem_toFinset, Finset.not_mem_empty,
          iff_false, not_and]
        intro hFA hFB hE
        rw [hdisj F hFA.1 hFB] at hE
        exact absurd hE (by simp)
      rw [hI, Finset.card_empty, F32.ofNat_zero, F32.div_zero_num]

/-- Witness of C13: the sets `{G}` and `{K}` share no function, and their overlap is 0. -/
theorem C13_witness :
    (∀ F, F ∈ Example.setG → F ∈ Example.setK → isEntryPoint F = true)
    ∧ calculateOverlap Example.setG Example.setK = 0 := by
  have h : ∀ F, F ∈ Example.setG → F ∈ Example.setK → isEntryPoint F = true := by
    intro F h1 h2
    have e1 : F = Example.G := by simpa [DenseSet.mem_def, Example.setG] using h1
    have e2 : F = Example.K := by simpa [DenseSet.mem_def, Example.setK] using h2
    rw [e2]
    decide
  exact ⟨h, (C13_overlap_range Example.setG Example.setK).2.2.2 h⟩

/-- C14 as stated fails: with module cost 3 and 2 partitions the threshold is 2 (the
quotient 3 / 2 is taken in integers first), so the kernel of total cost 3 is large, while
3 is not more than 2 times the exact average 3/2. -/
theorem C14_counterexample :
    Example.unitKernel.Dependencies.isEmpty = false
    ∧ LargeKernelThreshold SplitOptions.default 3 2 = 2
    ∧ Example.unitKernel.isLarge (LargeKernelThreshold SplitOptions.default 3 2) = true
    ∧ ¬ ((Example.unitKernel.TotalCost : ℚ) > 2 * ((3 : ℚ) / 2)) := by
  refine ⟨by decide, by decide!, by decide!, by decide!⟩

/-- C14, amended: with the default factor 2.0, for every `NumParts ≥ 1` and every module
cost `M ≥ 0`, a kernel with a non-empty dependency set is large if and only if its total
cost is more than 2 times the `float` nearest to the integer quotient of `M` by `NumParts`,
provided that product is below `2 ^ 63` (so that its conversion to `CostType` is defined);
when the quotient is below `2 ^ 24` it is its own nearest `float`, and the kernel is large
if and only if its total cost is more than 2 times the integer quotient. -/
theorem C14_large_iff_twice_integer_average (ModuleCost : Int) (NumParts : Nat)
    (hM : 0 ≤ ModuleCost) (_hN : 1 ≤ NumParts) (K : KernelWithDependencies)
    (hDeps : K.Dependencies.isEmpty = false) :
    (2 * F32.ofInt (ModuleCost / (NumParts : Int)) < 2 ^ 63 →
      (K.isLarge (LargeKernelThreshold SplitOptions.default ModuleCost NumParts) = true
        ↔ (K.TotalCost : ℚ) > 2 * F32.ofInt (ModuleCost / (NumParts : Int))))
    ∧ (ModuleCost / (NumParts : Int) < 2 ^ 24 →
        (K.isLarge (LargeKernelThreshold SplitOptions.default ModuleCost NumParts) = true
          ↔ K.TotalCost > 2 * (ModuleCost / (NumParts : Int)))) := by
  have hL : K.isLarge (LargeKernelThreshold SplitOptions.default ModuleCost NumParts) = true
      ↔ K.TotalCost > LargeKernelThreshold SplitOptions.default ModuleCost NumParts := by
    unfold KernelWithDependencies.isLarge
    rw [hDeps]
    simp
  constructor
  · intro hR
    have hT := LargeKernelThreshold_default ModuleCost NumParts hM hR
    rw [hL, ← hT]
    exact_mod_cast Iff.rfl
  · intro hlt
    have hq0 : 0 ≤ ModuleCost / (NumParts : Int) :=
      Int.ediv_nonneg hM (Int.natCast_nonneg NumParts)
    obtain ⟨q, hq⟩ := Int.eq_ofNat_of_zero_le hq0
    have hq24 : q < 2 ^ 24 := by
      rw [hq] at hlt
      exact_mod_cast hlt
    have hex : F32.ofInt (ModuleCost / (NumParts : Int)) = ((ModuleCost / (NumParts : Int) : Int) : ℚ) := by
      rw [hq, F32.ofInt_natCast, F32.ofNat_exact q hq24]
      simp
    have hR : 2 * F32.ofInt (ModuleCost / (NumParts : Int)) < 2 ^ 63 := by
      rw [hex, hq]
      have : (2 * q : Nat) < 2 ^ 63 := by omega
      exact_mod_cast this
    have hT := LargeKernelThreshold_default ModuleCost NumParts hM hR
    rw [hex] at hT
    have hT2 : LargeKernelThreshold SplitOptions.default ModuleCost NumParts
        = 2 * (ModuleCost / (NumParts : Int)) := by
      exact_mod_cast hT
    rw [hL, hT2]

/-- Witness of the amended C14: module cost 40 and 4 partitions give the threshold 20, and
the kernel of the shared example, of total cost 30, is large. -/
theorem C14_witness :
    (0 : Int) ≤ 40 ∧ 1 ≤ 4 ∧ Example.sharedKernel.Dependencies.isEmpty = false
    ∧ ((40 : Int) / ((4 : Nat) : Int) < 2 ^ 24 →
        (Example.sharedKernel.isLarge (LargeKernelThreshold SplitOptions.default 40 4) = true
          ↔ Example.sharedKernel.TotalCost > 2 * ((40 : Int) / ((4 : Nat) : Int)))) :=
  ⟨by decide, by decide, by decide,
    (C14_large_iff_twice_integer_average 40 4 (by decide) (by decide) Example.sharedKernel
      (by decide)).2⟩

/-- C15 fails in the code: with the large kernel factor 0, for every module cost and every
number of partitions, the `float` value converted to the threshold is `2 ^ 63` (the
greatest `CostType`, `2 ^ 63 - 1`, rounded to `float`), which is above every `CostType`
value; the threshold the conversion gives is the least `CostType` value, and the kernel of
the shared example (total cost 30, two dependencies) is large.  With two partitions, once
that kernel is in partition 1 the large kernel branch assigns the second kernel of the
example, which has the same dependencies: `Assigned` is true. -/
theorem C15_factor_zero_makes_kernels_large (ModuleCost : CostType) (NumParts : Nat) :
    Example.noLargeKernels.LargeKernelFactor = 0
    ∧ LargeKernelThreshold.value Example.noLargeKernels ModuleCost NumParts = 2 ^ 63
    ∧ ¬ F32.toInt (LargeKernelThreshold.value Example.noLargeKernels ModuleCost NumParts)
        ≤ CostTypeMax
    ∧ LargeKernelThreshold Example.noLargeKernels ModuleCost NumParts = CostTypeMin
    ∧ Example.sharedKernel.isLarge
        (LargeKernelThreshold Example.noLargeKernels ModuleCost NumParts) = true
    ∧ (doPartitioning.tryMerge Example.noLargeKernels Example.costs
        (LargeKernelThreshold Example.noLargeKernels ModuleCost NumParts)
        (AssignToPartition Example.costs 1 Example.sharedKernel (doPartitioning.initialState 2))
        Example.sharedKernel2).2 = true := by
  obtain ⟨hv, hT⟩ := LargeKernelThreshold_disabled Example.noLargeKernels ModuleCost NumParts rfl
  refine ⟨rfl, hv, ?_, hT, ?_, ?_⟩
  · rw [hv]
    have h63 : F32.toInt ((2 : ℚ) ^ 63) = 2 ^ 63 := by
      have := F32.toInt_natCast (2 ^ 63)
      push_cast at this
      exact this
    rw [h63]
    decide
  · rw [hT]
    decide
  · rw [hT]
    decide!

/-- C16: idempotence of `AssignToPartition`.  For every state, every partition id below the
number of partitions and every kernel, assigning the kernel to the partition a second time
returns the state of the first assignment: the same members of every partition, the same
recorded cost of every partition and the same order of the balancing queue. -/
theorem C16_assign_twice_is_assign_once (FnCosts : CostMap) (PID : PartitionID)
    (K : KernelWithDependencies) (S : PartitioningState) (_hP : PID < S.Partitions.length) :
    AssignToPartition FnCosts PID K (AssignToPartition FnCosts PID K S)
        = AssignToPartition FnCosts PID K S
    ∧ (∀ J, (AssignToPartition FnCosts PID K (AssignToPartition FnCosts PID K S)).part J
        = (AssignToPartition FnCosts PID K S).part J)
    ∧ (AssignToPartition FnCosts PID K (AssignToPartition FnCosts PID K S)).BalancingQueue
        = (AssignToPartition FnCosts PID K S).BalancingQueue := by
  have h := AssignToPartition_idempotent FnCosts PID K S
  refine ⟨h, ?_, ?_⟩
  · intro J
    rw [h]
  · rw [h]

/-- Witness of C16: the kernel of the shared example assigned twice to partition 1 of two
empty partitions. -/
theorem C16_witness :
    1 < (doPartitioning.initialState 2).Partitions.length
    ∧ AssignToPartition Example.costs 1 Example.sharedKernel
        (AssignToPartition Example.costs 1 Example.sharedKernel (doPartitioning.initialState 2))
      = AssignToPartition Example.costs 1 Example.sharedKernel (doPartitioning.initialState 2) :=
  ⟨by decide,
    (C16_assign_twice_is_assign_once Example.costs 1 Example.sharedKernel
      (doPartitioning.initialState 2) (by decide)).1⟩

/-- C17 as stated fails: for the program whose only function is the kernel `K`, without
calls and of cost 10, split in 4, the result of `doPartitioning` has `K` in partition 3;
partition 0 is empty. -/
theorem C17_counterexample :
    Example.singleModule.Functions = [Example.K]
    ∧ isEntryPoint Example.K = true
    ∧ Example.singleGraph.get Example.K = []
    ∧ Example.costs.at Example.K = 10
    ∧ KernelWithDependencies.construct Example.singleGraph Example.singleModule Example.costs
        Example.K = some Example.singleKernel
    ∧ doPartitioning SplitOptions.default Example.singleModule 4 10 Example.costs
        [Example.singleKernel]
      = [DenseSet.empty, DenseSet.empty, DenseSet.empty, Example.setK]
    ∧ ¬ Example.K ∈ (doPartitioning SplitOptions.default Example.singleModule 4 10
        Example.costs [Example.singleKernel]).getD 0 DenseSet.empty := by
  refine ⟨rfl, rfl, by decide, by decide, by decide, ?_, ?_⟩
  · exact doPartitioning_single_kernel SplitOptions.default Example.singleModule 10
      Example.costs Example.K rfl
  · rw [show doPartitioning SplitOptions.default Example.singleModule 4 10 Example.costs
        [Example.singleKernel] = [DenseSet.empty, DenseSet.empty, DenseSet.empty, Example.setK]
      from doPartitioning_single_kernel SplitOptions.default Example.singleModule 10
        Example.costs Example.K rfl]
    decide

/-- C17, amended: for every program whose only function is one kernel `K` that has a body,
makes no calls and costs 10, split with `N = 4`, for all options and every module cost, the
constructor gives `K` an empty dependency set and `doPartitioning` puts `K` in partition 3,
the last one; partitions 0, 1 and 2 are empty, and partition 3 has cost 10. -/
theorem C17_single_kernel_lands_in_last_partition (Opts : SplitOptions) (CG : CallGraph)
    (M : Module) (FnCosts : CostMap) (ModuleCost : CostType) (K : Function)
    (hM : M.Functions = [K]) (hCalls : CG.get K = []) (hCost : FnCosts.at K = 10) :
    ∃ KWD, KernelWithDependencies.construct CG M FnCosts K = some KWD
      ∧ doPartitioning Opts M 4 ModuleCost FnCosts [KWD]
          = [DenseSet.empty, DenseSet.empty, DenseSet.empty, ⟨[K], List.nodup_singleton K⟩]
      ∧ K ∈ (doPartitioning Opts M 4 ModuleCost FnCosts [KWD]).getD 3 DenseSet.empty
      ∧ (∀ I, I < 3 →
          (doPartitioning Opts M 4 ModuleCost FnCosts [KWD]).getD I DenseSet.empty
            = DenseSet.empty)
      ∧ partitionCost FnCosts
          ((doPartitioning Opts M 4 ModuleCost FnCosts [KWD]).getD 3 DenseSet.empty) = 10 := by
  refine ⟨_, KernelWithDependencies.construct_noCalls CG M FnCosts K hCalls, ?_⟩
  have h := doPartitioning_single_kernel Opts M ModuleCost FnCosts K hM
  refine ⟨h, ?_, ?_, ?_⟩
  · rw [h]
    exact List.mem_singleton_self K
  · intro I hI
    rw [h]
    have hI3 : I = 0 ∨ I = 1 ∨ I = 2 := by omega
    rcases hI3 with h0 | h0 | h0 <;> rw [h0] <;> rfl
  · rw [h]
    exact partitionCost_singleton FnCosts K 10 hCost (by norm_num) (by norm_num)

/-- Witness of the amended C17: the program whose only function is the kernel `K`. -/
theorem C17_witness :
    Example.singleModule.Functions = [Example.K]
    ∧ Example.singleGraph.get Example.K = []
    ∧ Example.costs.at Example.K = 10
    ∧ ∃ KWD, KernelWithDependencies.construct Example.singleGraph Example.singleModule
          Example.costs Example.K = some KWD
        ∧ doPartitioning SplitOptions.default Example.singleModule 4 10 Example.costs [KWD]
            = [DenseSet.empty, DenseSet.empty, DenseSet.empty,
                ⟨[Example.K], List.nodup_singleton Example.K⟩] := by
  refine ⟨rfl, by decide, by decide, ?_⟩
  obtain ⟨KWD, h1, h2, _⟩ := C17_single_kernel_lands_in_last_partition SplitOptions.default
    Example.singleGraph Example.singleModule Example.costs 10 Example.K rfl (by decide)
    (by decide)
  exact ⟨KWD, h1, h2⟩

/-- C18, scenario B: for every program that consists of two distinct kernels `K1` and `K2`
that make no calls (so they have no dependencies and no indirect call) and cost 100 each,
split with `N = 2`, `doPartitioning` on the work list of the two kernels puts `K1` in
partition 1 and `K2` in partition 0 and nothing else in either, so the kernels are in
different partitions; both partitions have cost 100, which is also what the balancing queue
records. -/
theorem C18_two_kernels_two_partitions (Opts : SplitOptions) (CG : CallGraph) (M : Module)
    (FnCosts : CostMap) (ModuleCost : CostType) (K1 K2 : Function) (hne : K1 ≠ K2)
    (hM : ∀ F ∈ M.Functions, F = K1 ∨ F = K2)
    (hCalls1 : CG.get K1 = []) (hCalls2 : CG.get K2 = [])
    (hCost1 : FnCosts.at K1 = 100) (hCost2 : FnCosts.at K2 = 100) :
    ∃ KWD1 KWD2, KernelWithDependencies.construct CG M FnCosts K1 = some KWD1
      ∧ KernelWithDependencies.construct CG M FnCosts K2 = some KWD2
      ∧ doPartitioning Opts M 2 ModuleCost FnCosts [KWD1, KWD2]
          = [⟨[K2], List.nodup_singleton K2⟩, ⟨[K1], List.nodup_singleton K1⟩]
      ∧ (∀ I, K1 ∈ (doPartitioning Opts M 2 ModuleCost FnCosts [KWD1, KWD2]).getD I DenseSet.empty
          ↔ I = 1)
      ∧ (∀ I, K2 ∈ (doPartitioning Opts M 2 ModuleCost FnCosts [KWD1, KWD2]).getD I DenseSet.empty
          ↔ I = 0)
      ∧ (∀ I, I < 2 → partitionCost FnCosts
          ((doPartitioning Opts M 2 ModuleCost FnCosts [KWD1, KWD2]).getD I DenseSet.empty) = 100)
      ∧ (doPartitioning.assignKernels Opts 2 ModuleCost FnCosts [KWD1, KWD2]).BalancingQueue
          = [(0, 100), (1, 100)] := by
  refine ⟨_, _, KernelWithDependencies.construct_noCalls CG M FnCosts K1 hCalls1,
    KernelWithDependencies.construct_noCalls CG M FnCosts K2 hCalls2, ?_⟩
  have hA := doPartitioning.assignKernels_two_kernels Opts ModuleCost FnCosts K1 K2 hCost1 hCost2
  have h : doPartitioning Opts M 2 ModuleCost FnCosts
      [⟨K1, DenseSet.empty, false, false, FnCosts.at K1⟩,
        ⟨K2, DenseSet.empty, false, false, FnCosts.at K2⟩]
      = [⟨[K2], List.nodup_singleton K2⟩, ⟨[K1], List.nodup_singleton K1⟩] := by
    rw [doPartitioning_eq_assignKernels, hA]
    intro F hF
    right
    rw [hA]
    rcases hM F hF with h1 | h1
    · exact ⟨⟨[K1], List.nodup_singleton K1⟩, by simp, by rw [h1]; exact List.mem_singleton_self K1⟩
    · exact ⟨⟨[K2], List.nodup_singleton K2⟩, by simp, by rw [h1]; exact List.mem_singleton_self K2⟩
  have hmem : ∀ (A B : Function), A ∈ (⟨[B], List.nodup_singleton B⟩ : DenseSet) ↔ A = B :=
    fun A B => List.mem_singleton
  have hcases : ∀ I : Nat, I = 0 ∨ I = 1 ∨ 2 ≤ I := by intro I; omega
  refine ⟨h, ?_, ?_, ?_, ?_⟩
  · intro I
    rw [h]
    rcases hcases I with h0 | h0 | h0
    · subst h0
      simp only [List.getD_cons_zero, hmem]
      constructor
      · intro h1; exact absurd h1 hne
      · intro h1; exact absurd h1 (by decide)
    · subst h0
      simp only [List.getD_cons_succ, List.getD_cons_zero, hmem]
    · obtain ⟨J, rfl⟩ := Nat.exists_eq_add_of_le h0
      have hd : ([⟨[K2], List.nodup_singleton K2⟩, ⟨[K1], List.nodup_singleton K1⟩] : List DenseSet).getD
          (2 + J) DenseSet.empty = DenseSet.empty := by
        rw [Nat.add_comm]; rfl
      rw [hd]
      constructor
      · intro h1; exact absurd h1 (DenseSet.not_mem_empty K1)
      · intro h1; omega
  · intro I
    rw [h]
    rcases hcases I with h0 | h0 | h0
    · subst h0
      simp only [List.getD_cons_zero, hmem]
    · subst h0
      simp only [List.getD_cons_succ, List.getD_cons_zero, hmem]
      constructor
      · intro h1; exact absurd h1.symm hne
      · intro h1; exact absurd h1 (by decide)
    · obtain ⟨J, rfl⟩ := Nat.exists_eq_add_of_le h0
      have hd : ([⟨[K2], List.nodup_singleton K2⟩, ⟨[K1], List.nodup_singleton K1⟩] : List DenseSet).getD
          (2 + J) DenseSet.empty = DenseSet.empty := by
        rw [Nat.add_comm]; rfl
      rw [hd]
      constructor
      · intro h1; exact absurd h1 (DenseSet.not_mem_empty K2)
      · intro h1; omega
  · intro I hI
    rw [h]
    have hI2 : I = 0 ∨ I = 1 := by omega
    rcases hI2 with h0 | h0 <;> subst h0
    · exact partitionCost_singleton FnCosts K2 100 hCost2 (by norm_num) (by norm_num)
    · exact partitionCost_singleton FnCosts K1 100 hCost1 (by norm_num) (by norm_num)
  · rw [hA]

/-- Witness of C18: the program of the two kernels `K` and `K2`. -/
theorem C18_witness :
    Example.K ≠ Example.K2
    ∧ (∀ F ∈ Example.pairModule.Functions, F = Example.K ∨ F = Example.K2)
    ∧ Example.pairGraph.get Example.K = [] ∧ Example.pairGraph.get Example.K2 = []
    ∧ Example.costs100.at Example.K = 100 ∧ Example.costs100.at Example.K2 = 100
    ∧ ∃ KWD1 KWD2, KernelWithDependencies.construct Example.pairGraph Example.pairModule
          Example.costs100 Example.K = some KWD1
        ∧ KernelWithDependencies.construct Example.pairGraph Example.pairModule
          Example.costs100 Example.K2 = some KWD2
        ∧ doPartitioning SplitOptions.default Example.pairModule 2 200 Example.costs100
            [KWD1, KWD2]
          = [⟨[Example.K2], List.nodup_singleton Example.K2⟩,
              ⟨[Example.K], List.nodup_singleton Example.K⟩] := by
  have hM : ∀ F ∈ Example.pairModule.Functions, F = Example.K ∨ F = Example.K2 := by
    intro F hF
    simpa [Example.pairModule] using hF
  refine ⟨by decide, hM, by decide, by decide, by decide, by decide, ?_⟩
  obtain ⟨KWD1, KWD2, h1, h2, h3, _⟩ := C18_two_kernels_two_partitions SplitOptions.default
    Example.pairGraph Example.pairModule Example.costs100 200 Example.K Example.K2 (by decide)
    hM (by decide) (by decide) (by decide) (by decide)
  exact ⟨KWD1, KWD2, h1, h2, h3⟩

/-- C19, scenario D: for every program and every `NumParts ≥ 1`, when the work list consists
of two large kernels `K1` and `K2` (total cost above the threshold and a non-empty dependency
set, which is what `isLarge` tests), both entry points without indirect call and without
non-duplicable dependency, whose dependency sets have the overlap `0.9f` as computed by
`calculateOverlap`, and the merge option has its default value `0.8f`, then in either order
of the work list some partition of the result of `doPartitioning` contains both `K1` and
`K2`. -/
theorem C19_large_kernels_with_overlap_share_partition (Opts : SplitOptions) (M : Module)
    (NumParts : Nat) (hN : 1 ≤ NumParts) (ModuleCost : CostType) (FnCosts : CostMap)
    (K1 K2 : KernelWithDependencies)
    (hOpt : Opts.LargeKernelOverlapForMerge = SplitOptions.default.LargeKernelOverlapForMerge)
    (hL1 : K1.isLarge (LargeKernelThreshold Opts ModuleCost NumParts) = true)
    (hL2 : K2.isLarge (LargeKernelThreshold Opts ModuleCost NumParts) = true)
    (hI1 : K1.HasIndirectCall = false) (hD1 : K1.HasNonDuplicatableDependecy = false)
    (hI2 : K2.HasIndirectCall = false) (hD2 : K2.HasNonDuplicatableDependecy = false)
    (hE1 : isEntryPoint K1.Fn = true) (hE2 : isEntryPoint K2.Fn = true)
    (hO : calculateOverlap K1.Dependencies K2.Dependencies = F32.round (9 / 10))
    (WorkList : List KernelWithDependencies)
    (hW : WorkList = [K1, K2] ∨ WorkList = [K2, K1]) :
    ∃ J, J < NumParts
      ∧ K1.Fn ∈ (doPartitioning Opts M NumParts ModuleCost FnCosts WorkList).getD J DenseSet.empty
      ∧ K2.Fn ∈ (doPartitioning Opts M NumParts ModuleCost FnCosts WorkList).getD J DenseSet.empty := by
  have hd : SplitOptions.default.LargeKernelOverlapForMerge = F32.round (4 / 5) := rfl
  have hgt : calculateOverlap K1.Dependencies K2.Dependencies > Opts.LargeKernelOverlapForMerge := by
    rw [hOpt, hd, hO]
    exact F32.ninety_gt_merge_default
  rcases hW with hW | hW
  · obtain ⟨J, hJ, h1, h2⟩ := doPartitioning.assignKernels_merges Opts NumParts hN ModuleCost
      FnCosts K1 K2 hL2 hI2 hD2 hE1 hgt
    rw [hW]
    exact ⟨J, hJ, (doPartitioning_mem Opts M NumParts hN ModuleCost FnCosts _ J _).2 (Or.inl h1),
      (doPartitioning_mem Opts M NumParts hN ModuleCost FnCosts _ J _).2 (Or.inl h2)⟩
  · rw [calculateOverlap_comm] at hgt
    obtain ⟨J, hJ, h2, h1⟩ := doPartitioning.assignKernels_merges Opts NumParts hN ModuleCost
      FnCosts K2 K1 hL1 hI1 hD1 hE2 hgt
    rw [hW]
    exact ⟨J, hJ, (doPartitioning_mem Opts M NumParts hN ModuleCost FnCosts _ J _).2 (Or.inl h1),
      (doPartitioning_mem Opts M NumParts hN ModuleCost FnCosts _ J _).2 (Or.inl h2)⟩

/-- Witness of C19: the kernel `K` with the dependencies `dep 1` to `dep 10` and the kernel `K2`
with the dependencies `dep 1` to `dep 9`, every function of cost 10, module cost 120 and 4
partitions, so that the threshold is 60 and the overlap is 9 / 10 as a `float`. -/
theorem C19_witness :
    Example.largeKernel.isLarge (LargeKernelThreshold SplitOptions.default 120 4) = true
    ∧ Example.largeKernel2.isLarge (LargeKernelThreshold SplitOptions.default 120 4) = true
    ∧ calculateOverlap Example.largeKernel.Dependencies Example.largeKernel2.Dependencies
        = F32.round (9 / 10)
    ∧ ∃ J, J < 4
      ∧ Example.K ∈ (doPartitioning SplitOptions.default Example.largeModule 4 120 Example.costs
          [Example.largeKernel, Example.largeKernel2]).getD J DenseSet.empty
      ∧ Example.K2 ∈ (doPartitioning SplitOptions.default Example.largeModule 4 120 Example.costs
          [Example.largeKernel, Example.largeKernel2]).getD J DenseSet.empty :=
  ⟨by decide!, by decide!, by decide!,
    C19_large_kernels_with_overlap_share_partition SplitOptions.default Example.largeModule 4
      (by decide) 120 Example.costs Example.largeKernel Example.largeKernel2 rfl
      (by decide!) (by decide!) rfl rfl rfl rfl rfl rfl (by decide!)
      [Example.largeKernel, Example.largeKernel2] (Or.inl rfl)⟩

/-- C20: for every `N ≥ 1`, all options, every cost oracle and every program (module and
call graph), `doPartitioning` returns exactly `N` partitions for every work list, the
partitioning of `splitAMDGPUModule` returns `N` partitions, and `splitAMDGPUModule` passes
exactly `N` units to the callback, the unit of the call with index `I` (for `I` from 0 to
`N - 1`, in this order) being the one built from partition `I`. -/
theorem C20_exactly_N_units_in_order (Opts : SplitOptions)
    (TTI : Function → List (Option CostType)) (CG : CallGraph) (M : Module) (N : Nat)
    (_hN : 1 ≤ N) :
    (∀ (M1 : Module) (ModuleCost : CostType) (FnCosts : CostMap)
        (WorkList : List KernelWithDependencies),
        (doPartitioning Opts M1 N ModuleCost FnCosts WorkList).length = N)
    ∧ ∃ Partitions Units,
        splitAMDGPUModule.partitions Opts TTI CG M N = some Partitions
        ∧ Partitions.length = N
        ∧ splitAMDGPUModule Opts TTI CG M N = some Units
        ∧ Units.length = N
        ∧ ∀ I, I < N →
            Units.get? I = some (splitAMDGPUModule.createModule
              (splitAMDGPUModule.externalized Opts M) I (Partitions.getD I DenseSet.empty)) := by
  refine ⟨fun M1 ModuleCost FnCosts WorkList =>
    doPartitioning_length Opts M1 N ModuleCost FnCosts WorkList, ?_⟩
  obtain ⟨WorkList, _, hP⟩ := splitAMDGPUModule.partitions_eq_some Opts TTI CG M N
  refine ⟨_, (List.range N).map (fun I =>
      splitAMDGPUModule.createModule (splitAMDGPUModule.externalized Opts M) I
        ((doPartitioning Opts (splitAMDGPUModule.externalized Opts M) N
          (calculateFunctionCosts TTI (splitAMDGPUModule.externalized Opts M)).2
          (calculateFunctionCosts TTI (splitAMDGPUModule.externalized Opts M)).1
          WorkList).getD I DenseSet.empty)),
    hP, doPartitioning_length _ _ _ _ _ _, ?_, ?_, ?_⟩
  · unfold splitAMDGPUModule
    rw [hP]
    rfl
  · simp
  · intro I hI
    rw [List.get?_eq_getElem?, List.getElem?_map, List.getElem?_range hI]
    rfl

/-- Witness of C20: the shared example split in 2. -/
theorem C20_witness :
    1 ≤ 2
    ∧ ∃ Partitions Units,
        splitAMDGPUModule.partitions SplitOptions.default Example.tenInstructions
          Example.sharedGraph Example.sharedModule 2 = some Partitions
        ∧ Partitions.length = 2
        ∧ splitAMDGPUModule SplitOptions.default Example.tenInstructions
          Example.sharedGraph Example.sharedModule 2 = some Units
        ∧ Units.length = 2 := by
  obtain ⟨_, Partitions, Units, h1, h2, h3, h4, _⟩ := C20_exactly_N_units_in_order
    SplitOptions.default Example.tenInstructions Example.sharedGraph Example.sharedModule 2
    (by decide)
  exact ⟨by decide, Partitions, Units, h1, h2, h3, h4⟩

/-- C21: the comparison of the sort of the work list is a strict total order on kernels with
pairwise distinct names (irreflexive, asymmetric, transitive, and any two kernels with
different names are ordered).  So for kernels with pairwise distinct names gathered in two
orders `G1` and `G2`, any two sorted arrangements `S1` of `G1` and `S2` of `G2` are the same
list, which is the one the sort of the model returns, and `doPartitioning` returns the same
partitions for both. -/
theorem C21_sorted_worklist_independent_of_gathering_order (Opts : SplitOptions) (M : Module)
    (NumParts : Nat) (ModuleCost : CostType) (FnCosts : CostMap)
    (G1 G2 S1 S2 : List KernelWithDependencies)
    (hG : G1.Perm G2) (hNames : (G1.map (fun K => K.Fn.Name)).Nodup)
    (hp1 : S1.Perm G1)
    (hs1 : S1.Pairwise (fun A B => ¬ splitAMDGPUModule.compareKernels B A = true))
    (hp2 : S2.Perm G2)
    (hs2 : S2.Pairwise (fun A B => ¬ splitAMDGPUModule.compareKernels B A = true)) :
    (∀ A, splitAMDGPUModule.compareKernels A A = false)
    ∧ (∀ A B, splitAMDGPUModule.compareKernels A B = true →
        splitAMDGPUModule.compareKernels B A = false)
    ∧ (∀ A B C, splitAMDGPUModule.compareKernels A B = true →
        splitAMDGPUModule.compareKernels B C = true →
        splitAMDGPUModule.compareKernels A C = true)
    ∧ (∀ A B : KernelWithDependencies, A.Fn.Name ≠ B.Fn.Name →
        splitAMDGPUModule.compareKernels A B = true
          ∨ splitAMDGPUModule.compareKernels B A = true)
    ∧ S1 = S2
    ∧ S1 = G1.insertionSort (fun A B => splitAMDGPUModule.compareKernels A B = true)
    ∧ G1.insertionSort (fun A B => splitAMDGPUModule.compareKernels A B = true)
        = G2.insertionSort (fun A B => splitAMDGPUModule.compareKernels A B = true)
    ∧ doPartitioning Opts M NumParts ModuleCost FnCosts S1
        = doPartitioning Opts M NumParts ModuleCost FnCosts S2 := by
  have hS : S1 = S2 := splitAMDGPUModule.sorted_unique G1 G2 S1 S2 hG hNames hp1 hs1 hp2 hs2
  refine ⟨splitAMDGPUModule.compareKernels_irrefl, splitAMDGPUModule.compareKernels_asymm,
    splitAMDGPUModule.compareKernels_trans, splitAMDGPUModule.compareKernels_total, hS, ?_, ?_, ?_⟩
  · exact splitAMDGPUModule.sorted_unique G1 G1 S1 _ (List.Perm.refl G1) hNames hp1 hs1
      (splitAMDGPUModule.insertionSort_sorted G1).1 (splitAMDGPUModule.insertionSort_sorted G1).2
  · exact splitAMDGPUModule.sorted_unique G1 G2 _ _ hG hNames
      (splitAMDGPUModule.insertionSort_sorted G1).1 (splitAMDGPUModule.insertionSort_sorted G1).2
      (splitAMDGPUModule.insertionSort_sorted G2).1 (splitAMDGPUModule.insertionSort_sorted G2).2
  · rw [hS]

/-- Witness of C21: the two kernels of the shared example gathered in the two possible
orders. -/
theorem C21_witness :
    ([Example.sharedKernel, Example.sharedKernel2].map (fun K => K.Fn.Name)).Nodup
    ∧ [Example.sharedKernel, Example.sharedKernel2].insertionSort
          (fun A B => splitAMDGPUModule.compareKernels A B = true)
        = [Example.sharedKernel2, Example.sharedKernel].insertionSort
          (fun A B => splitAMDGPUModule.compareKernels A B = true) :=
  ⟨by decide,
    (C21_sorted_worklist_independent_of_gathering_order SplitOptions.default Example.sharedModule
      2 40 Example.costs [Example.sharedKernel, Example.sharedKernel2]
      [Example.sharedKernel2, Example.sharedKernel] _ _
      (List.Perm.swap Example.sharedKernel2 Example.sharedKernel []) (by decide)
      (splitAMDGPUModule.insertionSort_sorted _).1 (splitAMDGPUModule.insertionSort_sorted _).2
      (splitAMDGPUModule.insertionSort_sorted _).1
      (splitAMDGPUModule.insertionSort_sorted _).2).2.2.2.2.2.2.1⟩

/-- C22: for every `NumParts ≥ 1`, every function of the module with a body that is neither
the function of a kernel of the work list nor a member of the dependency set of one is a
member of partition 0 of the result of `doPartitioning` and of no other partition. -/
theorem C22_unclaimed_functions_only_in_partition_zero (Opts : SplitOptions) (M : Module)
    (NumParts : Nat) (hN : 1 ≤ NumParts) (ModuleCost : CostType) (FnCosts : CostMap)
    (WorkList : List KernelWithDependencies) (F : Function)
    (hF : F ∈ M.Functions) (hBody : F.isDeclaration = false)
    (hFree : ∀ K, K ∈ WorkList → F ≠ K.Fn ∧ ¬ F ∈ K.Dependencies) :
    F ∈ (doPartitioning Opts M NumParts ModuleCost FnCosts WorkList).getD 0 DenseSet.empty
    ∧ ∀ J, J ≠ 0 →
        ¬ F ∈ (doPartitioning Opts M NumParts ModuleCost FnCosts WorkList).getD J DenseSet.empty := by
  have hno : ∀ I, ¬ F ∈ (doPartitioning.assignKernels Opts NumParts ModuleCost FnCosts
      WorkList).part I := by
    intro I hI
    obtain ⟨K, hK, hG⟩ := doPartitioning.assignKernels_mem_source Opts NumParts ModuleCost
      FnCosts WorkList I F hI
    rcases hG with h | h
    · exact (hFree K hK).1 h
    · exact (hFree K hK).2 h
  constructor
  · exact (doPartitioning_mem Opts M NumParts hN ModuleCost FnCosts WorkList 0 F).2
      (Or.inr ⟨rfl, hF, hBody, hno⟩)
  · intro J hJ hmem
    rcases (doPartitioning_mem Opts M NumParts hN ModuleCost FnCosts WorkList J F).1 hmem
      with h | h
    · exact hno J h
    · exact hJ h.1

/-- Witness of C22: in the indirect example the dependency set of the kernel `K` is `{F}`,
so the function `G` is claimed by no kernel, and it is in partition 0. -/
theorem C22_witness :
    Example.G ∈ Example.indirectModule.Functions
    ∧ Example.G.isDeclaration = false
    ∧ (∀ K, K ∈ [Example.indirectKernel] → Example.G ≠ K.Fn ∧ ¬ Example.G ∈ K.Dependencies)
    ∧ Example.G ∈ (doPartitioning SplitOptions.default Example.indirectModule 2 30
        Example.costs [Example.indirectKernel]).getD 0 DenseSet.empty := by
  have hFree : ∀ K, K ∈ [Example.indirectKernel] →
      Example.G ≠ K.Fn ∧ ¬ Example.G ∈ K.Dependencies := by
    intro K hK
    rw [List.mem_singleton] at hK
    rw [hK]
    exact ⟨by decide, by decide⟩
  exact ⟨by decide, rfl, hFree,
    (C22_unclaimed_functions_only_in_partition_zero SplitOptions.default Example.indirectModule
      2 (by decide) 30 Example.costs [Example.indirectKernel] Example.G (by decide) rfl
      hFree).1⟩

/-- C25: the first loop of `splitAMDGPUModule` replaces every function of the module by its
externalization.  A function whose address is taken has no local linkage afterwards: with
local linkage before, it has external linkage and hidden visibility; without, it keeps its
linkage and its visibility; it has a name, its own one if it had one.  A function whose
address is not taken is unchanged.  A second `externalize` changes nothing, for a function
and for every `GlobalValue`. -/
theorem C25_function_externalization (Opts : SplitOptions) (M : Module) (Fn : Function) :
    (splitAMDGPUModule.externalized Opts M).Functions
        = M.Functions.map splitAMDGPUModule.externalizeFunction
    ∧ (Fn.hasAddressTaken = true →
        (splitAMDGPUModule.externalizeFunction Fn).hasLocalLinkage = false
        ∧ (Fn.hasLocalLinkage = true →
            (splitAMDGPUModule.externalizeFunction Fn).Linkage = LinkageTypes.ExternalLinkage
            ∧ (splitAMDGPUModule.externalizeFunction Fn).Visibility
                = VisibilityTypes.HiddenVisibility)
        ∧ (Fn.hasLocalLinkage = false →
            (splitAMDGPUModule.externalizeFunction Fn).Linkage = Fn.Linkage
            ∧ (splitAMDGPUModule.externalizeFunction Fn).Visibility = Fn.Visibility)
        ∧ (splitAMDGPUModule.externalizeFunction Fn).Name ≠ ""
        ∧ (Fn.Name ≠ "" → (splitAMDGPUModule.externalizeFunction Fn).Name = Fn.Name))
    ∧ (Fn.hasAddressTaken = false → splitAMDGPUModule.externalizeFunction Fn = Fn)
    ∧ splitAMDGPUModule.externalizeFunction (splitAMDGPUModule.externalizeFunction Fn)
        = splitAMDGPUModule.externalizeFunction Fn
    ∧ Fn.externalize.externalize = Fn.externalize
    ∧ (∀ GV : GlobalValue, externalize (externalize GV) = externalize GV) := by
  refine ⟨rfl, ?_, ?_, ?_, Function.externalize_externalize Fn, externalize_idempotent⟩
  · intro hA
    have hE : splitAMDGPUModule.externalizeFunction Fn = Fn.externalize := by
      unfold splitAMDGPUModule.externalizeFunction
      rw [if_pos hA]
    rw [hE]
    refine ⟨Function.externalize_hasLocalLinkage Fn, ?_, ?_, Function.externalize_name_ne Fn, ?_⟩
    · intro hL
      rw [Function.externalize_eq]
      simp [hL]
    · intro hL
      rw [Function.externalize_eq]
      simp [hL]
    · intro hN
      rw [Function.externalize_eq]
      simp [hN]
  · intro hA
    unfold splitAMDGPUModule.externalizeFunction
    rw [hA]
    rfl
  · unfold splitAMDGPUModule.externalizeFunction
    by_cases hA : Fn.hasAddressTaken = true
    · rw [if_pos hA, if_pos (by rw [Function.externalize_hasAddressTaken]; exact hA)]
      exact Function.externalize_externalize Fn
    · rw [if_neg hA, if_neg hA]

/-- Witness of C25: the function without a name and with internal linkage whose address is
taken gets external linkage, hidden visibility and the name `__llvmsplit_unnamed`. -/
theorem C25_witness :
    Example.anonymous.hasAddressTaken = true
    ∧ Example.anonymous.hasLocalLinkage = true
    ∧ (splitAMDGPUModule.externalizeFunction Example.anonymous).Linkage
        = LinkageTypes.ExternalLinkage
    ∧ (splitAMDGPUModule.externalizeFunction Example.anonymous).Visibility
        = VisibilityTypes.HiddenVisibility
    ∧ (splitAMDGPUModule.externalizeFunction Example.anonymous).Name = "__llvmsplit_unnamed" :=
  ⟨rfl, rfl,
    (((C25_function_externalization SplitOptions.default Example.sharedModule
      Example.anonymous).2.1 rfl).2.1 rfl).1,
    (((C25_function_externalization SplitOptions.default Example.sharedModule
      Example.anonymous).2.1 rfl).2.1 rfl).2,
    by decide⟩

/-- C26: with the externalization of the global variables enabled (the default), after the
externalization no global variable of the module has local linkage, the lambda passed to
`CloneModule` selects every global variable exactly for the partition 0, and the unit of a
partition `I` holds the variables as they are in the module for `I = 0` and as declarations
otherwise.  With it disabled the variables are as in the input module, and the lambda
selects every global variable with local linkage for every partition, so that the copy holds
it as it is in the module. -/
theorem C26_global_variables_selection (Opts : SplitOptions) (M : Module) (I : Nat)
    (FnsInPart : DenseSet) :
    (Opts.NoExternalizeGlobals = false →
      (∀ Var, Var ∈ (splitAMDGPUModule.externalized Opts M).Globals →
        Var.hasLocalLinkage = false
        ∧ splitAMDGPUModule.shouldCloneDefinition I FnsInPart (GlobalValue.ofVariable Var)
            = decide (I = 0))
      ∧ (splitAMDGPUModule.createModule (splitAMDGPUModule.externalized Opts M) I
            FnsInPart).Globals
          = (splitAMDGPUModule.externalized Opts M).Globals.map (fun Var =>
              if Var.isDeclaration || decide (I = 0) then Var
              else { Var with IsDeclaration := true, Linkage := LinkageTypes.ExternalLinkage }))
    ∧ (Opts.NoExternalizeGlobals = true →
      (splitAMDGPUModule.externalized Opts M).Globals = M.Globals
      ∧ ∀ Var, Var ∈ M.Globals → Var.hasLocalLinkage = true →
          splitAMDGPUModule.shouldCloneDefinition I FnsInPart (GlobalValue.ofVariable Var) = true
          ∧ Var ∈ (CloneModule (splitAMDGPUModule.externalized Opts M)
              (splitAMDGPUModule.shouldCloneDefinition I FnsInPart)).Globals) := by
  constructor
  · intro hOn
    have hG := splitAMDGPUModule.externalized_globals_on Opts M hOn
    have hloc : ∀ Var, Var ∈ (splitAMDGPUModule.externalized Opts M).Globals →
        Var.hasLocalLinkage = false := by
      intro Var hV
      rw [hG, List.mem_map] at hV
      obtain ⟨V0, _, hV0⟩ := hV
      rw [← hV0]
      exact GlobalVariable.externalize_variable_hasLocalLinkage V0
    have hsel : ∀ Var, Var ∈ (splitAMDGPUModule.externalized Opts M).Globals →
        splitAMDGPUModule.shouldCloneDefinition I FnsInPart (GlobalValue.ofVariable Var)
          = decide (I = 0) := by
      intro Var hV
      unfold splitAMDGPUModule.shouldCloneDefinition splitAMDGPUModule.NeedsConservativeImport
      simp [hloc Var hV]
    have hclone : (CloneModule (splitAMDGPUModule.externalized Opts M)
        (splitAMDGPUModule.shouldCloneDefinition I FnsInPart)).Globals
        = (splitAMDGPUModule.externalized Opts M).Globals.map (fun Var =>
            if Var.isDeclaration || decide (I = 0) then Var
            else { Var with IsDeclaration := true, Linkage := LinkageTypes.ExternalLinkage }) := by
      unfold CloneModule
      simp only
      apply List.map_congr_left
      intro Var hV
      rw [hsel Var hV]
    refine ⟨fun Var hV => ⟨hloc Var hV, hsel Var hV⟩, ?_⟩
    unfold splitAMDGPUModule.createModule
    rw [splitAMDGPUModule.cleanup_of_no_local, hclone]
    intro Var hV
    rw [hclone, List.mem_map] at hV
    obtain ⟨V0, hV0, hE⟩ := hV
    rw [← hE]
    split_ifs
    · exact hloc V0 hV0
    · rfl
  · intro hOff
    have hG := splitAMDGPUModule.externalized_globals_off Opts M hOff
    refine ⟨hG, ?_⟩
    intro Var hV hL
    have hsel : splitAMDGPUModule.shouldCloneDefinition I FnsInPart (GlobalValue.ofVariable Var)
        = true := by
      unfold splitAMDGPUModule.shouldCloneDefinition splitAMDGPUModule.NeedsConservativeImport
      simp [hL]
    refine ⟨hsel, ?_⟩
    unfold CloneModule
    simp only
    rw [hG, List.mem_map]
    exact ⟨Var, hV, by rw [hsel]; simp⟩

/-- Witness of C26: the module with the three variables; with the default options no
variable has local linkage after the externalization, and with the externalization disabled
the variable `a` is selected for partition 1. -/
theorem C26_witness :
    SplitOptions.default.NoExternalizeGlobals = false
    ∧ (∀ Var, Var ∈ (splitAMDGPUModule.externalized SplitOptions.default
          Example.globalsModule).Globals →
        Var.hasLocalLinkage = false
        ∧ splitAMDGPUModule.shouldCloneDefinition 1 DenseSet.empty (GlobalValue.ofVariable Var)
            = decide (1 = 0))
    ∧ Example.keepGlobals.NoExternalizeGlobals = true
    ∧ Example.varA ∈ Example.globalsModule.Globals
    ∧ Example.varA.hasLocalLinkage = true
    ∧ splitAMDGPUModule.shouldCloneDefinition 1 DenseSet.empty
        (GlobalValue.ofVariable Example.varA) = true :=
  ⟨rfl,
    ((C26_global_variables_selection SplitOptions.default Example.globalsModule 1
      DenseSet.empty).1 rfl).1,
    rfl, by decide, rfl,
    ((((C26_global_variables_selection Example.keepGlobals Example.globalsModule 1
      DenseSet.empty).2 rfl).2 Example.varA (by decide) rfl).1)⟩

/-- C23 fails in the code: for the module whose only function is the kernel `K`, with two
instructions of cost `2 ^ 62` each (not negative, and not the greatest cost), the running
sum of the function is `2 ^ 63`, above the greatest `CostType`; `calculateFunctionCosts`
returns all the same, maps `K` to the least `CostType` value, which is negative and is not
the sum of the instruction costs, and returns that value as the module cost.  The condition
of the overflow check, wherever the source gives it a value, only says that the added cost
is not negative. -/
theorem C23_overflow_is_not_reported :
    Example.singleModule.Functions = [Example.K]
    ∧ Example.K.isDeclaration = false
    ∧ Example.overflowCosts Example.K = [some (2 ^ 62), some (2 ^ 62)]
    ∧ ((Example.overflowCosts Example.K).map (fun Cost => Cost.getD TCC_Expensive)).sum
        = (2 : Int) ^ 63
    ∧ (CostTypeMax : Int) < (2 : Int) ^ 62 + 2 ^ 62
    ∧ (calculateFunctionCosts Example.overflowCosts Example.singleModule).1 Example.K
        = some CostTypeMin
    ∧ (calculateFunctionCosts Example.overflowCosts Example.singleModule).2 = CostTypeMin
    ∧ CostTypeMin < 0
    ∧ (∀ Sum Cost : CostType,
        calculateFunctionCosts.overflowCheck Sum Cost = decide (0 ≤ Cost)) := by
  refine ⟨rfl, rfl, rfl, by decide, by decide, ?_, ?_, by decide, ?_⟩
  · rw [calculateFunctionCosts_map, if_pos ⟨by decide, rfl⟩]
    decide
  · rw [calculateFunctionCosts_moduleCost]
    decide
  · intro Sum Cost
    unfold calculateFunctionCosts.overflowCheck
    congr 1
    simp only [CostType, ge_iff_le, eq_iff_iff]
    constructor <;> intro h <;> omega

/-- C24: on every call graph, with or without cycles, `addAllDependencies` returns.  The
iterations of its loop are one for the start function `Fn` and then one per function of a
list `T` without duplicates (a function is pushed at most once after the start), whose
members have a body and are targets of call records; so there are at most as many
iterations as the graph has distinct targets with a body, plus one, the loop ends when it is
given that many iterations, and when the targets are functions of the module there are at
most as many iterations as the module has functions with a body, plus one. -/
theorem C24_traversal_terminates (CG : CallGraph) (M : Module) (Fn : Function) (Fns : DenseSet)
    (Had : Bool) :
    (addAllDependencies CG M Fn Fns Had).isSome = true
    ∧ (∀ fuel, ∃ T,
        addAllDependencies.processed CG M (fuel + 1) ⟨[Fn], Fns, Had⟩ = Fn :: T
        ∧ T.Nodup
        ∧ (∀ G, G ∈ T → G.isDeclaration = false ∧ G ∈ CG.targets ∧ ¬ G ∈ Fns))
    ∧ (∀ fuel, (addAllDependencies.processed CG M fuel ⟨[Fn], Fns, Had⟩).length
        ≤ CG.definedTargets.length + 1)
    ∧ (addAllDependencies.loop CG M (CG.definedTargets.length + 1) ⟨[Fn], Fns, Had⟩).isSome = true
    ∧ ((∀ G, G ∈ CG.targets → G ∈ M.Functions) →
        ∀ fuel, (addAllDependencies.processed CG M fuel ⟨[Fn], Fns, Had⟩).length
          ≤ (M.Functions.filter (fun F => !F.isDeclaration)).length + 1) := by
  have hlen : ∀ fuel, (addAllDependencies.processed CG M fuel ⟨[Fn], Fns, Had⟩).length
      ≤ CG.definedTargets.length + 1 := by
    intro fuel
    cases fuel with
    | zero => simp [addAllDependencies.processed]
    | succ fuel =>
      obtain ⟨T, hT, hn, hel⟩ := addAllDependencies.processed_initial CG M Fn Fns Had fuel
      rw [hT, List.length_cons]
      have := CallGraph.length_le_definedTargets CG T hn (fun G hG => ⟨(hel G hG).1, (hel G hG).2.1⟩)
      omega
  refine ⟨addAllDependencies_isSome CG M Fn Fns Had,
    fun fuel => addAllDependencies.processed_initial CG M Fn Fns Had fuel, hlen, ?_, ?_⟩
  · exact addAllDependencies.loop_isSome_of_processed CG M _ _ (hlen _)
  · intro hCG fuel
    have := CallGraph.definedTargets_le_module CG M hCG
    have := hlen fuel
    omega

/-- Witness of C24: in the graph where `K` calls itself and `G`, and `G` calls itself and
`K`, the traversal from `K` makes three iterations, for `K`, `G` and `K`. -/
theorem C24_witness :
    (∀ G, G ∈ Example.cycleGraph.targets → G ∈ Example.cycleModule.Functions)
    ∧ addAllDependencies.processed Example.cycleGraph Example.cycleModule 10
        ⟨[Example.K], DenseSet.empty, false⟩ = [Example.K, Example.G, Example.K]
    ∧ (addAllDependencies.processed Example.cycleGraph Example.cycleModule 10
        ⟨[Example.K], DenseSet.empty, false⟩).length
        ≤ (Example.cycleModule.Functions.filter (fun F => !F.isDeclaration)).length + 1 :=
  ⟨by decide, by decide,
    (C24_traversal_terminates Example.cycleGraph Example.cycleModule Example.K DenseSet.empty
      false).2.2.2.2 (by decide) 10⟩

/-- C28: for every function `K` with a body (an entry point with a body, as the kernels of
the work list are) whose constructed `KernelWithDependencies` has `HasIndirectCall` false,
the dependency set is exactly the set of the functions reachable from `K` by one or more
direct calls between functions with bodies: it holds no declaration and no unreachable
function, and it holds `K` itself exactly when `K` is on a cycle of calls. -/
theorem C28_dependencies_are_the_reachable_functions (CG : CallGraph) (M : Module)
    (FnCosts : CostMap) (K : Function) (KWD : KernelWithDependencies)
    (hBody : K.isDeclaration = false)
    (hC : KernelWithDependencies.construct CG M FnCosts K = some KWD)
    (hNo : KWD.HasIndirectCall = false) :
    (∀ G, G ∈ KWD.Dependencies ↔ CG.Reaches K G)
    ∧ (∀ G, G ∈ KWD.Dependencies → G.isDeclaration = false)
    ∧ (∀ G, ¬ CG.Reaches K G → ¬ G ∈ KWD.Dependencies)
    ∧ (K ∈ KWD.Dependencies ↔ CG.Reaches K K) := by
  obtain ⟨_, hA, _⟩ := KernelWithDependencies.construct_eq_some CG M FnCosts K KWD hC
  have hiff : ∀ G, G ∈ KWD.Dependencies ↔ CG.Reaches K G :=
    fun G => addAllDependencies_eq_reaches CG M K hBody
      (KWD.Dependencies, KWD.HasIndirectCall) hA hNo G
  refine ⟨hiff, ?_, ?_, hiff K⟩
  · intro G hG
    exact CallGraph.Reaches.body CG K G ((hiff G).1 hG)
  · intro G hG hmem
    exact hG ((hiff G).1 hmem)

/-- Witness of C28: in the graph with cycles the dependency set of `K` is `{K, G}`; `K` is
in it because `K` calls itself. -/
theorem C28_witness :
    Example.K.isDeclaration = false
    ∧ KernelWithDependencies.construct Example.cycleGraph Example.cycleModule Example.costs
        Example.K
      = some ⟨Example.K, ⟨[Example.G, Example.K], by decide⟩, false, true, 30⟩
    ∧ (Example.K ∈ (⟨[Example.G, Example.K], by decide⟩ : DenseSet)
        ↔ Example.cycleGraph.Reaches Example.K Example.K) :=
  ⟨rfl, by decide,
    (C28_dependencies_are_the_reachable_functions Example.cycleGraph Example.cycleModule
      Example.costs Example.K
      ⟨Example.K, ⟨[Example.G, Example.K], by decide⟩, false, true, 30⟩ rfl (by decide)
      rfl).2.2.2⟩

/-- C27, scenario E: for every module whose global variables are distinct objects, every
partition `I` and every global variable `GV` of the copy made by `CloneModule`: if `GV` has
local linkage and zero uses in the copy, it is absent from the unit passed to the callback;
if the clean-up deleted `GV`, then `GV` has local linkage and had zero uses in the unit as
it was when the loop came to it; so a variable without local linkage is not deleted, and
neither is a variable with a use in the body of a function that the unit defines.  The
clean-up leaves the functions of the unit as they are. -/
theorem C27_cleanup_deletes_unused_local_globals (M : Module) (I : Nat) (FnsInPart : DenseSet)
    (GV : GlobalVariable)
    (hIds : (M.Globals.map (fun V => V.Id)).Nodup)
    (hGV : GV ∈ (CloneModule M (splitAMDGPUModule.shouldCloneDefinition I FnsInPart)).Globals) :
    (GV.hasLocalLinkage = true →
      GV.use_empty (CloneModule M (splitAMDGPUModule.shouldCloneDefinition I FnsInPart)) = true →
      ¬ GV ∈ (splitAMDGPUModule.createModule M I FnsInPart).Globals)
    ∧ (¬ GV ∈ (splitAMDGPUModule.createModule M I FnsInPart).Globals →
        GV.hasLocalLinkage = true
        ∧ ∃ Pre Post,
            (CloneModule M (splitAMDGPUModule.shouldCloneDefinition I FnsInPart)).Globals
              = Pre ++ GV :: Post
            ∧ GV.use_empty (splitAMDGPUModule.cleanupUpTo
                (CloneModule M (splitAMDGPUModule.shouldCloneDefinition I FnsInPart)) Pre) = true)
    ∧ (GV.hasLocalLinkage = false →
        GV ∈ (splitAMDGPUModule.createModule M I FnsInPart).Globals)
    ∧ (∀ Fn, GlobalUser.Body Fn.Id ∈ GV.Users →
        Fn ∈ (CloneModule M (splitAMDGPUModule.shouldCloneDefinition I FnsInPart)).Functions →
        Fn.isDeclaration = false →
        GV ∈ (splitAMDGPUModule.createModule M I FnsInPart).Globals)
    ∧ (splitAMDGPUModule.createModule M I FnsInPart).Functions
        = (CloneModule M (splitAMDGPUModule.shouldCloneDefinition I FnsInPart)).Functions := by
  have hn := CloneModule_globals_nodup M (splitAMDGPUModule.shouldCloneDefinition I FnsInPart) hIds
  have hremoved : ¬ GV ∈ (splitAMDGPUModule.createModule M I FnsInPart).Globals →
      GV.hasLocalLinkage = true
      ∧ ∃ Pre Post,
          (CloneModule M (splitAMDGPUModule.shouldCloneDefinition I FnsInPart)).Globals
            = Pre ++ GV :: Post
          ∧ GV.use_empty (splitAMDGPUModule.cleanupUpTo
              (CloneModule M (splitAMDGPUModule.shouldCloneDefinition I FnsInPart)) Pre) = true :=
    fun hR => splitAMDGPUModule.cleanup_foldl_removed _ _ GV hGV hR
  refine ⟨?_, hremoved, ?_, ?_, ?_⟩
  · intro hL hU
    exact splitAMDGPUModule.cleanup_foldl_removes _ _ hn GV hGV hL hU
  · intro hL
    by_contra hR
    rw [(hremoved hR).1] at hL
    exact absurd hL (by decide)
  · intro Fn hUse hFn hb
    by_contra hR
    obtain ⟨_, Pre, Post, _, hE⟩ := hremoved hR
    have hF : (splitAMDGPUModule.cleanupUpTo
        (CloneModule M (splitAMDGPUModule.shouldCloneDefinition I FnsInPart)) Pre).Functions
        = (CloneModule M (splitAMDGPUModule.shouldCloneDefinition I FnsInPart)).Functions :=
      (splitAMDGPUModule.cleanup_foldl_spec Pre _).1
    rw [GlobalVariable.use_empty_body _ GV Fn hUse (by rw [hF]; exact hFn) hb] at hE
    exact absurd hE (by decide)
  · exact (splitAMDGPUModule.cleanup_foldl_spec _ _).1

/-- Witness of C27: with the externalization of the global variables disabled, the unit of
the partition that holds `K2` and `H` does not hold the variable `a`, which has internal
linkage and is used in the body of `G` only. -/
theorem C27_witness :
    (Example.globalsModule.Globals.map (fun V => V.Id)).Nodup
    ∧ Example.varA ∈ (CloneModule Example.globalsModule
        (splitAMDGPUModule.shouldCloneDefinition 1 ⟨[Example.H, Example.K2], by decide⟩)).Globals
    ∧ Example.varA.hasLocalLinkage = true
    ∧ Example.varA.use_empty (CloneModule Example.globalsModule
        (splitAMDGPUModule.shouldCloneDefinition 1 ⟨[Example.H, Example.K2], by decide⟩)) = true
    ∧ ¬ Example.varA ∈ (splitAMDGPUModule.createModule Example.globalsModule 1
        ⟨[Example.H, Example.K2], by decide⟩).Globals :=
  ⟨by decide, by decide, rfl, by decide,
    (C27_cleanup_deletes_unused_local_globals Example.globalsModule 1
      ⟨[Example.H, Example.K2], by decide⟩ Example.varA (by decide) (by decide)).1 rfl
      (by decide)⟩

/-- C29: multi-assignment is reachable.  For the module with the kernels `L1` (own cost 13,
calls `dep 1` to `dep 9`), `L2` (own cost 12, calls `dep 2` to `dep 10`) and `K` (own cost 1,
calls `dep 1` to `dep 10`), every other function of cost 10, the default options and 3
partitions: the externalization changes nothing (no address is taken), the module cost is
126, the sorted work list is `L1`, `L2`, `K`, the kernel `K`
is large, has no indirect call and no non-duplicable dependency, and is in no partition
before its step; in its step its overlap with partition 1 (which holds `L2`) and with
partition 2 (which holds `L1`) exceeds the merge option, the large kernel rule assigns it,
and after the step, and in the partitions `splitAMDGPUModule` computes, `K` is a member of
partition 1 and of partition 2. -/
theorem C29_multi_assignment_reachable :
    splitAMDGPUModule.externalized SplitOptions.default Example.multiModule = Example.multiModule
    ∧ Example.multiGraph.mapFunctions splitAMDGPUModule.externalizeFunction = Example.multiGraph
    ∧ (calculateFunctionCosts Example.multiCosts
        (splitAMDGPUModule.externalized SplitOptions.default Example.multiModule)).2 = 126
    ∧ splitAMDGPUModule.workList
        (Example.multiGraph.mapFunctions splitAMDGPUModule.externalizeFunction)
        (splitAMDGPUModule.externalized SplitOptions.default Example.multiModule)
        (calculateFunctionCosts Example.multiCosts
          (splitAMDGPUModule.externalized SplitOptions.default Example.multiModule)).1
      = some [Example.multiL1, Example.multiL2, Example.multiK]
    ∧ Example.multiK.HasIndirectCall = false
    ∧ Example.multiK.HasNonDuplicatableDependecy = false
    ∧ Example.multiK.isLarge (LargeKernelThreshold SplitOptions.default 126 3) = true
    ∧ (∀ J, ¬ Example.K ∈ (doPartitioning.assignKernels SplitOptions.default 3 126
        (calculateFunctionCosts Example.multiCosts Example.multiModule).1
        [Example.multiL1, Example.multiL2]).part J)
    ∧ calculateOverlap Example.multiK.Dependencies
        ((doPartitioning.assignKernels SplitOptions.default 3 126
          (calculateFunctionCosts Example.multiCosts Example.multiModule).1
          [Example.multiL1, Example.multiL2]).part 1)
        > SplitOptions.default.LargeKernelOverlapForMerge
    ∧ calculateOverlap Example.multiK.Dependencies
        ((doPartitioning.assignKernels SplitOptions.default 3 126
          (calculateFunctionCosts Example.multiCosts Example.multiModule).1
          [Example.multiL1, Example.multiL2]).part 2)
        > SplitOptions.default.LargeKernelOverlapForMerge
    ∧ (doPartitioning.tryMerge SplitOptions.default
        (calculateFunctionCosts Example.multiCosts Example.multiModule).1
        (LargeKernelThreshold SplitOptions.default 126 3)
        (doPartitioning.assignKernels SplitOptions.default 3 126
          (calculateFunctionCosts Example.multiCosts Example.multiModule).1
          [Example.multiL1, Example.multiL2])
        Example.multiK).2 = true
    ∧ Example.K ∈ (doPartitioning.assignKernels SplitOptions.default 3 126
        (calculateFunctionCosts Example.multiCosts Example.multiModule).1
        [Example.multiL1, Example.multiL2, Example.multiK]).part 1
    ∧ Example.K ∈ (doPartitioning.assignKernels SplitOptions.default 3 126
        (calculateFunctionCosts Example.multiCosts Example.multiModule).1
        [Example.multiL1, Example.multiL2, Example.multiK]).part 2
    ∧ ∃ Partitions,
        splitAMDGPUModule.partitions SplitOptions.default Example.multiCosts Example.multiGraph
          Example.multiModule 3 = some Partitions
        ∧ Example.K ∈ Partitions.getD 1 DenseSet.empty
        ∧ Example.K ∈ Partitions.getD 2 DenseSet.empty := by
  have hno : ∀ J, ¬ Example.K ∈ (doPartitioning.assignKernels SplitOptions.default 3 126
      (calculateFunctionCosts Example.multiCosts Example.multiModule).1
      [Example.multiL1, Example.multiL2]).part J := by
    intro J hJ
    obtain ⟨KWD, hK, hG⟩ := doPartitioning.assignKernels_mem_source _ _ _ _ _ J Example.K hJ
    have hcases : KWD = Example.multiL1 ∨ KWD = Example.multiL2 := by
      simpa using hK
    rcases hcases with e | e <;> rw [e] at hG <;> revert hG <;> decide
  refine ⟨rfl, rfl, by decide!, by decide!, rfl, rfl, by decide!, hno, by decide!, by decide!,
    by decide!, by decide!, by decide!, ?_⟩
  refine ⟨[DenseSet.empty,
    ⟨[Example.dep 1, Example.K, Example.dep 2, Example.dep 3, Example.dep 4, Example.dep 5,
      Example.dep 6, Example.dep 7, Example.dep 8, Example.dep 9, Example.dep 10, Example.L2],
      by decide⟩,
    ⟨[Example.dep 10, Example.K, Example.dep 1, Example.dep 2, Example.dep 3, Example.dep 4,
      Example.dep 5, Example.dep 6, Example.dep 7, Example.dep 8, Example.dep 9, Example.L1],
      by decide⟩], by decide!, by decide, by decide⟩

/-- C30: for every `N ≥ 1` and every module whose call graph points to functions of the
module, the work list of `splitAMDGPUModule` exists and no lookup or index of the
constructor of `KernelWithDependencies` and of `doPartitioning` misses: every kernel of the
work list and every dependency is a function with a body and a key of the cost map; in the
state before each kernel of the work list (and after the last) there are `N` partitions, the
balancing queue is not empty, every id in it, the one at its back included, and the id 0
are below the number of partitions, and every member of a partition is a function with a
body and a key of the cost map; and so is every member of a returned partition. -/
theorem C30_no_lookup_or_index_fails (Opts : SplitOptions)
    (TTI : Function → List (Option CostType)) (CG : CallGraph) (M : Module) (N : Nat)
    (hN : 1 ≤ N) (hCG : ∀ G, G ∈ CG.targets → G ∈ M.Functions) :
    ∃ WorkList,
      splitAMDGPUModule.workList (CG.mapFunctions splitAMDGPUModule.externalizeFunction)
        (splitAMDGPUModule.externalized Opts M)
        (calculateFunctionCosts TTI (splitAMDGPUModule.externalized Opts M)).1 = some WorkList
      ∧ (∀ K, K ∈ WorkList → ∀ G, (G = K.Fn ∨ G ∈ K.Dependencies) →
          G.isDeclaration = false
          ∧ ((calculateFunctionCosts TTI (splitAMDGPUModule.externalized Opts M)).1 G).isSome
              = true)
      ∧ (∀ Pre Post, WorkList = Pre ++ Post →
          (doPartitioning.assignKernels Opts N
              (calculateFunctionCosts TTI (splitAMDGPUModule.externalized Opts M)).2
              (calculateFunctionCosts TTI (splitAMDGPUModule.externalized Opts M)).1
              Pre).Partitions.length = N
          ∧ (doPartitioning.assignKernels Opts N
              (calculateFunctionCosts TTI (splitAMDGPUModule.externalized Opts M)).2
              (calculateFunctionCosts TTI (splitAMDGPUModule.externalized Opts M)).1
              Pre).BalancingQueue ≠ []
          ∧ (∀ E, E ∈ (doPartitioning.assignKernels Opts N
              (calculateFunctionCosts TTI (splitAMDGPUModule.externalized Opts M)).2
              (calculateFunctionCosts TTI (splitAMDGPUModule.externalized Opts M)).1
              Pre).BalancingQueue → E.1 < N)
          ∧ ((doPartitioning.assignKernels Opts N
              (calculateFunctionCosts TTI (splitAMDGPUModule.externalized Opts M)).2
              (calculateFunctionCosts TTI (splitAMDGPUModule.externalized Opts M)).1
              Pre).BalancingQueue.getLastD (0, 0)).1 < N
          ∧ 0 < N
          ∧ (∀ J F, F ∈ (doPartitioning.assignKernels Opts N
              (calculateFunctionCosts TTI (splitAMDGPUModule.externalized Opts M)).2
              (calculateFunctionCosts TTI (splitAMDGPUModule.externalized Opts M)).1
              Pre).part J →
              F.isDeclaration = false
              ∧ ((calculateFunctionCosts TTI (splitAMDGPUModule.externalized Opts M)).1
                  F).isSome = true))
      ∧ (∀ J F, F ∈ (doPartitioning Opts (splitAMDGPUModule.externalized Opts M) N
            (calculateFunctionCosts TTI (splitAMDGPUModule.externalized Opts M)).2
            (calculateFunctionCosts TTI (splitAMDGPUModule.externalized Opts M)).1
            WorkList).getD J DenseSet.empty →
          F.isDeclaration = false
          ∧ ((calculateFunctionCosts TTI (splitAMDGPUModule.externalized Opts M)).1 F).isSome
              = true) := by
  obtain ⟨WorkList, hW⟩ := Option.isSome_iff_exists.1
    (splitAMDGPUModule.workList_isSome (CG.mapFunctions splitAMDGPUModule.externalizeFunction)
      (splitAMDGPUModule.externalized Opts M)
      (calculateFunctionCosts TTI (splitAMDGPUModule.externalized Opts M)).1)
  have hCG1 : ∀ G, G ∈ (CG.mapFunctions splitAMDGPUModule.externalizeFunction).targets →
      G ∈ (splitAMDGPUModule.externalized Opts M).Functions := by
    intro G hG
    rw [CallGraph.mapFunctions_targets, List.mem_map] at hG
    obtain ⟨G0, hG0, hE⟩ := hG
    have : (splitAMDGPUModule.externalized Opts M).Functions
        = M.Functions.map splitAMDGPUModule.externalizeFunction := rfl
    rw [this, List.mem_map]
    exact ⟨G0, hCG G0 hG0, hE⟩
  have hkey : ∀ G, G ∈ (splitAMDGPUModule.externalized Opts M).Functions →
      G.isDeclaration = false →
      ((calculateFunctionCosts TTI (splitAMDGPUModule.externalized Opts M)).1 G).isSome = true := by
    intro G hG hb
    rw [calculateFunctionCosts_map, if_pos ⟨hG, hb⟩]
    rfl
  have hdef : ∀ K, K ∈ WorkList → ∀ G, (G = K.Fn ∨ G ∈ K.Dependencies) →
      G.isDeclaration = false
      ∧ ((calculateFunctionCosts TTI (splitAMDGPUModule.externalized Opts M)).1 G).isSome
          = true := by
    intro K hK G hG
    obtain ⟨h1, h2⟩ := splitAMDGPUModule.workList_defined _ _ _ hCG1 WorkList hW K hK G hG
    exact ⟨h2, hkey G h1 h2⟩
  refine ⟨WorkList, hW, hdef, ?_, ?_⟩
  · intro Pre Post hPre
    have hWF := doPartitioning.assignKernels_wellFormed Opts N
      (calculateFunctionCosts TTI (splitAMDGPUModule.externalized Opts M)).2
      (calculateFunctionCosts TTI (splitAMDGPUModule.externalized Opts M)).1 Pre
    obtain ⟨hq1, hq2⟩ := PartitioningState.WellFormed.queue _ N _ hWF hN
    refine ⟨hWF.1, hq1, hq2, (PartitioningState.WellFormed.back_lt _ N _ hWF hN).2, hN, ?_⟩
    intro J F hF
    obtain ⟨K, hK, hG⟩ := doPartitioning.assignKernels_mem_source _ _ _ _ _ J F hF
    exact hdef K (by rw [hPre]; exact List.mem_append_left Post hK) F hG
  · intro J F hF
    rcases (doPartitioning_mem Opts _ N hN _ _ WorkList J F).1 hF with h1 | ⟨_, h2, h3, _⟩
    · obtain ⟨K, hK, hG⟩ := doPartitioning.assignKernels_mem_source _ _ _ _ _ J F h1
      exact hdef K hK F hG
    · exact ⟨h3, hkey F h2 h3⟩

/-- Witness of C30: the shared example, split in 2. -/
theorem C30_witness :
    1 ≤ 2
    ∧ (∀ G, G ∈ Example.sharedGraph.targets → G ∈ Example.sharedModule.Functions)
    ∧ ∃ WorkList,
        splitAMDGPUModule.workList
          (Example.sharedGraph.mapFunctions splitAMDGPUModule.externalizeFunction)
          (splitAMDGPUModule.externalized SplitOptions.default Example.sharedModule)
          (calculateFunctionCosts Example.tenInstructions
            (splitAMDGPUModule.externalized SplitOptions.default Example.sharedModule)).1
          = some WorkList
        ∧ ∀ K, K ∈ WorkList → ∀ G, (G = K.Fn ∨ G ∈ K.Dependencies) →
            G.isDeclaration = false
            ∧ ((calculateFunctionCosts Example.tenInstructions
                (splitAMDGPUModule.externalized SplitOptions.default Example.sharedModule)).1
                G).isSome = true := by
  have hCG : ∀ G, G ∈ Example.sharedGraph.targets → G ∈ Example.sharedModule.Functions := by
    decide
  obtain ⟨WorkList, h1, h2, _⟩ := C30_no_lookup_or_index_fails SplitOptions.default
    Example.tenInstructions Example.sharedGraph Example.sharedModule 2 (by decide) hCG
  exact ⟨by decide, hCG, WorkList, h1, h2⟩

/-! ## The claims C31 to C35 -/

/-- C31: load balance.  For every number `NumParts ≥ 1` of partitions and every work list of
kernels that the constructor built with an empty dependency set and no indirect call, when
no cost is negative and the sum of the costs of the kernels fits `int64_t`: after the
kernels `Pre` of the work list have been processed, for every prefix `Pre` of the work list
(the whole work list included), the costs of any two partitions differ by at most the
largest cost of a single kernel processed so far, which is at most the largest cost of a
single kernel of the work list; the same holds for the costs that the balancing queue
records. -/
theorem C31_load_balance (Opts : SplitOptions) (NumParts : Nat) (hN : 1 ≤ NumParts)
    (ModuleCost : CostType) (FnCosts : CostMap) (WorkList : List KernelWithDependencies)
    (hK : ∀ K, K ∈ WorkList → K.Dependencies.isEmpty = true ∧ K.HasIndirectCall = false
      ∧ ∃ (CG : CallGraph) (M : Module),
          KernelWithDependencies.construct CG M FnCosts K.Fn = some K)
    (hpos : ∀ F, 0 ≤ FnCosts.at F)
    (hsum : (WorkList.map (fun K => K.TotalCost)).sum < 2 ^ 63)
    (Pre Rest : List KernelWithDependencies) (hPre : WorkList = Pre ++ Rest) :
    (∀ I J, I < NumParts → J < NumParts →
      partitionCost FnCosts
          ((doPartitioning.assignKernels Opts NumParts ModuleCost FnCosts Pre).part I)
        - partitionCost FnCosts
          ((doPartitioning.assignKernels Opts NumParts ModuleCost FnCosts Pre).part J)
        ≤ largestKernelCost Pre)
    ∧ (∀ E1 E2,
        E1 ∈ (doPartitioning.assignKernels Opts NumParts ModuleCost FnCosts Pre).BalancingQueue →
        E2 ∈ (doPartitioning.assignKernels Opts NumParts ModuleCost FnCosts Pre).BalancingQueue →
        E1.2 - E2.2 ≤ largestKernelCost Pre)
    ∧ largestKernelCost Pre ≤ largestKernelCost WorkList := by
  have hfacts : ∀ K, K ∈ WorkList → K.HasIndirectCall = false
      ∧ K.HasNonDuplicatableDependecy = false
      ∧ K.Dependencies.isEmpty = true ∧ K.TotalCost = FnCosts.at K.Fn := by
    intro K hKW
    obtain ⟨k1, k2, CG, M, k3⟩ := hK K hKW
    have hnil : K.Dependencies.Elems = [] := by
      unfold DenseSet.isEmpty at k1
      exact List.isEmpty_iff.1 k1
    obtain ⟨_, _, hiff⟩ := KernelWithDependencies.construct_eq_some CG M FnCosts K.Fn K k3
    refine ⟨k2, ?_, k1, ?_⟩
    · cases hf : K.HasNonDuplicatableDependecy with
      | false => rfl
      | true =>
        obtain ⟨D, hD, _⟩ := hiff.1 hf
        rw [DenseSet.mem_def, hnil] at hD
        exact absurd hD (List.not_mem_nil D)
    · rw [KernelWithDependencies.construct_totalCost CG M FnCosts K.Fn K k3, hnil]
      rfl
  have hRest0 : (0 : Int) ≤ (Rest.map (fun K => K.TotalCost)).sum := by
    apply List.sum_nonneg
    intro x hx
    obtain ⟨K1, hK1, rfl⟩ := List.mem_map.1 hx
    rw [(hfacts K1 (by rw [hPre]; exact List.mem_append_right Pre hK1)).2.2.2]
    exact hpos K1.Fn
  have hsumPre : (0 : Int) + (Pre.map (fun K => K.TotalCost)).sum < 2 ^ 63 := by
    rw [hPre, List.map_append, List.sum_append] at hsum
    simp only [CostType] at hsum hRest0 ⊢
    omega
  have hinit : ∀ I, (((doPartitioning.initialState NumParts).part I).Elems.map FnCosts.at).sum
      = 0 := by
    intro I
    rw [doPartitioning.initialState_part]
    rfl
  obtain ⟨b1, b2⟩ := doPartitioning.foldl_balanced Opts FnCosts NumParts hN
    (LargeKernelThreshold Opts ModuleCost NumParts) hpos Pre
    (fun K hKP => hfacts K (by rw [hPre]; exact List.mem_append_left Rest hKP))
    (doPartitioning.initialState NumParts)
    (doPartitioning.initialState_wellFormed FnCosts NumParts) 0 0
    (fun I => le_of_eq (hinit I)) hsumPre
    (fun I J _ _ => by rw [hinit I, hinit J]; exact le_refl _)
  have hexact : ∀ I, partitionCost FnCosts
      ((doPartitioning.assignKernels Opts NumParts ModuleCost FnCosts Pre).part I)
      = (((doPartitioning.assignKernels Opts NumParts ModuleCost FnCosts Pre).part I).Elems.map
          FnCosts.at).sum := by
    intro I
    apply partitionCost_eq_list_sum FnCosts _ hpos
    have := b1 I
    unfold doPartitioning.assignKernels
    simp only [CostType] at this hsumPre ⊢
    omega
  have hbal : ∀ I J, I < NumParts → J < NumParts →
      partitionCost FnCosts
          ((doPartitioning.assignKernels Opts NumParts ModuleCost FnCosts Pre).part I)
        - partitionCost FnCosts
          ((doPartitioning.assignKernels Opts NumParts ModuleCost FnCosts Pre).part J)
        ≤ largestKernelCost Pre := by
    intro I J hI hJ
    rw [hexact I, hexact J]
    exact b2 I J hI hJ
  refine ⟨hbal, ?_, ?_⟩
  · intro E1 E2 hE1 hE2
    have hW := doPartitioning.assignKernels_wellFormed Opts NumParts ModuleCost FnCosts Pre
    obtain ⟨_, hlt⟩ := PartitioningState.WellFormed.queue FnCosts NumParts _ hW hN
    rw [hW.2.2.1 E1 hE1, hW.2.2.1 E2 hE2]
    exact hbal E1.1 E2.1 (hlt E1 hE1) (hlt E2 hE2)
  · rw [hPre]
    exact largestKernelCost_append Pre Rest

/-- Witness of C31: the kernels `K`, `K2` and `L1` of costs 5, 3 and 2, without calls, and
two partitions: after `K` and `K2` partition 1 costs 5 and partition 0 costs 3, and the
difference 2 is at most 5. -/
theorem C31_witness :
    partitionCost Example.unevenCosts
        ((doPartitioning.assignKernels SplitOptions.default 2 10 Example.unevenCosts
          [Example.tripleK, Example.tripleK2]).part 1) = 5
    ∧ partitionCost Example.unevenCosts
        ((doPartitioning.assignKernels SplitOptions.default 2 10 Example.unevenCosts
          [Example.tripleK, Example.tripleK2]).part 0) = 3
    ∧ largestKernelCost [Example.tripleK, Example.tripleK2] = 5
    ∧ partitionCost Example.unevenCosts
          ((doPartitioning.assignKernels SplitOptions.default 2 10 Example.unevenCosts
            [Example.tripleK, Example.tripleK2]).part 1)
        - partitionCost Example.unevenCosts
          ((doPartitioning.assignKernels SplitOptions.default 2 10 Example.unevenCosts
            [Example.tripleK, Example.tripleK2]).part 0)
        ≤ largestKernelCost [Example.tripleK, Example.tripleK2] :=
  ⟨by decide!, by decide!, by decide,
    (C31_load_balance SplitOptions.default 2 (by decide) 10 Example.unevenCosts
      [Example.tripleK, Example.tripleK2, Example.tripleL1]
      (fun K hK => by
        simp only [List.mem_cons, List.mem_singleton, List.not_mem_nil, or_false] at hK
        rcases hK with e | e | e
        · rw [e]; exact ⟨rfl, rfl, Example.tripleGraph, Example.tripleModule, by decide⟩
        · rw [e]; exact ⟨rfl, rfl, Example.tripleGraph, Example.tripleModule, by decide⟩
        · rw [e]; exact ⟨rfl, rfl, Example.tripleGraph, Example.tripleModule, by decide⟩)
      (fun F => by
        unfold CostMap.at Example.unevenCosts
        split_ifs <;> decide)
      (by decide)
      [Example.tripleK, Example.tripleK2] [Example.tripleL1] rfl).1 1 0 (by decide) (by decide)⟩

/-- C32 fails as stated: in the module of the kernel `K` and the function `G`, ten
instructions of cost 1 each, where `K` calls itself and `G`, the dependency set of `K` is
`{G, K}` and the total cost of `K` is 30, while the sum of the costs of the distinct
functions in `{K} ∪ {G, K}` is 20, the cost that the queue records for a previously empty
partition after `K` alone is assigned to it is 20, and the module cost is 20. -/
theorem C32_counterexample :
    (calculateFunctionCosts Example.tenInstructions Example.cycleModule).2 = 20
    ∧ KernelWithDependencies.construct Example.cycleGraph Example.cycleModule
        (calculateFunctionCosts Example.tenInstructions Example.cycleModule).1 Example.K
        = some Example.cycleKernel
    ∧ Example.K ∈ Example.cycleKernel.Dependencies
    ∧ Example.cycleKernel.TotalCost = 30
    ∧ (Example.K :: Example.cycleKernel.Dependencies.Elems).toFinset.sum
        (calculateFunctionCosts Example.tenInstructions Example.cycleModule).1.at = 20
    ∧ (AssignToPartition
        (calculateFunctionCosts Example.tenInstructions Example.cycleModule).1 0
        Example.cycleKernel (doPartitioning.initialState 1)).BalancingQueue = [(0, 20)]
    ∧ ¬ Example.cycleKernel.TotalCost
        ≤ (calculateFunctionCosts Example.tenInstructions Example.cycleModule).2 := by
  refine ⟨by decide!, by decide!, by decide, rfl, by decide!, by decide!, by decide!⟩

/-- C32, amended: for a kernel record `K` that the constructor builds for the function `Fn`
from costs that are `int64_t` values: the balancing queue records, for a previously empty
partition to which `K` alone is assigned, the 64-bit sum of the costs of the members of the
partition, which are `Fn` and the dependencies of `K`, each once; when `Fn` is not a member
of its own dependency set `TotalCost` is that recorded cost; when it is a member,
`TotalCost` is the 64-bit sum of the cost of `Fn` and of the recorded cost, so that `Fn` is
counted twice; when no cost is negative and the sum of the costs of the distinct functions
in `{Fn} ∪ Dependencies` fits `int64_t`, the recorded cost is that sum; and when the costs
and the module cost are those that `calculateFunctionCosts` computes for the module, no
function has a negative cost, the sum of the costs of the functions with a body fits
`int64_t`, the call graph points to functions of the module and `Fn` is a function of the
module with a body that is not in its own dependency set, `TotalCost` does not exceed the
module cost. -/
theorem C32_totalCost_of_kernel_and_dependencies (CG : CallGraph) (M : Module)
    (FnCosts : CostMap) (Fn : Function) (K : KernelWithDependencies)
    (h : KernelWithDependencies.construct CG M FnCosts Fn = some K)
    (hrange : ∀ F, CostTypeMin ≤ FnCosts.at F ∧ FnCosts.at F ≤ CostTypeMax) :
    (∀ N PID, PID < N →
      (PID, partitionCost FnCosts (K.addTo DenseSet.empty))
        ∈ (AssignToPartition FnCosts PID K (doPartitioning.initialState N)).BalancingQueue)
    ∧ (¬ Fn ∈ K.Dependencies →
        K.TotalCost = partitionCost FnCosts (K.addTo DenseSet.empty))
    ∧ (Fn ∈ K.Dependencies →
        K.TotalCost
          = CostType.add (FnCosts.at Fn) (partitionCost FnCosts (K.addTo DenseSet.empty)))
    ∧ ((∀ F, 0 ≤ FnCosts.at F) →
        (Fn :: K.Dependencies.Elems).toFinset.sum FnCosts.at < 2 ^ 63 →
        partitionCost FnCosts (K.addTo DenseSet.empty)
          = (Fn :: K.Dependencies.Elems).toFinset.sum FnCosts.at)
    ∧ (∀ TTI : Function → List (Option CostType),
        FnCosts = (calculateFunctionCosts TTI M).1 →
        (∀ F, F ∈ M.Functions → F.isDeclaration = false →
          (0 : Int) ≤ calculateFunctionCosts.fnCost (TTI F)) →
        ((M.Functions.filter (fun F => !F.isDeclaration)).map
          (fun F => calculateFunctionCosts.fnCost (TTI F))).sum < (2 : Int) ^ 63 →
        (∀ G, G ∈ CG.targets → G ∈ M.Functions) →
        Fn ∈ M.Functions → Fn.isDeclaration = false → ¬ Fn ∈ K.Dependencies →
        K.TotalCost ≤ (calculateFunctionCosts TTI M).2) := by
  obtain ⟨hFn, hA, _⟩ := KernelWithDependencies.construct_eq_some CG M FnCosts Fn K h
  have hT := KernelWithDependencies.construct_totalCost CG M FnCosts Fn K h
  have hout : ¬ Fn ∈ K.Dependencies →
      K.TotalCost = partitionCost FnCosts (K.addTo DenseSet.empty) := by
    intro hno
    have hp := K.addTo_empty_perm.1 (by rw [hFn]; exact hno)
    unfold partitionCost
    rw [CostType.foldl_add_perm FnCosts _ _ 0 hp, hFn, List.foldl_cons,
      CostType.add_zero_left _ (hrange Fn)]
    exact hT
  have hmemElems : ∀ G, G ∈ (K.addTo DenseSet.empty).Elems ↔ G = Fn ∨ G ∈ K.Dependencies := by
    intro G
    have := K.mem_addTo DenseSet.empty G
    rw [DenseSet.mem_def, hFn] at this
    rw [this]
    constructor
    · rintro (e | e | e)
      · exact Or.inl e
      · exact absurd e (DenseSet.not_mem_empty G)
      · exact Or.inr e
    · rintro (e | e)
      · exact Or.inl e
      · exact Or.inr (Or.inr e)
  refine ⟨?_, hout, ?_, ?_, ?_⟩
  · intro N PID hPID
    have hW := AssignToPartition_wellFormed FnCosts N PID K (doPartitioning.initialState N)
      (doPartitioning.initialState_wellFormed FnCosts N)
    obtain ⟨_, h2, h3, _⟩ := hW
    have hm : PID ∈ (AssignToPartition FnCosts PID K
        (doPartitioning.initialState N)).BalancingQueue.map Prod.fst :=
      h2.mem_iff.2 (List.mem_range.2 hPID)
    obtain ⟨E, hE, hE1⟩ := List.mem_map.1 hm
    have hE2 := h3 E hE
    rw [hE1, AssignToPartition_part, if_pos ⟨rfl, by
      unfold doPartitioning.initialState
      simpa using hPID⟩, doPartitioning.initialState_part] at hE2
    have : E = (PID, partitionCost FnCosts (K.addTo DenseSet.empty)) := by
      rw [← hE1, ← hE2]
    rw [← this]
    exact hE
  · intro hin
    have hp := K.addTo_empty_perm.2 (by rw [hFn]; exact hin)
    unfold partitionCost
    rw [CostType.foldl_add_perm FnCosts _ _ 0 hp, hT]
    exact CostType.foldl_add_start FnCosts _ _ (hrange Fn)
  · intro hpos hhi
    have hfs : (K.addTo DenseSet.empty).Elems.toFinset = (Fn :: K.Dependencies.Elems).toFinset := by
      ext G
      rw [List.mem_toFinset, List.mem_toFinset, hmemElems, List.mem_cons]
      rfl
    rw [← hfs] at hhi ⊢
    exact partitionCost_eq_sum FnCosts _ (fun F _ => hpos F) hhi
  · intro TTI hF hpos hhi hCG hFnM hFnb hno
    subst hF
    have hat : ∀ F, (0 : Int) ≤ (calculateFunctionCosts TTI M).1.at F := by
      intro F
      by_cases hc : F ∈ M.Functions ∧ F.isDeclaration = false
      · rw [calculateFunctionCosts_at TTI M F hc.1 hc.2]
        exact hpos F hc.1 hc.2
      · unfold CostMap.at
        rw [calculateFunctionCosts_map, if_neg hc]
        exact le_refl _
    have hmod := calculateFunctionCosts_moduleCost_exact TTI M hpos hhi
    have hsumeq : ((M.Functions.filter (fun Fn => !Fn.isDeclaration)).map
        (fun Fn => (calculateFunctionCosts TTI M).1.at Fn)).sum
        = ((M.Functions.filter (fun F => !F.isDeclaration)).map
          (fun F => calculateFunctionCosts.fnCost (TTI F))).sum := by
      congr 1
      apply List.map_congr_left
      intro F hF
      rw [List.mem_filter] at hF
      exact calculateFunctionCosts_at TTI M F hF.1 (by simpa using hF.2)
    have hle : ((K.addTo DenseSet.empty).Elems.map (calculateFunctionCosts TTI M).1.at).sum
        ≤ ((M.Functions.filter (fun Fn => !Fn.isDeclaration)).map
            (fun Fn => (calculateFunctionCosts TTI M).1.at Fn)).sum := by
      apply List.sum_map_le_of_nodup_subset _ _ _ (K.addTo DenseSet.empty).Nodup
      · intro G hG
        rw [List.mem_filter]
        rcases (hmemElems G).1 hG with e | e
        · rw [e]
          exact ⟨hFnM, by simpa using hFnb⟩
        · have hb := (addAllDependencies_spec CG M Fn _ hA).2.2 G e
          refine ⟨?_, by simpa using hb⟩
          rcases addAllDependencies_mem_source CG M Fn _ hA G e with h5 | h5
          · exact hCG G h5
          · exact h5
      · intro a _
        exact hat a
    rw [hout hno, hmod]
    unfold partitionCost
    rw [partitionCost_foldl _ _ 0 (le_refl 0) (fun F _ => hat F) (by
      rw [hsumeq] at hle
      simp only [CostType] at hle hhi ⊢
      omega), zero_add]
    exact hle

/-- Witness of C32: the kernel `K` that calls `G`, every function of cost 10: the total cost
20 is the cost of the partition that holds `K` and `G`. -/
theorem C32_witness :
    KernelWithDependencies.construct Example.globalsGraph Example.globalsModule Example.costs
        Example.K = some Example.callerKernel
    ∧ ¬ Example.K ∈ Example.callerKernel.Dependencies
    ∧ Example.callerKernel.TotalCost
        = partitionCost Example.costs (Example.callerKernel.addTo DenseSet.empty)
    ∧ Example.callerKernel.TotalCost = 20 :=
  ⟨by decide, by decide,
    (C32_totalCost_of_kernel_and_dependencies Example.globalsGraph Example.globalsModule
      Example.costs Example.K Example.callerKernel (by decide)
      (fun _ => by
        show CostTypeMin ≤ (10 : Int) ∧ (10 : Int) ≤ CostTypeMax
        decide)).2.1 (by decide), rfl⟩

/-- C33 fails as stated: with the default options, 3 partitions and the module cost 126,
after the kernel `L1` went to partition 2, the kernel `L2` is large, has no indirect call and
no non-duplicable dependency, and its overlap with partition 2 is exactly the value of the
merge option (8 common functions out of 10, the single precision 4/5); the kernel is not
merged into partition 2: after its step it is in partition 1, where the default rule put
it, and not in partition 2. -/
theorem C33_counterexample :
    SplitOptions.default.LargeKernelOverlapForMerge = F32.round (4 / 5)
    ∧ Example.multiL2.HasIndirectCall = false
    ∧ Example.multiL2.HasNonDuplicatableDependecy = false
    ∧ Example.multiL2.isLarge (LargeKernelThreshold SplitOptions.default 126 3) = true
    ∧ Example.L1 ∈ (doPartitioning.assignKernels SplitOptions.default 3 126
        (calculateFunctionCosts Example.multiCosts Example.multiModule).1
        [Example.multiL1]).part 2
    ∧ calculateOverlap Example.multiL2.Dependencies
        ((doPartitioning.assignKernels SplitOptions.default 3 126
          (calculateFunctionCosts Example.multiCosts Example.multiModule).1
          [Example.multiL1]).part 2)
        = F32.div (F32.ofNat 8) (F32.ofNat 10)
    ∧ calculateOverlap Example.multiL2.Dependencies
        ((doPartitioning.assignKernels SplitOptions.default 3 126
          (calculateFunctionCosts Example.multiCosts Example.multiModule).1
          [Example.multiL1]).part 2)
        = SplitOptions.default.LargeKernelOverlapForMerge
    ∧ ¬ Example.L2 ∈ (doPartitioning.assignKernels SplitOptions.default 3 126
        (calculateFunctionCosts Example.multiCosts Example.multiModule).1
        [Example.multiL1, Example.multiL2]).part 2
    ∧ Example.L2 ∈ (doPartitioning.assignKernels SplitOptions.default 3 126
        (calculateFunctionCosts Example.multiCosts Example.multiModule).1
        [Example.multiL1, Example.multiL2]).part 1 := by
  refine ⟨rfl, rfl, rfl, ?_, ?_, ?_, ?_, ?_, ?_⟩
  · decide!
  · decide!
  · decide!
  · decide!
  · decide!
  · decide!

/-- C33, amended: the merge option is a bound that the overlap has to exceed.  For a large
kernel `K` without indirect call and without non-duplicable dependency, in every state and
for every partition `J`: when the overlap of the dependencies of `K` with partition `J`, as
it is before the step, is greater than the option, the step adds `K` and its dependencies to
partition `J`; when it is not greater (equal to the option included), partition `J` is left
as it was if some partition has an overlap above the option, and also if `J` is not the
partition at the back of the queue; and when no partition has an overlap above the option
the step is the assignment of the default rule. -/
theorem C33_merge_iff_overlap_exceeds_option (Opts : SplitOptions) (FnCosts : CostMap)
    (Threshold : CostType) (S : PartitioningState) (K : KernelWithDependencies)
    (h1 : K.HasIndirectCall = false) (h2 : K.HasNonDuplicatableDependecy = false)
    (hL : K.isLarge Threshold = true) (J : PartitionID) (hJ : J < S.Partitions.length) :
    (calculateOverlap K.Dependencies (S.part J) > Opts.LargeKernelOverlapForMerge →
      (doPartitioning.processKernel Opts FnCosts Threshold S K).part J = K.addTo (S.part J))
    ∧ (calculateOverlap K.Dependencies (S.part J) ≤ Opts.LargeKernelOverlapForMerge →
        (∃ I, I < S.Partitions.length ∧
          calculateOverlap K.Dependencies (S.part I) > Opts.LargeKernelOverlapForMerge) →
        (doPartitioning.processKernel Opts FnCosts Threshold S K).part J = S.part J)
    ∧ (calculateOverlap K.Dependencies (S.part J) ≤ Opts.LargeKernelOverlapForMerge →
        (S.BalancingQueue.getLastD (0, 0)).1 ≠ J →
        (doPartitioning.processKernel Opts FnCosts Threshold S K).part J = S.part J)
    ∧ ((∀ I, I < S.Partitions.length →
          calculateOverlap K.Dependencies (S.part I) ≤ Opts.LargeKernelOverlapForMerge) →
        doPartitioning.processKernel Opts FnCosts Threshold S K
          = AssignToPartition FnCosts (S.BalancingQueue.getLastD (0, 0)).1 K S) := by
  obtain ⟨i1, i2, _⟩ := doPartitioning.tryMerge_large Opts FnCosts Threshold S K hL
  have e := doPartitioning.processKernel_unflagged Opts FnCosts Threshold S K h1 h2
  have hdef : (¬ ∃ I, I < S.Partitions.length ∧
      calculateOverlap K.Dependencies (S.part I) > Opts.LargeKernelOverlapForMerge) →
      doPartitioning.processKernel Opts FnCosts Threshold S K
        = AssignToPartition FnCosts (S.BalancingQueue.getLastD (0, 0)).1 K S := by
    intro hno
    rw [e, if_neg (fun h => hno (i2.1 h))]
  have hmerge : (∃ I, I < S.Partitions.length ∧
      calculateOverlap K.Dependencies (S.part I) > Opts.LargeKernelOverlapForMerge) →
      (doPartitioning.processKernel Opts FnCosts Threshold S K).part J
        = if J < S.Partitions.length
            ∧ calculateOverlap K.Dependencies (S.part J) > Opts.LargeKernelOverlapForMerge
          then K.addTo (S.part J) else S.part J := by
    intro hex
    rw [e, if_pos (i2.2 hex)]
    exact i1 J
  refine ⟨?_, ?_, ?_, ?_⟩
  · intro hgt
    rw [hmerge ⟨J, hJ, hgt⟩, if_pos ⟨hJ, hgt⟩]
  · intro hle hex
    rw [hmerge hex, if_neg (fun h => absurd h.2 (not_lt.2 hle))]
  · intro hle hback
    by_cases hex : ∃ I, I < S.Partitions.length ∧
        calculateOverlap K.Dependencies (S.part I) > Opts.LargeKernelOverlapForMerge
    · rw [hmerge hex, if_neg (fun h => absurd h.2 (not_lt.2 hle))]
    · rw [hdef hex, AssignToPartition_part, if_neg (fun h => hback h.1)]
  · intro hall
    apply hdef
    rintro ⟨I, hI, hgt⟩
    exact absurd hgt (not_lt.2 (hall I hI))

/-- Witness of C33: the kernel `L2` of the example, whose overlap with partition 2 equals the
option, leaves partition 2 as it was. -/
theorem C33_witness :
    Example.multiL2.isLarge (LargeKernelThreshold SplitOptions.default 126 3) = true
    ∧ calculateOverlap Example.multiL2.Dependencies
        ((doPartitioning.assignKernels SplitOptions.default 3 126
          (calculateFunctionCosts Example.multiCosts Example.multiModule).1
          [Example.multiL1]).part 2)
        ≤ SplitOptions.default.LargeKernelOverlapForMerge
    ∧ (doPartitioning.processKernel SplitOptions.default
        (calculateFunctionCosts Example.multiCosts Example.multiModule).1
        (LargeKernelThreshold SplitOptions.default 126 3)
        (doPartitioning.assignKernels SplitOptions.default 3 126
          (calculateFunctionCosts Example.multiCosts Example.multiModule).1
          [Example.multiL1])
        Example.multiL2).part 2
      = (doPartitioning.assignKernels SplitOptions.default 3 126
          (calculateFunctionCosts Example.multiCosts Example.multiModule).1
          [Example.multiL1]).part 2 := by
  have hL : Example.multiL2.isLarge (LargeKernelThreshold SplitOptions.default 126 3) = true := by
    decide!
  have hle : calculateOverlap Example.multiL2.Dependencies
      ((doPartitioning.assignKernels SplitOptions.default 3 126
        (calculateFunctionCosts Example.multiCosts Example.multiModule).1
        [Example.multiL1]).part 2)
      ≤ SplitOptions.default.LargeKernelOverlapForMerge := by
    decide!
  exact ⟨hL, hle,
    (C33_merge_iff_overlap_exceeds_option SplitOptions.default
      (calculateFunctionCosts Example.multiCosts Example.multiModule).1
      (LargeKernelThreshold SplitOptions.default 126 3)
      (doPartitioning.assignKernels SplitOptions.default 3 126
        (calculateFunctionCosts Example.multiCosts Example.multiModule).1
        [Example.multiL1])
      Example.multiL2 rfl rfl hL 2 (by decide!)).2.2.1 hle (by decide!)⟩


/-- C34: for a kernel record `K` that the constructor builds for the function `Fn`, the flag
`HasNonDuplicatableDependecy` is set if and only if some member of the dependency set of `K`
has external linkage or a definition that is not exact.  The function `Fn` itself counts
only as a member of its own dependency set: when it is not a member, the flag is set if and
only if a member other than `Fn` has such a linkage or definition; and two constructed
records, whatever their kernels, with the same members in their dependency sets have the
same flag. -/
theorem C34_flag_iff_nonduplicatable_dependency (CG : CallGraph) (M : Module)
    (FnCosts : CostMap) (Fn : Function) (K : KernelWithDependencies)
    (h : KernelWithDependencies.construct CG M FnCosts Fn = some K) :
    (K.HasNonDuplicatableDependecy = true ↔
      ∃ D, D ∈ K.Dependencies ∧ (D.hasExternalLinkage = true ∨ D.isDefinitionExact = false))
    ∧ (¬ Fn ∈ K.Dependencies →
        (K.HasNonDuplicatableDependecy = true ↔
          ∃ D, D ∈ K.Dependencies ∧ D ≠ Fn
            ∧ (D.hasExternalLinkage = true ∨ D.isDefinitionExact = false)))
    ∧ (∀ (CG2 : CallGraph) (M2 : Module) (FnCosts2 : CostMap) (Fn2 : Function)
        (K2 : KernelWithDependencies),
        KernelWithDependencies.construct CG2 M2 FnCosts2 Fn2 = some K2 →
        (∀ D, D ∈ K2.Dependencies ↔ D ∈ K.Dependencies) →
        K2.HasNonDuplicatableDependecy = K.HasNonDuplicatableDependecy) := by
  obtain ⟨_, _, hiff⟩ := KernelWithDependencies.construct_eq_some CG M FnCosts Fn K h
  refine ⟨hiff, ?_, ?_⟩
  · intro hFn
    rw [hiff]
    constructor
    · rintro ⟨D, hD, hx⟩
      exact ⟨D, hD, fun e => hFn (e ▸ hD), hx⟩
    · rintro ⟨D, hD, _, hx⟩
      exact ⟨D, hD, hx⟩
  · intro CG2 M2 FnCosts2 Fn2 K2 h2 hsame
    obtain ⟨_, _, hiff2⟩ := KernelWithDependencies.construct_eq_some CG2 M2 FnCosts2 Fn2 K2 h2
    rw [Bool.eq_iff_iff, hiff, hiff2]
    constructor
    · rintro ⟨D, hD, hx⟩
      exact ⟨D, (hsame D).1 hD, hx⟩
    · rintro ⟨D, hD, hx⟩
      exact ⟨D, (hsame D).2 hD, hx⟩

/-- Witness of C34: the kernel `K` has external linkage and calls `G`, of internal linkage
and with an exact definition; `K` is not a member of its own dependency set, and the flag
of its record is not set. -/
theorem C34_witness :
    Example.K.hasExternalLinkage = true
    ∧ KernelWithDependencies.construct Example.globalsGraph Example.globalsModule Example.costs
        Example.K = some Example.callerKernel
    ∧ ¬ Example.K ∈ Example.callerKernel.Dependencies
    ∧ Example.callerKernel.HasNonDuplicatableDependecy = false
    ∧ (Example.callerKernel.HasNonDuplicatableDependecy = true ↔
        ∃ D, D ∈ Example.callerKernel.Dependencies ∧ D ≠ Example.K
          ∧ (D.hasExternalLinkage = true ∨ D.isDefinitionExact = false)) :=
  ⟨by decide, by decide, by decide, rfl,
    (C34_flag_iff_nonduplicatable_dependency Example.globalsGraph Example.globalsModule
      Example.costs Example.K Example.callerKernel (by decide)).2.1 (by decide)⟩

/-- C35 fails as stated: with the externalization of the global variables disabled, for the
module of the kernel `K` and the variables `p` and `q`, in this order, both with internal
linkage, `p` used by the initializer of `q` only and `q` without use, each of the two units
holds after its clean-up the variable `p`, which has local linkage and zero uses in the
unit: the loop examined `p` while `q` was still there and deleted `q` afterwards.  With the
variables in the order `q`, `p` the clean-up deletes both. -/
theorem C35_counterexample :
    Example.keepGlobals.NoExternalizeGlobals = true
    ∧ Example.varP.hasLocalLinkage = true
    ∧ Example.varQ.hasLocalLinkage = true
    ∧ Example.varP.Users = [GlobalUser.Initializer Example.varQ.Id]
    ∧ Example.varQ.Users = []
    ∧ Example.chainModule.Globals = [Example.varP, Example.varQ]
    ∧ (splitAMDGPUModule Example.keepGlobals Example.tenInstructions Example.singleGraph
        Example.chainModule 2).map
          (fun Units => Units.map (fun U => (U.Globals, Example.varP.use_empty U)))
        = some [([Example.varP], true), ([Example.varP], true)]
    ∧ (splitAMDGPUModule.cleanup Example.chainModule).Globals = [Example.varP]
    ∧ Example.varP.use_empty (splitAMDGPUModule.cleanup Example.chainModule) = true
    ∧ (splitAMDGPUModule Example.keepGlobals Example.tenInstructions Example.singleGraph
        Example.chainModuleUserFirst 2).map (fun Units => Units.map (fun U => U.Globals))
        = some [[], []] := by
  refine ⟨rfl, rfl, rfl, rfl, rfl, rfl, ?_, ?_, ?_, ?_⟩
  · decide!
  · decide
  · decide
  · decide!

/-- C35, amended: in a unit whose global variables are distinct objects, every global
variable with local linkage that is in the unit after the clean-up had a use in the unit as
it was when the loop came to it; and when no global variable of the unit is used by the
initializer of a variable with local linkage that comes later in the list of the global
variables of the unit, every global variable with local linkage that is in the unit after
the clean-up has a use in the unit after the clean-up, that is, none with zero uses
remains. -/
theorem C35_cleanup_fixpoint_when_users_come_first (MPart : Module)
    (hn : MPart.Globals.Nodup) (GV : GlobalVariable)
    (hGV : GV ∈ (splitAMDGPUModule.cleanup MPart).Globals)
    (hL : GV.hasLocalLinkage = true) :
    (∃ Pre Post, MPart.Globals = Pre ++ GV :: Post
      ∧ GV.use_empty (splitAMDGPUModule.cleanupUpTo MPart Pre) = false)
    ∧ (MPart.Globals.Pairwise (fun A B =>
          ¬ (B.hasLocalLinkage = true ∧ GlobalUser.Initializer B.Id ∈ A.Users)) →
        GV.use_empty (splitAMDGPUModule.cleanup MPart) = false) := by
  constructor
  · have hmem : GV ∈ MPart.Globals :=
      (splitAMDGPUModule.cleanup_foldl_spec MPart.Globals MPart).2.subset hGV
    exact splitAMDGPUModule.cleanup_foldl_kept MPart.Globals MPart hn GV hmem hGV hL
  · intro hord
    exact splitAMDGPUModule.cleanup_foldl_fixpoint MPart.Globals MPart hn hn (fun _ h => h) hord
      (fun A hA hnA _ => absurd hA hnA) GV hGV hL

/-- Witness of C35: in the unit that defines `K` and `G` and holds the variables `a`, `q`
and `p`, in this order, the user `q` of `p` comes before `p`; the clean-up deletes `q` and
`p` and keeps `a`, which has a use in the body of `G`. -/
theorem C35_witness :
    Example.orderedUnit.Globals.Nodup
    ∧ Example.orderedUnit.Globals.Pairwise (fun A B =>
        ¬ (B.hasLocalLinkage = true ∧ GlobalUser.Initializer B.Id ∈ A.Users))
    ∧ (splitAMDGPUModule.cleanup Example.orderedUnit).Globals = [Example.varA]
    ∧ Example.varA.hasLocalLinkage = true
    ∧ Example.varA.use_empty (splitAMDGPUModule.cleanup Example.orderedUnit) = false :=
  ⟨by decide, by decide, by decide, rfl,
    (C35_cleanup_fixpoint_when_users_come_first Example.orderedUnit (by decide) Example.varA
      (by decide) rfl).2 (by decide)⟩

end AMDGPUSplitModule
